import Mathlib

/-!
# jsonld-cpp: the Expansion algorithm of `JsonLdApi.cpp`, embedded in Lean

The development follows `src/jsonld-cpp/JsonLdApi.cpp`, `JsonLdUtils.cpp` and
`Context.cpp`.  JSON values are a tagged tree; a JSON object is the key-sorted
list of its entries, as `nlohmann::json` keeps objects in a `std::map`.
Exceptions are values of `Except JsonLdError`.  The mutual recursion of
`expand`, `expandArrayElement` and `expandObjectElement` is tied by a step
counter: `expand (n+1)` runs the body of `JsonLdApi::expand` with `expand n`
for every recursive call.
-/

namespace JsonLd

/-! ## JSON values (`nlohmann::json`, numbers restricted to integers) -/

inductive Json where
  | null
  | bool (b : Bool)
  | num (n : Int)
  | str (s : String)
  | arr (items : List Json)
  | obj (entries : List (String × Json))
  deriving Repr, Inhabited

mutual
/-- Structural equality of JSON values, `operator==` of `nlohmann::json`. -/
def Json.decEq : (a b : Json) → Decidable (a = b)
  | .null, .null => isTrue rfl
  | .bool a, .bool b =>
    if h : a = b then isTrue (by rw [h]) else isFalse (by intro e; cases e; exact h rfl)
  | .num a, .num b =>
    if h : a = b then isTrue (by rw [h]) else isFalse (by intro e; cases e; exact h rfl)
  | .str a, .str b =>
    if h : a = b then isTrue (by rw [h]) else isFalse (by intro e; cases e; exact h rfl)
  | .arr a, .arr b =>
    match Json.decEqList a b with
    | isTrue h => isTrue (by rw [h])
    | isFalse h => isFalse (by intro e; cases e; exact h rfl)
  | .obj a, .obj b =>
    match Json.decEqEntries a b with
    | isTrue h => isTrue (by rw [h])
    | isFalse h => isFalse (by intro e; cases e; exact h rfl)
  | .null, .bool _ | .null, .num _ | .null, .str _ | .null, .arr _ | .null, .obj _
  | .bool _, .null | .bool _, .num _ | .bool _, .str _ | .bool _, .arr _ | .bool _, .obj _
  | .num _, .null | .num _, .bool _ | .num _, .str _ | .num _, .arr _ | .num _, .obj _
  | .str _, .null | .str _, .bool _ | .str _, .num _ | .str _, .arr _ | .str _, .obj _
  | .arr _, .null | .arr _, .bool _ | .arr _, .num _ | .arr _, .str _ | .arr _, .obj _
  | .obj _, .null | .obj _, .bool _ | .obj _, .num _ | .obj _, .str _ | .obj _, .arr _ =>
    isFalse (by intro e; cases e)
/-- Equality of item lists. -/
def Json.decEqList : (a b : List Json) → Decidable (a = b)
  | [], [] => isTrue rfl
  | [], _ :: _ => isFalse (by intro e; cases e)
  | _ :: _, [] => isFalse (by intro e; cases e)
  | x :: xs, y :: ys =>
    match Json.decEq x y, Json.decEqList xs ys with
    | isTrue h1, isTrue h2 => isTrue (by rw [h1, h2])
    | isFalse h1, _ => isFalse (by intro e; cases e; exact h1 rfl)
    | _, isFalse h2 => isFalse (by intro e; cases e; exact h2 rfl)
/-- Equality of entry lists. -/
def Json.decEqEntries : (a b : List (String × Json)) → Decidable (a = b)
  | [], [] => isTrue rfl
  | [], _ :: _ => isFalse (by intro e; cases e)
  | _ :: _, [] => isFalse (by intro e; cases e)
  | (k, x) :: xs, (l, y) :: ys =>
    if hk : k = l then
      match Json.decEq x y, Json.decEqEntries xs ys with
      | isTrue h1, isTrue h2 => isTrue (by rw [hk, h1, h2])
      | isFalse h1, _ => isFalse (by intro e; cases e; exact h1 rfl)
      | _, isFalse h2 => isFalse (by intro e; cases e; exact h2 rfl)
    else isFalse (by intro e; cases e; exact hk rfl)
end

instance : DecidableEq Json := Json.decEq

/-- Error codes of `JsonLdError`, together with the ways the embedding can
stop that are not a `JsonLdError`: an exception of the JSON library
(`TypeError`: `operator[]`, `get<T>()`, `at` on a value of the wrong kind),
the use of a null pointer, where the C++ program has no defined behaviour
(`NullPointer`), and an exhausted step counter (`OutOfFuel`). -/
inductive JsonLdError where
  | InvalidReversePropertyMap
  | CollidingKeywords
  | InvalidIdValue
  | InvalidTypeValue
  | InvalidIncludedValue
  | InvalidValueObjectValue
  | InvalidLanguageTaggedString
  | InvalidBaseDirection
  | InvalidIndexValue
  | InvalidReverseValue
  | InvalidReversePropertyValue
  | InvalidNestValue
  | NotImplemented
  | InvalidLanguageMapValue
  | InvalidValueObject
  | InvalidLanguageTaggedValue
  | InvalidTypedValue
  | InvalidSetOrListObject
  | ConflictingIndexes
  | LoadingDocumentFailed
  | ContextError (code : String)
  | TypeError
  | NullPointer
  | OutOfFuel
  deriving DecidableEq, Repr

instance instDecidableEqExcept {ε α : Type} [DecidableEq ε] [DecidableEq α] :
    DecidableEq (Except ε α)
  | .ok a, .ok b => if h : a = b then isTrue (by rw [h]) else isFalse (by intro e; cases e; exact h rfl)
  | .error a, .error b =>
    if h : a = b then isTrue (by rw [h]) else isFalse (by intro e; cases e; exact h rfl)
  | .ok _, .error _ => isFalse (by intro e; cases e)
  | .error _, .ok _ => isFalse (by intro e; cases e)

/-! ## Keys and the sorted-map operations of a JSON object -/

/-- Lexicographic comparison of character sequences by code point, the order
`std::string::operator<` gives on UTF-8 text. -/
def charsLt : List Char → List Char → Bool
  | [], [] => false
  | [], _ :: _ => true
  | _ :: _, [] => false
  | a :: as, b :: bs =>
    if a.toNat < b.toNat then true
    else if b.toNat < a.toNat then false
    else charsLt as bs

/-- Key order of `std::map<std::string, json>` and of `std::sort` on keys. -/
def keyLt (a b : String) : Bool := charsLt a.data b.data

/-- Insert a string into a sorted list of strings. -/
def insertKey (k : String) : List String → List String
  | [] => [k]
  | x :: xs => if keyLt x k then x :: insertKey k xs else k :: x :: xs

/-- `std::sort` on a vector of strings. -/
def sortKeys (ks : List String) : List String := ks.foldr insertKey []

/-- Value stored under a key (`find`). -/
def lookupEntry (k : String) : List (String × Json) → Option Json
  | [] => none
  | (k', v) :: rest => if k' = k then some v else lookupEntry k rest

/-- Whether a key is present. -/
def hasKey (k : String) (kvs : List (String × Json)) : Bool :=
  (lookupEntry k kvs).isSome

/-- Assignment `m[k] = v` on the sorted entries of a `std::map`. -/
def insertEntry (k : String) (v : Json) : List (String × Json) → List (String × Json)
  | [] => [(k, v)]
  | (k', v') :: rest =>
    if k' = k then (k, v) :: rest
    else if keyLt k k' then (k, v) :: (k', v') :: rest
    else (k', v') :: insertEntry k v rest

/-- Removal `m.erase(k)`. -/
def eraseEntry (k : String) : List (String × Json) → List (String × Json)
  | [] => []
  | (k', v') :: rest => if k' = k then eraseEntry k rest else (k', v') :: eraseEntry k rest

namespace Json

def is_null : Json → Bool
  | .null => true
  | _ => false

def is_string : Json → Bool
  | .str _ => true
  | _ => false

def is_array : Json → Bool
  | .arr _ => true
  | _ => false

def is_object : Json → Bool
  | .obj _ => true
  | _ => false

/-- Method `contains(key)`: true only for an object holding the key. -/
def contains (j : Json) (k : String) : Bool :=
  match j with
  | .obj kvs => hasKey k kvs
  | _ => false

/-- Read access `j[key]` for a key known to the caller; a missing key reads as
null (what the non-const `operator[]` inserts). -/
def get (j : Json) (k : String) : Json :=
  match j with
  | .obj kvs => (lookupEntry k kvs).getD .null
  | _ => .null

/-- Checked access `j.at(key)`: an exception when the key is missing. -/
def atKey (j : Json) (k : String) : Except JsonLdError Json :=
  match j with
  | .obj kvs =>
    match lookupEntry k kvs with
    | some v => .ok v
    | none => .error .TypeError
  | _ => .error .TypeError

/-- Assignment `j[key] = v`: null becomes an object, an object takes the
entry, any other kind raises the library's type error. -/
def set (j : Json) (k : String) (v : Json) : Except JsonLdError Json :=
  match j with
  | .null => .ok (.obj [(k, v)])
  | .obj kvs => .ok (.obj (insertEntry k v kvs))
  | _ => .error .TypeError

/-- Method `erase(key)` on an object. -/
def erase (j : Json) (k : String) : Json :=
  match j with
  | .obj kvs => .obj (eraseEntry k kvs)
  | j => j

/-- Method `size()`: 0 for null, the number of items or entries for
containers, 1 for every other value. -/
def size : Json → Nat
  | .null => 0
  | .arr xs => xs.length
  | .obj kvs => kvs.length
  | _ => 1

/-- Method `empty()`. -/
def empty (j : Json) : Bool := j.size == 0

/-- Values visited by a range-for over a JSON value: the items of an array,
the values of an object, nothing for null, the value itself otherwise. -/
def elems : Json → List Json
  | .null => []
  | .arr xs => xs
  | .obj kvs => kvs.map Prod.snd
  | j => [j]

/-- Keys visited by iterating an object (in map order). -/
def keys : Json → List String
  | .obj kvs => kvs.map Prod.fst
  | _ => []

/-- Conversion `get<std::string>()`. -/
def getString : Json → Except JsonLdError String
  | .str s => .ok s
  | _ => .error .TypeError

/-- Conversion `get<bool>()`. -/
def getBool : Json → Except JsonLdError Bool
  | .bool b => .ok b
  | _ => .error .TypeError

/-- The idiom `if(!v.is_array()) v = json::array({v})`. -/
def asArray : Json → List Json
  | .arr xs => xs
  | j => [j]

end Json

/-! ## `JsonLdConsts` and `JsonLdUtils` -/

namespace JsonLdConsts

def CONTAINER : String := "@container"
def CONTEXT : String := "@context"
def DEFAULT : String := "@default"
def DIRECTION : String := "@direction"
def EMBED : String := "@embed"
def EXPLICIT : String := "@explicit"
def GRAPH : String := "@graph"
def ID : String := "@id"
def INCLUDED : String := "@included"
def INDEX : String := "@index"
def JSON : String := "@json"
def LANGUAGE : String := "@language"
def LIST : String := "@list"
def NEST : String := "@nest"
def NONE : String := "@none"
def OMIT_DEFAULT : String := "@omitDefault"
def REQUIRE_ALL : String := "@requireAll"
def REVERSE : String := "@reverse"
def SET : String := "@set"
def TYPE : String := "@type"
def VALUE : String := "@value"

end JsonLdConsts

namespace JsonLdOptions

def JSON_LD_1_0 : String := "json-ld-1.0"
def JSON_LD_1_1 : String := "json-ld-1.1"

end JsonLdOptions

namespace JsonLdUtils

/-- The keyword test of `JsonLdUtils::isKeyword`. -/
def isKeyword (property : String) : Bool :=
  property == "@base" ||
  property == "@container" ||
  property == "@context" ||
  property == "@direction" ||
  property == "@graph" ||
  property == "@id" ||
  property == "@import" ||
  property == "@included" ||
  property == "@index" ||
  property == "@json" ||
  property == "@language" ||
  property == "@list" ||
  property == "@nest" ||
  property == "@none" ||
  property == "@prefix" ||
  property == "@propagate" ||
  property == "@protected" ||
  property == "@reverse" ||
  property == "@set" ||
  property == "@type" ||
  property == "@value" ||
  property == "@version" ||
  property == "@vocab" ||
  property == "@preserve" ||
  property == "@default" ||
  property == "@embed" ||
  property == "@always" ||
  property == "@once" ||
  property == "@never" ||
  property == "@explicit" ||
  property == "@null" ||
  property == "@omitDefault" ||
  property == "@requireAll" ||
  property == "@any"

/-- The regular expression `@[A-Za-z]+` of `JsonLdUtils::isKeywordForm`,
matched against the whole string. -/
def isKeywordForm (property : String) : Bool :=
  match property.data with
  | [] => false
  | c :: rest => c == '@' && !rest.isEmpty && rest.all Char.isAlpha

def isObject (j : Json) : Bool := j.is_object

def isArray (j : Json) : Bool := j.is_array

def isListObject (j : Json) : Bool :=
  isObject j && j.contains JsonLdConsts.LIST &&
    (j.size == 1 || (j.size == 2 && j.contains JsonLdConsts.INDEX))

def isGraphObject (j : Json) : Bool :=
  if isObject j && j.contains JsonLdConsts.GRAPH then
    j.keys.all (fun k =>
      k == JsonLdConsts.GRAPH || k == JsonLdConsts.ID || k == JsonLdConsts.INDEX)
  else false

def isValueObject (j : Json) : Bool := isObject j && j.contains JsonLdConsts.VALUE

def isEmptyObject (j : Json) : Bool := j.is_object && j.empty

def isEmptyArray (j : Json) : Bool := j.is_array && j.empty

def isArrayOfStrings (j : Json) : Bool :=
  match j with
  | .arr xs => xs.all Json.is_string
  | _ => false

def isScalar (j : Json) : Bool := !j.is_null && !j.is_array && !j.is_object

def isArrayOfScalars (j : Json) : Bool :=
  match j with
  | .arr xs => xs.all isScalar
  | _ => false

/-- The test `containsOrEquals(j, value)`: equality for a string, membership
for an array, key presence for an object. -/
def containsOrEquals (j : Json) (value : String) : Bool :=
  match j with
  | .str s => s == value
  | .arr xs => xs.any (fun x => x == Json.str value)
  | .obj kvs => kvs.any (fun kv => kv.1 == value)
  | _ => false

/-- Step 1 of `addValue`: with `asArray`, make `object[key]` an array holding
any original value. -/
def addValuePrep (object : Json) (key : String) (asArray : Bool) : Except JsonLdError Json :=
  if asArray then
    if !object.contains key then object.set key (.arr [])
    else
      let origValue := object.get key
      if !isArray origValue then object.set key (.arr [origValue]) else .ok object
  else .ok object

/-- Step 3 of `addValue`, for a value that is not an array. -/
def addValueOne (object : Json) (key : String) (value : Json) : Except JsonLdError Json :=
  if !object.contains key then object.set key value
  else
    let origValue := object.get key
    if !isArray origValue then object.set key (.arr [origValue, value])
    else object.set key (.arr (origValue.asArray ++ [value]))

mutual
/-- The procedure `JsonLdUtils::addValue(object, key, value, asArray)`; the updated
object is returned. -/
def addValue (object : Json) (key : String) : Json → Bool → Except JsonLdError Json
  | .arr vs, asArray =>
    match addValuePrep object key asArray with
    | .ok o => addValueList o key vs asArray
    | .error e => .error e
  | .null, asArray => (addValuePrep object key asArray).bind (fun o => addValueOne o key .null)
  | .bool b, asArray => (addValuePrep object key asArray).bind (fun o => addValueOne o key (.bool b))
  | .num n, asArray => (addValuePrep object key asArray).bind (fun o => addValueOne o key (.num n))
  | .str s, asArray => (addValuePrep object key asArray).bind (fun o => addValueOne o key (.str s))
  | .obj kvs, asArray =>
    (addValuePrep object key asArray).bind (fun o => addValueOne o key (.obj kvs))
/-- Step 2 of `addValue`: the loop over the items of an array value. -/
def addValueList (object : Json) (key : String) : List Json → Bool → Except JsonLdError Json
  | [], _ => .ok object
  | v :: vs, asArray =>
    match addValue object key v asArray with
    | .ok o => addValueList o key vs asArray
    | .error e => .error e
end

end JsonLdUtils

/-- The helper `JsonLdApi::arrayContains`. -/
def arrayContains (array : Json) (value : String) : Bool :=
  match array with
  | .arr xs => xs.any (fun x => x == Json.str value)
  | _ => false


/-! ## `Context` (the members defined in `Context.cpp`) -/

/-- The data of a `Context`: term definitions (a JSON object), the optional
previous context, the default base direction, the processing mode of its
options, base IRI, vocabulary mapping and default language. -/
inductive Context where
  | mk (termDefinitions : Json) (previousContext : Option Context)
      (defaultBaseDirection : String) (processingMode : String)
      (baseIRI : String) (vocabularyMapping : String) (defaultLanguage : String)

namespace Context

def termDefinitions : Context → Json
  | .mk td _ _ _ _ _ _ => td

def getPreviousContext : Context → Option Context
  | .mk _ p _ _ _ _ _ => p

def getDefaultBaseDirection : Context → String
  | .mk _ _ d _ _ _ _ => d

def processingMode : Context → String
  | .mk _ _ _ m _ _ _ => m

def getBaseIri : Context → String
  | .mk _ _ _ _ b _ _ => b

def getVocabularyMapping : Context → String
  | .mk _ _ _ _ _ v _ => v

def getDefaultLanguage : Context → String
  | .mk _ _ _ _ _ _ l => l

/-- The constructor `Context::Context(options)`: no term definitions, no
previous context, default base direction "null". -/
def fresh (base : String) (mode : String) : Context :=
  .mk (.obj []) none "null" mode base "" ""

/-- The lookup `Context::getTermDefinition`: the stored definition, or an empty
object for an unknown term. -/
def getTermDefinition (c : Context) (key : String) : Json :=
  if c.termDefinitions.contains key then c.termDefinitions.get key else .obj []

/-- The test `Context::isReverseProperty`; the conversion of the stored
`@reverse` entry to `bool` raises the library's type error on a non-boolean. -/
def isReverseProperty (c : Context) (property : String) : Except JsonLdError Bool :=
  if !c.termDefinitions.contains property then .ok false
  else
    let td := c.termDefinitions.get property
    if td.is_null then .ok false
    else if td.contains JsonLdConsts.REVERSE then (td.get JsonLdConsts.REVERSE).getBool
    else .ok false

def isProcessingMode (c : Context) (mode : String) : Bool := c.processingMode == mode

end Context

/-- The members of the repository that `JsonLdApi.cpp` calls and whose bodies
are not part of the sources at hand: IRI expansion, value expansion and
context processing of `Context`, the IRI tests of `Uri`, the object tests of
`ObjUtils`, and the two `JsonLdConsts` keys under which a term definition
stores its local context and base URL.  The expansion algorithm is
parameterised by them. -/
structure ContextOps where
  expandIri : Context → String → Bool → Bool → String
  expandValue : Context → String → Json → Json
  parse : Context → Json → String → List String → Bool → Bool → Bool →
    Except JsonLdError Context
  isAbsoluteIri : String → Bool
  isIri : String → Bool
  isNodeObject : Json → Bool
  isDefaultObject : Json → Bool
  LOCALCONTEXT : String
  BASEURL : String

/-- Arguments of `JsonLdApi::expand` after the context operations: active
context, active property (none for `nullptr`), element, base URL, and the
flags `frameExpansion`, `ordered`, `fromMap`. -/
abbrev Expander :=
  Context → Option String → Json → String → Bool → Bool → Bool → Except JsonLdError Json

/-- Entries visited by `items()`: the entries of an object; for an array the
items keyed by their position; for any other non-null value the value under
the empty key. -/
def Json.itemsOf : Json → List (String × Json)
  | .null => []
  | .obj kvs => kvs
  | .arr xs => (List.range xs.length).zip xs |>.map (fun p => (toString p.1, p.2))
  | j => [("", j)]

/-- The strings among a list of JSON values, in order. -/
def stringsOf (xs : List Json) : List String :=
  xs.filterMap (fun x => match x with
    | .str s => some s
    | _ => none)

/-- The transformation `std::transform(..., ::tolower)` on a string. -/
def toLower (s : String) : String := String.mk (s.data.map Char.toLower)

namespace JsonLdApi

open JsonLdUtils

/-- The test `activeProperty == nullptr || *activeProperty == "@graph"`. -/
def isNullOrGraph (activeProperty : Option String) : Bool :=
  match activeProperty with
  | none => true
  | some p => p == JsonLdConsts.GRAPH

/-- The string `termsBaseUrl` of steps 4.2 and 8: the term definition's base
URL entry when it has one, the empty string otherwise. -/
def termsBaseUrl (ops : ContextOps) (termDef : Json) : Except JsonLdError String :=
  if termDef.contains ops.BASEURL then (termDef.get ops.BASEURL).getString else .ok ""

/-- Step 3 of `expand`: the property-scoped context of the active property. -/
def propertyScopedContextOf (ops : ContextOps) (activeContext : Context)
    (activeProperty : Option String) : Option Json :=
  match activeProperty with
  | none => none
  | some p =>
    if !(activeContext.getTermDefinition p).is_null &&
        (activeContext.getTermDefinition p).contains ops.LOCALCONTEXT then
      some ((activeContext.getTermDefinition p).get ops.LOCALCONTEXT)
    else none

/-- Steps 4.2 and 8: process the property-scoped context, if defined, with
override protected set. -/
def applyPropertyScopedContext (ops : ContextOps) (activeContext : Context)
    (activeProperty : Option String) (propertyScopedContext : Option Json) :
    Except JsonLdError Context :=
  match propertyScopedContext with
  | none => .ok activeContext
  | some localContext =>
    match activeProperty with
    | none => .error .TypeError
    | some p =>
      (termsBaseUrl ops (activeContext.getTermDefinition p)).bind
        (fun b => ops.parse activeContext localContext b [] true true true)

/-- Step 4 of `expand`: a scalar element. -/
def expandScalar (ops : ContextOps) (activeContext : Context) (activeProperty : Option String)
    (element : Json) (propertyScopedContext : Option Json) : Except JsonLdError Json :=
  match activeProperty with
  | none => .ok .null
  | some p =>
    if p == JsonLdConsts.GRAPH then .ok .null
    else
      (applyPropertyScopedContext ops activeContext activeProperty propertyScopedContext).bind
        (fun c => .ok (ops.expandValue c p element))

/-- Step 5.2.2: under a list container an expanded item that is an array
becomes a list object. -/
def wrapListItem (activeContext : Context) (activeProperty : Option String)
    (expandedItem : Json) : Json :=
  match activeProperty with
  | none => expandedItem
  | some p =>
    let termDefinition := activeContext.getTermDefinition p
    if !termDefinition.empty && termDefinition.contains JsonLdConsts.CONTAINER &&
        arrayContains (termDefinition.get JsonLdConsts.CONTAINER) JsonLdConsts.LIST &&
        expandedItem.is_array then
      .obj [(JsonLdConsts.LIST, expandedItem)]
    else expandedItem

/-- Step 5.2.3: append the items of an array, or a single non-null value. -/
def appendExpanded (result : List Json) (expandedItem : Json) : List Json :=
  match expandedItem with
  | .null => result
  | .arr xs => result ++ xs
  | x => result ++ [x]

/-- The function `JsonLdApi::expandArrayElement` (step 5), recursive calls made
through `recur`. -/
def expandArrayElement (recur : Expander) (activeContext : Context)
    (activeProperty : Option String) (items : List Json) (baseUrl : String)
    (frameExpansion ordered fromMap : Bool) : Except JsonLdError Json :=
  (items.foldlM (fun result item =>
      (recur activeContext activeProperty item baseUrl frameExpansion ordered fromMap).bind
        (fun expandedItem =>
          .ok (appendExpanded result (wrapListItem activeContext activeProperty expandedItem))))
    []).map Json.arr

/-- Step 7: fall back to the previous context unless the element has a key
expanding to `@value`, or is a single entry expanding to `@id`. -/
def restorePreviousContext (ops : ContextOps) (activeContext : Context) (element : Json)
    (fromMap : Bool) : Context :=
  match activeContext.getPreviousContext with
  | none => activeContext
  | some previous =>
    if !fromMap then
      if element.keys.any (fun key =>
          ops.expandIri activeContext key false true == JsonLdConsts.VALUE ||
          (element.size == 1 &&
            ops.expandIri activeContext key false true == JsonLdConsts.ID)) then
        activeContext
      else previous
    else activeContext

/-- Step 11.2 of `findInputType` for one term. -/
def applyTypeScopedContext (ops : ContextOps) (typeScopedContext : Context)
    (activeContext : Context) (term : String) : Except JsonLdError Context :=
  if (typeScopedContext.getTermDefinition term).contains ops.LOCALCONTEXT then
    let termValue := activeContext.getTermDefinition term
    ((typeScopedContext.getTermDefinition term).atKey ops.LOCALCONTEXT).bind (fun localContext =>
      if termValue.contains ops.BASEURL then
        ((termValue.get ops.BASEURL).getString).bind (fun b =>
          ops.parse activeContext localContext b [] false false true)
      else ops.parse activeContext localContext "" [] false false true)
  else .ok activeContext

/-- Step 11 of `findInputType` for one key: the state is the active context
and the type key found so far. -/
def findInputTypeKey (ops : ContextOps) (typeScopedContext : Context) (element : Json)
    (st : Context × String) (key : String) : Except JsonLdError (Context × String) :=
  if ops.expandIri st.1 key false true != JsonLdConsts.TYPE then .ok st
  else
    let typeKey := if st.2 == "" then key else st.2
    let terms := sortKeys (stringsOf (element.get key).asArray)
    (terms.foldlM (applyTypeScopedContext ops typeScopedContext) st.1).bind
      (fun c => .ok (c, typeKey))

/-- Step 12 of `findInputType`: the last string value of the type entry. -/
def lastTypeValue (t : Json) : String :=
  match t with
  | .str s => s
  | .arr xs => (sortKeys (stringsOf xs)).getLast?.getD ""
  | _ => ""

/-- The function `JsonLdApi::findInputType`; it returns the input type and the
active context as updated through its reference parameter. -/
def findInputType (ops : ContextOps) (activeContext typeScopedContext : Context)
    (element : Json) : Except JsonLdError (String × Context) :=
  ((sortKeys element.keys).foldlM (findInputTypeKey ops typeScopedContext element)
      (activeContext, "")).bind (fun st =>
    if st.2 != "" then
      let lastValue := lastTypeValue (element.get st.2)
      if lastValue != "" then .ok (ops.expandIri st.1 lastValue false true, st.1)
      else .ok ("", st.1)
    else .ok ("", st.1))

end JsonLdApi

namespace JsonLdApi

open JsonLdUtils

/-- Where the handling of one keyword entry (steps 13.4.3 to 13.4.13) leaves
the loop: at `continue` with the result map as it then stands, or at step
13.4.14 with an expanded value. -/
inductive Flow where
  | next (result : Json)
  | value (expandedValue : Json)

/-- Prepend the value already stored under a keyword (steps 13.4.4.5 and
13.4.6.4), both sides taken as arrays. -/
def prependStored (stored expandedValue : Json) : Json :=
  .arr (stored.asArray ++ expandedValue.asArray)

/-- Step 13.4.3.2 under framing: one item of an array value of `@id`. -/
def expandIdItem (ops : ContextOps) (activeContext : Context) (v : Json) :
    Except JsonLdError Json :=
  match v with
  | .str s => .ok (.str (ops.expandIri activeContext s true false))
  | _ => .error .InvalidIdValue

/-- Step 13.4.4.4: one item of an array value of `@type`. -/
def expandTypeItem (ops : ContextOps) (typeScopedContext : Context) (v : Json) :
    Except JsonLdError Json :=
  v.getString.bind (fun s => .ok (.str (ops.expandIri typeScopedContext s true true)))

/-- Step 13.4.3, expanded property `@id`. -/
def expandIdEntry (ops : ContextOps) (activeContext : Context) (frameExpansion : Bool)
    (element_value : Json) : Except JsonLdError Json :=
  match element_value with
  | .str s => .ok (.str (ops.expandIri activeContext s true false))
  | .obj kvs =>
    if frameExpansion then
      if !(Json.obj kvs).empty then .error .InvalidIdValue else .ok (.obj kvs)
    else .error .InvalidIdValue
  | .arr xs =>
    if frameExpansion then
      (xs.mapM (expandIdItem ops activeContext)).map
        (fun ys => if ys.isEmpty then Json.null else Json.arr ys)
    else .error .InvalidIdValue
  | _ => .error .InvalidIdValue

/-- Step 13.4.4.1: the value of `@type` is rejected. -/
def invalidTypeValue (ops : ContextOps) (frameExpansion : Bool) (element_value : Json) : Bool :=
  (!frameExpansion && !element_value.is_string && !isArrayOfStrings element_value) ||
  (frameExpansion && !element_value.is_string && !isArrayOfStrings element_value &&
    !(element_value.is_object && element_value.empty) &&
    !(ops.isDefaultObject element_value &&
      (element_value.get JsonLdConsts.DEFAULT).is_string &&
      (match element_value.get JsonLdConsts.DEFAULT with
        | .str s => ops.isIri s
        | _ => false)))

/-- Steps 13.4.4.2 to 13.4.4.4: the expanded value of `@type`. -/
def expandTypeValue (ops : ContextOps) (typeScopedContext : Context) (element_value : Json) :
    Except JsonLdError Json :=
  if element_value.is_object then .ok element_value
  else if ops.isDefaultObject element_value then
    ((element_value.atKey JsonLdConsts.DEFAULT).bind Json.getString).bind (fun d =>
      .ok (.obj [(JsonLdConsts.DEFAULT, .str (ops.expandIri typeScopedContext d true true))]))
  else
    match element_value with
    | .str s => .ok (.str (ops.expandIri typeScopedContext s true true))
    | .arr xs =>
      (xs.mapM (expandTypeItem ops typeScopedContext)).map Json.arr
    | _ => .ok .null

/-- Step 13.4.4, expanded property `@type`. -/
def expandTypeEntry (ops : ContextOps) (typeScopedContext : Context) (frameExpansion : Bool)
    (element_value result : Json) : Except JsonLdError Json :=
  if invalidTypeValue ops frameExpansion element_value then .error .InvalidTypeValue
  else
    (expandTypeValue ops typeScopedContext element_value).bind (fun expandedValue =>
      if result.contains JsonLdConsts.TYPE then
        .ok (prependStored (result.get JsonLdConsts.TYPE) expandedValue)
      else .ok expandedValue)

/-- Step 13.4.6, expanded property `@included` (processing mode 1.1). -/
def expandIncludedEntry (ops : ContextOps) (recur : Expander) (activeContext : Context)
    (baseUrl : String) (frameExpansion ordered : Bool) (element_value result : Json) :
    Except JsonLdError Json :=
  (recur activeContext none element_value baseUrl frameExpansion ordered false).bind
    (fun expanded =>
      let expandedValue := Json.arr expanded.asArray
      if !(expanded.asArray.all ops.isNodeObject) then .error .InvalidIncludedValue
      else if result.contains JsonLdConsts.INCLUDED then
        .ok (prependStored (result.get JsonLdConsts.INCLUDED) expandedValue)
      else .ok expandedValue)

/-- Step 13.4.7, expanded property `@value`. -/
def expandValueEntry (activeContext : Context) (frameExpansion : Bool) (inputType : String)
    (element_value result : Json) : Except JsonLdError Flow :=
  let continueOnNull : Json → Except JsonLdError Flow := fun expandedValue =>
    if expandedValue.is_null then
      (result.set JsonLdConsts.VALUE .null).map Flow.next
    else .ok (.value expandedValue)
  if inputType == JsonLdConsts.JSON then
    if activeContext.isProcessingMode JsonLdOptions.JSON_LD_1_0 then
      .error .InvalidValueObjectValue
    else continueOnNull element_value
  else if element_value.is_null || isScalar element_value ||
      (frameExpansion && (isEmptyObject element_value || isArrayOfScalars element_value)) then
    continueOnNull
      (if frameExpansion && !element_value.is_array then .arr [element_value]
        else element_value)
  else .error .InvalidValueObjectValue

/-- Step 13.4.8, expanded property `@language`. -/
def expandLanguageEntry (frameExpansion : Bool) (element_value : Json) :
    Except JsonLdError Json :=
  if element_value.is_string ||
      (frameExpansion && (isEmptyObject element_value || isEmptyArray element_value ||
        isArrayOfStrings element_value)) then
    element_value.getString.map (fun v => Json.str (toLower v))
  else .error .InvalidLanguageTaggedString

/-- Step 13.4.9.2, expanded property `@direction` (processing mode 1.1). -/
def expandDirectionEntry (frameExpansion : Bool) (element_value : Json) :
    Except JsonLdError Json :=
  if (element_value == .str "ltr" || element_value == .str "rtl") ||
      (frameExpansion && (isEmptyObject element_value || isEmptyArray element_value ||
        isArrayOfStrings element_value)) then
    .ok (if frameExpansion && !element_value.is_array then .arr [element_value]
      else element_value)
  else .error .InvalidBaseDirection

/-- Step 13.4.13.4.2.1 for the items of one property of the expanded reverse
value. -/
def addReverseItems (reverseMap : Json) (property : String) (items : List Json) :
    Except JsonLdError Json :=
  items.foldlM (fun rm item =>
    if isValueObject item || isListObject item then .error .InvalidReversePropertyValue
    else addValue rm property item true) reverseMap

/-- Step 13.4.13, expanded property `@reverse`; the new result map. -/
def expandReverseEntry (recur : Expander) (activeContext : Context) (baseUrl : String)
    (frameExpansion ordered : Bool) (element_value result : Json) : Except JsonLdError Json :=
  if !element_value.is_object then .error .InvalidReverseValue
  else
    (recur activeContext (some JsonLdConsts.REVERSE) element_value baseUrl frameExpansion
        ordered false).bind (fun expandedValue =>
      (if expandedValue.contains JsonLdConsts.REVERSE then
          (expandedValue.get JsonLdConsts.REVERSE).itemsOf.foldlM
            (fun r entry => addValue r entry.1 entry.2 true) result
        else .ok result).bind (fun result1 =>
      if expandedValue.size > (if expandedValue.contains JsonLdConsts.REVERSE then 1 else 0) then
        (if !result1.contains JsonLdConsts.REVERSE then
            result1.set JsonLdConsts.REVERSE (.obj [])
          else .ok result1).bind (fun result2 =>
        (expandedValue.itemsOf.foldlM (fun rm entry =>
            if entry.1 == JsonLdConsts.REVERSE then .ok rm
            else addReverseItems rm entry.1 entry.2.elems)
          (result2.get JsonLdConsts.REVERSE)).bind (fun reverseMap =>
        result2.set JsonLdConsts.REVERSE reverseMap))
      else .ok result1))

/-- Steps 13.4.3 to 13.4.13: the chain of cases on the expanded property. -/
def keywordFlow (ops : ContextOps) (recur : Expander) (activeContext typeScopedContext : Context)
    (activeProperty : Option String) (baseUrl : String) (frameExpansion ordered fromMap : Bool)
    (inputType expandedProperty : String) (element_value result : Json) :
    Except JsonLdError Flow :=
  if expandedProperty == JsonLdConsts.ID then
    (expandIdEntry ops activeContext frameExpansion element_value).map Flow.value
  else if expandedProperty == JsonLdConsts.TYPE then
    (expandTypeEntry ops typeScopedContext frameExpansion element_value result).map Flow.value
  else if expandedProperty == JsonLdConsts.GRAPH then
    (recur activeContext (some JsonLdConsts.GRAPH) element_value baseUrl frameExpansion ordered
      fromMap).map (fun e => Flow.value (.arr e.asArray))
  else if expandedProperty == JsonLdConsts.INCLUDED then
    if activeContext.isProcessingMode JsonLdOptions.JSON_LD_1_0 then .ok (.next result)
    else
      (expandIncludedEntry ops recur activeContext baseUrl frameExpansion ordered element_value
        result).map Flow.value
  else if expandedProperty == JsonLdConsts.VALUE then
    expandValueEntry activeContext frameExpansion inputType element_value result
  else if expandedProperty == JsonLdConsts.LANGUAGE then
    (expandLanguageEntry frameExpansion element_value).map Flow.value
  else if expandedProperty == JsonLdConsts.DIRECTION then
    if activeContext.isProcessingMode JsonLdOptions.JSON_LD_1_0 then .ok (.next result)
    else (expandDirectionEntry frameExpansion element_value).map Flow.value
  else if expandedProperty == JsonLdConsts.INDEX then
    if !element_value.is_string then .error .InvalidIndexValue else .ok (.value element_value)
  else if expandedProperty == JsonLdConsts.LIST then
    if isNullOrGraph activeProperty then .ok (.next result)
    else
      (recur activeContext activeProperty element_value baseUrl frameExpansion ordered
        false).map (fun e => Flow.value (.arr e.asArray))
  else if expandedProperty == JsonLdConsts.SET then
    (recur activeContext activeProperty element_value baseUrl frameExpansion ordered
      false).map Flow.value
  else if expandedProperty == JsonLdConsts.REVERSE then
    (expandReverseEntry recur activeContext baseUrl frameExpansion ordered element_value
      result).map Flow.next
  else .ok (.value .null)

/-- The framing keywords of step 13.4.15. -/
def isFramingKeyword (expandedProperty : String) : Bool :=
  expandedProperty == JsonLdConsts.DEFAULT || expandedProperty == JsonLdConsts.EMBED ||
  expandedProperty == JsonLdConsts.EXPLICIT || expandedProperty == JsonLdConsts.OMIT_DEFAULT ||
  expandedProperty == JsonLdConsts.REQUIRE_ALL

/-- Step 13.4.16: store the expanded value under the expanded property; an
empty string is stored as null. -/
def storeKeyword (inputType expandedProperty : String) (expandedValue result : Json) :
    Except JsonLdError Json :=
  if !expandedValue.is_null ||
      (expandedProperty == JsonLdConsts.VALUE && inputType != JsonLdConsts.JSON) then
    if expandedValue == .str "" then result.set expandedProperty .null
    else result.set expandedProperty expandedValue
  else .ok result

/-- Step 13.4: an entry whose expanded property is a keyword.  The state is
the pair of `result` and `nests`. -/
def expandKeywordEntry (ops : ContextOps) (recur : Expander)
    (activeContext typeScopedContext : Context)
    (activeProperty : Option String) (baseUrl : String) (frameExpansion ordered fromMap : Bool)
    (inputType key expandedProperty : String) (element_value : Json) (st : Json × Json) :
    Except JsonLdError (Json × Json) :=
  if activeProperty == some JsonLdConsts.REVERSE then .error .InvalidReversePropertyMap
  else if st.1.contains expandedProperty &&
      (activeContext.isProcessingMode JsonLdOptions.JSON_LD_1_0 ||
        (expandedProperty != JsonLdConsts.INCLUDED && expandedProperty != JsonLdConsts.TYPE)) then
    .error .CollidingKeywords
  else
    (keywordFlow ops recur activeContext typeScopedContext activeProperty baseUrl frameExpansion
      ordered fromMap inputType expandedProperty element_value st.1).bind (fun flow =>
    match flow with
    | .next result => .ok (result, st.2)
    | .value expandedValue =>
      if expandedProperty == JsonLdConsts.NEST then
        if !st.2.contains key then (st.2.set key (.arr [])).map (fun n => (st.1, n))
        else .ok st
      else
        (if frameExpansion && isFramingKeyword expandedProperty then
            recur activeContext activeProperty element_value baseUrl frameExpansion ordered false
          else .ok expandedValue).bind (fun expandedValue =>
        (storeKeyword inputType expandedProperty expandedValue st.1).map
          (fun r => (r, st.2))))

end JsonLdApi

namespace JsonLdApi

open JsonLdUtils

/-- Steps 13.7.4.2.3 to 13.7.4.2.5: the map built for one string of a language
map; `language` is already in lower case. -/
def languageMapValue (ops : ContextOps) (activeContext : Context) (direction : Json)
    (language : String) (item : Json) : Json :=
  let v0 : List (String × Json) :=
    insertEntry JsonLdConsts.LANGUAGE (.str language) (insertEntry JsonLdConsts.VALUE item [])
  let v1 :=
    if language == JsonLdConsts.NONE ||
        ops.expandIri activeContext language false true == JsonLdConsts.NONE then
      eraseEntry JsonLdConsts.LANGUAGE v0
    else v0
  let v2 :=
    if !direction.is_null &&
        (direction.is_string && !(direction == .str "") && direction != .str "null") then
      insertEntry JsonLdConsts.DIRECTION direction v1
    else v1
  .obj v2

/-- Step 13.7.4.2 for the items of one language. -/
def languageMapItems (ops : ContextOps) (activeContext : Context) (direction : Json)
    (language : String) (expandedValue : List Json) (items : List Json) :
    Except JsonLdError (List Json) :=
  items.foldlM (fun acc item =>
    if item.is_null then .ok acc
    else if !item.is_string then .error .InvalidLanguageMapValue
    else .ok (acc ++ [languageMapValue ops activeContext direction (toLower language) item]))
    expandedValue

/-- Step 13.7: a language map. -/
def expandLanguageMap (ops : ContextOps) (activeContext : Context) (ordered : Bool)
    (keyTermDefinition element_value : Json) : Except JsonLdError Json :=
  let direction : Json :=
    if keyTermDefinition.contains JsonLdConsts.DIRECTION then
      keyTermDefinition.get JsonLdConsts.DIRECTION
    else .str activeContext.getDefaultBaseDirection
  let value_keys := if ordered then sortKeys element_value.keys else element_value.keys
  (value_keys.foldlM (fun acc language =>
      languageMapItems ops activeContext direction language acc
        (element_value.get language).asArray) []).map Json.arr

/-- Steps 13.8.3.1 to 13.8.3.3: the map context for one index. -/
def indexMapContext (ops : ContextOps) (activeContext : Context) (containerMapping : Json)
    (index : String) : Except JsonLdError Context :=
  let mapContext :=
    if arrayContains containerMapping JsonLdConsts.TYPE ||
        arrayContains containerMapping JsonLdConsts.ID then
      match activeContext.getPreviousContext with
      | some previous => previous
      | none => activeContext
    else activeContext
  if arrayContains containerMapping JsonLdConsts.TYPE then
    let indexTermDefinition := mapContext.getTermDefinition index
    if indexTermDefinition.contains ops.LOCALCONTEXT then
      (indexTermDefinition.atKey ops.LOCALCONTEXT).bind (fun localContext =>
        ((indexTermDefinition.atKey ops.BASEURL).bind Json.getString).bind (fun b =>
          ops.parse mapContext localContext b [] false true true))
    else .ok mapContext
  else .ok activeContext

/-- Read access `item[key]` through the non-const `operator[]`: a missing key
is inserted as null, a value that is neither null nor an object raises the
library's type error.  The item after the access is returned. -/
def touchKey (item : Json) (key : String) : Except JsonLdError Json :=
  if item.contains key then .ok item else item.set key .null

/-- Steps 13.8.3.7.1 to 13.8.3.7.5 for one item of the expanded index value. -/
def indexMapItem (ops : ContextOps) (activeContext : Context) (containerMapping : Json)
    (indexKey index expandedIndex : String) (item0 : Json) : Except JsonLdError Json :=
  let item :=
    if arrayContains containerMapping JsonLdConsts.GRAPH && !isGraphObject item0 then
      Json.obj [(JsonLdConsts.GRAPH, .arr item0.asArray)]
    else item0
  if arrayContains containerMapping JsonLdConsts.INDEX && indexKey != JsonLdConsts.INDEX &&
      expandedIndex != JsonLdConsts.NONE then
    let reExpandedIndex := ops.expandValue activeContext indexKey (.str index)
    let expandedIndexKey := ops.expandIri activeContext indexKey false true
    (touchKey item expandedIndexKey).bind (fun item1 =>
      (item1.set expandedIndexKey
          (.arr (reExpandedIndex :: (item1.get expandedIndexKey).elems))).bind (fun item2 =>
        if isValueObject item2 && item2.size > 1 then .error .InvalidValueObject
        else .ok item2))
  else if arrayContains containerMapping JsonLdConsts.INDEX &&
      !item.contains JsonLdConsts.INDEX && expandedIndex != JsonLdConsts.NONE then
    item.set JsonLdConsts.INDEX (.str index)
  else if arrayContains containerMapping JsonLdConsts.ID &&
      !item.contains JsonLdConsts.ID && expandedIndex != JsonLdConsts.NONE then
    item.set JsonLdConsts.ID (.str (ops.expandIri activeContext index true false))
  else if arrayContains containerMapping JsonLdConsts.TYPE &&
      expandedIndex != JsonLdConsts.NONE then
    (touchKey item JsonLdConsts.TYPE).bind (fun item1 =>
      let itemTypes := item1.get JsonLdConsts.TYPE
      item1.set JsonLdConsts.TYPE
        (.arr (.str expandedIndex :: (if itemTypes.is_null then [] else itemTypes.asArray))))
  else .ok item

/-- Step 13.8.3 for one index of an index, type or id map: the items appended
to the expanded value. -/
def expandIndexEntry (ops : ContextOps) (recur : Expander) (activeContext : Context)
    (baseUrl : String) (frameExpansion ordered : Bool) (key : String)
    (containerMapping element_value : Json) (indexKey : String)
    (expandedValue : List Json) (index : String) : Except JsonLdError (List Json) :=
  (indexMapContext ops activeContext containerMapping index).bind (fun mapContext =>
    let expandedIndex := ops.expandIri activeContext index false true
    (recur mapContext (some key) (.arr (element_value.get index).asArray) baseUrl
        frameExpansion ordered true).bind (fun indexValue =>
      indexValue.elems.foldlM (fun acc item =>
        (indexMapItem ops activeContext containerMapping indexKey index expandedIndex item).map
          (fun item1 => acc ++ [item1])) expandedValue))

/-- Step 13.8: an index, type or id map. -/
def expandIndexMap (ops : ContextOps) (recur : Expander) (activeContext : Context)
    (baseUrl : String) (frameExpansion ordered : Bool) (key : String)
    (keyTermDefinition containerMapping element_value : Json) : Except JsonLdError Json :=
  (if keyTermDefinition.contains JsonLdConsts.INDEX then
      ((keyTermDefinition.atKey JsonLdConsts.INDEX).bind Json.getString)
    else .ok JsonLdConsts.INDEX).bind (fun indexKey =>
    let indexKeys := if ordered then sortKeys element_value.keys else element_value.keys
    (indexKeys.foldlM (expandIndexEntry ops recur activeContext baseUrl frameExpansion ordered key
        containerMapping element_value indexKey) []).map Json.arr)

/-- Steps 13.6 to 13.9: the expanded value of an entry whose expanded property
is not a keyword. -/
def expandPropertyValue (ops : ContextOps) (recur : Expander) (activeContext : Context)
    (baseUrl : String) (frameExpansion ordered : Bool) (key : String)
    (keyTermDefinition containerMapping element_value : Json) : Except JsonLdError Json :=
  if keyTermDefinition.contains JsonLdConsts.TYPE &&
      keyTermDefinition.get JsonLdConsts.TYPE == .str JsonLdConsts.JSON then
    .ok (.obj (insertEntry JsonLdConsts.TYPE (.str JsonLdConsts.JSON)
      (insertEntry JsonLdConsts.VALUE element_value [])))
  else if arrayContains containerMapping JsonLdConsts.LANGUAGE && element_value.is_object then
    expandLanguageMap ops activeContext ordered keyTermDefinition element_value
  else if element_value.is_object &&
      (arrayContains containerMapping JsonLdConsts.INDEX ||
        arrayContains containerMapping JsonLdConsts.TYPE ||
        arrayContains containerMapping JsonLdConsts.ID) then
    expandIndexMap ops recur activeContext baseUrl frameExpansion ordered key keyTermDefinition
      containerMapping element_value
  else recur activeContext (some key) element_value baseUrl frameExpansion ordered false

/-- Step 13.11: under a list container, make a list object of an expanded
value that is not one. -/
def toListObject (containerMapping expandedValue : Json) : Json :=
  if arrayContains containerMapping JsonLdConsts.LIST && !isListObject expandedValue then
    .obj [(JsonLdConsts.LIST, .arr expandedValue.asArray)]
  else expandedValue

/-- Step 13.12: under a graph container without `@id` and `@index`, make every
value a graph object. -/
def toGraphObjects (containerMapping expandedValue : Json) : Json :=
  if arrayContains containerMapping JsonLdConsts.GRAPH &&
      !arrayContains containerMapping JsonLdConsts.ID &&
      !arrayContains containerMapping JsonLdConsts.INDEX then
    .arr (expandedValue.asArray.map (fun ev => Json.obj [(JsonLdConsts.GRAPH, .arr ev.asArray)]))
  else expandedValue

/-- Step 13.13.4 for one item of the expanded value of a reverse property. -/
def addReverseProperty (expandedProperty : String) (reverseMap item : Json) :
    Except JsonLdError Json :=
  if isValueObject item || isListObject item then .error .InvalidReversePropertyValue
  else
    (if !reverseMap.contains expandedProperty then reverseMap.set expandedProperty (.arr [])
      else .ok reverseMap).bind (fun rm => addValue rm expandedProperty item true)

/-- Steps 13.13 and 13.14: store the expanded value of a property. -/
def storeProperty (activeContext : Context) (key expandedProperty : String)
    (expandedValue result : Json) : Except JsonLdError Json :=
  (activeContext.isReverseProperty key).bind (fun isReverse =>
    if isReverse then
      (if !result.contains JsonLdConsts.REVERSE then result.set JsonLdConsts.REVERSE (.obj [])
        else .ok result).bind (fun result1 =>
      (expandedValue.asArray.foldlM (addReverseProperty expandedProperty)
          (result1.get JsonLdConsts.REVERSE)).bind (fun reverseMap =>
        result1.set JsonLdConsts.REVERSE reverseMap))
    else addValue result expandedProperty expandedValue true)

/-- Steps 13.5 to 13.14: an entry whose expanded property is not a keyword. -/
def expandPropertyEntry (ops : ContextOps) (recur : Expander) (activeContext : Context)
    (baseUrl : String) (frameExpansion ordered : Bool) (key expandedProperty : String)
    (element_value result : Json) : Except JsonLdError Json :=
  let keyTermDefinition := activeContext.getTermDefinition key
  let containerMapping :=
    if keyTermDefinition.contains JsonLdConsts.CONTAINER then
      keyTermDefinition.get JsonLdConsts.CONTAINER
    else .null
  (expandPropertyValue ops recur activeContext baseUrl frameExpansion ordered key
      keyTermDefinition containerMapping element_value).bind (fun expandedValue =>
    if expandedValue.is_null then .ok result
    else
      storeProperty activeContext key expandedProperty
        (toGraphObjects containerMapping (toListObject containerMapping expandedValue)) result)

/-- Step 13 for one key of the element; the state is the pair of `result` and
`nests`. -/
def expandEntry (ops : ContextOps) (recur : Expander) (activeContext typeScopedContext : Context)
    (activeProperty : Option String) (element : Json) (baseUrl : String)
    (frameExpansion ordered fromMap : Bool) (inputType : String) (st : Json × Json)
    (key : String) : Except JsonLdError (Json × Json) :=
  if key == JsonLdConsts.CONTEXT then .ok st
  else
    let expandedProperty := ops.expandIri activeContext key false true
    if expandedProperty == "" ||
        !(expandedProperty.data.contains ':' || isKeyword expandedProperty) then .ok st
    else if isKeyword expandedProperty then
      expandKeywordEntry ops recur activeContext typeScopedContext activeProperty baseUrl
        frameExpansion ordered fromMap inputType key expandedProperty (element.get key) st
    else
      (expandPropertyEntry ops recur activeContext baseUrl frameExpansion ordered key
        expandedProperty (element.get key) st.1).map (fun r => (r, st.2))

/-- Step 14: the nesting keys; the handling of a nested map is not
implemented and raises an error. -/
def processNests (element nests : Json) (ordered : Bool) : Except JsonLdError Unit :=
  (if ordered then sortKeys nests.keys else nests.keys).foldlM (fun _ nestingKey =>
    (element.get nestingKey).asArray.foldlM (fun _ nestedValue =>
      if !nestedValue.is_object then
        (Except.error JsonLdError.InvalidNestValue : Except JsonLdError Unit)
      else .error .NotImplemented) ()) ()

/-- The keys a value object may have (step 15.1). -/
def validKeywords : List String :=
  [JsonLdConsts.DIRECTION, JsonLdConsts.INDEX, JsonLdConsts.LANGUAGE, JsonLdConsts.TYPE,
    JsonLdConsts.VALUE]

/-- Steps 18 and 19: a map with only `@language` and free-floating values
become null. -/
def dropFreeFloating (activeProperty : Option String) (frameExpansion : Bool)
    (result : Json) : Json :=
  if result.is_object && result.contains JsonLdConsts.LANGUAGE && result.size == 1 then .null
  else if isNullOrGraph activeProperty then
    if !result.is_null && result.is_object &&
        (result.empty || result.contains JsonLdConsts.VALUE ||
          result.contains JsonLdConsts.LIST) then .null
    else if !result.is_null && !frameExpansion && result.contains JsonLdConsts.ID &&
        result.size == 1 then .null
    else result
  else result

/-- Steps 15 to 20: checks on the result map and the value returned. -/
def finishResult (ops : ContextOps) (activeProperty : Option String) (frameExpansion : Bool)
    (result : Json) : Except JsonLdError Json :=
  if result.contains JsonLdConsts.VALUE then
    if !(result.keys.all (fun k => validKeywords.contains k)) then .error .InvalidValueObject
    else if result.contains JsonLdConsts.TYPE &&
        (result.contains JsonLdConsts.LANGUAGE || result.contains JsonLdConsts.DIRECTION) then
      .error .InvalidValueObject
    else if !result.contains JsonLdConsts.TYPE ||
        !containsOrEquals (result.get JsonLdConsts.TYPE) JsonLdConsts.JSON then
      if (result.get JsonLdConsts.VALUE).is_null ||
          ((result.get JsonLdConsts.VALUE).is_array && (result.get JsonLdConsts.VALUE).empty) then
        .ok .null
      else if !(result.get JsonLdConsts.VALUE).is_string &&
          result.contains JsonLdConsts.LANGUAGE then
        .error .InvalidLanguageTaggedValue
      else if result.contains JsonLdConsts.TYPE &&
          (match result.get JsonLdConsts.TYPE with
            | .str s => !ops.isAbsoluteIri s
            | _ => true) then
        .error .InvalidTypedValue
      else .ok (dropFreeFloating activeProperty frameExpansion result)
    else .ok (dropFreeFloating activeProperty frameExpansion result)
  else if result.contains JsonLdConsts.TYPE then
    (if !(result.get JsonLdConsts.TYPE).is_array then
        result.set JsonLdConsts.TYPE (.arr [result.get JsonLdConsts.TYPE])
      else .ok result).map (dropFreeFloating activeProperty frameExpansion)
  else if result.contains JsonLdConsts.SET || result.contains JsonLdConsts.LIST then
    if result.size > (if result.contains JsonLdConsts.INDEX then 2 else 1) then
      .error .InvalidSetOrListObject
    else
      .ok (dropFreeFloating activeProperty frameExpansion
        (if result.contains JsonLdConsts.SET then result.get JsonLdConsts.SET else result))
  else .ok (dropFreeFloating activeProperty frameExpansion result)

/-- The function `JsonLdApi::expandObjectElement` (steps 7 to 20), recursive
calls made through `recur`. -/
def expandObjectElement (ops : ContextOps) (recur : Expander) (activeContext : Context)
    (activeProperty : Option String) (element : Json) (baseUrl : String)
    (propertyScopedContext : Option Json) (frameExpansion ordered fromMap : Bool) :
    Except JsonLdError Json :=
  (applyPropertyScopedContext ops (restorePreviousContext ops activeContext element fromMap)
      activeProperty propertyScopedContext).bind (fun context8 =>
  (if element.contains JsonLdConsts.CONTEXT then
      ops.parse context8 (element.get JsonLdConsts.CONTEXT) baseUrl [] false true true
    else .ok context8).bind (fun typeScopedContext =>
  (findInputType ops typeScopedContext typeScopedContext element).bind (fun found =>
  ((if ordered then sortKeys element.keys else element.keys).foldlM
      (expandEntry ops recur found.2 typeScopedContext activeProperty element baseUrl
        frameExpansion ordered fromMap found.1) (Json.obj [], Json.obj [])).bind (fun st =>
  (processNests element st.2 ordered).bind (fun _ =>
  finishResult ops activeProperty frameExpansion st.1)))))

/-- The body of `JsonLdApi::expand`, recursive calls made through `recur`. -/
def expandBody (ops : ContextOps) (recur : Expander) : Expander :=
  fun activeContext activeProperty element baseUrl frameExpansion ordered fromMap =>
    match element with
    | .null => .ok .null
    | .arr items =>
      expandArrayElement recur activeContext activeProperty items baseUrl
        (if activeProperty == some JsonLdConsts.DEFAULT then false else frameExpansion)
        ordered fromMap
    | .obj kvs =>
      expandObjectElement ops recur activeContext activeProperty (.obj kvs) baseUrl
        (propertyScopedContextOf ops activeContext activeProperty)
        (if activeProperty == some JsonLdConsts.DEFAULT then false else frameExpansion)
        ordered fromMap
    | scalar =>
      expandScalar ops activeContext activeProperty scalar
        (propertyScopedContextOf ops activeContext activeProperty)

/-- The function `JsonLdApi::expand`, cut off after `fuel` nested calls. -/
def expand (ops : ContextOps) : Nat → Expander
  | 0 => fun _ _ _ _ _ _ _ => .error .OutOfFuel
  | fuel + 1 => expandBody ops (expand ops fuel)

end JsonLdApi

/-! ## The context operations as the specification describes them

`Context::expandIri`, `Context::expandValue`, `Context::parse`, `Uri` and
`ObjUtils` are outside the sources at hand.  The general theorems below hold
for every `ContextOps`; the worked examples use the instance `specOps`. -/

namespace SpecModel

open JsonLdUtils

/-- Modelled from the spec: a scheme (RFC 3986 section 3.1, which spec section 3
refers to for "absolute"): a letter followed by letters, digits, `+`, `-`
or `.`. -/
def isScheme (cs : List Char) : Bool :=
  match cs with
  | [] => false
  | c :: rest =>
    c.isAlpha && rest.all (fun d => d.isAlphanum || d == '+' || d == '-' || d == '.')

/-- Modelled from the spec: `Uri::isAbsolute` is not among the sources; spec
section 3 calls an IRI absolute when it "contains a scheme": here, when the
text before its first colon is a scheme. -/
def isAbsoluteIri (s : String) : Bool :=
  s.data.contains ':' && isScheme (s.data.takeWhile (fun c => c != ':'))

/-- Modelled from the spec: a blank-node identifier "begins with `_:`"
(spec section 3). -/
def isBlankNodeName (s : String) : Bool :=
  match s.data with
  | '_' :: ':' :: _ => true
  | _ => false

/-- Modelled from the spec: RFC 3986 reference resolution stands outside the
sources and the spec; for a reference without scheme this keeps the case of an
empty base (nothing to resolve against) and otherwise appends the reference to
the base. -/
def resolve (base reference : String) : String :=
  if base == "" then reference else base ++ reference

/-- Modelled from the spec: `Context::expandIri` is not among the sources.  Spec
section 4.1 "IRI expansion": (1) a keyword or keyword-form string is returned
as it is; a term with a definition expands to its IRI mapping (section 3,
`iriMapping`) when vocabulary-relative; (2) a value with a colon is
split at the first colon and returned unchanged when the prefix is `_` or the
suffix begins with `//`, joined to the IRI of a term marked as prefix, or
returned unchanged when absolute; (3) a vocabulary mapping is prepended when
vocabulary-relative; (4) the value is resolved against the base IRI when
document-relative; (5) otherwise it is returned unchanged. -/
def expandIri (c : Context) (value : String) (documentRelative vocabRelative : Bool) : String :=
  if isKeyword value || isKeywordForm value then value
  else
    match (if vocabRelative then (c.getTermDefinition value).get JsonLdConsts.ID else .null) with
    | .str iri => iri
    | _ =>
      let pre := String.mk (value.data.takeWhile (fun ch => ch != ':'))
      let suffix := (value.data.dropWhile (fun ch => ch != ':')).drop 1
      let fallthrough :=
        if vocabRelative && c.getVocabularyMapping != "" then c.getVocabularyMapping ++ value
        else if documentRelative then resolve c.getBaseIri value
        else value
      if value.data.contains ':' then
        if pre == "_" || suffix.take 2 == ['/', '/'] then value
        else
          match (c.getTermDefinition pre).get "@prefix", (c.getTermDefinition pre).get JsonLdConsts.ID with
          | .bool true, .str iri => iri ++ String.mk suffix
          | _, _ => if isAbsoluteIri value then value else fallthrough
      else fallthrough

/-- Modelled from the spec: `Context::expandValue` is not among the sources.
Spec section 4.1 "Value expansion": a `{@id}` map for a string under a type
mapping `@id` or `@vocab`; otherwise a `{@value}` map, with `@type` from the
term's type mapping, or for a string with `@language` and `@direction` from
the term's mappings or the context's defaults. -/
def expandValue (c : Context) (activeProperty : String) (value : Json) : Json :=
  let td := c.getTermDefinition activeProperty
  match td.get JsonLdConsts.TYPE, value with
  | .str "@id", .str s => .obj [(JsonLdConsts.ID, .str (expandIri c s true false))]
  | .str "@vocab", .str s => .obj [(JsonLdConsts.ID, .str (expandIri c s true true))]
  | .str t, _ =>
    if t == "@id" || t == "@vocab" || t == "@none" then .obj [(JsonLdConsts.VALUE, value)]
    else .obj [(JsonLdConsts.TYPE, .str t), (JsonLdConsts.VALUE, value)]
  | _, .str s =>
    let language : Json :=
      if td.contains JsonLdConsts.LANGUAGE then td.get JsonLdConsts.LANGUAGE
      else if c.getDefaultLanguage == "" then .null else .str c.getDefaultLanguage
    let direction : Json :=
      if td.contains JsonLdConsts.DIRECTION then td.get JsonLdConsts.DIRECTION
      else if c.getDefaultBaseDirection == "" || c.getDefaultBaseDirection == "null" then .null
      else .str c.getDefaultBaseDirection
    let v0 : List (String × Json) := [(JsonLdConsts.VALUE, .str s)]
    let v1 := if language.is_string then insertEntry JsonLdConsts.LANGUAGE language v0 else v0
    let v2 := if direction.is_string then insertEntry JsonLdConsts.DIRECTION direction v1 else v1
    .obj v2
  | _, _ => .obj [(JsonLdConsts.VALUE, value)]

/-- Modelled from the spec: `Context::parse` is not among the sources.  Of spec
section 4.1 "Context processing" only the first rule is modelled: a null
local context gives a fresh context that keeps the base IRI, and fails inside
a protected scope unless protection is overridden; with `propagate` false the
active context becomes the previous context.  Every other local context is
outside the model and reported as an error. -/
def parse (c : Context) (localContext : Json) (_baseUrl : String) (_remoteContexts : List String)
    (overrideProtected propagate _validateScoped : Bool) : Except JsonLdError Context :=
  match localContext with
  | .null =>
    if !overrideProtected &&
        c.termDefinitions.elems.any (fun td => td.get "@protected" == .bool true) then
      .error (.ContextError "invalid context nullification")
    else
      .ok (.mk (.obj []) (if propagate then none else some c) "null" c.processingMode
        c.getBaseIri "" "")
  | _ => .error (.ContextError "local context outside the model")

/-- Modelled from the spec: a node object (spec section 4.3) is a map that is
not a value object, list object or set object. -/
def isNodeObject (j : Json) : Bool :=
  j.is_object && !j.contains JsonLdConsts.VALUE && !j.contains JsonLdConsts.LIST &&
    !j.contains JsonLdConsts.SET

/-- Modelled from the spec: a default object is a map with an `@default`
entry (spec section 4.2, framing keywords). -/
def isDefaultObject (j : Json) : Bool := j.is_object && j.contains JsonLdConsts.DEFAULT

/-- The context operations as the specification describes them; a term
definition keeps its local context and base URL under the field names of spec
section 3. -/
def specOps : ContextOps where
  expandIri := expandIri
  expandValue := expandValue
  parse := parse
  isAbsoluteIri := isAbsoluteIri
  isIri := fun s => !isKeyword s && isAbsoluteIri s
  isNodeObject := isNodeObject
  isDefaultObject := isDefaultObject
  LOCALCONTEXT := "localContext"
  BASEURL := "baseUrl"

/-- The context `Context(options)` with empty base IRI and processing mode
json-ld-1.1. -/
def emptyContext : Context := Context.fresh "" JsonLdOptions.JSON_LD_1_1

end SpecModel


/-! ## Flattening, as `addValue` does it -/

mutual
/-- The items `addValue` appends for a value: the value itself when it is not
an array, otherwise the items of the array flattened at every depth. -/
def Json.flatten : Json → List Json
  | .arr xs => Json.flattenList xs
  | .null => [.null]
  | .bool b => [.bool b]
  | .num n => [.num n]
  | .str s => [.str s]
  | .obj kvs => [.obj kvs]
/-- Flattening of a list of values, in order. -/
def Json.flattenList : List Json → List Json
  | [] => []
  | x :: xs => Json.flatten x ++ Json.flattenList xs
end

/-- The entry of a key taken as an array: empty when absent, the items of an
array, a single item otherwise. -/
def entryAsArray (e : Option Json) : List Json :=
  match e with
  | none => []
  | some v => v.asArray


/-! ## Contexts and inputs of the worked examples -/

namespace Examples

/-- A context with the given term definitions, no previous context, empty base
IRI and processing mode json-ld-1.1. -/
def contextOf (terms : List (String × Json)) : Context :=
  .mk (.obj terms) none "null" JsonLdOptions.JSON_LD_1_1 "" "" ""

/-- The term `tags` of spec scenario 3, a list container. -/
def tagsContext : Context :=
  contextOf [("tags", .obj [("@container", .arr [.str "@list"]),
    ("@id", .str "http://example.org/tags")])]

/-- Two terms `a` and `b` for the same property, both list containers. -/
def twoListTermsContext : Context :=
  contextOf [
    ("a", .obj [("@container", .arr [.str "@list"]), ("@id", .str "http://example.org/t")]),
    ("b", .obj [("@container", .arr [.str "@list"]), ("@id", .str "http://example.org/t")])]

/-- The term `v` of spec scenario 6, type mapping `@json`. -/
def jsonContext : Context :=
  contextOf [("v", .obj [("@id", .str "http://ex/v"), ("@type", .str "@json")])]

/-- The term `v` with type mapping `@json` and a list container. -/
def jsonListContext : Context :=
  contextOf [("v", .obj [("@container", .arr [.str "@list"]), ("@id", .str "http://ex/v"),
    ("@type", .str "@json")])]

end Examples


/-! ## Shapes of expansion results -/

/-- The condition of step 15.1 on the keys of a value object: only
`@direction`, `@index`, `@language`, `@type`, `@value`, and no `@type` next
to `@language` or `@direction`. -/
@[reducible] def StrictValueObject (kvs : List (String × Json)) : Prop :=
  (∀ kv ∈ kvs, kv.1 ∈ JsonLdApi.validKeywords) ∧
  ¬ (hasKey JsonLdConsts.TYPE kvs = true ∧
    (hasKey JsonLdConsts.LANGUAGE kvs = true ∨ hasKey JsonLdConsts.DIRECTION kvs = true))

/-- A JSON value that, when it is a map with an `@value` entry, has entries
satisfying `Q`. -/
@[reducible] def ValueMapIs (Q : List (String × Json) → Prop) (j : Json) : Prop :=
  ∀ kvs, j = .obj kvs → hasKey JsonLdConsts.VALUE kvs = true → Q kvs

/-- A value as `expand` returns it: a value map satisfies `Q`, and the items
of an array are neither null nor arrays, and satisfy `Q` when they are value
maps. -/
@[reducible] def TopOk (Q : List (String × Json) → Prop) (j : Json) : Prop :=
  ValueMapIs Q j ∧
  ∀ xs, j = .arr xs → ∀ x ∈ xs, x ≠ .null ∧ x.is_array = false ∧ ValueMapIs Q x

/-- No key is a keyword. -/
@[reducible] def NonKeywordKeys (kvs : List (String × Json)) : Prop :=
  ∀ kv ∈ kvs, JsonLdUtils.isKeyword kv.1 = false

/-- The `@reverse` entry, when present, is a map keyed by properties. -/
@[reducible] def ReverseEntryOk (kvs : List (String × Json)) : Prop :=
  ∀ rv, lookupEntry JsonLdConsts.REVERSE kvs = some rv → ∃ rkvs, rv = .obj rkvs ∧ NonKeywordKeys rkvs

/-- The result of expanding the value of `@reverse`: a map whose keys are
properties or `@reverse`. -/
@[reducible] def ReverseResult (out : Json) : Prop :=
  ∃ kvs, out = .obj kvs ∧
    (∀ kv ∈ kvs, kv.1 = JsonLdConsts.REVERSE ∨ JsonLdUtils.isKeyword kv.1 = false) ∧
    ReverseEntryOk kvs

/-- What the proofs assume of the recursive calls and establish for `expand`:
the shape of a returned value, an array for an array, and the shape of the
expanded value of `@reverse`. -/
@[reducible] def GoodTop (Q : List (String × Json) → Prop) (R : Expander) : Prop :=
  ∀ ctx ap el base fe ord fm out, R ctx ap el base fe ord fm = .ok out →
    TopOk Q out ∧ (el.is_array = true → out.is_array = true) ∧
    (ap = some JsonLdConsts.REVERSE → el.is_object = true → ReverseResult out)

/-- The invariant of the loop of step 13 on the result map. -/
@[reducible] def LoopTop (Q : List (String × Json) → Prop) (ap : Option String) (result : Json) : Prop :=
  ∃ kvs, result = .obj kvs ∧
    (∀ v, lookupEntry JsonLdConsts.SET kvs = some v → TopOk Q v) ∧
    ReverseEntryOk kvs ∧
    (ap = some JsonLdConsts.REVERSE →
      ∀ kv ∈ kvs, kv.1 = JsonLdConsts.REVERSE ∨ JsonLdUtils.isKeyword kv.1 = false)

/-- What the handling of a keyword entry establishes: the loop invariant at a
`continue`, and for an expanded value that the key is not `@reverse` and that
a value for `@set` has the shape of a returned value. -/
def FlowTop (Q : List (String × Json) → Prop) (ap : Option String) (ep : String) :
    JsonLdApi.Flow → Prop
  | .next r => LoopTop Q ap r
  | .value v => ep ≠ JsonLdConsts.REVERSE ∧ (ep = JsonLdConsts.SET → TopOk Q v)


/-! ## Maps anywhere in an expansion result -/

/-- Every map inside a JSON value satisfies `P`, the content of `@value`
entries (JSON literals and scalars) apart. -/
inductive Deep (P : List (String × Json) → Prop) : Json → Prop where
  | null : Deep P .null
  | bool (b : Bool) : Deep P (.bool b)
  | num (n : Int) : Deep P (.num n)
  | str (s : String) : Deep P (.str s)
  | arr (xs : List Json) (h : ∀ x ∈ xs, Deep P x) : Deep P (.arr xs)
  | obj (kvs : List (String × Json)) (hP : P kvs)
      (h : ∀ kv ∈ kvs, kv.1 ≠ JsonLdConsts.VALUE → Deep P kv.2) : Deep P (.obj kvs)

/-- The keys a map with an `@value` entry can have anywhere in a result:
those of step 15.1 and `@id`, which an id map injects. -/
def valueMapKeys : List String := JsonLdConsts.ID :: JsonLdApi.validKeywords

/-- The condition on one map of a result: its `@id` entry satisfies `IdP`;
with an `@value` entry its keys are among `valueMapKeys`; the entries of
other keys than keywords are arrays. -/
@[reducible] def MapOk (IdP : Json → Prop) (kvs : List (String × Json)) : Prop :=
  (∀ v, lookupEntry JsonLdConsts.ID kvs = some v → IdP v) ∧
  (hasKey JsonLdConsts.VALUE kvs = true → ∀ kv ∈ kvs, kv.1 ∈ valueMapKeys) ∧
  (∀ kv ∈ kvs, JsonLdUtils.isKeyword kv.1 = false → kv.2.is_array = true)

/-- An `@id` entry as expansion stores it: null, or a string returned by IRI
expansion relative to the document (relative to the vocabulary as well or
not). -/
def IdFromExpandIri (ops : ContextOps) (v : Json) : Prop :=
  v = .null ∨ ∃ (c : Context) (s : String) (vocab : Bool),
    v = .str (ops.expandIri c s true vocab)

/-- A property of contexts that is kept by context processing and by falling
back to the previous context, and under which the index mapping of a term,
unless it is `@index` itself, does not expand to a keyword. -/
structure ContextsValid (ops : ContextOps) (C : Context → Prop) : Prop where
  previous : ∀ c p, C c → c.getPreviousContext = some p → C p
  parsed : ∀ c lc b rc o pr v c', C c → ops.parse c lc b rc o pr v = .ok c' → C c'
  indexMapping : ∀ c key s, C c → (c.getTermDefinition key).get JsonLdConsts.INDEX = .str s →
    s ≠ JsonLdConsts.INDEX → JsonLdUtils.isKeyword (ops.expandIri c s false true) = false

/-- What the proofs assume of the recursive calls and establish for `expand`
without `frameExpansion`, for contexts in `C`. -/
@[reducible] def GoodDeep (IdP : Json → Prop) (C : Context → Prop) (R : Expander) : Prop :=
  ∀ ctx ap el base ord fm out, C ctx → R ctx ap el base false ord fm = .ok out →
    Deep (MapOk IdP) out

/-- The invariant of the loop of step 13 on the entries of the result map. -/
@[reducible] def LoopDeep (IdP : Json → Prop) (result : Json) : Prop :=
  ∃ kvs, result = .obj kvs ∧
    (∀ kv ∈ kvs, kv.1 ≠ JsonLdConsts.VALUE → Deep (MapOk IdP) kv.2) ∧
    (∀ v, lookupEntry JsonLdConsts.ID kvs = some v → IdP v) ∧
    (∀ kv ∈ kvs, JsonLdUtils.isKeyword kv.1 = false → kv.2.is_array = true)

/-- What the handling of a keyword entry establishes for the entries. -/
def FlowDeep (IdP : Json → Prop) (ep : String) : JsonLdApi.Flow → Prop
  | .next r => LoopDeep IdP r
  | .value v => (ep ≠ JsonLdConsts.VALUE → Deep (MapOk IdP) v) ∧ (ep = JsonLdConsts.ID → IdP v)

mutual
/-- Whether every map inside a JSON value, at any depth, satisfies `p`. -/
def Json.allMaps (p : List (String × Json) → Bool) : Json → Bool
  | .arr xs => Json.allMapsList p xs
  | .obj kvs => p kvs && Json.allMapsEntries p kvs
  | _ => true
/-- The same for the items of a list. -/
def Json.allMapsList (p : List (String × Json) → Bool) : List Json → Bool
  | [] => true
  | x :: xs => Json.allMaps p x && Json.allMapsList p xs
/-- The same for the values of the entries of a map. -/
def Json.allMapsEntries (p : List (String × Json) → Bool) : List (String × Json) → Bool
  | [] => true
  | (_, v) :: rest => Json.allMaps p v && Json.allMapsEntries p rest
end

/-- The condition of claim C1 on one map: with an `@value` entry, only the keys
of step 15.1, and no `@type` together with `@language` or `@direction`. -/
def valueMapStrict (kvs : List (String × Json)) : Bool :=
  !hasKey JsonLdConsts.VALUE kvs ||
    (kvs.all (fun kv => JsonLdApi.validKeywords.contains kv.1) &&
      !(hasKey JsonLdConsts.TYPE kvs &&
        (hasKey JsonLdConsts.LANGUAGE kvs || hasKey JsonLdConsts.DIRECTION kvs)))

/-- The condition of claim C2 on one map: an `@id` entry is a string that is
a blank-node identifier or an absolute IRI. -/
def idEntryAbsolute (ops : ContextOps) (kvs : List (String × Json)) : Bool :=
  match lookupEntry JsonLdConsts.ID kvs with
  | none => true
  | some (.str s) => SpecModel.isBlankNodeName s || ops.isAbsoluteIri s
  | some _ => false

/-- A reverse map with its entries: keys are properties, values are arrays
whose maps satisfy the condition. -/
@[reducible] def ReverseMapDeep (IdP : Json → Prop) (rm : Json) : Prop :=
  ∃ rkvs, rm = .obj rkvs ∧ NonKeywordKeys rkvs ∧
    ∀ kv ∈ rkvs, Deep (MapOk IdP) kv.2 ∧ kv.2.is_array = true


/-- What the theorems on the maps of a result assume of value expansion: it
returns a map whose keys are among `valueMapKeys`, whose entries other than
`@value` are neither maps nor arrays, and whose `@id` entry satisfies `IdP`. -/
def ValueExpansionShape (ops : ContextOps) (IdP : Json → Prop) : Prop :=
  ∀ c p v, ∃ kvs, ops.expandValue c p v = .obj kvs ∧
    (∀ kv ∈ kvs, kv.1 ∈ valueMapKeys ∧
      (kv.1 ≠ JsonLdConsts.VALUE → kv.2.is_object = false ∧ kv.2.is_array = false)) ∧
    (∀ w, lookupEntry JsonLdConsts.ID kvs = some w → IdP w)

/-- Contexts in which no term definition has an index mapping, their previous
contexts included. -/
inductive NoIndexMapping : Context → Prop where
  | mk (terms : List (String × Json)) (prev : Option Context) (dir pm base vocab lang : String)
      (hterms : ∀ kv ∈ terms, kv.2.get JsonLdConsts.INDEX = .null)
      (hprev : ∀ p, prev = some p → NoIndexMapping p) :
      NoIndexMapping (.mk (.obj terms) prev dir pm base vocab lang)

namespace Examples

/-- The term `p` with an id map as container. -/
def idMapContext : Context :=
  contextOf [("p", .obj [("@container", .arr [.str "@id"]), ("@id", .str "http://ex/p")])]

end Examples

/-! ## What `addValue` leaves in a map -/

namespace JsonLdUtils

/-- What `addValue` with `asArray` leaves under the key: the previous entry
taken as an array, followed by the given items. -/
def appended (kvs : List (String × Json)) (key : String) (items : List Json) :
    List (String × Json) :=
  insertEntry key (.arr (entryAsArray (lookupEntry key kvs) ++ items)) kvs

/-- The entries after `addValue` with `asArray`: unchanged when nothing is
added to an entry that is an array already, otherwise the entry becomes the
previous entry taken as an array followed by the added items. -/
def addedTo (kvs : List (String × Json)) (key : String) (items : List Json) :
    List (String × Json) :=
  match lookupEntry key kvs, items with
  | some (.arr _), [] => kvs
  | _, _ => appended kvs key items

end JsonLdUtils


namespace Examples

/-- Two aliases `a` and `b` of `@id`. -/
def idAliasContext : Context :=
  contextOf [("a", .obj [("@id", .str "@id")]), ("b", .obj [("@id", .str "@id")])]

/-- The reverse term `a` and the alias `z` of `@reverse`. -/
def reverseContext : Context :=
  contextOf [("a", .obj [("@id", .str "http://ex/r"), ("@reverse", .bool true)]),
    ("z", .obj [("@id", .str "@reverse")])]

end Examples


namespace Examples

/-- The alias `v` of `@value`. -/
def valueAliasContext : Context :=
  contextOf [("v", .obj [("@id", .str "@value")])]

end Examples


/-- The result map of step 13 with an `@set` entry that, when present, is not
a string. -/
@[reducible] def SetEntryNotString (result : Json) : Prop :=
  ∃ kvs, result = .obj kvs ∧
    ∀ v, lookupEntry JsonLdConsts.SET kvs = some v → v.is_string = false

/-- Calls that never return a string. -/
@[reducible] def NeverString (R : Expander) : Prop :=
  ∀ ctx ap el base fe ord fm out, R ctx ap el base fe ord fm = .ok out → out.is_string = false

/-- What the handling of a keyword entry establishes for the `@set` entry. -/
def FlowSet (ep : String) : JsonLdApi.Flow → Prop
  | .next r => SetEntryNotString r
  | .value v => ep = JsonLdConsts.SET → v.is_string = false


/-- Where step 13.13.4 leaves the reverse map after the items of an expanded
value have been appended to the entry of the property: unchanged without
items; otherwise the entry, created as an empty array if need be, takes the
items as `addValue` appends them. -/
def reverseMapWith (rkvs : List (String × Json)) (property : String) (items : List Json) :
    List (String × Json) :=
  match items with
  | [] => rkvs
  | _ :: _ =>
    JsonLdUtils.addedTo
      (if hasKey property rkvs then rkvs else insertEntry property (.arr []) rkvs)
      property (Json.flattenList items)

namespace Examples

/-- The reverse term `children` of the property `http://ex/parent`. -/
def childrenContext : Context :=
  contextOf [("children", .obj [("@id", .str "http://ex/parent"), ("@reverse", .bool true)])]

end Examples


/-! ## Claim C19 in its own words -/

/-- Claim C19 in its own words: an `@direction` entry is added when the
direction is a non-empty string other than "null". -/
def directionAdded (direction : Json) : Bool :=
  match direction with
  | .str s => s != "" && s != "null"
  | _ => false

/-- Claim C19 in its own words: the item for a string `s` under the language
key `language`: `@value` is `s`, `@language` is the key in lower case, omitted
when the key is or expands to `@none`, and `@direction` is added when the
direction qualifies. -/
def languageItemSpec (ops : ContextOps) (activeContext : Context) (direction : Json)
    (language : String) (s : Json) : Json :=
  .obj ((if directionAdded direction then [(JsonLdConsts.DIRECTION, direction)] else []) ++
    (if language == JsonLdConsts.NONE ||
        ops.expandIri activeContext language false true == JsonLdConsts.NONE then []
      else [(JsonLdConsts.LANGUAGE, .str (toLower language))]) ++
    [(JsonLdConsts.VALUE, s)])

/-- Claim C19 in its own words: the non-null items of a language map in the
order of the language keys. -/
def languageMapPairs (keys : List String) (value : Json) : List (String × Json) :=
  (keys.map (fun language =>
    ((value.get language).asArray.filter (fun item => !item.is_null)).map
      (fun item => (language, item)))).flatten

/-- Claim C19 in its own words: the expanded value of a language map: one item
for every string, an error when an item is neither null nor a string. -/
def languageMapSpec (ops : ContextOps) (activeContext : Context) (direction : Json)
    (keys : List String) (value : Json) : Except JsonLdError Json :=
  if (languageMapPairs keys value).all (fun p => p.2.is_string) then
    .ok (.arr ((languageMapPairs keys value).map
      (fun p => languageItemSpec ops activeContext direction p.1 p.2)))
  else .error .InvalidLanguageMapValue

namespace Examples

/-- The term `label` with a language map as container. -/
def languageContext : Context :=
  contextOf [("label", .obj [("@container", .arr [.str "@language"]),
    ("@id", .str "http://ex/label")])]

/-- The term `label` with a language map as container and type mapping
`@json`. -/
def jsonLanguageContext : Context :=
  contextOf [("label", .obj [("@container", .arr [.str "@language"]),
    ("@id", .str "http://ex/label"), ("@type", .str "@json")])]

end Examples


namespace Examples

/-- A context in which `name` stands for `http://ex/previous-name`. -/
def previousNameContext : Context :=
  contextOf [("name", .obj [("@id", .str "http://ex/previous-name")])]

/-- The id map term `items` and the term `name` for `http://ex/active-name`,
in a context whose previous context is `previousNameContext`. -/
def idMapOverPreviousContext : Context :=
  .mk (.obj [("items", .obj [("@container", .arr [.str "@id"]), ("@id", .str "http://ex/items")]),
      ("name", .obj [("@id", .str "http://ex/active-name")])])
    (some previousNameContext) "null" JsonLdOptions.JSON_LD_1_1 "" "" ""

end Examples


/-! ## Claim C30 in its own words -/

/-- Claim C30 in its own words: the fixed keyword set, in the order of the
claim. -/
def claimedKeywords : List String :=
  ["@base", "@container", "@context", "@direction", "@graph", "@id", "@import", "@included",
    "@index", "@json", "@language", "@list", "@nest", "@none", "@prefix", "@propagate",
    "@protected", "@reverse", "@set", "@type", "@value", "@version", "@vocab", "@preserve",
    "@default", "@embed", "@explicit", "@null", "@omitDefault", "@requireAll", "@always",
    "@once", "@never", "@any"]


/-! ## `FileLoader.cpp`

A `std::string` is the sequence of its bytes: positions and lengths are
counted in bytes, and a text stands for the bytes of its UTF-8 encoding;
`std::size_t` has 64 bits. -/

/-- The content of a `std::string`: its bytes. -/
abbrev ByteString := List UInt8

namespace StdString

/-- The `std::string` that holds a text, in UTF-8. -/
def ofText (s : String) : ByteString := s.toUTF8.data.toList

/-- The constant `std::string::npos`, the largest value of `std::size_t`. -/
def npos : Nat := 2 ^ 64 - 1

/-- Subtraction of `std::size_t` values, which wraps around. -/
def sizeSub (a b : Nat) : Nat := (a + 2 ^ 64 - b) % 2 ^ 64

/-- Whether `pat` occurs in `s` at position `pos`. -/
def matchesAt (s pat : ByteString) (pos : Nat) : Bool := (s.drop pos).take pat.length == pat

/-- The highest position not above `pos` at which `pat` occurs in `s`, `npos`
when there is none. -/
def rfindFrom (s pat : ByteString) : Nat → Nat
  | 0 => if matchesAt s pat 0 then 0 else npos
  | pos + 1 => if matchesAt s pat (pos + 1) then pos + 1 else rfindFrom s pat pos

/-- The member `std::string::rfind(pat)`: the last position at which `pat`
occurs, `npos` when it does not occur. -/
def rfind (s pat : ByteString) : Nat := rfindFrom s pat s.length

/-- The member `std::string::find(pat)`: the first position at which `pat`
occurs, `npos` when it does not occur. -/
def find (s pat : ByteString) : Nat :=
  match (List.range (s.length + 1)).find? (matchesAt s pat) with
  | some pos => pos
  | none => npos

/-- The member `std::string::substr(pos)` for a position inside the string. -/
def substr (s : ByteString) (pos : Nat) : ByteString := s.drop pos

end StdString

/-- The media types named in `FileLoader.cpp`. -/
inductive MediaType where
  | any
  | html
  | json
  | json_ld
  | n_quads
  deriving DecidableEq, Repr

/-- An input stream: its state flags and the bytes it holds. -/
structure IStream where
  good : Bool
  eof : Bool
  content : ByteString

/-- The document classes and the file system used by `FileLoader`, which are
outside the sources at hand: `JSONDocument::accepts`, `JSONDocument::of`,
`RDFDocument::accepts`, `RDFDocument::of`, and opening a file for reading
(none when the file cannot be opened). -/
structure DocumentOps (δ : Type) where
  jsonAccepts : MediaType → Bool
  jsonOf : MediaType → ByteString → ByteString → Except JsonLdError δ
  rdfAccepts : MediaType → Bool
  rdfOf : MediaType → ByteString → Except JsonLdError δ
  openFile : ByteString → Option ByteString

/-- The members of `FileLoader`. -/
structure FileLoader where
  istream_ptr_ : Option IStream
  filepath_ : String
  content_type_ : MediaType

namespace FileLoader

open StdString

/-- The function `detectContentType` of `FileLoader.cpp`. -/
def detectContentType (filename : ByteString) : Except JsonLdError MediaType :=
  if filename.isEmpty then .error .LoadingDocumentFailed
  else if rfind filename (ofText ".nq") == sizeSub filename.length (ofText ".nq").length then
    .ok .n_quads
  else if rfind filename (ofText ".json") == sizeSub filename.length (ofText ".json").length then
    .ok .json
  else if rfind filename (ofText ".jsonld") ==
      sizeSub filename.length (ofText ".jsonld").length then
    .ok .json_ld
  else if rfind filename (ofText ".html") == sizeSub filename.length (ofText ".html").length then
    .ok .html
  else .error .LoadingDocumentFailed

/-- The private overload `FileLoader::loadDocument(contentType, inputStream,
localUrl)`. -/
def loadDocumentFrom {δ : Type} (ops : DocumentOps δ) (contentType : MediaType)
    (inputStream : ByteString) (localUrl : ByteString) : Except JsonLdError δ :=
  if ops.jsonAccepts contentType then
    ops.jsonOf contentType inputStream
      (if find localUrl (ofText "file://") == npos then ofText "file://" ++ localUrl
        else localUrl)
  else if ops.rdfAccepts contentType then ops.rdfOf contentType inputStream
  else .error .LoadingDocumentFailed

/-- The member `FileLoader::loadDocument(url)`; the document is returned, the
rewinding of the stream is left out. -/
def loadDocument {δ : Type} (ops : DocumentOps δ) (self : FileLoader) (url : ByteString) :
    Except JsonLdError δ :=
  if find url (ofText "file://") != 0 && find url (ofText "/") != 0 then
    .error .LoadingDocumentFailed
  else
    let localUrl := if find url (ofText "file://") == 0 then substr url 7 else url
    (detectContentType localUrl).bind (fun contentType =>
      match self.istream_ptr_ with
      | some stream =>
        if stream.good && !stream.eof then loadDocumentFrom ops contentType stream.content localUrl
        else .error .LoadingDocumentFailed
      | none =>
        match ops.openFile localUrl with
        | none => .error .LoadingDocumentFailed
        | some inputStream => loadDocumentFrom ops contentType inputStream localUrl)

end FileLoader

namespace SpecModel

/-- Modelled from the spec: a remote document `{contentType, documentUrl,
content}` with JSON content. -/
structure RemoteDocument where
  contentType : MediaType
  documentUrl : ByteString
  jsonContent : Json
  deriving DecidableEq

/-- Modelled from the spec: the JSON handler takes the media types JSON and
JSON-LD, parses the bytes of the stream with the parser of the JSON library
(the parameter `parse`) and keeps the parse as content of the document; a text
that does not parse, and the handlers for other media types, fail with
'loading document failed'; no file can be opened. -/
def documentOps (parse : ByteString → Option Json) : DocumentOps RemoteDocument where
  jsonAccepts := fun contentType => contentType == .json || contentType == .json_ld
  jsonOf := fun contentType inputStream documentUrl =>
    match parse inputStream with
    | some j => .ok ⟨contentType, documentUrl, j⟩
    | none => .error .LoadingDocumentFailed
  rdfAccepts := fun contentType => contentType == .n_quads
  rdfOf := fun _ _ => .error .LoadingDocumentFailed
  openFile := fun _ => none

end SpecModel


/-! ## The parse of a JSON text -/

namespace SpecModel

/-- Modelled from the spec: white space between the tokens of a JSON text
(RFC 8259): space, tab, line feed, carriage return. -/
def isSpace (b : UInt8) : Bool := b == 32 || b == 9 || b == 10 || b == 13

/-- Modelled from the spec: the text after its leading white space. -/
def skipSpace : ByteString → ByteString
  | [] => []
  | b :: rest => if isSpace b then skipSpace rest else b :: rest

/-- Modelled from the spec: a decimal digit. -/
def isDigit (b : UInt8) : Bool := 48 ≤ b && b ≤ 57

/-- Modelled from the spec: the number written by a sequence of digits. -/
def digitsValue (ds : ByteString) : Nat := ds.foldl (fun n d => 10 * n + (d.toNat - 48)) 0

/-- Modelled from the spec: an integer of at most 18 digits, with an optional
minus sign and without a leading zero; a number with a fraction or an exponent
is not read. -/
def parseInteger (s : ByteString) : Option (Json × ByteString) :=
  let negative := s.head? == some 45
  let body := if negative then s.drop 1 else s
  let digits := body.takeWhile isDigit
  let rest := body.dropWhile isDigit
  if digits.isEmpty || 18 < digits.length then none
  else if digits.head? == some 48 && 1 < digits.length then none
  else if rest.head? == some 46 || rest.head? == some 101 || rest.head? == some 69 then none
  else some (.num (if negative then - (digitsValue digits : Int) else digitsValue digits), rest)

/-- Modelled from the spec: whether a byte stands for itself inside a string:
a printable ASCII character other than the quotation mark and the backslash
(escapes and characters outside ASCII are not read). -/
def isPlain (b : UInt8) : Bool := 32 ≤ b && b ≤ 126 && b != 34 && b != 92

/-- Modelled from the spec: the characters of a string up to its closing
quotation mark, read after the opening one. -/
def parseString (s : ByteString) : Option (String × ByteString) :=
  match s.dropWhile isPlain with
  | b :: rest =>
    if b == 34 then some (String.mk ((s.takeWhile isPlain).map (fun c => Char.ofNat c.toNat)), rest)
    else none
  | [] => none

/-- Modelled from the spec: the items of an array after its opening bracket,
separated by commas, up to the closing bracket; `value` reads one item. -/
def parseElements (value : ByteString → Option (Json × ByteString)) :
    Nat → ByteString → List Json → Option (Json × ByteString)
  | 0, _, _ => none
  | n + 1, s, items =>
    match value s with
    | none => none
    | some (v, rest) =>
      match skipSpace rest with
      | b :: rest2 =>
        if b == 44 then parseElements value n rest2 (items ++ [v])
        else if b == 93 then some (.arr (items ++ [v]), rest2)
        else none
      | [] => none

/-- Modelled from the spec: the entries `"key": value` of a map after its
opening brace, separated by commas, up to the closing brace; `value` reads one
value.  The entries are kept sorted by key and a key written twice keeps its
last value, as in the `std::map` of the JSON library. -/
def parseMembers (value : ByteString → Option (Json × ByteString)) :
    Nat → ByteString → List (String × Json) → Option (Json × ByteString)
  | 0, _, _ => none
  | n + 1, s, entries =>
    match skipSpace s with
    | b :: rest =>
      if b == 34 then
        match parseString rest with
        | none => none
        | some (key, rest2) =>
          match skipSpace rest2 with
          | c :: rest3 =>
            if c == 58 then
              match value rest3 with
              | none => none
              | some (v, rest4) =>
                match skipSpace rest4 with
                | d :: rest5 =>
                  if d == 44 then parseMembers value n rest5 (insertEntry key v entries)
                  else if d == 125 then some (.obj (insertEntry key v entries), rest5)
                  else none
                | [] => none
            else none
          | [] => none
      else none
    | [] => none

/-- Modelled from the spec: one JSON value at the start of a text, after white
space, together with the text that follows it.  The first argument bounds the
depth of nesting. -/
def parseValue : Nat → ByteString → Option (Json × ByteString)
  | 0, _ => none
  | fuel + 1, s =>
    match skipSpace s with
    | [] => none
    | b :: rest =>
      if (b :: rest).take 4 == StdString.ofText "null" then some (.null, (b :: rest).drop 4)
      else if (b :: rest).take 4 == StdString.ofText "true" then
        some (.bool true, (b :: rest).drop 4)
      else if (b :: rest).take 5 == StdString.ofText "false" then
        some (.bool false, (b :: rest).drop 5)
      else if b == 34 then (parseString rest).map (fun r => (.str r.1, r.2))
      else if b == 91 then
        match skipSpace rest with
        | c :: rest2 =>
          if c == 93 then some (.arr [], rest2)
          else parseElements (parseValue fuel) (rest.length + 1) (c :: rest2) []
        | [] => none
      else if b == 123 then
        match skipSpace rest with
        | c :: rest2 =>
          if c == 125 then some (.obj [], rest2)
          else parseMembers (parseValue fuel) (rest.length + 1) (c :: rest2) []
        | [] => none
      else parseInteger (b :: rest)

/-- Modelled from the spec: the parser of the JSON library is not among the
sources (`parse JSON` in the control flow of the spec).  This is the parse of a
JSON text (RFC 8259) made of maps, arrays, strings of printable ASCII
characters without escapes, integers of at most 18 digits, `true`, `false` and
`null`, with white space between the tokens and nothing after the value; other
texts are not read.  The nesting of a text is less deep than the text is
long. -/
def parseJson (text : ByteString) : Option Json :=
  match parseValue (text.length + 1) text with
  | some (j, rest) => if (skipSpace rest).isEmpty then some j else none
  | none => none

end SpecModel


/-! ## `JsonLdUtils::deepCompare`, `deepContains` and `mergeValue` -/

namespace JsonLdUtils

/-- The inner loop of `deepCompare` on arrays: the first item of `v2` that is
not matched yet and compares equal is marked as matched; none when there is no
such item. -/
def claimMatch (cmp : Json → Bool) : List Json → List Bool → Option (List Bool)
  | y :: ys, m :: ms =>
    if !m && cmp y then some (true :: ms)
    else (claimMatch cmp ys ms).map (fun rest => m :: rest)
  | _, _ => none

mutual
/-- The comparison `JsonLdUtils::deepCompare(v1, v2)`: objects by their
entries, arrays without regard to the order of their items. -/
def deepCompare : Json → Json → Bool
  | .null, v2 => v2.is_null
  | .obj kvs, v2 =>
    match v2 with
    | .null => false
    | .obj kvs2 => if kvs.length != kvs2.length then false else deepCompareEntries kvs (.obj kvs2)
    | _ => false
  | .arr xs, v2 =>
    match v2 with
    | .null => false
    | .arr ys =>
      if xs.length != ys.length then false
      else deepCompareItems xs ys (ys.map (fun _ => false))
    | _ => false
  | .bool b, v2 => if v2.is_null then false else Json.bool b == v2
  | .num n, v2 => if v2.is_null then false else Json.num n == v2
  | .str s, v2 => if v2.is_null then false else Json.str s == v2
/-- The loop of `deepCompare` over the entries of the object `v1`. -/
def deepCompareEntries : List (String × Json) → Json → Bool
  | [], _ => true
  | (k, x) :: rest, v2 =>
    if !v2.contains k || !deepCompare x (v2.get k) then false
    else deepCompareEntries rest v2
/-- The loop of `deepCompare` over the items of the array `v1`, with the marks
of the items of `v2` matched so far. -/
def deepCompareItems : List Json → List Json → List Bool → Bool
  | [], _, _ => true
  | o1 :: rest, ys, alreadyMatched =>
    match claimMatch (fun y => deepCompare o1 y) ys alreadyMatched with
    | some marks => deepCompareItems rest ys marks
    | none => false
end

/-- The test `JsonLdUtils::deepContains(values, value)`. -/
def deepContains (values value : Json) : Bool :=
  values.elems.any (fun item => deepCompare item value)

/-- The method `push_back(value)` of the JSON library: on null and on arrays;
any other kind raises the library's type error. -/
def pushBack (values value : Json) : Except JsonLdError Json :=
  match values with
  | .null => .ok (.arr [value])
  | .arr items => .ok (.arr (items ++ [value]))
  | _ => .error .TypeError

/-- The procedure `JsonLdUtils::mergeValue(obj, key, value)`; the updated
object is returned. -/
def mergeValue (obj : Json) (key : String) (value : Json) : Except JsonLdError Json :=
  match obj with
  | .null => .ok .null
  | .obj kvs =>
    let values0 := (lookupEntry key kvs).getD .null
    let values := if values0.is_null then Json.arr [] else values0
    if key == "@list" || value.contains "@list" || !deepContains values value then
      (pushBack values value).map (fun values1 => .obj (insertEntry key values1 kvs))
    else if values0.is_null then .ok (.obj (insertEntry key values kvs))
    else .ok (.obj kvs)
  | _ => .error .TypeError

mutual
/-- Keys of every object are distinct, at every depth: the values a
`nlohmann::json` can hold. -/
def Json.wellFormed : Json → Bool
  | .arr xs => Json.wellFormedList xs
  | .obj kvs => Json.distinctKeys kvs && Json.wellFormedEntries kvs
  | _ => true
/-- Every item is well formed. -/
def Json.wellFormedList : List Json → Bool
  | [] => true
  | x :: xs => Json.wellFormed x && Json.wellFormedList xs
/-- Every entry value is well formed. -/
def Json.wellFormedEntries : List (String × Json) → Bool
  | [] => true
  | (_, x) :: rest => Json.wellFormed x && Json.wellFormedEntries rest
/-- No key occurs twice. -/
def Json.distinctKeys : List (String × Json) → Bool
  | [] => true
  | (k, _) :: rest => !hasKey k rest && Json.distinctKeys rest
end

end JsonLdUtils


/-! ## `JsonLdApi::generateNodeMap`

The node map, the blank node names and the list under construction are
passed through the calls; a node is reached by its graph name and identifier
at every use, which is what the references `graph` and `node` of the source
stand for. -/

/-- The blank node names used by `generateNodeMap`, which are outside the
sources at hand: `BlankNodeNames::get(identifier)` (none for the call without
an argument), returning the name and the generator after the call, and
`BlankNode::isBlankNodeName`. -/
structure NameOps (σ : Type) where
  get : σ → Option String → String × σ
  isBlankNodeName : String → Bool

/-- Arguments of `JsonLdApi::generateNodeMap`: element, node map, blank node
names, active graph, active subject, active property and list (none for
`nullptr`); the node map, the names and the list after the call are
returned. -/
abbrev NodeMapper (σ : Type) :=
  Json → Json → σ → String → Option Json → Option String → Option Json →
    Except JsonLdError (Json × σ × Option Json)

namespace JsonLdApi

open JsonLdUtils

/-- The side entry of a graph in which the identifiers are kept in the order
of their insertion. -/
def KEY_INSERTION_ORDER : String := "key_insertion_order"

/-- The keys visited by a loop that calls `key()` on the iterator: the keys of
an object; nothing for null and for an empty array; on any other value `key()`
raises an exception of the JSON library. -/
def iterKeys (j : Json) : Except JsonLdError (List String) :=
  match j with
  | .obj kvs => .ok (kvs.map Prod.fst)
  | .null => .ok []
  | .arr [] => .ok []
  | _ => .error .TypeError

/-- The node `nodeMap[graphName][id]`. -/
def getNode (nodeMap : Json) (graphName id : String) : Json := (nodeMap.get graphName).get id

/-- Assignment to the node `nodeMap[graphName][id]`. -/
def setNode (nodeMap : Json) (graphName id : String) (node : Json) : Except JsonLdError Json :=
  ((nodeMap.get graphName).set id node).bind (fun graph => nodeMap.set graphName graph)

/-- The call `mergeValue(node, key, value)` on the node
`nodeMap[graphName][id]`. -/
def mergeAtNode (nodeMap : Json) (graphName id key : String) (value : Json) :
    Except JsonLdError Json :=
  (mergeValue (getNode nodeMap graphName id) key value).bind (setNode nodeMap graphName id)

/-- The call `mergeValue(*subjectNode, *activeProperty, value)`. -/
def mergeAtSubject (nodeMap : Json) (graphName : String) (subjectNode : Option String)
    (activeProperty : Option String) (value : Json) : Except JsonLdError Json :=
  match subjectNode, activeProperty with
  | some subject, some property => mergeAtNode nodeMap graphName subject property value
  | _, _ => .error .NullPointer

/-- The statement `list->at(JsonLdConsts::LIST).push_back(value)`. -/
def appendToList (list value : Json) : Except JsonLdError Json :=
  (list.atKey JsonLdConsts.LIST).bind (fun items =>
    (pushBack items value).bind (fun items1 => list.set JsonLdConsts.LIST items1))

/-- Steps 4.1 and 4.2, 5.3 and 5.4, 6.6.2 and 6.6.3: the value goes to the
active property of the subject node, or to the list when there is one. -/
def attach (nodeMap : Json) (graphName : String) (subjectNode : Option String)
    (activeProperty : Option String) (list : Option Json) (value : Json) :
    Except JsonLdError (Json × Option Json) :=
  match list with
  | none =>
    (mergeAtSubject nodeMap graphName subjectNode activeProperty value).map
      (fun nodeMap1 => (nodeMap1, none))
  | some l => (appendToList l value).map (fun l1 => (nodeMap, some l1))

/-- Step 2: the entry of the active graph is created when it is missing. -/
def ensureGraph (nodeMap : Json) (activeGraph : String) : Except JsonLdError Json :=
  if !nodeMap.contains activeGraph then nodeMap.set activeGraph (.obj []) else .ok nodeMap

/-- Step 2: the subject node, by its identifier; none for `nullptr`. -/
def subjectNodeOf (nodeMap : Json) (activeGraph : String) (activeSubject : Option Json) :
    Option String :=
  match activeSubject with
  | some (.str subject) =>
    if (nodeMap.get activeGraph).contains subject then some subject else none
  | _ => none

/-- The test `s.find_first_of("_:") == 0` of step 3.1: the first character is
one of `_` and `:`. -/
def startsWithUnderscoreOrColon (s : String) : Bool :=
  match s.data with
  | [] => false
  | c :: _ => c == '_' || c == ':'

/-- Step 3.1 over the items of the `@type` entry. -/
def rewriteTypeItems {σ : Type} (names : NameOps σ) (items : List Json) (generator : σ) :
    Except JsonLdError (List Json × σ) :=
  items.foldlM (fun (acc : List Json × σ) item =>
    item.getString.map (fun s =>
      if startsWithUnderscoreOrColon s then
        ((acc.1 ++ [Json.str ((names.get acc.2 (some s)).1)]), (names.get acc.2 (some s)).2)
      else (acc.1 ++ [item], acc.2))) ([], generator)

/-- Step 3: the `@type` entry of the element after the replacement of its
items. -/
def rewriteTypes {σ : Type} (names : NameOps σ) (element : Json) (generator : σ) :
    Except JsonLdError (Json × σ) :=
  if element.contains JsonLdConsts.TYPE then
    (rewriteTypeItems names (element.get JsonLdConsts.TYPE).elems generator).bind (fun r =>
      match r.1 with
      | [] => .ok (element, r.2)
      | first :: rest =>
        (if (element.get JsonLdConsts.TYPE).is_array then
            element.set JsonLdConsts.TYPE (.arr (first :: rest))
          else element.set JsonLdConsts.TYPE first).map (fun element1 => (element1, r.2)))
  else .ok (element, generator)

/-- Steps 6.1 and 6.2: the identifier of the node, the element without its
`@id` entry, and the names after the step. -/
def nodeIdentifier {σ : Type} (names : NameOps σ) (element : Json) (generator : σ) :
    Except JsonLdError (String × Json × σ) :=
  if element.contains JsonLdConsts.ID then
    (element.get JsonLdConsts.ID).getString.map (fun id =>
      if names.isBlankNodeName id then
        ((names.get generator (some id)).1, element.erase JsonLdConsts.ID,
          (names.get generator (some id)).2)
      else (id, element.erase JsonLdConsts.ID, generator))
  else .ok ((names.get generator none).1, element, (names.get generator none).2)

/-- Step 6.3: the node is created in the graph when it is missing, and its
identifier is appended to the order of insertion. -/
def registerNode (nodeMap : Json) (graphName id : String) : Except JsonLdError Json :=
  if !(nodeMap.get graphName).contains id then
    ((nodeMap.get graphName).set id (.obj [(JsonLdConsts.ID, .str id)])).bind (fun graph1 =>
      (pushBack (graph1.get KEY_INSERTION_ORDER) (.str id)).bind (fun order =>
        (graph1.set KEY_INSERTION_ORDER order).bind (fun graph2 =>
          nodeMap.set graphName graph2)))
  else .ok nodeMap

/-- Steps 6.5 and 6.6: the node is tied to the active subject. -/
def linkNode (nodeMap : Json) (graphName id : String) (subjectNode : Option String)
    (activeSubject : Option Json) (activeProperty : Option String) (list : Option Json) :
    Except JsonLdError (Json × Option Json) :=
  match activeSubject with
  | some (.obj subject) =>
    match activeProperty with
    | some property =>
      (mergeAtNode nodeMap graphName id property (.obj subject)).map
        (fun nodeMap1 => (nodeMap1, list))
    | none => .error .NullPointer
  | _ =>
    match activeProperty with
    | some _ =>
      attach nodeMap graphName subjectNode activeProperty list
        (.obj [(JsonLdConsts.ID, .str id)])
    | none => .ok (nodeMap, list)

/-- Step 6.7: the types of the element are merged into the node. -/
def mergeTypes (nodeMap : Json) (graphName id : String) (element : Json) :
    Except JsonLdError (Json × Json) :=
  if element.contains JsonLdConsts.TYPE then
    ((element.get JsonLdConsts.TYPE).elems.foldlM (fun nm type =>
      mergeAtNode nm graphName id JsonLdConsts.TYPE type) nodeMap).map
      (fun nodeMap1 => (nodeMap1, element.erase JsonLdConsts.TYPE))
  else .ok (nodeMap, element)

/-- Step 6.8 on the node: the `@index` entry of the element is set in the
node, unless the node has one that differs. -/
def setIndex (node elemIndex : Json) : Except JsonLdError Json :=
  if node.contains JsonLdConsts.INDEX then
    (node.atKey JsonLdConsts.INDEX).bind (fun nodeIndex =>
      if !deepCompare nodeIndex elemIndex then .error .ConflictingIndexes
      else node.set JsonLdConsts.INDEX elemIndex)
  else node.set JsonLdConsts.INDEX elemIndex

/-- Step 6.8. -/
def mergeIndex (nodeMap : Json) (graphName id : String) (element : Json) :
    Except JsonLdError (Json × Json) :=
  if element.contains JsonLdConsts.INDEX then
    ((setIndex (getNode nodeMap graphName id) (element.get JsonLdConsts.INDEX)).bind
      (setNode nodeMap graphName id)).map
      (fun nodeMap1 => (nodeMap1, element.erase JsonLdConsts.INDEX))
  else .ok (nodeMap, element)

/-- Step 6.9: the values of the reverse map are processed with the referenced
node as active subject. -/
def processReverse {σ : Type} (recur : NodeMapper σ) (nodeMap : Json) (generator : σ)
    (graphName id : String) (element : Json) : Except JsonLdError (Json × σ × Json) :=
  if element.contains JsonLdConsts.REVERSE then
    (iterKeys (element.get JsonLdConsts.REVERSE)).bind (fun reverseMap_keys =>
      (reverseMap_keys.foldlM (fun (st : Json × σ) property =>
        ((element.get JsonLdConsts.REVERSE).get property).elems.foldlM
          (fun (st1 : Json × σ) reverseMap_value =>
            (recur reverseMap_value st1.1 st1.2 graphName
              (some (.obj [(JsonLdConsts.ID, .str id)])) (some property) none).map
              (fun r => (r.1, r.2.1))) st) (nodeMap, generator)).map
        (fun st => (st.1, st.2, element.erase JsonLdConsts.REVERSE)))
  else .ok (nodeMap, generator, element)

/-- Step 6.10: the `@graph` entry is processed with the identifier as active
graph. -/
def processGraph {σ : Type} (recur : NodeMapper σ) (nodeMap : Json) (generator : σ)
    (id : String) (element : Json) : Except JsonLdError (Json × σ × Json) :=
  if element.contains JsonLdConsts.GRAPH then
    (recur (element.get JsonLdConsts.GRAPH) nodeMap generator id none none none).map
      (fun r => (r.1, r.2.1, element.erase JsonLdConsts.GRAPH))
  else .ok (nodeMap, generator, element)

/-- Step 6.11: the `@included` entry is processed in the active graph. -/
def processIncluded {σ : Type} (recur : NodeMapper σ) (nodeMap : Json) (generator : σ)
    (graphName : String) (element : Json) : Except JsonLdError (Json × σ × Json) :=
  if element.contains JsonLdConsts.INCLUDED then
    (recur (element.get JsonLdConsts.INCLUDED) nodeMap generator graphName none none none).map
      (fun r => (r.1, r.2.1, element.erase JsonLdConsts.INCLUDED))
  else .ok (nodeMap, generator, element)

/-- Steps 6.12.1 to 6.12.3 for one property of the element. -/
def processProperty {σ : Type} (names : NameOps σ) (recur : NodeMapper σ) (graphName id : String)
    (element : Json) (st : Json × σ) (property : String) : Except JsonLdError (Json × σ) :=
  let renamed : String × σ :=
    if names.isBlankNodeName property then names.get st.2 (some property) else (property, st.2)
  (if !(getNode st.1 graphName id).contains renamed.1 then
      ((getNode st.1 graphName id).set renamed.1 (.arr [])).bind (setNode st.1 graphName id)
    else .ok st.1).bind (fun nodeMap1 =>
    (recur (element.get property) nodeMap1 renamed.2 graphName (some (.str id))
      (some renamed.1) none).map (fun r => (r.1, r.2.1)))

/-- Step 6.12: the remaining entries of the element, ordered by property. -/
def processProperties {σ : Type} (names : NameOps σ) (recur : NodeMapper σ) (nodeMap : Json)
    (generator : σ) (graphName id : String) (element : Json) : Except JsonLdError (Json × σ) :=
  (iterKeys element).bind (fun keys =>
    (sortKeys keys).foldlM (processProperty names recur graphName id element)
      (nodeMap, generator))

/-- Step 6: the element is a node object. -/
def processNodeObject {σ : Type} (names : NameOps σ) (recur : NodeMapper σ) (element nodeMap : Json)
    (generator : σ) (activeGraph : String) (subjectNode : Option String)
    (activeSubject : Option Json) (activeProperty : Option String) (list : Option Json) :
    Except JsonLdError (Json × σ × Option Json) :=
  (nodeIdentifier names element generator).bind (fun found =>
  (registerNode nodeMap activeGraph found.1).bind (fun nodeMap3 =>
  (linkNode nodeMap3 activeGraph found.1 subjectNode activeSubject activeProperty list).bind
    (fun linked =>
  (mergeTypes linked.1 activeGraph found.1 found.2.1).bind (fun typed =>
  (mergeIndex typed.1 activeGraph found.1 typed.2).bind (fun indexed =>
  (processReverse recur indexed.1 found.2.2 activeGraph found.1 indexed.2).bind (fun reversed =>
  (processGraph recur reversed.1 reversed.2.1 found.1 reversed.2.2).bind (fun graphed =>
  (processIncluded recur graphed.1 graphed.2.1 activeGraph graphed.2.2).bind (fun included =>
  (processProperties names recur included.1 included.2.1 activeGraph found.1 included.2.2).map
    (fun done => (done.1, done.2, linked.2))))))))))

/-- Steps 2 to 6: the element is not an array. -/
def processElement {σ : Type} (names : NameOps σ) (recur : NodeMapper σ) : NodeMapper σ :=
  fun element nodeMap generator activeGraph activeSubject activeProperty list =>
    (ensureGraph nodeMap activeGraph).bind (fun nodeMap1 =>
    (rewriteTypes names element generator).bind (fun typed =>
      if typed.1.contains JsonLdConsts.VALUE then
        (attach nodeMap1 activeGraph (subjectNodeOf nodeMap1 activeGraph activeSubject)
          activeProperty list typed.1).map (fun r => (r.1, typed.2, r.2))
      else if typed.1.contains JsonLdConsts.LIST then
        (recur (typed.1.get JsonLdConsts.LIST) nodeMap1 typed.2 activeGraph activeSubject
          activeProperty (some (.obj [(JsonLdConsts.LIST, .arr [])]))).bind (fun r =>
          (attach r.1 activeGraph (subjectNodeOf nodeMap1 activeGraph activeSubject)
            activeProperty list (r.2.2.getD (.obj [(JsonLdConsts.LIST, .arr [])]))).map
            (fun a => (a.1, r.2.1, a.2)))
      else
        processNodeObject names recur typed.1 nodeMap1 typed.2 activeGraph
          (subjectNodeOf nodeMap1 activeGraph activeSubject) activeSubject activeProperty list))

/-- The body of `JsonLdApi::generateNodeMap`, recursive calls made through
`recur`. -/
def generateNodeMapBody {σ : Type} (names : NameOps σ) (recur : NodeMapper σ) : NodeMapper σ :=
  fun element nodeMap generator activeGraph activeSubject activeProperty list =>
    match element with
    | .arr items =>
      items.foldlM (fun (st : Json × σ × Option Json) item =>
        recur item st.1 st.2.1 activeGraph activeSubject activeProperty st.2.2)
        (nodeMap, generator, list)
    | _ =>
      processElement names recur element nodeMap generator activeGraph activeSubject
        activeProperty list

/-- The function `JsonLdApi::generateNodeMap` with its six arguments, cut off
after `fuel` nested calls. -/
def generateNodeMapFrom {σ : Type} (names : NameOps σ) : Nat → NodeMapper σ
  | 0 => fun _ _ _ _ _ _ _ => .error .OutOfFuel
  | fuel + 1 => generateNodeMapBody names (generateNodeMapFrom names fuel)

/-- The function `JsonLdApi::generateNodeMap(element, nodeMap)`: the node map
and the names after the call. -/
def generateNodeMap {σ : Type} (names : NameOps σ) (fuel : Nat) (element nodeMap : Json)
    (generator : σ) : Except JsonLdError (Json × σ) :=
  (generateNodeMapFrom names fuel element nodeMap generator JsonLdConsts.DEFAULT none none
    none).map (fun r => (r.1, r.2.1))

end JsonLdApi

namespace SpecModel

/-- Modelled from the spec: the state of a `BlankNodeNames` generator, the
number of names issued and the names given to identifiers so far. -/
structure BlankNodeNames where
  counter : Nat
  issued : List (String × String)
  deriving DecidableEq, Repr

/-- Modelled from the spec: the names `_:b0`, `_:b1`, ... are issued in this
order; an identifier keeps the name it was given first, the call without an
identifier always issues a new name. -/
def blankNodeName (generator : BlankNodeNames) (identifier : Option String) :
    String × BlankNodeNames :=
  match identifier with
  | some id =>
    match generator.issued.lookup id with
    | some name => (name, generator)
    | none =>
      ("_:b" ++ toString generator.counter,
        ⟨generator.counter + 1, generator.issued ++ [(id, "_:b" ++ toString generator.counter)]⟩)
  | none => ("_:b" ++ toString generator.counter, ⟨generator.counter + 1, generator.issued⟩)

/-- Modelled from the spec: the blank node names of a processing call. -/
def nameOps : NameOps BlankNodeNames where
  get := blankNodeName
  isBlankNodeName := isBlankNodeName

/-- A generator that has issued no name. -/
def noNames : BlankNodeNames := ⟨0, []⟩

end SpecModel

/-! ## The shape of a node map -/

/-- An item of a property of a node: a value object (it has `@value`), a list
object (it has `@list`) or a node reference `{"@id": id}`. -/
def NodeMapItem (item : Json) : Prop :=
  item.contains JsonLdConsts.VALUE = true ∨ item.contains JsonLdConsts.LIST = true ∨
    ∃ id, item = .obj [(JsonLdConsts.ID, .str id)]

/-- What is stored under a key of a node: under a key that is not a keyword,
an array of value objects, list objects and node references. -/
@[reducible] def NodeEntryOk (kv : String × Json) : Prop :=
  JsonLdUtils.isKeyword kv.1 = false → ∃ items, kv.2 = .arr items ∧ ∀ item ∈ items, NodeMapItem item

/-- A node all of whose entries are as `NodeEntryOk` says. -/
@[reducible] def NodeOk (node : Json) : Prop :=
  ∀ kvs, node = .obj kvs → ∀ kv ∈ kvs, NodeEntryOk kv

/-- A graph all of whose nodes are as `NodeOk` says. -/
@[reducible] def GraphOk (graph : Json) : Prop :=
  ∀ nodes, graph = .obj nodes → ∀ n ∈ nodes, NodeOk n.2

/-- A node map all of whose graphs are as `GraphOk` says. -/
@[reducible] def NodeMapOk (nodeMap : Json) : Prop :=
  ∀ graphs, nodeMap = .obj graphs → ∀ g ∈ graphs, GraphOk g.2

/-- An active subject that is a map is a node reference. -/
@[reducible] def SubjectOk (activeSubject : Option Json) : Prop :=
  ∀ kvs, activeSubject = some (.obj kvs) → ∃ id, kvs = [(JsonLdConsts.ID, .str id)]

/-- A list under construction has an `@list` entry. -/
@[reducible] def ListOk (list : Option Json) : Prop :=
  ∀ l, list = some l → l.contains JsonLdConsts.LIST = true

/-- Calls that keep the shape of the node map and of the list. -/
@[reducible] def GoodMapper {σ : Type} (R : NodeMapper σ) : Prop :=
  ∀ el nm gen g subj prop l out, NodeMapOk nm → SubjectOk subj →
    R el nm gen g subj prop l = .ok out → NodeMapOk out.1 ∧ (ListOk l → ListOk out.2.2)


/-! ## The first pass of `JsonLdApi::normalize` -/

namespace RDF

/-- Modelled from the spec: an RDF term is an IRI, a blank node (its label
begins with `_:`) or a literal. -/
inductive Node where
  | iri (value : String)
  | blankNode (value : String)
  | literal (value datatype : String) (language : Option String)
  deriving DecidableEq, Repr

namespace Node

/-- Modelled from the spec: the test `isBlankNode()`. -/
def isBlankNode : Node → Bool
  | .blankNode _ => true
  | _ => false

/-- Modelled from the spec: the member `getValue()`, the label of a blank
node, the IRI, or the lexical form of a literal. -/
def getValue : Node → String
  | .iri value => value
  | .blankNode value => value
  | .literal value _ _ => value

end Node

/-- The members of a quad: subject, predicate, object and graph, each a
pointer that may be null (none). -/
structure Quad where
  subject : Option Node
  predicate : Option Node
  object : Option Node
  graph : Option Node
  deriving DecidableEq, Repr

namespace Quad

/-- Modelled from the spec: the member `setGraph(name)`; the graph becomes a
blank node when the name begins with `_:` and an IRI otherwise. -/
def setGraph (quad : Quad) (name : String) : Quad :=
  { quad with graph := some (if SpecModel.isBlankNodeName name then .blankNode name
      else .iri name) }

end Quad

/-- Modelled from the spec: a dataset, the graph names in the order of
`graphNames()`, each with the quads `getQuads(graphName)` returns. -/
abbrev RDFDataset := List (String × List Quad)

end RDF

namespace JsonLdApi

/-- The local variables of the first pass of `normalize`: the quads, the map
`bnodes` from a blank node label to its quads (the entry `"quads"`), kept in
the order of its keys, and the labels in the order of their insertion. -/
structure NormalizeState where
  quads : List RDF.Quad
  bnodes : List (String × List RDF.Quad)
  bnodes_insertion_order_keys : List String
  deriving DecidableEq, Repr

/-- The entry `bnodes[id]["quads"]`, if there is one. -/
def lookupQuads (id : String) : List (String × List RDF.Quad) → Option (List RDF.Quad)
  | [] => none
  | (k, v) :: rest => if k = id then some v else lookupQuads id rest

/-- Assignment `bnodes[id]["quads"] = quads` on the sorted entries of the
map. -/
def storeQuads (id : String) (quads : List RDF.Quad) :
    List (String × List RDF.Quad) → List (String × List RDF.Quad)
  | [] => [(id, quads)]
  | (k, v) :: rest =>
    if k = id then (id, quads) :: rest
    else if keyLt id k then (id, quads) :: (k, v) :: rest
    else (k, v) :: storeQuads id quads rest

/-- The block repeated for subject, object and graph of a quad: when the node
is a blank node, the quad is appended to the quads of its label, the entry
being created first when the label is new. -/
def recordNode (st : NormalizeState) (quad : RDF.Quad) (n : Option RDF.Node) : NormalizeState :=
  match n with
  | some node =>
    if node.isBlankNode then
      let id := node.getValue
      let st1 : NormalizeState :=
        if (lookupQuads id st.bnodes).isNone then
          { st with bnodes := storeQuads id [] st.bnodes,
                    bnodes_insertion_order_keys := st.bnodes_insertion_order_keys ++ [id] }
        else st
      { st1 with bnodes :=
          storeQuads id ((lookupQuads id st1.bnodes).getD [] ++ [quad]) st1.bnodes }
    else st
  | none => st

/-- The body of the inner loop of `normalize` for one quad of a graph. -/
def recordQuad (graphName : String) (st : NormalizeState) (quad0 : RDF.Quad) : NormalizeState :=
  let quad := if graphName == "@default" then quad0 else quad0.setGraph graphName
  let st0 : NormalizeState := { st with quads := st.quads ++ [quad] }
  recordNode (recordNode (recordNode st0 quad quad.subject) quad quad.object) quad quad.graph

/-- The first pass of `JsonLdApi::normalize`, up to the comment "mapping
complete": the quads of all graphs and the quads of every blank node. -/
def normalizePass (dataset : RDF.RDFDataset) : NormalizeState :=
  dataset.foldl (fun st graph => graph.2.foldl (recordQuad graph.1) st) ⟨[], [], []⟩

/-- Whether the node is the blank node with the given label. -/
def isBlankNodeWith (label : String) (n : Option RDF.Node) : Bool :=
  match n with
  | some node => node.isBlankNode && node.getValue == label
  | none => false

/-- The quad once for each of its positions subject, object and graph that
holds the blank node with the given label. -/
def occurrences (label : String) (quad : RDF.Quad) : List RDF.Quad :=
  (if isBlankNodeWith label quad.subject then [quad] else []) ++
  (if isBlankNodeWith label quad.object then [quad] else []) ++
  (if isBlankNodeWith label quad.graph then [quad] else [])

/-- The quads recorded for a blank node label, none when the label has no
entry. -/
def collected (label : String) (st : NormalizeState) : List RDF.Quad :=
  (lookupQuads label st.bnodes).getD []

end JsonLdApi


namespace Examples

/-- The prefix `ex` for `http://example.org/`. -/
def prefixContext : Context :=
  contextOf [("ex", .obj [("@id", .str "http://example.org/"), ("@prefix", .bool true)])]

end Examples

/-! ## `RDFDataset.cpp`

The member `storedGraphs` is a map from a graph name to the triples of the
graph; the triples are values of a type whose `operator==` is taken as
equality. -/

namespace RDF

/-- The type of the member `storedGraphs`: the entries of the map in the order
of their keys. -/
abbrev StoredGraphs (τ : Type) := List (String × List τ)

/-- The graph stored under a name, if any (`storedGraphs.find`). -/
def lookupGraph {τ : Type} (graphName : String) : StoredGraphs τ → Option (List τ)
  | [] => none
  | (k, v) :: rest => if k = graphName then some v else lookupGraph graphName rest

/-- Assignment `storedGraphs[graphName] = graph` on the sorted entries of the
map. -/
def storeGraph {τ : Type} (graphName : String) (graph : List τ) : StoredGraphs τ → StoredGraphs τ
  | [] => [(graphName, graph)]
  | (k, v) :: rest =>
    if k = graphName then (graphName, graph) :: rest
    else if keyLt graphName k then (graphName, graph) :: (k, v) :: rest
    else (k, v) :: storeGraph graphName graph rest

/-- The member `RDFDataset::getGraph`. -/
def getGraph {τ : Type} (storedGraphs : StoredGraphs τ) (graphName : String) : List τ :=
  match lookupGraph graphName storedGraphs with
  | some graph => graph
  | none => []

/-- The member `RDFDataset::addTripleToGraph`; the stored graphs after the
call are returned. -/
def addTripleToGraph {τ : Type} [DecidableEq τ] (storedGraphs : StoredGraphs τ)
    (graphName : String) (triple : τ) : StoredGraphs τ :=
  if (lookupGraph graphName storedGraphs).isNone ||
      !(((lookupGraph graphName storedGraphs).getD []).contains triple) then
    storeGraph graphName (((lookupGraph graphName storedGraphs).getD []) ++ [triple]) storedGraphs
  else storedGraphs

/-- The member `RDFDataset::numTriples`. -/
def numTriples {τ : Type} (storedGraphs : StoredGraphs τ) : Nat :=
  storedGraphs.foldl (fun count g => count + g.2.length) 0

/-- The stored graphs after a sequence of calls of `addTripleToGraph` on the
empty dataset. -/
def addAll {τ : Type} [DecidableEq τ] (calls : List (String × τ)) : StoredGraphs τ :=
  calls.foldl (fun storedGraphs call => addTripleToGraph storedGraphs call.1 call.2) []

end RDF


/-! ## Depth of a JSON value, and the array loop of `deepCompare` seen on the
items not matched yet -/

mutual
/-- The depth of a JSON value: 0 for a scalar, one more than the greatest
depth of its items or entry values for an array or object. -/
def Json.depth : Json → Nat
  | .arr xs => Json.depthList xs + 1
  | .obj kvs => Json.depthEntries kvs + 1
  | _ => 0
/-- The greatest depth of the items. -/
def Json.depthList : List Json → Nat
  | [] => 0
  | x :: xs => max (Json.depth x) (Json.depthList xs)
/-- The greatest depth of the entry values. -/
def Json.depthEntries : List (String × Json) → Nat
  | [] => 0
  | (_, x) :: rest => max (Json.depth x) (Json.depthEntries rest)
end

namespace JsonLdUtils

/-- The items of `v2` that are not marked as matched, in order. -/
def unmarked : List Json → List Bool → List Json
  | y :: ys, m :: ms => if m then unmarked ys ms else y :: unmarked ys ms
  | _, _ => []

/-- The list without its first item satisfying `p`, none when no item
does. -/
def removeFirst (p : Json → Bool) : List Json → Option (List Json)
  | [] => none
  | y :: ys => if p y then some ys else (removeFirst p ys).map (fun rest => y :: rest)

/-- The array loop of `deepCompare` on the items still unmatched: every item of
the first list takes away the first remaining item of the second list that
compares equal. -/
def matchAll (R : Json → Json → Bool) : List Json → List Json → Bool
  | [], _ => true
  | x :: xs, ys =>
    match removeFirst (R x) ys with
    | some rest => matchAll R xs rest
    | none => false

/-- A relation that is reflexive, symmetric and transitive on the values
satisfying `S`. -/
structure EquivOn (S : Json → Prop) (R : Json → Json → Bool) : Prop where
  refl : ∀ a, S a → R a a = true
  symm : ∀ a b, S a → S b → R a b = true → R b a = true
  trans : ∀ a b c, S a → S b → S c → R a b = true → R b c = true → R a c = true

/-- The values that are well formed and of depth below `d`. -/
def Below (d : Nat) (a : Json) : Prop := Json.wellFormed a = true ∧ a.depth < d

end JsonLdUtils


/-! ## Outcomes that do not depend on the step counter -/

/-- The outcome is a value or an error of the program, not the exhaustion of
the step counter. -/
def Completes {α : Type} (r : Except JsonLdError α) : Prop := r ≠ .error .OutOfFuel

/-- Two runs end in the same outcome, and in one that is not the exhaustion of
the step counter. -/
def SameOutcome {α : Type} (r1 r2 : Except JsonLdError α) : Prop :=
  r1 = r2 ∧ Completes r1

/-- Context processing ends: `Context::parse` never reports an exhausted step
counter. -/
def ParseCompletes (ops : ContextOps) : Prop :=
  ∀ (c : Context) (localContext : Json) (baseUrl : String) (remote : List String)
    (p1 p2 p3 : Bool), Completes (ops.parse c localContext baseUrl remote p1 p2 p3)

/-- Two expanders end in the same outcome on every element of depth below
`d`. -/
def AgreeBelow (d : Nat) (r1 r2 : Expander) : Prop :=
  ∀ (c : Context) (ap : Option String) (el : Json) (b : String) (fe o fm : Bool),
    el.depth < d → SameOutcome (r1 c ap el b fe o fm) (r2 c ap el b fe o fm)


/-! ## The keys of a result map -/

/-- The test of step 13.3 on an expanded property: a keyword, or a string
with a colon. -/
def keyOk (k : String) : Bool := JsonLdUtils.isKeyword k || k.data.contains ':'

/-- Every key is a keyword or contains a colon. -/
@[reducible] def KeysOk (kvs : List (String × Json)) : Prop :=
  ∀ kv ∈ kvs, keyOk kv.1 = true

/-- The `@reverse` entry, when present, is a map whose keys are keywords or
contain a colon. -/
@[reducible] def ReverseKeysOk (kvs : List (String × Json)) : Prop :=
  ∀ rv, lookupEntry JsonLdConsts.REVERSE kvs = some rv → ∃ rkvs, rv = .obj rkvs ∧ KeysOk rkvs

/-- A returned value that, when it is a map, has keys that are keywords or
contain a colon, in the map and in the map of its `@reverse` entry. -/
@[reducible] def OutKeys (out : Json) : Prop :=
  ∀ kvs, out = .obj kvs → KeysOk kvs ∧ ReverseKeysOk kvs

/-- What the proofs on keys assume of the recursive calls and establish for
`expand`. -/
@[reducible] def GoodKeys (R : Expander) : Prop :=
  ∀ ctx ap el base fe ord fm out, R ctx ap el base fe ord fm = .ok out → OutKeys out

/-- The invariant of the loop of step 13 on the keys of the result map. -/
@[reducible] def LoopKeys (result : Json) : Prop :=
  ∃ kvs, result = .obj kvs ∧ KeysOk kvs ∧ ReverseKeysOk kvs ∧
    (∀ v, lookupEntry JsonLdConsts.SET kvs = some v → OutKeys v)

/-- What the handling of a keyword entry establishes for the keys: the loop
invariant at a `continue`, and for an expanded value that the key is not
`@reverse` and that a value for `@set` has keys as a returned value. -/
def FlowKeys (ep : String) : JsonLdApi.Flow → Prop
  | .next r => LoopKeys r
  | .value v => ep ≠ JsonLdConsts.REVERSE ∧ (ep = JsonLdConsts.SET → OutKeys v)

/-- Value expansion returns a map whose keys are among `@id`, `@direction`,
`@index`, `@language`, `@type` and `@value`. -/
def ValueExpansionKeys (ops : ContextOps) : Prop :=
  ∀ c p v, ∃ kvs, ops.expandValue c p v = .obj kvs ∧ ∀ kv ∈ kvs, kv.1 ∈ valueMapKeys

namespace Examples

/-- The term `parent`, a reverse property for `http://ex/child`. -/
def reverseTermContext : Context :=
  contextOf [("parent", .obj [("@id", .str "http://ex/child"), ("@reverse", .bool true)])]

end Examples


/-! ## The order of insertion kept in a graph of the node map -/

/-- The identifiers a graph lists under `key_insertion_order`; none when the
graph has no such entry. -/
def insertionOrder (graph : Json) : List Json :=
  (graph.get JsonLdApi.KEY_INSERTION_ORDER).elems

/-- A graph whose nodes are those of the list `ids`: the entry
`key_insertion_order`, when there is one, is the array of `ids`, and without
it `ids` is empty; no identifier occurs twice in `ids`; the other keys of the
graph are the members of `ids`; each of them holds a map whose `@id` entry is
the key. -/
@[reducible] def GraphOrdered (graph : Json) (ids : List String) : Prop :=
  ∃ nodes, graph = .obj nodes ∧
    ((lookupEntry JsonLdApi.KEY_INSERTION_ORDER nodes = none ∧ ids = []) ∨
      lookupEntry JsonLdApi.KEY_INSERTION_ORDER nodes = some (.arr (ids.map Json.str))) ∧
    ids.Nodup ∧ JsonLdApi.KEY_INSERTION_ORDER ∉ ids ∧
    (∀ k, k ≠ JsonLdApi.KEY_INSERTION_ORDER → (hasKey k nodes = true ↔ k ∈ ids)) ∧
    (∀ id ∈ ids, ∃ nkvs, lookupEntry id nodes = some (.obj nkvs) ∧
      lookupEntry JsonLdConsts.ID nkvs = some (.str id))

/-- A node map every graph of which is as `GraphOrdered` says, for some list
of identifiers. -/
@[reducible] def NodeMapOrdered (nodeMap : Json) : Prop :=
  ∃ graphs, nodeMap = .obj graphs ∧
    ∀ g graph, lookupEntry g graphs = some graph → ∃ ids, GraphOrdered graph ids

/-- The second graph has the keys of the first, and its order of insertion
begins with that of the first. -/
@[reducible] def GraphGrows (graph graph1 : Json) : Prop :=
  (∀ k, graph.contains k = true → graph1.contains k = true) ∧
    insertionOrder graph <+: insertionOrder graph1

/-- Every graph of the second node map grows from the graph of that name in
the first. -/
@[reducible] def NodeMapGrows (nodeMap nodeMap1 : Json) : Prop :=
  (∀ g, nodeMap.contains g = true → nodeMap1.contains g = true) ∧
    ∀ g, GraphGrows (nodeMap.get g) (nodeMap1.get g)

/-- Calls that keep the graphs ordered and only let them grow. -/
@[reducible] def OrderedMapper {σ : Type} (R : NodeMapper σ) : Prop :=
  ∀ el nm gen g subj prop l out, NodeMapOrdered nm →
    R el nm gen g subj prop l = .ok out → NodeMapOrdered out.1 ∧ NodeMapGrows nm out.1

/-! # Theorems -/


/-! ## Auxiliary facts about `Except` and monadic folds -/

theorem bind_eq_ok {ε α β : Type} {x : Except ε α} {f : α → Except ε β} {b : β}
    (h : x.bind f = .ok b) : ∃ a, x = .ok a ∧ f a = .ok b := by
  cases x with
  | error e => simp [Except.bind] at h
  | ok a => exact ⟨a, rfl, h⟩

theorem map_eq_ok {ε α β : Type} {x : Except ε α} {f : α → β} {b : β}
    (h : x.map f = .ok b) : ∃ a, x = .ok a ∧ f a = b := by
  cases x with
  | error e => simp [Except.map] at h
  | ok a => simp [Except.map] at h; exact ⟨a, rfl, h⟩

theorem foldlM_ok_inv {ε α β : Type} (I : β → Prop) (f : β → α → Except ε β)
    (l : List α) (hstep : ∀ b a b', a ∈ l → I b → f b a = .ok b' → I b') :
    ∀ b0 b, I b0 → l.foldlM f b0 = .ok b → I b := by
  induction l with
  | nil =>
    intro b0 b h0 h
    simp [List.foldlM, pure, Except.pure] at h
    exact h ▸ h0
  | cons a l ih =>
    intro b0 b h0 h
    simp only [List.foldlM, bind, Except.bind] at h
    cases hfa : f b0 a with
    | error e => rw [hfa] at h; simp at h
    | ok b1 =>
      rw [hfa] at h
      exact ih (fun b a' b' ha' => hstep b a' b' (List.mem_cons_of_mem _ ha')) b1 b
        (hstep b0 a b1 (List.mem_cons_self _ _) h0 hfa) h

namespace JsonLdApi

open JsonLdUtils

theorem isNullOrGraph_not_default {ap : Option String} (h : isNullOrGraph ap = true) :
    (ap == some JsonLdConsts.DEFAULT) = false := by
  cases ap with
  | none => rfl
  | some p =>
    simp only [isNullOrGraph, beq_iff_eq] at h
    subst h
    decide

theorem expandScalar_nullOrGraph (ops : ContextOps) (ctx : Context) (ap : Option String)
    (el : Json) (psc : Option Json) (h : isNullOrGraph ap = true) :
    expandScalar ops ctx ap el psc = .ok .null := by
  cases ap with
  | none => rfl
  | some p =>
    simp only [isNullOrGraph] at h
    simp [expandScalar, h]

theorem expand_scalar_eq (ops : ContextOps) (fuel : Nat) (ctx : Context)
    (ap : Option String) (el : Json) (base : String) (fe ord fm : Bool)
    (hs : isScalar el = true) :
    expand ops (fuel + 1) ctx ap el base fe ord fm =
      expandScalar ops ctx ap el (propertyScopedContextOf ops ctx ap) := by
  cases el <;> simp [isScalar, Json.is_null, Json.is_array, Json.is_object] at hs <;>
    simp [expand, expandBody]

/-- C5: a scalar element expands to null under a null or `@graph` active
property, and otherwise to the value expansion of the element in the active
context, after that context has been replaced by the result of processing the
property-scoped context of the active property (override protected set) when
its term definition has one. -/
theorem C5_scalar_expansion (ops : ContextOps) (fuel : Nat) (ctx : Context)
    (ap : Option String) (el : Json) (base : String) (fe ord fm : Bool)
    (hs : isScalar el = true) :
    (isNullOrGraph ap = true →
      expand ops (fuel + 1) ctx ap el base fe ord fm = .ok .null) ∧
    (∀ p, ap = some p → p ≠ JsonLdConsts.GRAPH →
      ((ctx.getTermDefinition p).is_null = true ∨
        (ctx.getTermDefinition p).contains ops.LOCALCONTEXT = false) →
      expand ops (fuel + 1) ctx ap el base fe ord fm = .ok (ops.expandValue ctx p el)) ∧
    (∀ p, ap = some p → p ≠ JsonLdConsts.GRAPH →
      (ctx.getTermDefinition p).is_null = false →
      (ctx.getTermDefinition p).contains ops.LOCALCONTEXT = true →
      expand ops (fuel + 1) ctx ap el base fe ord fm =
        (termsBaseUrl ops (ctx.getTermDefinition p)).bind (fun b =>
          (ops.parse ctx ((ctx.getTermDefinition p).get ops.LOCALCONTEXT) b [] true true
            true).bind (fun c => .ok (ops.expandValue c p el)))) := by
  have hbody := expand_scalar_eq ops fuel ctx ap el base fe ord fm hs
  refine ⟨?_, ?_, ?_⟩
  · intro h
    rw [hbody]
    exact expandScalar_nullOrGraph ops ctx ap el _ h
  · intro p hp hg hno
    subst hp
    rw [hbody]
    have hg' : (p == JsonLdConsts.GRAPH) = false := by simpa using hg
    have hpsc : propertyScopedContextOf ops ctx (some p) = none := by
      rcases hno with h | h <;> simp [propertyScopedContextOf, h]
    simp [expandScalar, hg', hpsc, applyPropertyScopedContext, Except.bind]
  · intro p hp hg hnn hlc
    subst hp
    rw [hbody]
    have hg' : (p == JsonLdConsts.GRAPH) = false := by simpa using hg
    have hpsc : propertyScopedContextOf ops ctx (some p) =
        some ((ctx.getTermDefinition p).get ops.LOCALCONTEXT) := by
      simp [propertyScopedContextOf, hnn, hlc]
    simp only [expandScalar, hg', hpsc, applyPropertyScopedContext]
    cases termsBaseUrl ops (ctx.getTermDefinition p) with
    | error e => rfl
    | ok b =>
      simp only [Except.bind]
      cases ops.parse ctx ((ctx.getTermDefinition p).get ops.LOCALCONTEXT) b [] true true true <;> rfl

/-- C5 at the string "Alice" under the property `http://schema.org/name` in the
empty context. -/
theorem C5_scalar_expansion_witness :
    isScalar (.str "Alice") = true ∧
    expand SpecModel.specOps 1 SpecModel.emptyContext (some "http://schema.org/name")
      (.str "Alice") "" false false false = .ok (.obj [("@value", .str "Alice")]) :=
  ⟨by decide,
   ((C5_scalar_expansion SpecModel.specOps 0 SpecModel.emptyContext
      (some "http://schema.org/name") (.str "Alice") "" false false false (by decide)).2.1
      "http://schema.org/name" rfl (by decide) (Or.inr (by decide))).trans (by decide)⟩

theorem expandArray_scalars_fold (ops : ContextOps) (fuel : Nat) (ctx : Context)
    (ap : Option String) (base : String) (fe ord fm : Bool) (hap : isNullOrGraph ap = true) :
    ∀ (items : List Json), (∀ x ∈ items, x = .null ∨ isScalar x = true) →
    items.foldlM (fun result item =>
      (expand ops (fuel + 1) ctx ap item base fe ord fm).bind
        (fun expandedItem =>
          .ok (appendExpanded result (wrapListItem ctx ap expandedItem)))) ([] : List Json)
      = (.ok [] : Except JsonLdError (List Json)) := by
  intro items
  induction items with
  | nil => intro _; rfl
  | cons x xs ih =>
    intro h
    have hx : expand ops (fuel + 1) ctx ap x base fe ord fm = .ok .null := by
      rcases h x (List.mem_cons_self _ _) with h0 | h1
      · subst h0; rfl
      · rw [expand_scalar_eq ops fuel ctx ap x base fe ord fm h1]
        exact expandScalar_nullOrGraph ops ctx ap x _ hap
    have hw : wrapListItem ctx ap .null = .null := by
      cases ap <;> simp [wrapListItem, Json.is_array]
    simp only [List.foldlM, bind, hx, Except.bind, hw, appendExpanded]
    exact ih (fun y hy => h y (List.mem_cons_of_mem _ hy))

end JsonLdApi

namespace JsonLdApi

open JsonLdUtils

/-- C6: an array whose items are all scalars or null expands, under a null or
`@graph` active property, to the empty array. -/
theorem C6_free_floating_scalars_dropped (ops : ContextOps) (fuel : Nat) (ctx : Context)
    (ap : Option String) (items : List Json) (base : String) (fe ord fm : Bool)
    (hap : isNullOrGraph ap = true)
    (hitems : ∀ x ∈ items, x = .null ∨ isScalar x = true) :
    expand ops (fuel + 2) ctx ap (.arr items) base fe ord fm = .ok (.arr []) := by
  have hfe := isNullOrGraph_not_default hap
  show expandBody ops (expand ops (fuel + 1)) ctx ap (.arr items) base fe ord fm = _
  simp only [expandBody, expandArrayElement, hfe, Bool.false_eq_true, if_false]
  rw [expandArray_scalars_fold ops fuel ctx ap base fe ord fm hap items hitems]
  rfl

/-- C6 at the array `["loose"]` with a null active property. -/
theorem C6_free_floating_scalars_dropped_witness :
    expand SpecModel.specOps 2 SpecModel.emptyContext none (.arr [.str "loose"]) "" false
      false false = .ok (.arr []) :=
  C6_free_floating_scalars_dropped SpecModel.specOps 0 SpecModel.emptyContext none
    [.str "loose"] "" false false false (by decide) (by decide)

end JsonLdApi


namespace JsonLdApi

open JsonLdUtils

theorem finishResult_cases {ops : ContextOps} {ap : Option String} {fe : Bool} {result out : Json}
    (h : finishResult ops ap fe result = .ok out) :
    out = .null ∨ ∃ r, out = dropFreeFloating ap fe r := by
  unfold finishResult at h
  split_ifs at h <;>
    first
    | (cases h; first | (left; rfl) | (right; exact ⟨_, rfl⟩))
    | (obtain ⟨r, _, hr⟩ := map_eq_ok h; right; exact ⟨r, hr.symm⟩)

theorem expandObjectElement_finish {ops : ContextOps} {recur : Expander} {ctx : Context}
    {ap : Option String} {el : Json} {base : String} {psc : Option Json} {fe ord fm : Bool}
    {out : Json}
    (h : expandObjectElement ops recur ctx ap el base psc fe ord fm = .ok out) :
    ∃ result, finishResult ops ap fe result = .ok out := by
  unfold expandObjectElement at h
  obtain ⟨_, _, h⟩ := bind_eq_ok h
  obtain ⟨_, _, h⟩ := bind_eq_ok h
  obtain ⟨_, _, h⟩ := bind_eq_ok h
  obtain ⟨st, _, h⟩ := bind_eq_ok h
  obtain ⟨_, _, h⟩ := bind_eq_ok h
  exact ⟨st.1, h⟩

theorem dropFreeFloating_nullOrGraph (ap : Option String) (fe : Bool) (r : Json)
    (hap : isNullOrGraph ap = true) :
    dropFreeFloating ap fe r ≠ .obj [] ∧
    (dropFreeFloating ap fe r).contains JsonLdConsts.VALUE = false ∧
    (dropFreeFloating ap fe r).contains JsonLdConsts.LIST = false ∧
    (fe = false → ¬ ((dropFreeFloating ap fe r).contains JsonLdConsts.ID = true ∧
      (dropFreeFloating ap fe r).size = 1)) := by
  unfold dropFreeFloating
  simp only [hap, if_true]
  split
  · simp [Json.contains, Json.size]
  · split
    · simp [Json.contains, Json.size]
    · split
      · simp [Json.contains, Json.size]
      · rename_i h1 h2 h3
        cases r with
        | obj kvs =>
          simp only [Json.is_null, Json.is_object, Bool.not_false, Bool.true_and,
            Bool.and_true, Bool.or_eq_true, not_or, Bool.not_eq_true] at h2 h3
          obtain ⟨⟨h2a, h2b⟩, h2c⟩ := h2
          refine ⟨?_, h2b, h2c, ?_⟩
          · intro e
            cases e
            simp [Json.empty, Json.size] at h2a
          · intro hfe ⟨hid, hsz⟩
            subst hfe
            simp [hid, hsz] at h3
        | null => simp [Json.contains, Json.size]
        | bool b => simp [Json.contains]
        | num n => simp [Json.contains]
        | str s => simp [Json.contains]
        | arr xs => simp [Json.contains]

theorem dropFreeFloating_drops (ap : Option String) (fe : Bool) (r : Json)
    (hap : isNullOrGraph ap = true)
    (hr : r = .obj [] ∨
      (r.is_object = true ∧
        (r.contains JsonLdConsts.VALUE = true ∨ r.contains JsonLdConsts.LIST = true)) ∨
      (fe = false ∧ r.contains JsonLdConsts.ID = true ∧ r.size = 1)) :
    dropFreeFloating ap fe r = .null := by
  unfold dropFreeFloating
  simp only [hap, if_true]
  split
  · rfl
  · rcases hr with h | ⟨ho, h⟩ | ⟨hfe, hid, hsz⟩
    · subst h; rfl
    · have hn : r.is_null = false := by cases r <;> simp_all [Json.is_object, Json.is_null]
      rcases h with h | h <;> simp [hn, ho, h]
    · have hn : r.is_null = false := by cases r <;> simp_all [Json.contains, Json.is_null]
      subst hfe
      simp [hn, hid, hsz]

/-- C8: with a null or `@graph` active property, expanding a map never returns
an empty map, nor a map containing `@value` or `@list`, nor (without
`frameExpansion`) a map whose only entry is `@id`; step 19 turns each of these
results into null. -/
theorem C8_free_floating_values_dropped (ops : ContextOps) (fuel : Nat) (ctx : Context)
    (ap : Option String) (kvs : List (String × Json)) (base : String) (fe ord fm : Bool)
    (out : Json) (hap : isNullOrGraph ap = true)
    (h : expand ops fuel ctx ap (.obj kvs) base fe ord fm = .ok out) :
    (out ≠ .obj [] ∧ out.contains JsonLdConsts.VALUE = false ∧
      out.contains JsonLdConsts.LIST = false ∧
      (fe = false → ¬ (out.contains JsonLdConsts.ID = true ∧ out.size = 1))) ∧
    (∀ r : Json, (r = .obj [] ∨
        (r.is_object = true ∧
          (r.contains JsonLdConsts.VALUE = true ∨ r.contains JsonLdConsts.LIST = true)) ∨
        (fe = false ∧ r.contains JsonLdConsts.ID = true ∧ r.size = 1)) →
      dropFreeFloating ap fe r = .null) := by
  refine ⟨?_, fun r hr => dropFreeFloating_drops ap fe r hap hr⟩
  cases fuel with
  | zero => cases h
  | succ n =>
    have hfe := isNullOrGraph_not_default hap
    change expandBody ops (expand ops n) ctx ap (.obj kvs) base fe ord fm = .ok out at h
    simp only [expandBody, hfe, Bool.false_eq_true, if_false] at h
    obtain ⟨result, hfin⟩ := expandObjectElement_finish h
    rcases finishResult_cases hfin with h0 | ⟨r, hr⟩
    · subst h0
      simp [Json.contains, Json.size]
    · rw [hr]
      exact dropFreeFloating_nullOrGraph ap fe r hap

/-- C8 at the map with the single entry `@id`: the result is null. -/
theorem C8_free_floating_values_dropped_witness :
    expand SpecModel.specOps 3 SpecModel.emptyContext none
      (.obj [("@id", .str "http://example.org/a")]) "" false false false = .ok .null ∧
    (Json.null ≠ .obj [] ∧ Json.null.contains JsonLdConsts.VALUE = false ∧
      Json.null.contains JsonLdConsts.LIST = false ∧
      (false = false → ¬ (Json.null.contains JsonLdConsts.ID = true ∧ Json.null.size = 1))) :=
  ⟨by decide,
   (C8_free_floating_values_dropped SpecModel.specOps 3 SpecModel.emptyContext none
      [("@id", .str "http://example.org/a")] "" false false false .null (by decide)
      (by decide)).1⟩

end JsonLdApi


/-! ## Facts about the sorted-map operations -/

theorem lookupEntry_insertEntry_self (k : String) (v : Json) (kvs : List (String × Json)) :
    lookupEntry k (insertEntry k v kvs) = some v := by
  induction kvs with
  | nil => simp [insertEntry, lookupEntry]
  | cons kv rest ih =>
    obtain ⟨k', v'⟩ := kv
    simp only [insertEntry]
    split
    · simp [lookupEntry]
    · split
      · simp [lookupEntry]
      · rename_i h _
        simp [lookupEntry, h, ih]

theorem lookupEntry_insertEntry_ne {k k' : String} (v : Json) (kvs : List (String × Json))
    (h : k' ≠ k) : lookupEntry k' (insertEntry k v kvs) = lookupEntry k' kvs := by
  induction kvs with
  | nil => simp [insertEntry, lookupEntry, Ne.symm h]
  | cons kv rest ih =>
    obtain ⟨k1, v1⟩ := kv
    simp only [insertEntry]
    split
    · rename_i h1
      subst h1
      simp [lookupEntry, Ne.symm h]
    · split
      · simp [lookupEntry, Ne.symm h]
      · simp only [lookupEntry, ih]

theorem insertEntry_insertEntry (k : String) (v1 v2 : Json) (kvs : List (String × Json)) :
    insertEntry k v2 (insertEntry k v1 kvs) = insertEntry k v2 kvs := by
  induction kvs with
  | nil => simp [insertEntry]
  | cons kv rest ih =>
    obtain ⟨k', v'⟩ := kv
    simp only [insertEntry]
    split
    · simp [insertEntry]
    · split
      · simp [insertEntry]
      · rename_i h1 h2
        simp [insertEntry, h1, h2, ih]

theorem mem_insertEntry {k : String} {v : Json} {kvs : List (String × Json)}
    {kv : String × Json} (h : kv ∈ insertEntry k v kvs) : kv = (k, v) ∨ kv ∈ kvs := by
  induction kvs with
  | nil => simp [insertEntry] at h; exact Or.inl h
  | cons e rest ih =>
    obtain ⟨k', v'⟩ := e
    simp only [insertEntry] at h
    split at h
    · simp only [List.mem_cons] at h
      rcases h with h | h
      · exact Or.inl h
      · exact Or.inr (List.mem_cons_of_mem _ h)
    · split at h
      · simp only [List.mem_cons] at h
        rcases h with h | h | h
        · exact Or.inl h
        · exact Or.inr (h ▸ List.mem_cons_self _ _)
        · exact Or.inr (List.mem_cons_of_mem _ h)
      · simp only [List.mem_cons] at h
        rcases h with h | h
        · exact Or.inr (h ▸ List.mem_cons_self _ _)
        · rcases ih h with h | h
          · exact Or.inl h
          · exact Or.inr (List.mem_cons_of_mem _ h)

theorem mem_insertEntry_self (k : String) (v : Json) (kvs : List (String × Json)) :
    (k, v) ∈ insertEntry k v kvs := by
  induction kvs with
  | nil => simp [insertEntry]
  | cons e rest ih =>
    obtain ⟨k', v'⟩ := e
    simp only [insertEntry]
    split
    · exact List.mem_cons_self _ _
    · split
      · exact List.mem_cons_self _ _
      · exact List.mem_cons_of_mem _ ih

theorem lookupEntry_some_mem {k : String} {v : Json} {kvs : List (String × Json)}
    (h : lookupEntry k kvs = some v) : (k, v) ∈ kvs := by
  induction kvs with
  | nil => simp [lookupEntry] at h
  | cons e rest ih =>
    obtain ⟨k', v'⟩ := e
    simp only [lookupEntry] at h
    split at h
    · rename_i h1
      cases h
      subst h1
      exact List.mem_cons_self _ _
    · exact List.mem_cons_of_mem _ (ih h)

theorem hasKey_iff_mem {k : String} {kvs : List (String × Json)} :
    hasKey k kvs = true ↔ ∃ kv ∈ kvs, kv.1 = k := by
  induction kvs with
  | nil => simp [hasKey, lookupEntry]
  | cons e rest ih =>
    obtain ⟨k', v'⟩ := e
    simp only [hasKey, lookupEntry] at ih ⊢
    split
    · rename_i h1
      simp [h1]
    · rename_i h1
      simp only [ih, List.mem_cons, exists_eq_or_imp]
      simp [h1]

theorem hasKey_insertEntry (k k' : String) (v : Json) (kvs : List (String × Json)) :
    hasKey k' (insertEntry k v kvs) = (k' == k || hasKey k' kvs) := by
  by_cases h : k' = k
  · subst h
    simp [hasKey, lookupEntry_insertEntry_self]
  · simp [hasKey, lookupEntry_insertEntry_ne v kvs h, h]

/-! ## Facts about `addValue` -/

namespace JsonLdUtils

theorem appended_appended (kvs : List (String × Json)) (key : String) (xs ys : List Json) :
    appended (appended kvs key xs) key ys = appended kvs key (xs ++ ys) := by
  simp [appended, lookupEntry_insertEntry_self, entryAsArray, Json.asArray,
    insertEntry_insertEntry, List.append_assoc]

theorem addValueOne_appended (kvs : List (String × Json)) (key : String) (xs : List Json)
    (v : Json) :
    addValueOne (.obj (appended kvs key xs)) key v = .ok (.obj (appended kvs key (xs ++ [v]))) := by
  simp [addValueOne, appended, Json.contains, hasKey, lookupEntry_insertEntry_self, Json.get,
    isArray, Json.is_array, Json.set, Json.asArray, insertEntry_insertEntry, List.append_assoc]

theorem addValuePrep_appended (kvs : List (String × Json)) (key : String) (xs : List Json) :
    addValuePrep (.obj (appended kvs key xs)) key true = .ok (.obj (appended kvs key xs)) := by
  simp [addValuePrep, appended, Json.contains, hasKey, lookupEntry_insertEntry_self, Json.get,
    isArray, Json.is_array]

end JsonLdUtils

namespace JsonLdUtils

theorem addedTo_cons (kvs : List (String × Json)) (key : String) (x : Json) (xs : List Json) :
    addedTo kvs key (x :: xs) = appended kvs key (x :: xs) := by
  unfold addedTo
  split
  · rename_i h; cases h
  · rfl

theorem addedTo_addedTo (kvs : List (String × Json)) (key : String) (xs ys : List Json) :
    addedTo (addedTo kvs key xs) key ys = addedTo kvs key (xs ++ ys) := by
  by_cases hcase : (∃ zs, lookupEntry key kvs = some (.arr zs)) ∧ xs = []
  · obtain ⟨⟨zs, hz⟩, hx⟩ := hcase
    subst hx
    simp [addedTo, hz]
  · have h1 : addedTo kvs key xs = appended kvs key xs := by
      cases xs with
      | cons x xs => exact addedTo_cons kvs key x xs
      | nil =>
        unfold addedTo
        cases hl : lookupEntry key kvs with
        | none => rfl
        | some v =>
          cases v with
          | arr zs => exact absurd ⟨⟨zs, hl⟩, rfl⟩ hcase
          | _ => rfl
    rw [h1]
    cases ys with
    | nil =>
      simp only [List.append_nil, h1]
      simp [addedTo, appended, lookupEntry_insertEntry_self]
    | cons y ys =>
      rw [addedTo_cons, appended_appended]
      cases xs with
      | nil =>
        simp only [List.nil_append, addedTo_cons]
      | cons x xs => simp only [List.cons_append, addedTo_cons]

theorem addValuePrep_addedTo (kvs : List (String × Json)) (key : String) :
    addValuePrep (.obj kvs) key true = .ok (.obj (addedTo kvs key [])) := by
  unfold addValuePrep addedTo
  cases hl : lookupEntry key kvs with
  | none => simp [Json.contains, hasKey, hl, Json.set, appended, entryAsArray]
  | some v =>
    cases v <;>
      simp [Json.contains, hasKey, hl, Json.get, isArray, Json.is_array, Json.set, appended,
        entryAsArray, Json.asArray]

theorem addValueOne_addedTo (kvs : List (String × Json)) (key : String) (v : Json) :
    addValueOne (.obj (addedTo kvs key [])) key v = .ok (.obj (addedTo kvs key [v])) := by
  rw [addedTo_cons]
  unfold addedTo
  split
  · rename_i zs _ hl _
    simp [addValueOne, Json.contains, hasKey, hl, Json.get, isArray, Json.is_array, Json.set,
      appended, entryAsArray, Json.asArray]
  · have := addValueOne_appended kvs key [] v
    simpa using this

mutual
theorem addValue_obj (key : String) :
    ∀ (v : Json) (kvs : List (String × Json)),
      addValue (.obj kvs) key v true = .ok (.obj (addedTo kvs key v.flatten))
  | .arr vs, kvs => by
    rw [addValue, addValuePrep_addedTo]
    simp only []
    rw [addValueList_obj key vs]
    simp [Json.flatten]
  | .null, kvs => by
    rw [addValue, addValuePrep_addedTo]; simp [Except.bind, addValueOne_addedTo, Json.flatten]
  | .bool b, kvs => by
    rw [addValue, addValuePrep_addedTo]; simp [Except.bind, addValueOne_addedTo, Json.flatten]
  | .num n, kvs => by
    rw [addValue, addValuePrep_addedTo]; simp [Except.bind, addValueOne_addedTo, Json.flatten]
  | .str s, kvs => by
    rw [addValue, addValuePrep_addedTo]; simp [Except.bind, addValueOne_addedTo, Json.flatten]
  | .obj o, kvs => by
    rw [addValue, addValuePrep_addedTo]; simp [Except.bind, addValueOne_addedTo, Json.flatten]
theorem addValueList_obj (key : String) :
    ∀ (vs : List Json) (kvs : List (String × Json)) (xs : List Json),
      addValueList (.obj (addedTo kvs key xs)) key vs true =
        .ok (.obj (addedTo kvs key (xs ++ Json.flattenList vs)))
  | [], kvs, xs => by
    rw [addValueList]
    simp [Json.flattenList]
  | v :: vs, kvs, xs => by
    rw [addValueList, addValue_obj key v]
    simp only []
    rw [addedTo_addedTo, addValueList_obj key vs]
    simp [Json.flattenList]
end

end JsonLdUtils


theorem Json.get_of_not_contains {j : Json} {k : String} (h : j.contains k = false) :
    j.get k = .null := by
  cases j with
  | obj kvs =>
    simp only [Json.contains, hasKey] at h
    cases hl : lookupEntry k kvs with
    | none => simp [Json.get, hl]
    | some v => simp [hl] at h
  | _ => rfl

theorem Json.ite_contains_get (j : Json) (k : String) :
    (if j.contains k = true then j.get k else Json.null) = j.get k := by
  by_cases h : j.contains k = true
  · simp [h]
  · simp only [h, if_false]
    exact (Json.get_of_not_contains (by simpa using h)).symm

theorem Json.contains_of_get_str {j : Json} {k s : String} (h : j.get k = .str s) :
    j.contains k = true := by
  cases hc : j.contains k with
  | true => rfl
  | false => rw [Json.get_of_not_contains hc] at h; cases h

namespace JsonLdApi

open JsonLdUtils

theorem addValue_single (kvs : List (String × Json)) (key : String) (v : Json)
    (hv : v.is_array = false) :
    addValue (.obj kvs) key v true =
      .ok (.obj (insertEntry key (.arr (entryAsArray (lookupEntry key kvs) ++ [v])) kvs)) := by
  rw [addValue_obj]
  have hf : v.flatten = [v] := by cases v <;> simp_all [Json.flatten, Json.is_array]
  rw [hf, addedTo_cons]
  rfl

theorem jsonLiteral_eq (v : Json) :
    Json.obj (insertEntry JsonLdConsts.TYPE (.str JsonLdConsts.JSON)
      (insertEntry JsonLdConsts.VALUE v [])) =
    .obj [("@type", .str "@json"), ("@value", v)] := by
  have h1 : ("@value" = "@type") = False := by decide
  have h2 : keyLt "@type" "@value" = true := by decide
  simp [insertEntry, JsonLdConsts.TYPE, JsonLdConsts.VALUE, JsonLdConsts.JSON, h1, h2]

theorem expandEntry_property (ops : ContextOps) (recur : Expander) (ctx tsc : Context)
    (ap : Option String) (element : Json) (base : String) (fe ord fm : Bool)
    (inputType : String) (st : Json × Json) (key : String)
    (hkey : key ≠ JsonLdConsts.CONTEXT)
    (hne : ops.expandIri ctx key false true ≠ "")
    (hcolon : ':' ∈ (ops.expandIri ctx key false true).data)
    (hkw : isKeyword (ops.expandIri ctx key false true) = false) :
    expandEntry ops recur ctx tsc ap element base fe ord fm inputType st key =
      (expandPropertyEntry ops recur ctx base fe ord key (ops.expandIri ctx key false true)
        (element.get key) st.1).map (fun r => (r, st.2)) := by
  unfold expandEntry
  have h1 : (key == JsonLdConsts.CONTEXT) = false := by simpa using hkey
  have h2 : (ops.expandIri ctx key false true == "") = false := by simpa using hne
  have h3 : (ops.expandIri ctx key false true).data.contains ':' = true := by
    simpa using hcolon
  simp [h1, h2, h3, hcolon, hkw]

/-- C10 (amended): for a key whose term definition has type mapping `@json`,
whose expanded property is not a keyword, whose container mapping includes
neither `@list` nor `@graph` alone, and which is not a reverse property, the
entry under the expanded property becomes its previous items followed by the
single item `{"@type": "@json", "@value": v}` with `v` the value of the key,
unchanged. -/
theorem C10_json_literal_stored (ops : ContextOps) (recur : Expander) (ctx tsc : Context)
    (ap : Option String) (element : Json) (base : String) (fe ord fm : Bool)
    (inputType key : String) (kvs : List (String × Json)) (nests : Json)
    (hkey : key ≠ JsonLdConsts.CONTEXT)
    (hne : ops.expandIri ctx key false true ≠ "")
    (hcolon : ':' ∈ (ops.expandIri ctx key false true).data)
    (hkw : isKeyword (ops.expandIri ctx key false true) = false)
    (htype : (ctx.getTermDefinition key).get JsonLdConsts.TYPE = .str JsonLdConsts.JSON)
    (hlist : arrayContains ((ctx.getTermDefinition key).get JsonLdConsts.CONTAINER)
      JsonLdConsts.LIST = false)
    (hgraph : arrayContains ((ctx.getTermDefinition key).get JsonLdConsts.CONTAINER)
        JsonLdConsts.GRAPH = false ∨
      arrayContains ((ctx.getTermDefinition key).get JsonLdConsts.CONTAINER)
        JsonLdConsts.ID = true ∨
      arrayContains ((ctx.getTermDefinition key).get JsonLdConsts.CONTAINER)
        JsonLdConsts.INDEX = true)
    (hrev : ctx.isReverseProperty key = .ok false) :
    expandEntry ops recur ctx tsc ap element base fe ord fm inputType (.obj kvs, nests) key =
      .ok (.obj (insertEntry (ops.expandIri ctx key false true)
        (.arr (entryAsArray (lookupEntry (ops.expandIri ctx key false true) kvs) ++
          [.obj [("@type", .str "@json"), ("@value", element.get key)]])) kvs), nests) := by
  rw [expandEntry_property ops recur ctx tsc ap element base fe ord fm inputType _ key hkey hne
    hcolon hkw]
  have hc := Json.contains_of_get_str htype
  have hg : toGraphObjects ((ctx.getTermDefinition key).get JsonLdConsts.CONTAINER)
      (.obj [("@type", .str "@json"), ("@value", element.get key)]) =
      .obj [("@type", .str "@json"), ("@value", element.get key)] := by
    unfold toGraphObjects
    rcases hgraph with h | h | h <;> simp [h]
  simp only [expandPropertyEntry, expandPropertyValue, Json.ite_contains_get, hc, htype,
    beq_self_eq_true, Bool.and_self, if_true, jsonLiteral_eq, Except.bind, Json.is_null,
    Bool.false_eq_true, if_false, toListObject, hlist, Bool.false_and, hg, storeProperty, hrev]
  rw [addValue_single _ _ _ (by rfl)]
  rfl

end JsonLdApi

namespace JsonLdApi

open JsonLdUtils

/-- C10 at spec scenario 6: the value `{"x": 1}` of the term `v`. -/
theorem C10_json_literal_stored_witness :
    expandEntry SpecModel.specOps (expand SpecModel.specOps 3) Examples.jsonContext
      Examples.jsonContext none (.obj [("v", .obj [("x", .num 1)])]) "" false false false ""
      (.obj [], .obj []) "v" =
    .ok (.obj [("http://ex/v",
      .arr [.obj [("@type", .str "@json"), ("@value", .obj [("x", .num 1)])]])], .obj []) :=
  (C10_json_literal_stored SpecModel.specOps (expand SpecModel.specOps 3) Examples.jsonContext
    Examples.jsonContext none (.obj [("v", .obj [("x", .num 1)])]) "" false false false "" "v"
    [] (.obj []) (by decide) (by decide) (by decide) (by decide) (by decide) (by decide)
    (Or.inl (by decide)) (by decide)).trans (by decide)

/-- C10 as stated fails: under a term with type mapping `@json` and a list
container the JSON literal is not an item of the entry; the entry holds a
list object around it. -/
theorem C10_counterexample :
    expand SpecModel.specOps 3 Examples.jsonListContext none
      (.obj [("v", .obj [("x", .num 1)])]) "" false false false =
    .ok (.obj [("http://ex/v", .arr [.obj [("@list",
      .arr [.obj [("@type", .str "@json"), ("@value", .obj [("x", .num 1)])]])]])]) ∧
    Json.arr [.obj [("@list",
      .arr [.obj [("@type", .str "@json"), ("@value", .obj [("x", .num 1)])]])]] ≠
    .arr [.obj [("@type", .str "@json"), ("@value", .obj [("x", .num 1)])]] := by
  decide

/-- C9 (amended): for a key whose container mapping includes `@list` (and not
`@graph` alone), which is not a reverse property and whose expanded value is
neither null nor a list object, the entry under the expanded property becomes
its previous items followed by exactly one list object `{"@list": L}`, `L`
being the expanded value taken as an array. -/
theorem C9_list_container (ops : ContextOps) (recur : Expander) (ctx tsc : Context)
    (ap : Option String) (element : Json) (base : String) (fe ord fm : Bool)
    (inputType key : String) (kvs : List (String × Json)) (nests ev : Json)
    (hkey : key ≠ JsonLdConsts.CONTEXT)
    (hne : ops.expandIri ctx key false true ≠ "")
    (hcolon : ':' ∈ (ops.expandIri ctx key false true).data)
    (hkw : isKeyword (ops.expandIri ctx key false true) = false)
    (hlist : arrayContains ((ctx.getTermDefinition key).get JsonLdConsts.CONTAINER)
      JsonLdConsts.LIST = true)
    (hgraph : arrayContains ((ctx.getTermDefinition key).get JsonLdConsts.CONTAINER)
        JsonLdConsts.GRAPH = false ∨
      arrayContains ((ctx.getTermDefinition key).get JsonLdConsts.CONTAINER)
        JsonLdConsts.ID = true ∨
      arrayContains ((ctx.getTermDefinition key).get JsonLdConsts.CONTAINER)
        JsonLdConsts.INDEX = true)
    (hrev : ctx.isReverseProperty key = .ok false)
    (hev : expandPropertyValue ops recur ctx base fe ord key (ctx.getTermDefinition key)
      ((ctx.getTermDefinition key).get JsonLdConsts.CONTAINER) (element.get key) = .ok ev)
    (hnn : ev.is_null = false) (hnl : isListObject ev = false) :
    expandEntry ops recur ctx tsc ap element base fe ord fm inputType (.obj kvs, nests) key =
      .ok (.obj (insertEntry (ops.expandIri ctx key false true)
        (.arr (entryAsArray (lookupEntry (ops.expandIri ctx key false true) kvs) ++
          [.obj [("@list", .arr ev.asArray)]])) kvs), nests) := by
  rw [expandEntry_property ops recur ctx tsc ap element base fe ord fm inputType _ key hkey hne
    hcolon hkw]
  have hg : toGraphObjects ((ctx.getTermDefinition key).get JsonLdConsts.CONTAINER)
      (.obj [("@list", .arr ev.asArray)]) = .obj [("@list", .arr ev.asArray)] := by
    unfold toGraphObjects
    rcases hgraph with h | h | h <;> simp [h]
  have hto : toListObject ((ctx.getTermDefinition key).get JsonLdConsts.CONTAINER) ev =
      .obj [("@list", .arr ev.asArray)] := by
    unfold toListObject
    rw [hlist, hnl]
    rfl
  simp only [expandPropertyEntry, Json.ite_contains_get, hev, Except.bind, hnn,
    Bool.false_eq_true, if_false, hto, hg, storeProperty, hrev]
  rw [addValue_single _ _ _ (by rfl)]
  rfl

/-- C9 at spec scenario 3: the value `["a", "b"]` of the list term `tags`. -/
theorem C9_list_container_witness :
    expandEntry SpecModel.specOps (expand SpecModel.specOps 3) Examples.tagsContext
      Examples.tagsContext none (.obj [("tags", .arr [.str "a", .str "b"])]) "" false false
      false "" (.obj [], .obj []) "tags" =
    .ok (.obj [("http://example.org/tags", .arr [.obj [("@list",
      .arr [.obj [("@value", .str "a")], .obj [("@value", .str "b")]])]])], .obj []) :=
  (C9_list_container SpecModel.specOps (expand SpecModel.specOps 3) Examples.tagsContext
    Examples.tagsContext none (.obj [("tags", .arr [.str "a", .str "b"])]) "" false false
    false "" "tags" [] (.obj [])
    (.arr [.obj [("@value", .str "a")], .obj [("@value", .str "b")]])
    (by decide) (by decide) (by decide) (by decide) (by decide) (Or.inl (by decide))
    (by decide) (by decide) (by decide) (by decide)).trans (by decide)

/-- C9 as stated fails: with two list terms for one property the entry holds
two list objects after the second key, not exactly one. -/
theorem C9_counterexample :
    expand SpecModel.specOps 3 Examples.twoListTermsContext none
      (.obj [("a", .arr [.str "x"]), ("b", .arr [.str "y"])]) "" false false false =
    .ok (.obj [("http://example.org/t", .arr [
      .obj [("@list", .arr [.obj [("@value", .str "x")]])],
      .obj [("@list", .arr [.obj [("@value", .str "y")]])]])]) ∧
    Json.arr [.obj [("@list", .arr [.obj [("@value", .str "x")]])],
      .obj [("@list", .arr [.obj [("@value", .str "y")]])]] ≠
    .arr [.obj [("@list", .arr [.obj [("@value", .str "y")]])]] := by
  decide

/-- C3 fails on the code: the map `{"@graph": null}` expands to
`{"@graph": [null]}` (step 13.4.5 wraps the null result of the recursive call
into an array), and expanding that output gives `{"@graph": []}`. -/
theorem C3_expand_not_idempotent_at_graph_null :
    expand SpecModel.specOps 3 SpecModel.emptyContext none (.obj [("@graph", .null)]) ""
      false false false = .ok (.obj [("@graph", .arr [.null])]) ∧
    expand SpecModel.specOps 3 SpecModel.emptyContext none (.obj [("@graph", .arr [.null])]) ""
      false false false = .ok (.obj [("@graph", .arr [])]) ∧
    Json.obj [("@graph", .arr [])] ≠ .obj [("@graph", .arr [.null])] := by
  decide

end JsonLdApi


/-! ## The shape of returned values (top level) -/

namespace JsonLdUtils

theorem lookupEntry_addedTo_ne {k k' : String} (kvs : List (String × Json)) (items : List Json)
    (h : k' ≠ k) : lookupEntry k' (addedTo kvs k items) = lookupEntry k' kvs := by
  unfold addedTo
  split
  · rfl
  · exact lookupEntry_insertEntry_ne _ _ h

theorem mem_addedTo {k : String} {kvs : List (String × Json)} {items : List Json}
    {kv : String × Json} (h : kv ∈ addedTo kvs k items) :
    kv ∈ kvs ∨ kv = (k, .arr (entryAsArray (lookupEntry k kvs) ++ items)) := by
  unfold addedTo at h
  split at h
  · exact Or.inl h
  · rcases mem_insertEntry h with h | h
    · exact Or.inr h
    · exact Or.inl h

theorem isKeyword_set : isKeyword JsonLdConsts.SET = true := by decide
theorem isKeyword_reverse : isKeyword JsonLdConsts.REVERSE = true := by decide
theorem isKeyword_value : isKeyword JsonLdConsts.VALUE = true := by decide
theorem isKeyword_id : isKeyword JsonLdConsts.ID = true := by decide

theorem ne_of_isKeyword {k k' : String} (h : isKeyword k = false) (h' : isKeyword k' = true) :
    k' ≠ k := by
  intro e
  rw [e, h] at h'
  cases h'

end JsonLdUtils

theorem TopOk.null (Q : List (String × Json) → Prop) : TopOk Q .null :=
  ⟨fun _ h => (by cases h), fun _ h => (by cases h)⟩

theorem NonKeywordKeys.nil : NonKeywordKeys [] := fun _ h => by cases h

theorem NonKeywordKeys.insertKey {kvs : List (String × Json)} {k : String} {v : Json}
    (h : NonKeywordKeys kvs) (hk : JsonLdUtils.isKeyword k = false) :
    NonKeywordKeys (insertEntry k v kvs) := by
  intro kv hkv
  rcases mem_insertEntry hkv with h1 | h1
  · rw [h1]; exact hk
  · exact h kv h1

theorem NonKeywordKeys.addedKey {kvs : List (String × Json)} {k : String} {items : List Json}
    (h : NonKeywordKeys kvs) (hk : JsonLdUtils.isKeyword k = false) :
    NonKeywordKeys (JsonLdUtils.addedTo kvs k items) := by
  intro kv hkv
  rcases JsonLdUtils.mem_addedTo hkv with h1 | h1
  · exact h kv h1
  · rw [h1]; exact hk

namespace LoopTop

open JsonLdUtils

variable {Q : List (String × Json) → Prop} {ap : Option String}

theorem emptyTop : LoopTop Q ap (.obj []) :=
  ⟨[], rfl, fun _ h => (by simp [lookupEntry] at h), fun _ h => (by simp [lookupEntry] at h),
    fun _ _ h => (by cases h)⟩

theorem insertTop {kvs : List (String × Json)} {k : String} {v : Json}
    (h : LoopTop Q ap (.obj kvs)) (hset : k = JsonLdConsts.SET → TopOk Q v)
    (hrev : k ≠ JsonLdConsts.REVERSE)
    (hap : ap = some JsonLdConsts.REVERSE → isKeyword k = false) :
    LoopTop Q ap (.obj (insertEntry k v kvs)) := by
  obtain ⟨kvs', e, h1, h2, h3⟩ := h
  cases e
  refine ⟨_, rfl, ?_, ?_, ?_⟩
  · intro w hw
    by_cases hk : JsonLdConsts.SET = k
    · subst hk
      rw [lookupEntry_insertEntry_self] at hw
      cases hw
      exact hset rfl
    · rw [lookupEntry_insertEntry_ne _ _ hk] at hw
      exact h1 w hw
  · intro rv hrv
    rw [lookupEntry_insertEntry_ne _ _ (Ne.symm hrev)] at hrv
    exact h2 rv hrv
  · intro hr kv hkv
    rcases mem_insertEntry hkv with e | e
    · rw [e]; exact Or.inr (hap hr)
    · exact h3 hr kv e

theorem insertReverse {kvs rkvs : List (String × Json)}
    (h : LoopTop Q ap (.obj kvs)) (hr : NonKeywordKeys rkvs) :
    LoopTop Q ap (.obj (insertEntry JsonLdConsts.REVERSE (.obj rkvs) kvs)) := by
  obtain ⟨kvs', e, h1, h2, h3⟩ := h
  cases e
  refine ⟨_, rfl, ?_, ?_, ?_⟩
  · intro w hw
    rw [lookupEntry_insertEntry_ne _ _ (by decide)] at hw
    exact h1 w hw
  · intro rv hrv
    rw [lookupEntry_insertEntry_self] at hrv
    cases hrv
    exact ⟨rkvs, rfl, hr⟩
  · intro hr' kv hkv
    rcases mem_insertEntry hkv with e | e
    · rw [e]; exact Or.inl rfl
    · exact h3 hr' kv e

theorem addedTop {kvs : List (String × Json)} {k : String} {items : List Json}
    (h : LoopTop Q ap (.obj kvs)) (hk : isKeyword k = false) :
    LoopTop Q ap (.obj (JsonLdUtils.addedTo kvs k items)) := by
  obtain ⟨kvs', e, h1, h2, h3⟩ := h
  cases e
  refine ⟨_, rfl, ?_, ?_, ?_⟩
  · intro w hw
    rw [lookupEntry_addedTo_ne _ _ (ne_of_isKeyword hk isKeyword_set)] at hw
    exact h1 w hw
  · intro rv hrv
    rw [lookupEntry_addedTo_ne _ _ (ne_of_isKeyword hk isKeyword_reverse)] at hrv
    exact h2 rv hrv
  · intro hr kv hkv
    rcases mem_addedTo hkv with e | e
    · exact h3 hr kv e
    · rw [e]; exact Or.inr hk

theorem isObjTop {result : Json} (h : LoopTop Q ap result) : ∃ kvs, result = .obj kvs :=
  h.elim fun kvs hk => ⟨kvs, hk.1⟩

end LoopTop

namespace JsonLdApi

open JsonLdUtils

variable {Q : List (String × Json) → Prop}

theorem storeKeyword_top {ap : Option String} {inputType ep : String} {ev result r : Json}
    (hL : LoopTop Q ap result) (hap : ap ≠ some JsonLdConsts.REVERSE)
    (hrev : ep ≠ JsonLdConsts.REVERSE) (hset : ep = JsonLdConsts.SET → TopOk Q ev)
    (h : storeKeyword inputType ep ev result = .ok r) : LoopTop Q ap r := by
  obtain ⟨kvs, e⟩ := hL.isObjTop
  subst e
  unfold storeKeyword at h
  split at h
  · split at h
    · simp only [Json.set] at h
      cases h
      exact hL.insertTop (fun _ => TopOk.null Q) hrev (fun h' => absurd h' hap)
    · simp only [Json.set] at h
      cases h
      exact hL.insertTop hset hrev (fun h' => absurd h' hap)
  · cases h
    exact hL

theorem addValue_entries_top {ap : Option String} (entries : List (String × Json))
    (hnk : NonKeywordKeys entries) :
    ∀ (r0 r : Json), LoopTop Q ap r0 → r0.contains JsonLdConsts.REVERSE = false →
      entries.foldlM (fun r entry => addValue r entry.1 entry.2 true) r0 = .ok r →
      LoopTop Q ap r ∧ r.contains JsonLdConsts.REVERSE = false := by
  intro r0 r h0 hc hf
  refine foldlM_ok_inv (fun r => LoopTop Q ap r ∧ r.contains JsonLdConsts.REVERSE = false) _
    entries ?_ r0 r ⟨h0, hc⟩ hf
  intro b a b' ha ⟨hb, hbc⟩ hstep
  obtain ⟨kvs, e⟩ := hb.isObjTop
  subst e
  rw [addValue_obj] at hstep
  cases hstep
  have hk := hnk a ha
  refine ⟨hb.addedTop hk, ?_⟩
  simp only [Json.contains, hasKey] at hbc ⊢
  rw [lookupEntry_addedTo_ne _ _ (ne_of_isKeyword hk isKeyword_reverse)]
  exact hbc

theorem addReverseItems_keys {k : String} (hk : isKeyword k = false) (items : List Json) :
    ∀ (rm rm' : Json), (∃ rkvs, rm = .obj rkvs ∧ NonKeywordKeys rkvs) →
      addReverseItems rm k items = .ok rm' →
      ∃ rkvs, rm' = .obj rkvs ∧ NonKeywordKeys rkvs := by
  intro rm rm' h0 hf
  unfold addReverseItems at hf
  refine foldlM_ok_inv (fun r => ∃ rkvs, r = .obj rkvs ∧ NonKeywordKeys rkvs) _ items ?_ rm rm'
    h0 hf
  intro b a b' _ ⟨rkvs, e, hn⟩ hstep
  subst e
  split at hstep
  · cases hstep
  · rw [addValue_obj] at hstep
    cases hstep
    exact ⟨_, rfl, hn.addedKey hk⟩

theorem reverse_entries_keys (entries : List (String × Json))
    (hkeys : ∀ kv ∈ entries, kv.1 = JsonLdConsts.REVERSE ∨ isKeyword kv.1 = false) :
    ∀ (rm rm' : Json), (∃ rkvs, rm = .obj rkvs ∧ NonKeywordKeys rkvs) →
      entries.foldlM (fun rm entry =>
        if entry.1 == JsonLdConsts.REVERSE then .ok rm
        else addReverseItems rm entry.1 entry.2.elems) rm = .ok rm' →
      ∃ rkvs, rm' = .obj rkvs ∧ NonKeywordKeys rkvs := by
  intro rm rm' h0 hf
  refine foldlM_ok_inv (fun r => ∃ rkvs, r = .obj rkvs ∧ NonKeywordKeys rkvs) _ entries ?_ rm rm'
    h0 hf
  intro b a b' ha hb hstep
  split at hstep
  · cases hstep
    exact hb
  · rename_i hne
    rcases hkeys a ha with h1 | h1
    · simp [h1] at hne
    · exact addReverseItems_keys h1 _ b b' hb hstep

end JsonLdApi

namespace JsonLdApi

open JsonLdUtils

variable {Q : List (String × Json) → Prop}

theorem expandReverseEntry_top {R : Expander} (hR : GoodTop Q R) {ap : Option String}
    {ctx : Context} {base : String} {fe ord : Bool} {ev result r : Json}
    (hL : LoopTop Q ap result) (hc : result.contains JsonLdConsts.REVERSE = false)
    (h : expandReverseEntry R ctx base fe ord ev result = .ok r) : LoopTop Q ap r := by
  unfold expandReverseEntry at h
  split at h
  · cases h
  · rename_i hobj
    obtain ⟨expanded, hrec, h⟩ := bind_eq_ok h
    obtain ⟨result1, hA, h⟩ := bind_eq_ok h
    obtain ⟨ekvs, he, hkeys, hre⟩ := (hR _ _ _ _ _ _ _ _ hrec).2.2 rfl (by simpa using hobj)
    subst he
    have h1 : LoopTop Q ap result1 ∧ result1.contains JsonLdConsts.REVERSE = false := by
      split at hA
      · rename_i hcr
        simp only [Json.contains, hasKey, Option.isSome_iff_exists] at hcr
        obtain ⟨rv, hrv⟩ := hcr
        obtain ⟨rkvs, hrk, hnk⟩ := hre rv hrv
        subst hrk
        simp only [Json.get, hrv, Option.getD_some, Json.itemsOf] at hA
        exact addValue_entries_top rkvs hnk _ _ hL hc hA
      · cases hA
        exact ⟨hL, hc⟩
    by_cases hsz : (Json.obj ekvs).size >
        (if (Json.obj ekvs).contains JsonLdConsts.REVERSE = true then 1 else 0)
    · rw [if_pos hsz] at h
      obtain ⟨result2, hB, h⟩ := bind_eq_ok h
      obtain ⟨reverseMap, hC, h⟩ := bind_eq_ok h
      obtain ⟨kvs1, e1⟩ := h1.1.isObjTop
      subst e1
      simp only [h1.2, Bool.not_false, if_true, Json.set] at hB
      cases hB
      simp only [Json.get, lookupEntry_insertEntry_self, Option.getD_some, Json.itemsOf] at hC
      obtain ⟨rkvs', hrm, hnk'⟩ :=
        reverse_entries_keys ekvs hkeys _ _ ⟨[], rfl, NonKeywordKeys.nil⟩ hC
      subst hrm
      simp only [Json.set] at h
      cases h
      exact (h1.1.insertReverse NonKeywordKeys.nil).insertReverse hnk'
    · rw [if_neg hsz] at h
      cases h
      exact h1.1

theorem keywordFlow_top {ops : ContextOps} {R : Expander} (hR : GoodTop Q R)
    {ctx tsc : Context} {ap : Option String} {base : String} {fe ord fm : Bool}
    {inputType ep : String} {ev result : Json} {flow : Flow}
    (hL : LoopTop Q ap result) (hap : ap ≠ some JsonLdConsts.REVERSE)
    (hc : ep = JsonLdConsts.REVERSE → result.contains JsonLdConsts.REVERSE = false)
    (h : keywordFlow ops R ctx tsc ap base fe ord fm inputType ep ev result = .ok flow) :
    FlowTop Q ap ep flow := by
  unfold keywordFlow at h
  have hne : ∀ {k : String}, (ep == k) = true → k ≠ JsonLdConsts.REVERSE →
      ep ≠ JsonLdConsts.REVERSE := by
    intro k hk hkr e
    simp only [beq_iff_eq] at hk
    exact hkr (hk ▸ e)
  have hns : ∀ {k : String}, (ep == k) = true → k ≠ JsonLdConsts.SET →
      ep = JsonLdConsts.SET → False := by
    intro k hk hkr e
    simp only [beq_iff_eq] at hk
    exact hkr (hk ▸ e)
  have hval : ∀ {k : String} {x : Except JsonLdError Json} {fl : Flow},
      (ep == k) = true → k ≠ JsonLdConsts.REVERSE → k ≠ JsonLdConsts.SET →
      x.map Flow.value = .ok fl →
      FlowTop Q ap ep fl := by
    intro k x fl hk h1 h2 hx
    obtain ⟨v, _, e⟩ := map_eq_ok hx
    subst e
    exact ⟨hne hk h1, fun e => (hns hk h2 e).elim⟩
  by_cases hk : (ep == JsonLdConsts.ID) = true
  · rw [if_pos hk] at h
    exact hval hk (by decide) (by decide) h
  rw [if_neg hk] at h
  by_cases hk : (ep == JsonLdConsts.TYPE) = true
  · rw [if_pos hk] at h
    exact hval hk (by decide) (by decide) h
  rw [if_neg hk] at h
  by_cases hk : (ep == JsonLdConsts.GRAPH) = true
  · rw [if_pos hk] at h
    obtain ⟨v, _, e⟩ := map_eq_ok h
    subst e
    exact ⟨hne hk (by decide), fun e => (hns hk (by decide) e).elim⟩
  rw [if_neg hk] at h
  by_cases hk : (ep == JsonLdConsts.INCLUDED) = true
  · rw [if_pos hk] at h
    split at h
    · cases h
      exact hL
    · exact hval hk (by decide) (by decide) h
  rw [if_neg hk] at h
  by_cases hk : (ep == JsonLdConsts.VALUE) = true
  · rw [if_pos hk] at h
    obtain ⟨kvs, e⟩ := hL.isObjTop
    subst e
    unfold expandValueEntry at h
    have hcont : ∀ (x : Json) (fl : Flow),
        (if x.is_null = true then (Json.set (.obj kvs) JsonLdConsts.VALUE .null).map Flow.next
          else .ok (.value x)) = .ok fl →
        FlowTop Q ap ep fl := by
      intro x fl hx
      split at hx
      · simp only [Json.set, Except.map] at hx
        cases hx
        exact hL.insertTop (fun e => absurd e (by decide)) (by decide) (fun h' => absurd h' hap)
      · cases hx
        exact ⟨hne hk (by decide), fun e => (hns hk (by decide) e).elim⟩
    simp only at h
    split at h
    · split at h
      · cases h
      · exact hcont _ _ h
    · split at h
      · exact hcont _ _ h
      · cases h
  rw [if_neg hk] at h
  by_cases hk : (ep == JsonLdConsts.LANGUAGE) = true
  · rw [if_pos hk] at h
    exact hval hk (by decide) (by decide) h
  rw [if_neg hk] at h
  by_cases hk : (ep == JsonLdConsts.DIRECTION) = true
  · rw [if_pos hk] at h
    split at h
    · cases h
      exact hL
    · exact hval hk (by decide) (by decide) h
  rw [if_neg hk] at h
  by_cases hk : (ep == JsonLdConsts.INDEX) = true
  · rw [if_pos hk] at h
    split at h
    · cases h
    · cases h
      exact ⟨hne hk (by decide), fun e => (hns hk (by decide) e).elim⟩
  rw [if_neg hk] at h
  by_cases hk : (ep == JsonLdConsts.LIST) = true
  · rw [if_pos hk] at h
    split at h
    · cases h
      exact hL
    · obtain ⟨v, _, e⟩ := map_eq_ok h
      subst e
      exact ⟨hne hk (by decide), fun e => (hns hk (by decide) e).elim⟩
  rw [if_neg hk] at h
  by_cases hk : (ep == JsonLdConsts.SET) = true
  · rw [if_pos hk] at h
    obtain ⟨v, hv, e⟩ := map_eq_ok h
    subst e
    exact ⟨hne hk (by decide), fun _ => (hR _ _ _ _ _ _ _ _ hv).1⟩
  rw [if_neg hk] at h
  by_cases hk : (ep == JsonLdConsts.REVERSE) = true
  · rw [if_pos hk] at h
    obtain ⟨v, hv, e⟩ := map_eq_ok h
    subst e
    simp only [beq_iff_eq] at hk
    exact expandReverseEntry_top hR hL (hc hk) hv
  rw [if_neg hk] at h
  cases h
  exact ⟨by simpa using hk, fun _ => TopOk.null Q⟩

end JsonLdApi

namespace JsonLdApi

open JsonLdUtils

variable {Q : List (String × Json) → Prop}

theorem expandKeywordEntry_top {ops : ContextOps} {R : Expander} (hR : GoodTop Q R)
    {ctx tsc : Context} {ap : Option String} {base : String} {fe ord fm : Bool}
    {inputType key ep : String} {ev : Json} {st st' : Json × Json}
    (hL : LoopTop Q ap st.1)
    (h : expandKeywordEntry ops R ctx tsc ap base fe ord fm inputType key ep ev st = .ok st') :
    LoopTop Q ap st'.1 := by
  unfold expandKeywordEntry at h
  by_cases hap' : (ap == some JsonLdConsts.REVERSE) = true
  · rw [if_pos hap'] at h
    cases h
  rw [if_neg hap'] at h
  have hap : ap ≠ some JsonLdConsts.REVERSE := by simpa using hap'
  split at h
  · cases h
  rename_i hcoll
  have hc : ep = JsonLdConsts.REVERSE → st.1.contains JsonLdConsts.REVERSE = false := by
    intro e
    subst e
    cases hcr : st.1.contains JsonLdConsts.REVERSE with
    | false => rfl
    | true =>
      exfalso
      apply hcoll
      simp [hcr]
      right
      decide
  obtain ⟨flow, hflow, h⟩ := bind_eq_ok h
  have hF := keywordFlow_top hR hL hap hc hflow
  cases flow with
  | next r =>
    cases h
    exact hF
  | value v =>
    simp only at h
    split at h
    · split at h
      · obtain ⟨n, _, e⟩ := map_eq_ok h
        subst e
        exact hL
      · cases h
        exact hL
    · obtain ⟨v', hv', h⟩ := bind_eq_ok h
      obtain ⟨r, hr, e⟩ := map_eq_ok h
      subst e
      refine storeKeyword_top hL hap hF.1 ?_ hr
      intro e
      split at hv'
      · rename_i hfr
        subst e
        simp [isFramingKeyword] at hfr
        exact absurd hfr.2 (by decide)
      · cases hv'
        exact hF.2 e

theorem addReverseProperty_keys {ep : String} (hk : isKeyword ep = false) (items : List Json) :
    ∀ (rm rm' : Json), (∃ rkvs, rm = .obj rkvs ∧ NonKeywordKeys rkvs) →
      items.foldlM (addReverseProperty ep) rm = .ok rm' →
      ∃ rkvs, rm' = .obj rkvs ∧ NonKeywordKeys rkvs := by
  intro rm rm' h0 hf
  refine foldlM_ok_inv (fun r => ∃ rkvs, r = .obj rkvs ∧ NonKeywordKeys rkvs) _ items ?_ rm rm'
    h0 hf
  intro b a b' _ ⟨rkvs, e, hn⟩ hstep
  subst e
  unfold addReverseProperty at hstep
  split at hstep
  · cases hstep
  · obtain ⟨rm1, h1, hstep⟩ := bind_eq_ok hstep
    have h1' : ∃ rkvs1, rm1 = .obj rkvs1 ∧ NonKeywordKeys rkvs1 := by
      split at h1
      · simp only [Json.set] at h1
        cases h1
        exact ⟨_, rfl, hn.insertKey hk⟩
      · cases h1
        exact ⟨_, rfl, hn⟩
    obtain ⟨rkvs1, e1, hn1⟩ := h1'
    subst e1
    rw [addValue_obj] at hstep
    cases hstep
    exact ⟨_, rfl, hn1.addedKey hk⟩

theorem storeProperty_top {ctx : Context} {ap : Option String} {key ep : String}
    {ev result r : Json} (hL : LoopTop Q ap result) (hk : isKeyword ep = false)
    (h : storeProperty ctx key ep ev result = .ok r) : LoopTop Q ap r := by
  unfold storeProperty at h
  obtain ⟨isRev, _, h⟩ := bind_eq_ok h
  obtain ⟨kvs, e⟩ := hL.isObjTop
  subst e
  split at h
  · obtain ⟨result1, h1, h⟩ := bind_eq_ok h
    obtain ⟨reverseMap, h2, h⟩ := bind_eq_ok h
    have hL1 : LoopTop Q ap result1 := by
      split at h1
      · simp only [Json.set] at h1
        cases h1
        exact hL.insertReverse NonKeywordKeys.nil
      · cases h1
        exact hL
    have hrm : ∃ rkvs, result1.get JsonLdConsts.REVERSE = .obj rkvs ∧ NonKeywordKeys rkvs := by
      split at h1
      · simp only [Json.set] at h1
        cases h1
        exact ⟨[], by simp [Json.get, lookupEntry_insertEntry_self], NonKeywordKeys.nil⟩
      · rename_i hc
        cases h1
        simp only [Bool.not_eq_true', Bool.not_eq_false, Json.contains, hasKey,
          Option.isSome_iff_exists] at hc
        obtain ⟨rv, hrv⟩ := hc
        obtain ⟨kvs', e', _, hre, _⟩ := hL
        cases e'
        obtain ⟨rkvs, e2, hn⟩ := hre rv hrv
        exact ⟨rkvs, by simp [Json.get, hrv, e2], hn⟩
    obtain ⟨rkvs', e', hn'⟩ := addReverseProperty_keys hk _ _ _ hrm h2
    subst e'
    obtain ⟨kvs1, e1⟩ := hL1.isObjTop
    subst e1
    simp only [Json.set] at h
    cases h
    exact hL1.insertReverse hn'
  · rw [addValue_obj] at h
    cases h
    exact hL.addedTop hk

theorem expandEntry_top {ops : ContextOps} {R : Expander} (hR : GoodTop Q R)
    {ctx tsc : Context} {ap : Option String} {element : Json} {base : String}
    {fe ord fm : Bool} {inputType key : String} {st st' : Json × Json}
    (hL : LoopTop Q ap st.1)
    (h : expandEntry ops R ctx tsc ap element base fe ord fm inputType st key = .ok st') :
    LoopTop Q ap st'.1 := by
  unfold expandEntry at h
  split at h
  · cases h
    exact hL
  simp only at h
  split at h
  · cases h
    exact hL
  split at h
  · exact expandKeywordEntry_top hR hL h
  · rename_i hkw
    obtain ⟨r, hr, e⟩ := map_eq_ok h
    subst e
    unfold expandPropertyEntry at hr
    obtain ⟨ev, _, hr⟩ := bind_eq_ok hr
    split at hr
    · cases hr
      exact hL
    · exact storeProperty_top hL (by simpa using hkw) hr

end JsonLdApi

namespace JsonLdApi

open JsonLdUtils

variable {Q : List (String × Json) → Prop}

theorem dropFreeFloating_top {ap : Option String} {fe : Bool} {r : Json} (h : TopOk Q r) :
    TopOk Q (dropFreeFloating ap fe r) := by
  unfold dropFreeFloating
  split_ifs <;> first | exact TopOk.null Q | exact h

theorem TopOk.ofNoValue {kvs : List (String × Json)}
    (h : hasKey JsonLdConsts.VALUE kvs = false) : TopOk Q (.obj kvs) := by
  refine ⟨?_, fun _ e => by cases e⟩
  intro kvs' e hv
  cases e
  rw [h] at hv
  cases hv

theorem hasKey_false_of_keys {kvs : List (String × Json)} {k : String}
    (hkeys : ∀ kv ∈ kvs, kv.1 = JsonLdConsts.REVERSE ∨ isKeyword kv.1 = false)
    (hk : isKeyword k = true) (hne : k ≠ JsonLdConsts.REVERSE) : hasKey k kvs = false := by
  cases hh : hasKey k kvs with
  | false => rfl
  | true =>
    obtain ⟨kv, hmem, e⟩ := hasKey_iff_mem.mp hh
    rcases hkeys kv hmem with h1 | h1
    · exact absurd (e ▸ h1) hne
    · rw [e, hk] at h1
      cases h1

theorem finishResult_top (hQ : ∀ kvs, StrictValueObject kvs → Q kvs) {ops : ContextOps}
    {ap : Option String} {fe : Bool} {result out : Json} (hL : LoopTop Q ap result)
    (h : finishResult ops ap fe result = .ok out) :
    TopOk Q out ∧ (ap = some JsonLdConsts.REVERSE → ReverseResult out) := by
  obtain ⟨kvs, e, hset, hre, hkeys⟩ := hL
  subst e
  constructor
  · unfold finishResult at h
    by_cases hv : hasKey JsonLdConsts.VALUE kvs = true
    · have hv' : (Json.obj kvs).contains JsonLdConsts.VALUE = true := hv
      rw [if_pos hv'] at h
      by_cases h1 : (!((Json.obj kvs).keys.all fun k => validKeywords.contains k)) = true
      · rw [if_pos h1] at h
        cases h
      rw [if_neg h1] at h
      by_cases h2 : ((Json.obj kvs).contains JsonLdConsts.TYPE &&
          ((Json.obj kvs).contains JsonLdConsts.LANGUAGE ||
            (Json.obj kvs).contains JsonLdConsts.DIRECTION)) = true
      · rw [if_pos h2] at h
        cases h
      rw [if_neg h2] at h
      have hstrict : StrictValueObject kvs := by
        constructor
        · intro kv hkv
          simp only [Json.keys, Bool.not_eq_true', Bool.not_eq_false, List.all_eq_true,
            List.mem_map, forall_exists_index, and_imp, forall_apply_eq_imp_iff₂] at h1
          have := h1 kv hkv
          simpa using this
        · intro hc
          apply h2
          simp only [Json.contains]
          rcases hc with ⟨ht, hl | hd⟩
          · simp [ht, hl]
          · simp [ht, hd]
      have hres : TopOk Q (.obj kvs) :=
        ⟨fun kvs' e _ => by cases e; exact hQ _ hstrict, fun _ e => by cases e⟩
      split_ifs at h <;>
        (cases h; first | exact TopOk.null Q | exact dropFreeFloating_top hres)
    · have hv0 : hasKey JsonLdConsts.VALUE kvs = false := by simpa using hv
      have hv' : ¬ (Json.obj kvs).contains JsonLdConsts.VALUE = true := hv
      rw [if_neg hv'] at h
      by_cases ht : (Json.obj kvs).contains JsonLdConsts.TYPE = true
      · rw [if_pos ht] at h
        obtain ⟨r, hr, e⟩ := map_eq_ok h
        subst e
        apply dropFreeFloating_top
        split at hr
        · simp only [Json.set] at hr
          cases hr
          apply TopOk.ofNoValue
          rw [hasKey_insertEntry, hv0]
          decide
        · cases hr
          exact TopOk.ofNoValue hv0
      rw [if_neg ht] at h
      by_cases hs : ((Json.obj kvs).contains JsonLdConsts.SET ||
          (Json.obj kvs).contains JsonLdConsts.LIST) = true
      · rw [if_pos hs] at h
        by_cases hsz : (Json.obj kvs).size >
            (if (Json.obj kvs).contains JsonLdConsts.INDEX = true then 2 else 1)
        · rw [if_pos hsz] at h
          cases h
        · rw [if_neg hsz] at h
          cases h
          apply dropFreeFloating_top
          split
          · rename_i hcs
            simp only [Json.contains, hasKey, Option.isSome_iff_exists] at hcs
            obtain ⟨v, hv1⟩ := hcs
            simp only [Json.get, hv1, Option.getD_some]
            exact hset v hv1
          · exact TopOk.ofNoValue hv0
      · rw [if_neg hs] at h
        cases h
        exact dropFreeFloating_top (TopOk.ofNoValue hv0)
  · intro hap
    have hk := hkeys hap
    have hnv := hasKey_false_of_keys hk isKeyword_value (by decide)
    have hnt := hasKey_false_of_keys hk (k := JsonLdConsts.TYPE) (by decide) (by decide)
    have hns := hasKey_false_of_keys hk isKeyword_set (by decide)
    have hnl := hasKey_false_of_keys hk (k := JsonLdConsts.LIST) (by decide) (by decide)
    have hnlang := hasKey_false_of_keys hk (k := JsonLdConsts.LANGUAGE) (by decide) (by decide)
    subst hap
    have hng : isNullOrGraph (some JsonLdConsts.REVERSE) = false := by decide
    simp only [finishResult, Json.contains, hnv, hnt, hns, hnl, Bool.false_eq_true, if_false,
      Bool.or_self, dropFreeFloating, hnlang, Bool.and_false, Bool.false_and, hng] at h
    cases h
    exact ⟨kvs, rfl, hk, hre⟩

end JsonLdApi

namespace JsonLdApi

open JsonLdUtils

variable {Q : List (String × Json) → Prop}

theorem expandObjectElement_top (hQ : ∀ kvs, StrictValueObject kvs → Q kvs)
    {ops : ContextOps} {R : Expander} (hR : GoodTop Q R) {ctx : Context}
    {ap : Option String} {el : Json} {base : String} {psc : Option Json} {fe ord fm : Bool}
    {out : Json}
    (h : expandObjectElement ops R ctx ap el base psc fe ord fm = .ok out) :
    TopOk Q out ∧ (ap = some JsonLdConsts.REVERSE → ReverseResult out) := by
  unfold expandObjectElement at h
  obtain ⟨_, _, h⟩ := bind_eq_ok h
  obtain ⟨tsc, _, h⟩ := bind_eq_ok h
  obtain ⟨found, _, h⟩ := bind_eq_ok h
  obtain ⟨st, hloop, h⟩ := bind_eq_ok h
  obtain ⟨_, _, h⟩ := bind_eq_ok h
  have hL : LoopTop Q ap st.1 :=
    foldlM_ok_inv (fun s : Json × Json => LoopTop Q ap s.1) _ _
      (fun b a b' _ hb hstep => expandEntry_top hR hb hstep) _ _ LoopTop.emptyTop hloop
  exact finishResult_top hQ hL h

theorem appendExpanded_items {ctx : Context} {ap : Option String} {acc : List Json} {e : Json}
    (hacc : ∀ x ∈ acc, x ≠ .null ∧ x.is_array = false ∧ ValueMapIs Q x) (he : TopOk Q e) :
    ∀ x ∈ appendExpanded acc (wrapListItem ctx ap e),
      x ≠ .null ∧ x.is_array = false ∧ ValueMapIs Q x := by
  have hwrap : wrapListItem ctx ap e = e ∨
      wrapListItem ctx ap e = .obj [(JsonLdConsts.LIST, e)] := by
    unfold wrapListItem
    cases ap with
    | none => exact Or.inl rfl
    | some p =>
      simp only
      split
      · exact Or.inr rfl
      · exact Or.inl rfl
  rcases hwrap with hw | hw
  · rw [hw]
    cases e with
    | null => exact hacc
    | arr xs =>
      intro x hx
      simp only [appendExpanded, List.mem_append] at hx
      rcases hx with hx | hx
      · exact hacc x hx
      · exact he.2 xs rfl x hx
    | bool b =>
      intro x hx
      simp only [appendExpanded, List.mem_append, List.mem_singleton] at hx
      rcases hx with hx | hx
      · exact hacc x hx
      · subst hx
        exact ⟨by simp, rfl, he.1⟩
    | num n =>
      intro x hx
      simp only [appendExpanded, List.mem_append, List.mem_singleton] at hx
      rcases hx with hx | hx
      · exact hacc x hx
      · subst hx
        exact ⟨by simp, rfl, he.1⟩
    | str s =>
      intro x hx
      simp only [appendExpanded, List.mem_append, List.mem_singleton] at hx
      rcases hx with hx | hx
      · exact hacc x hx
      · subst hx
        exact ⟨by simp, rfl, he.1⟩
    | obj kvs =>
      intro x hx
      simp only [appendExpanded, List.mem_append, List.mem_singleton] at hx
      rcases hx with hx | hx
      · exact hacc x hx
      · subst hx
        exact ⟨by simp, rfl, he.1⟩
  · rw [hw]
    intro x hx
    simp only [appendExpanded, List.mem_append, List.mem_singleton] at hx
    rcases hx with hx | hx
    · exact hacc x hx
    · subst hx
      refine ⟨by simp, rfl, ?_⟩
      intro kvs e hv
      cases e
      simp [hasKey, lookupEntry, JsonLdConsts.LIST, JsonLdConsts.VALUE] at hv

theorem expandArrayElement_top {R : Expander} (hR : GoodTop Q R) {ctx : Context}
    {ap : Option String} {items : List Json} {base : String} {fe ord fm : Bool} {out : Json}
    (h : expandArrayElement R ctx ap items base fe ord fm = .ok out) :
    TopOk Q out ∧ out.is_array = true := by
  unfold expandArrayElement at h
  obtain ⟨ys, hf, e⟩ := map_eq_ok h
  subst e
  have hI := foldlM_ok_inv
    (fun acc : List Json => ∀ x ∈ acc, x ≠ .null ∧ x.is_array = false ∧ ValueMapIs Q x) _ items
    (fun b a b' _ hb hstep => by
      obtain ⟨e, he, hstep⟩ := bind_eq_ok hstep
      cases hstep
      exact appendExpanded_items hb (hR _ _ _ _ _ _ _ _ he).1) [] ys
    (fun _ hx => by cases hx) hf
  exact ⟨⟨fun _ e _ => (by cases e), fun xs e => (by cases e; exact hI)⟩, rfl⟩

theorem expandBody_top (hQ : ∀ kvs, StrictValueObject kvs → Q kvs) {ops : ContextOps}
    (hEV : ∀ c p v, TopOk Q (ops.expandValue c p v)) {R : Expander} (hR : GoodTop Q R) :
    GoodTop Q (expandBody ops R) := by
  intro ctx ap el base fe ord fm out h
  cases el with
  | null =>
    simp only [expandBody] at h
    cases h
    exact ⟨TopOk.null Q, fun e => (by cases e), fun _ e => (by cases e)⟩
  | arr items =>
    simp only [expandBody] at h
    have := expandArrayElement_top hR h
    exact ⟨this.1, fun _ => this.2, fun _ e => (by cases e)⟩
  | obj kvs =>
    simp only [expandBody] at h
    have := expandObjectElement_top hQ hR h
    exact ⟨this.1, fun e => (by cases e), fun hap _ => this.2 hap⟩
  | bool b =>
    simp only [expandBody, expandScalar] at h
    refine ⟨?_, fun e => (by cases e), fun _ e => (by cases e)⟩
    split at h
    · cases h; exact TopOk.null Q
    · split at h
      · cases h; exact TopOk.null Q
      · obtain ⟨c, _, h⟩ := bind_eq_ok h
        cases h
        exact hEV _ _ _
  | num n =>
    simp only [expandBody, expandScalar] at h
    refine ⟨?_, fun e => (by cases e), fun _ e => (by cases e)⟩
    split at h
    · cases h; exact TopOk.null Q
    · split at h
      · cases h; exact TopOk.null Q
      · obtain ⟨c, _, h⟩ := bind_eq_ok h
        cases h
        exact hEV _ _ _
  | str s =>
    simp only [expandBody, expandScalar] at h
    refine ⟨?_, fun e => (by cases e), fun _ e => (by cases e)⟩
    split at h
    · cases h; exact TopOk.null Q
    · split at h
      · cases h; exact TopOk.null Q
      · obtain ⟨c, _, h⟩ := bind_eq_ok h
        cases h
        exact hEV _ _ _

theorem expand_top (hQ : ∀ kvs, StrictValueObject kvs → Q kvs) {ops : ContextOps}
    (hEV : ∀ c p v, TopOk Q (ops.expandValue c p v)) : ∀ fuel, GoodTop Q (expand ops fuel)
  | 0 => fun _ _ _ _ _ _ _ _ h => by cases h
  | fuel + 1 => expandBody_top hQ hEV (expand_top hQ hEV fuel)

/-- C7: provided value expansion returns a map, expanding an array returns an
array, and every array that `expand` returns (from an array element, or from
a map unwrapped through `@set`) has no null item and no item that is an
array. -/
theorem C7_arrays_flat_without_null (ops : ContextOps)
    (hEV : ∀ c p v, (ops.expandValue c p v).is_object = true)
    (fuel : Nat) (ctx : Context) (ap : Option String) (el : Json) (base : String)
    (fe ord fm : Bool) (out : Json)
    (h : expand ops fuel ctx ap el base fe ord fm = .ok out) :
    (el.is_array = true → out.is_array = true) ∧
    (∀ ys, out = .arr ys → ∀ y ∈ ys, y ≠ .null ∧ y.is_array = false) := by
  have hEV' : ∀ c p v, TopOk (fun _ => True) (ops.expandValue c p v) := by
    intro c p v
    refine ⟨fun _ _ _ => trivial, fun xs e => ?_⟩
    have := hEV c p v
    rw [e] at this
    cases this
  have hgood := expand_top (Q := fun _ => True) (fun _ _ => trivial) hEV' fuel _ _ _ _ _ _ _ _ h
  refine ⟨hgood.2.1, fun ys e y hy => ?_⟩
  have := hgood.1.2 ys e y hy
  exact ⟨this.1, this.2.1⟩

/-- C7 at the array `[["a"], null, "b"]` under the property
`http://example.org/p`: the nested array is flattened and the null dropped. -/
theorem C7_arrays_flat_without_null_witness :
    expand SpecModel.specOps 4 SpecModel.emptyContext (some "http://example.org/p")
      (.arr [.arr [.str "a"], .null, .str "b"]) "" false false false =
      .ok (.arr [.obj [("@value", .str "a")], .obj [("@value", .str "b")]]) ∧
    ((Json.arr [.arr [.str "a"], .null, .str "b"]).is_array = true →
      (Json.arr [.obj [("@value", .str "a")], .obj [("@value", .str "b")]]).is_array = true) ∧
    (∀ ys, Json.arr [.obj [("@value", .str "a")], .obj [("@value", .str "b")]] = .arr ys →
      ∀ y ∈ ys, y ≠ .null ∧ y.is_array = false) := by
  have hEV : ∀ c p v, (SpecModel.specOps.expandValue c p v).is_object = true := by
    intro c p v
    show (SpecModel.expandValue c p v).is_object = true
    unfold SpecModel.expandValue
    simp only
    split <;> first | rfl | (split <;> rfl)
  have hev : expand SpecModel.specOps 4 SpecModel.emptyContext (some "http://example.org/p")
      (.arr [.arr [.str "a"], .null, .str "b"]) "" false false false =
      .ok (.arr [.obj [("@value", .str "a")], .obj [("@value", .str "b")]]) := by decide
  exact ⟨hev, C7_arrays_flat_without_null SpecModel.specOps hEV 4 SpecModel.emptyContext
    (some "http://example.org/p") (.arr [.arr [.str "a"], .null, .str "b"]) "" false false false
    _ hev⟩

end JsonLdApi


/-! ## Maps anywhere in a result: auxiliary facts -/

theorem Deep.of_asArray {P : List (String × Json) → Prop} {j : Json} (h : Deep P j) :
    ∀ x ∈ j.asArray, Deep P x := by
  cases h with
  | arr xs hx => exact hx
  | null => intro x hx; simp only [Json.asArray, List.mem_singleton] at hx; subst hx; exact .null
  | bool b => intro x hx; simp only [Json.asArray, List.mem_singleton] at hx; subst hx; exact .bool b
  | num n => intro x hx; simp only [Json.asArray, List.mem_singleton] at hx; subst hx; exact .num n
  | str s => intro x hx; simp only [Json.asArray, List.mem_singleton] at hx; subst hx; exact .str s
  | obj kvs hP hk =>
    intro x hx
    simp only [Json.asArray, List.mem_singleton] at hx
    subst hx
    exact .obj kvs hP hk

theorem mem_flattenList {x : Json} : ∀ {xs : List Json},
    x ∈ Json.flattenList xs → ∃ y ∈ xs, x ∈ y.flatten
  | [], h => by simp [Json.flattenList] at h
  | y :: ys, h => by
    simp only [Json.flattenList, List.mem_append] at h
    rcases h with h | h
    · exact ⟨y, List.mem_cons_self _ _, h⟩
    · obtain ⟨z, hz, hx⟩ := mem_flattenList h
      exact ⟨z, List.mem_cons_of_mem _ hz, hx⟩

theorem Deep.of_flatten {P : List (String × Json) → Prop} {j : Json} (h : Deep P j) :
    ∀ x ∈ j.flatten, Deep P x := by
  induction h with
  | null => intro x hx; simp only [Json.flatten, List.mem_singleton] at hx; subst hx; exact .null
  | bool b => intro x hx; simp only [Json.flatten, List.mem_singleton] at hx; subst hx; exact .bool b
  | num n => intro x hx; simp only [Json.flatten, List.mem_singleton] at hx; subst hx; exact .num n
  | str s => intro x hx; simp only [Json.flatten, List.mem_singleton] at hx; subst hx; exact .str s
  | arr xs _ ih =>
    intro x hx
    simp only [Json.flatten] at hx
    obtain ⟨y, hy, hxy⟩ := mem_flattenList hx
    exact ih y hy x hxy
  | obj kvs hP hk _ =>
    intro x hx
    simp only [Json.flatten, List.mem_singleton] at hx
    subst hx
    exact .obj kvs hP hk

theorem Deep.get {P : List (String × Json) → Prop} {kvs : List (String × Json)} {k : String}
    (h : ∀ kv ∈ kvs, kv.1 ≠ JsonLdConsts.VALUE → Deep P kv.2) (hk : k ≠ JsonLdConsts.VALUE) :
    Deep P ((Json.obj kvs).get k) := by
  simp only [Json.get]
  cases hl : lookupEntry k kvs with
  | none => exact .null
  | some v => exact h (k, v) (lookupEntry_some_mem hl) hk

theorem flatten_not_array {j x : Json} (hx : x ∈ j.flatten) : x.is_array = false := by
  have key : ∀ (n : Nat) (j : Json), sizeOf j ≤ n → ∀ x ∈ j.flatten, x.is_array = false := by
    intro n
    induction n with
    | zero =>
      intro j hj
      cases j <;> simp at hj
    | succ n ih =>
      intro j hj x hx
      cases j with
      | arr xs =>
        simp only [Json.flatten] at hx
        obtain ⟨y, hy, hxy⟩ := mem_flattenList hx
        have : sizeOf y < sizeOf (Json.arr xs) := by
          have := List.sizeOf_lt_of_mem hy
          simp only [Json.arr.sizeOf_spec]
          omega
        exact ih y (by omega) x hxy
      | null => simp only [Json.flatten, List.mem_singleton] at hx; subst hx; rfl
      | bool b => simp only [Json.flatten, List.mem_singleton] at hx; subst hx; rfl
      | num k => simp only [Json.flatten, List.mem_singleton] at hx; subst hx; rfl
      | str s => simp only [Json.flatten, List.mem_singleton] at hx; subst hx; rfl
      | obj o => simp only [Json.flatten, List.mem_singleton] at hx; subst hx; rfl
  exact key _ j (Nat.le_refl _) x hx

namespace JsonLdUtils

theorem isKeyword_of_mem_valueMapKeys {k : String} (h : k ∈ valueMapKeys) :
    isKeyword k = true := by
  simp only [valueMapKeys, JsonLdApi.validKeywords, List.mem_cons, List.mem_singleton,
    List.not_mem_nil, or_false] at h
  rcases h with h | h | h | h | h | h <;> subst h <;> decide

end JsonLdUtils

theorem hasKey_addedTo_ne {k k' : String} (kvs : List (String × Json)) (items : List Json)
    (h : k' ≠ k) : hasKey k' (JsonLdUtils.addedTo kvs k items) = hasKey k' kvs := by
  simp only [hasKey, JsonLdUtils.lookupEntry_addedTo_ne kvs items h]

theorem lookupEntry_none_of_keys {kvs : List (String × Json)} {k : String}
    (h : NonKeywordKeys kvs) (hk : JsonLdUtils.isKeyword k = true) : lookupEntry k kvs = none := by
  cases hl : lookupEntry k kvs with
  | none => rfl
  | some v =>
    have := h (k, v) (lookupEntry_some_mem hl)
    simp only at this
    rw [hk] at this
    cases this

theorem ReverseMapDeep.mapDeep {IdP : Json → Prop} {rm : Json} (h : ReverseMapDeep IdP rm) :
    Deep (MapOk IdP) rm := by
  obtain ⟨rkvs, e, hnk, hd⟩ := h
  subst e
  refine .obj rkvs ⟨?_, ?_, ?_⟩ (fun kv hkv _ => (hd kv hkv).1)
  · intro v hv
    rw [lookupEntry_none_of_keys hnk JsonLdUtils.isKeyword_id] at hv
    cases hv
  · intro hv
    simp only [hasKey, lookupEntry_none_of_keys hnk JsonLdUtils.isKeyword_value] at hv
    cases hv
  · intro kv hkv _
    exact (hd kv hkv).2

theorem ReverseMapDeep.emptyMap {IdP : Json → Prop} : ReverseMapDeep IdP (.obj []) :=
  ⟨[], rfl, NonKeywordKeys.nil, fun _ h => (by cases h)⟩

theorem ReverseMapDeep.addedItems {IdP : Json → Prop} {rkvs : List (String × Json)} {k : String}
    {items : List Json} (h : ReverseMapDeep IdP (.obj rkvs))
    (hk : JsonLdUtils.isKeyword k = false) (hi : ∀ x ∈ items, Deep (MapOk IdP) x) :
    ReverseMapDeep IdP (.obj (JsonLdUtils.addedTo rkvs k items)) := by
  obtain ⟨rkvs', e, hnk, hd⟩ := h
  cases e
  refine ⟨_, rfl, hnk.addedKey hk, ?_⟩
  intro kv hkv
  rcases JsonLdUtils.mem_addedTo hkv with h1 | h1
  · exact hd kv h1
  · subst h1
    refine ⟨.arr _ ?_, rfl⟩
    intro x hx
    simp only [List.mem_append] at hx
    rcases hx with hx | hx
    · cases hl : lookupEntry k rkvs with
      | none => simp [hl, entryAsArray] at hx
      | some v =>
        simp only [hl, entryAsArray] at hx
        exact (hd (k, v) (lookupEntry_some_mem hl)).1.of_asArray x hx
    · exact hi x hx

theorem ReverseMapDeep.insertEmpty {IdP : Json → Prop} {rkvs : List (String × Json)} {k : String}
    (h : ReverseMapDeep IdP (.obj rkvs)) (hk : JsonLdUtils.isKeyword k = false) :
    ReverseMapDeep IdP (.obj (insertEntry k (.arr []) rkvs)) := by
  obtain ⟨rkvs', e, hnk, hd⟩ := h
  cases e
  refine ⟨_, rfl, hnk.insertKey hk, ?_⟩
  intro kv hkv
  rcases mem_insertEntry hkv with h1 | h1
  · subst h1
    exact ⟨.arr _ (fun _ hx => (by cases hx)), rfl⟩
  · exact hd kv h1

namespace LoopDeep

open JsonLdUtils

variable {IdP : Json → Prop}

theorem emptyDeep : LoopDeep IdP (.obj []) :=
  ⟨[], rfl, fun _ h => (by cases h), fun _ h => (by simp [lookupEntry] at h),
    fun _ h => (by cases h)⟩

theorem isObjDeep {result : Json} (h : LoopDeep IdP result) : ∃ kvs, result = .obj kvs :=
  h.elim fun kvs hk => ⟨kvs, hk.1⟩

theorem insertDeep {kvs : List (String × Json)} {k : String} {v : Json}
    (h : LoopDeep IdP (.obj kvs)) (hd : k ≠ JsonLdConsts.VALUE → Deep (MapOk IdP) v)
    (hid : k = JsonLdConsts.ID → IdP v) (harr : isKeyword k = false → v.is_array = true) :
    LoopDeep IdP (.obj (insertEntry k v kvs)) := by
  obtain ⟨kvs', e, h1, h2, h3⟩ := h
  cases e
  refine ⟨_, rfl, ?_, ?_, ?_⟩
  · intro kv hkv hne
    rcases mem_insertEntry hkv with e | e
    · subst e
      exact hd hne
    · exact h1 kv e hne
  · intro w hw
    by_cases hk : JsonLdConsts.ID = k
    · subst hk
      rw [lookupEntry_insertEntry_self] at hw
      cases hw
      exact hid rfl
    · rw [lookupEntry_insertEntry_ne _ _ hk] at hw
      exact h2 w hw
  · intro kv hkv hkw
    rcases mem_insertEntry hkv with e | e
    · subst e
      exact harr hkw
    · exact h3 kv e hkw

theorem addedDeep {kvs : List (String × Json)} {k : String} {items : List Json}
    (h : LoopDeep IdP (.obj kvs)) (hk : isKeyword k = false)
    (hi : ∀ x ∈ items, Deep (MapOk IdP) x) :
    LoopDeep IdP (.obj (JsonLdUtils.addedTo kvs k items)) := by
  obtain ⟨kvs', e, h1, h2, h3⟩ := h
  cases e
  have hkv : k ≠ JsonLdConsts.VALUE := Ne.symm (ne_of_isKeyword hk isKeyword_value)
  refine ⟨_, rfl, ?_, ?_, ?_⟩
  · intro kv hkv' hne
    rcases mem_addedTo hkv' with e | e
    · exact h1 kv e hne
    · subst e
      refine .arr _ ?_
      intro x hx
      simp only [List.mem_append] at hx
      rcases hx with hx | hx
      · cases hl : lookupEntry k kvs with
        | none => simp [hl, entryAsArray] at hx
        | some v =>
          simp only [hl, entryAsArray] at hx
          exact (h1 (k, v) (lookupEntry_some_mem hl) hkv).of_asArray x hx
      · exact hi x hx
  · intro w hw
    rw [lookupEntry_addedTo_ne _ _ (ne_of_isKeyword hk isKeyword_id)] at hw
    exact h2 w hw
  · intro kv hkv' hkw
    rcases mem_addedTo hkv' with e | e
    · exact h3 kv e hkw
    · subst e
      rfl

theorem getDeep {kvs : List (String × Json)} {k : String} (h : LoopDeep IdP (.obj kvs))
    (hk : k ≠ JsonLdConsts.VALUE) : Deep (MapOk IdP) ((Json.obj kvs).get k) := by
  obtain ⟨kvs', e, h1, _, _⟩ := h
  cases e
  exact Deep.get h1 hk

end LoopDeep

namespace JsonLdApi

open JsonLdUtils

variable {Q : List (String × Json) → Prop} {IdP : Json → Prop}

theorem storeKeyword_deep (hnull : IdP .null) {inputType ep : String} {ev result r : Json}
    (hL : LoopDeep IdP result) (hkw : isKeyword ep = true)
    (hd : ep ≠ JsonLdConsts.VALUE → Deep (MapOk IdP) ev) (hid : ep = JsonLdConsts.ID → IdP ev)
    (h : storeKeyword inputType ep ev result = .ok r) : LoopDeep IdP r := by
  obtain ⟨kvs, e⟩ := hL.isObjDeep
  subst e
  have harr : ∀ v : Json, isKeyword ep = false → v.is_array = true := by
    intro v hf
    rw [hkw] at hf
    cases hf
  unfold storeKeyword at h
  split at h
  · split at h
    · simp only [Json.set] at h
      cases h
      exact hL.insertDeep (fun _ => .null) (fun _ => hnull) (harr _)
    · simp only [Json.set] at h
      cases h
      exact hL.insertDeep hd hid (harr _)
  · cases h
    exact hL

theorem addValue_entries_deep (entries : List (String × Json))
    (hnk : NonKeywordKeys entries) (hd : ∀ kv ∈ entries, Deep (MapOk IdP) kv.2) :
    ∀ (r0 r : Json), LoopDeep IdP r0 →
      entries.foldlM (fun r entry => addValue r entry.1 entry.2 true) r0 = .ok r →
      LoopDeep IdP r := by
  intro r0 r h0 hf
  refine foldlM_ok_inv (fun r => LoopDeep IdP r) _ entries ?_ r0 r h0 hf
  intro b a b' ha hb hstep
  obtain ⟨kvs, e⟩ := hb.isObjDeep
  subst e
  rw [addValue_obj] at hstep
  cases hstep
  exact hb.addedDeep (hnk a ha) (hd a ha).of_flatten

theorem addReverseItems_deep {k : String} (hk : isKeyword k = false) (items : List Json)
    (hd : ∀ x ∈ items, Deep (MapOk IdP) x) :
    ∀ (rm rm' : Json), ReverseMapDeep IdP rm → addReverseItems rm k items = .ok rm' →
      ReverseMapDeep IdP rm' := by
  intro rm rm' h0 hf
  unfold addReverseItems at hf
  refine foldlM_ok_inv (fun r => ReverseMapDeep IdP r) _ items ?_ rm rm' h0 hf
  intro b a b' ha hb hstep
  obtain ⟨rkvs, e, _⟩ := id hb
  subst e
  split at hstep
  · cases hstep
  · rw [addValue_obj] at hstep
    cases hstep
    exact hb.addedItems hk (hd a ha).of_flatten

theorem elems_deep_of_array {j : Json} (hd : Deep (MapOk IdP) j) (ha : j.is_array = true) :
    ∀ x ∈ j.elems, Deep (MapOk IdP) x := by
  cases j with
  | arr xs =>
    cases hd with
    | arr _ h => exact h
  | _ => cases ha

theorem reverse_entries_deep (entries : List (String × Json))
    (hkeys : ∀ kv ∈ entries, kv.1 = JsonLdConsts.REVERSE ∨ isKeyword kv.1 = false)
    (hd : ∀ kv ∈ entries, isKeyword kv.1 = false →
      Deep (MapOk IdP) kv.2 ∧ kv.2.is_array = true) :
    ∀ (rm rm' : Json), ReverseMapDeep IdP rm →
      entries.foldlM (fun rm entry =>
        if entry.1 == JsonLdConsts.REVERSE then .ok rm
        else addReverseItems rm entry.1 entry.2.elems) rm = .ok rm' →
      ReverseMapDeep IdP rm' := by
  intro rm rm' h0 hf
  refine foldlM_ok_inv (fun r => ReverseMapDeep IdP r) _ entries ?_ rm rm' h0 hf
  intro b a b' ha hb hstep
  split at hstep
  · cases hstep
    exact hb
  · rename_i hne
    rcases hkeys a ha with h1 | h1
    · simp [h1] at hne
    · exact addReverseItems_deep h1 _ (elems_deep_of_array (hd a ha h1).1 (hd a ha h1).2) b b'
        hb hstep

theorem expandReverseEntry_deep {C : Context → Prop} {R : Expander} (hT : GoodTop Q R)
    (hR : GoodDeep IdP C R) {ap : Option String} {ctx : Context} (hctx : C ctx)
    {base : String} {ord : Bool} {ev result r : Json}
    (hLT : LoopTop Q ap result) (hL : LoopDeep IdP result)
    (hc : result.contains JsonLdConsts.REVERSE = false)
    (h : expandReverseEntry R ctx base false ord ev result = .ok r) : LoopDeep IdP r := by
  unfold expandReverseEntry at h
  split at h
  · cases h
  · rename_i hobj
    obtain ⟨expanded, hrec, h⟩ := bind_eq_ok h
    obtain ⟨result1, hA, h⟩ := bind_eq_ok h
    obtain ⟨ekvs, he, hkeys, hre⟩ := (hT _ _ _ _ _ _ _ _ hrec).2.2 rfl (by simpa using hobj)
    have hED := hR _ _ _ _ _ _ _ hctx hrec
    subst he
    have hEP : MapOk IdP ekvs ∧ ∀ kv ∈ ekvs, kv.1 ≠ JsonLdConsts.VALUE → Deep (MapOk IdP) kv.2 := by
      cases hED with
      | obj _ hP hk => exact ⟨hP, hk⟩
    have h1T := by
      have : LoopTop Q ap result1 ∧ result1.contains JsonLdConsts.REVERSE = false := by
        split at hA
        · rename_i hcr
          simp only [Json.contains, hasKey, Option.isSome_iff_exists] at hcr
          obtain ⟨rv, hrv⟩ := hcr
          obtain ⟨rkvs, hrk, hnk⟩ := hre rv hrv
          subst hrk
          simp only [Json.get, hrv, Option.getD_some, Json.itemsOf] at hA
          exact addValue_entries_top rkvs hnk _ _ hLT hc hA
        · cases hA
          exact ⟨hLT, hc⟩
      exact this
    have h1 : LoopDeep IdP result1 := by
      split at hA
      · rename_i hcr
        simp only [Json.contains, hasKey, Option.isSome_iff_exists] at hcr
        obtain ⟨rv, hrv⟩ := hcr
        obtain ⟨rkvs, hrk, hnk⟩ := hre rv hrv
        subst hrk
        simp only [Json.get, hrv, Option.getD_some, Json.itemsOf] at hA
        have hrvD := hEP.2 _ (lookupEntry_some_mem hrv)
          (show JsonLdConsts.REVERSE ≠ JsonLdConsts.VALUE by decide)
        have hent : ∀ kv ∈ rkvs, Deep (MapOk IdP) kv.2 := by
          cases hrvD with
          | obj _ _ hk =>
            intro kv hkv
            exact hk kv hkv (Ne.symm (ne_of_isKeyword (hnk kv hkv) isKeyword_value))
        exact addValue_entries_deep rkvs hnk hent _ _ hL hA
      · cases hA
        exact hL
    by_cases hsz : (Json.obj ekvs).size >
        (if (Json.obj ekvs).contains JsonLdConsts.REVERSE = true then 1 else 0)
    · rw [if_pos hsz] at h
      obtain ⟨result2, hB, h⟩ := bind_eq_ok h
      obtain ⟨reverseMap, hC, h⟩ := bind_eq_ok h
      obtain ⟨kvs1, e1⟩ := h1.isObjDeep
      subst e1
      simp only [h1T.2, Bool.not_false, if_true, Json.set] at hB
      cases hB
      simp only [Json.get, lookupEntry_insertEntry_self, Option.getD_some, Json.itemsOf] at hC
      have hent : ∀ kv ∈ ekvs, isKeyword kv.1 = false →
          Deep (MapOk IdP) kv.2 ∧ kv.2.is_array = true := by
        intro kv hkv hkw
        exact ⟨hEP.2 kv hkv (Ne.symm (ne_of_isKeyword hkw isKeyword_value)),
          hEP.1.2.2 kv hkv hkw⟩
      have hrm := reverse_entries_deep ekvs hkeys hent _ _ ReverseMapDeep.emptyMap hC
      simp only [Json.set] at h
      cases h
      have harr : ∀ v : Json, isKeyword JsonLdConsts.REVERSE = false → v.is_array = true :=
        fun v hf => absurd hf (by decide)
      refine LoopDeep.insertDeep (LoopDeep.insertDeep h1 (fun _ => ReverseMapDeep.emptyMap.mapDeep)
        (fun e => absurd e (by decide)) (harr _)) (fun _ => hrm.mapDeep)
        (fun e => absurd e (by decide)) (harr _)
    · rw [if_neg hsz] at h
      cases h
      exact h1

end JsonLdApi

theorem mapM_ok_mem {ε α β : Type} (f : α → Except ε β) :
    ∀ (xs : List α) (ys : List β), xs.mapM f = .ok ys → ∀ y ∈ ys, ∃ x ∈ xs, f x = .ok y
  | [], ys, h => by
    simp only [List.mapM_nil, pure, Except.pure] at h
    cases h
    intro y hy
    cases hy
  | x :: xs, ys, h => by
    simp only [List.mapM_cons, bind, Except.bind] at h
    cases hfx : f x with
    | error e => rw [hfx] at h; cases h
    | ok b =>
      rw [hfx] at h
      simp only at h
      cases hrest : xs.mapM f with
      | error e => rw [hrest] at h; cases h
      | ok bs =>
        rw [hrest] at h
        simp only [pure, Except.pure] at h
        cases h
        intro y hy
        simp only [List.mem_cons] at hy
        rcases hy with hy | hy
        · subst hy
          exact ⟨x, List.mem_cons_self _ _, hfx⟩
        · obtain ⟨x', hx', hfx'⟩ := mapM_ok_mem f xs bs hrest y hy
          exact ⟨x', List.mem_cons_of_mem _ hx', hfx'⟩

namespace JsonLdApi

open JsonLdUtils

variable {Q : List (String × Json) → Prop} {IdP : Json → Prop}

theorem Deep.arr_asArray {P : List (String × Json) → Prop} {j : Json} (h : Deep P j) :
    Deep P (.arr j.asArray) :=
  .arr _ h.of_asArray

theorem prependStored_deep {P : List (String × Json) → Prop} {a b : Json} (ha : Deep P a)
    (hb : Deep P b) : Deep P (prependStored a b) := by
  refine .arr _ ?_
  intro x hx
  simp only [List.mem_append] at hx
  rcases hx with hx | hx
  · exact ha.of_asArray x hx
  · exact hb.of_asArray x hx

theorem expandTypeEntry_deep {ops : ContextOps} {tsc : Context} {ev result out : Json}
    (hL : LoopDeep IdP result)
    (h : expandTypeEntry ops tsc false ev result = .ok out) : Deep (MapOk IdP) out := by
  unfold expandTypeEntry at h
  split at h
  · cases h
  rename_i hinv
  obtain ⟨v, hv, h⟩ := bind_eq_ok h
  have hvD : Deep (MapOk IdP) v := by
    unfold expandTypeValue at hv
    split at hv
    · rename_i hobj
      exfalso
      apply hinv
      cases ev <;> simp_all [invalidTypeValue, Json.is_object, Json.is_string, isArrayOfStrings]
    split at hv
    · obtain ⟨d, _, hv⟩ := bind_eq_ok hv
      cases hv
      refine .obj _ ⟨?_, ?_, ?_⟩ ?_
      · intro w hw
        simp [lookupEntry, JsonLdConsts.DEFAULT, JsonLdConsts.ID] at hw
      · intro hw
        simp [hasKey, lookupEntry, JsonLdConsts.DEFAULT, JsonLdConsts.VALUE] at hw
      · intro kv hkv hkw
        simp only [List.mem_singleton] at hkv
        subst hkv
        have hkd : isKeyword JsonLdConsts.DEFAULT = true := by decide
        rw [hkd] at hkw
        cases hkw
      · intro kv hkv _
        simp only [List.mem_singleton] at hkv
        subst hkv
        exact .str _
    · split at hv
      · cases hv
        exact .str _
      · obtain ⟨ys, hys, e⟩ := map_eq_ok hv
        subst e
        refine .arr _ ?_
        intro y hy
        obtain ⟨x, _, hfx⟩ := mapM_ok_mem _ _ _ hys y hy
        unfold expandTypeItem at hfx
        obtain ⟨s, _, hfx⟩ := bind_eq_ok hfx
        cases hfx
        exact .str _
      · cases hv
        exact .null
  obtain ⟨kvs, e⟩ := hL.isObjDeep
  subst e
  split at h
  · cases h
    exact prependStored_deep (hL.getDeep (by decide)) hvD
  · cases h
    exact hvD

theorem keywordFlow_deep {ops : ContextOps} (hnull : IdP .null)
    (hIri : ∀ c s, IdP (.str (ops.expandIri c s true false)))
    {C : Context → Prop} {R : Expander} (hT : GoodTop Q R) (hR : GoodDeep IdP C R)
    {ctx tsc : Context} (hctx : C ctx) {ap : Option String} {base : String} {ord fm : Bool}
    {inputType ep : String} {ev result : Json} {flow : Flow}
    (hLT : LoopTop Q ap result) (hL : LoopDeep IdP result)
    (hc : ep = JsonLdConsts.REVERSE → result.contains JsonLdConsts.REVERSE = false)
    (h : keywordFlow ops R ctx tsc ap base false ord fm inputType ep ev result = .ok flow) :
    FlowDeep IdP ep flow := by
  unfold keywordFlow at h
  have hval : ∀ {k : String} {v : Json}, (ep == k) = true → k ≠ JsonLdConsts.ID →
      Deep (MapOk IdP) v → FlowDeep IdP ep (.value v) := by
    intro k v hk hkid hd
    simp only [beq_iff_eq] at hk
    exact ⟨fun _ => hd, fun e => absurd (hk ▸ e) hkid⟩
  by_cases hk : (ep == JsonLdConsts.ID) = true
  · rw [if_pos hk] at h
    obtain ⟨v, hv, e⟩ := map_eq_ok h
    subst e
    unfold expandIdEntry at hv
    split at hv
    · cases hv
      exact ⟨fun _ => .str _, fun _ => hIri _ _⟩
    · simp at hv
    · simp at hv
    · cases hv
  rw [if_neg hk] at h
  by_cases hk : (ep == JsonLdConsts.TYPE) = true
  · rw [if_pos hk] at h
    obtain ⟨v, hv, e⟩ := map_eq_ok h
    subst e
    exact hval hk (by decide) (expandTypeEntry_deep hL hv)
  rw [if_neg hk] at h
  by_cases hk : (ep == JsonLdConsts.GRAPH) = true
  · rw [if_pos hk] at h
    obtain ⟨v, hv, e⟩ := map_eq_ok h
    subst e
    exact hval hk (by decide) (Deep.arr_asArray (hR _ _ _ _ _ _ _ hctx hv))
  rw [if_neg hk] at h
  by_cases hk : (ep == JsonLdConsts.INCLUDED) = true
  · rw [if_pos hk] at h
    split at h
    · cases h
      exact hL
    · obtain ⟨v, hv, e⟩ := map_eq_ok h
      subst e
      refine hval hk (by decide) ?_
      unfold expandIncludedEntry at hv
      obtain ⟨e1, he1, hv⟩ := bind_eq_ok hv
      have hd := Deep.arr_asArray (hR _ _ _ _ _ _ _ hctx he1)
      obtain ⟨kvs, e⟩ := hL.isObjDeep
      subst e
      simp only at hv
      split at hv
      · cases hv
      · split at hv
        · cases hv
          exact prependStored_deep (hL.getDeep (by decide)) hd
        · cases hv
          exact hd
  rw [if_neg hk] at h
  by_cases hk : (ep == JsonLdConsts.VALUE) = true
  · rw [if_pos hk] at h
    obtain ⟨kvs, e⟩ := hL.isObjDeep
    subst e
    unfold expandValueEntry at h
    have hcont : ∀ (x : Json) (fl : Flow),
        (if x.is_null = true then (Json.set (.obj kvs) JsonLdConsts.VALUE .null).map Flow.next
          else .ok (.value x)) = .ok fl → FlowDeep IdP ep fl := by
      intro x fl hx
      split at hx
      · simp only [Json.set, Except.map] at hx
        cases hx
        exact hL.insertDeep (fun e => absurd rfl e) (fun e => absurd e (by decide))
          (fun e => absurd e (by decide))
      · cases hx
        simp only [beq_iff_eq] at hk
        exact ⟨fun e => absurd hk e, fun e => absurd (hk ▸ e) (by decide)⟩
    simp only at h
    split at h
    · split at h
      · cases h
      · exact hcont _ _ h
    · split at h
      · exact hcont _ _ h
      · cases h
  rw [if_neg hk] at h
  by_cases hk : (ep == JsonLdConsts.LANGUAGE) = true
  · rw [if_pos hk] at h
    obtain ⟨v, hv, e⟩ := map_eq_ok h
    subst e
    refine hval hk (by decide) ?_
    unfold expandLanguageEntry at hv
    split at hv
    · obtain ⟨s, _, e⟩ := map_eq_ok hv
      subst e
      exact .str _
    · cases hv
  rw [if_neg hk] at h
  by_cases hk : (ep == JsonLdConsts.DIRECTION) = true
  · rw [if_pos hk] at h
    split at h
    · cases h
      exact hL
    · obtain ⟨v, hv, e⟩ := map_eq_ok h
      subst e
      refine hval hk (by decide) ?_
      unfold expandDirectionEntry at hv
      split at hv
      · rename_i hcond
        simp only [Bool.false_and, Bool.or_false, Bool.or_eq_true, beq_iff_eq] at hcond
        simp only [Bool.false_and, Bool.false_eq_true, if_false] at hv
        cases hv
        rcases hcond with e | e <;> (rw [e]; exact .str _)
      · cases hv
  rw [if_neg hk] at h
  by_cases hk : (ep == JsonLdConsts.INDEX) = true
  · rw [if_pos hk] at h
    split at h
    · cases h
    · rename_i hs
      cases h
      refine hval hk (by decide) ?_
      cases ev <;> simp [Json.is_string] at hs
      exact .str _
  rw [if_neg hk] at h
  by_cases hk : (ep == JsonLdConsts.LIST) = true
  · rw [if_pos hk] at h
    split at h
    · cases h
      exact hL
    · obtain ⟨v, hv, e⟩ := map_eq_ok h
      subst e
      exact hval hk (by decide) (Deep.arr_asArray (hR _ _ _ _ _ _ _ hctx hv))
  rw [if_neg hk] at h
  by_cases hk : (ep == JsonLdConsts.SET) = true
  · rw [if_pos hk] at h
    obtain ⟨v, hv, e⟩ := map_eq_ok h
    subst e
    exact hval hk (by decide) (hR _ _ _ _ _ _ _ hctx hv)
  rw [if_neg hk] at h
  by_cases hk : (ep == JsonLdConsts.REVERSE) = true
  · rw [if_pos hk] at h
    obtain ⟨v, hv, e⟩ := map_eq_ok h
    subst e
    simp only [beq_iff_eq] at hk
    exact expandReverseEntry_deep hT hR hctx hLT hL (hc hk) hv
  rw [if_neg hk] at h
  cases h
  exact ⟨fun _ => .null, fun _ => hnull⟩

end JsonLdApi

theorem mem_eraseEntry {k : String} {kvs : List (String × Json)} {kv : String × Json}
    (h : kv ∈ eraseEntry k kvs) : kv ∈ kvs := by
  induction kvs with
  | nil => simp [eraseEntry] at h
  | cons e rest ih =>
    obtain ⟨k', v'⟩ := e
    simp only [eraseEntry] at h
    split at h
    · exact List.mem_cons_of_mem _ (ih h)
    · simp only [List.mem_cons] at h
      rcases h with h | h
      · exact h ▸ List.mem_cons_self _ _
      · exact List.mem_cons_of_mem _ (ih h)

theorem length_ge_two_of_keys {kvs : List (String × Json)} {k1 k2 : String}
    (h1 : hasKey k1 kvs = true) (h2 : hasKey k2 kvs = true) (hne : k1 ≠ k2) :
    2 ≤ kvs.length := by
  obtain ⟨a, ha, ea⟩ := hasKey_iff_mem.mp h1
  obtain ⟨b, hb, eb⟩ := hasKey_iff_mem.mp h2
  have hab : a ≠ b := by
    intro e
    apply hne
    rw [← ea, ← eb, e]
  match kvs, ha, hb with
  | [x], ha, hb =>
    simp only [List.mem_singleton] at ha hb
    exact absurd (ha.trans hb.symm) hab
  | _ :: _ :: _, _, _ => simp

namespace JsonLdApi

open JsonLdUtils

variable {Q : List (String × Json) → Prop} {IdP : Json → Prop} {reExpanded : Json}

theorem Deep.emptyObj : Deep (MapOk IdP) (.obj []) :=
  .obj [] ⟨fun _ h => (by simp [lookupEntry] at h), fun h => (by simp [hasKey, lookupEntry] at h),
    fun _ h => (by cases h)⟩ (fun _ h => (by cases h))

theorem Deep.insertKeyword {kvs : List (String × Json)} {k : String} {v : Json}
    (hD : Deep (MapOk IdP) (.obj kvs)) (hk : k ∈ valueMapKeys) (hne : k ≠ JsonLdConsts.VALUE)
    (hv : Deep (MapOk IdP) v) (hid : k = JsonLdConsts.ID → IdP v) :
    Deep (MapOk IdP) (.obj (insertEntry k v kvs)) := by
  have hkw : isKeyword k = true := isKeyword_of_mem_valueMapKeys hk
  cases hD with
  | obj _ hP hent =>
    obtain ⟨h1, h2, h3⟩ := hP
    refine .obj _ ⟨?_, ?_, ?_⟩ ?_
    · intro w hw
      by_cases hki : JsonLdConsts.ID = k
      · subst hki
        rw [lookupEntry_insertEntry_self] at hw
        cases hw
        exact hid rfl
      · rw [lookupEntry_insertEntry_ne _ _ hki] at hw
        exact h1 w hw
    · intro hval kv hkv
      rw [hasKey_insertEntry] at hval
      have hvk : hasKey JsonLdConsts.VALUE kvs = true := by
        simpa [Ne.symm hne] using hval
      rcases mem_insertEntry hkv with e | e
      · subst e
        exact hk
      · exact h2 hvk kv e
    · intro kv hkv hnk
      rcases mem_insertEntry hkv with e | e
      · subst e
        rw [hkw] at hnk
        cases hnk
      · exact h3 kv e hnk
    · intro kv hkv _
      rcases mem_insertEntry hkv with e | e
      · subst e
        exact hv
      · exact hent kv e ‹_›

theorem set_deep_keyword {item item' : Json} {k : String} {v : Json}
    (hD : Deep (MapOk IdP) item) (hk : k ∈ valueMapKeys) (hne : k ≠ JsonLdConsts.VALUE)
    (hv : Deep (MapOk IdP) v) (hid : k = JsonLdConsts.ID → IdP v)
    (h : item.set k v = .ok item') : Deep (MapOk IdP) item' := by
  cases item with
  | null =>
    simp only [Json.set] at h
    cases h
    exact Deep.insertKeyword (Deep.emptyObj : Deep (MapOk IdP) (.obj [])) hk hne hv hid
  | obj kvs =>
    simp only [Json.set] at h
    cases h
    exact Deep.insertKeyword hD hk hne hv hid
  | bool b => cases h
  | num n => cases h
  | str s => cases h
  | arr xs => cases h

theorem set_deep_property (hEV : Deep (MapOk IdP) reExpanded) {item item2 : Json} {k : String}
    (hD : Deep (MapOk IdP) item) (hk : isKeyword k = false)
    (h : (touchKey item k).bind (fun item1 =>
      (item1.set k (.arr (reExpanded :: (item1.get k).elems))).bind (fun item2 =>
        if isValueObject item2 && item2.size > 1 then .error .InvalidValueObject
        else .ok item2)) = .ok item2) : Deep (MapOk IdP) item2 := by
  have hkv : k ≠ JsonLdConsts.VALUE := Ne.symm (ne_of_isKeyword hk isKeyword_value)
  have hkid : JsonLdConsts.ID ≠ k := ne_of_isKeyword hk isKeyword_id
  obtain ⟨item1, h1, h⟩ := bind_eq_ok h
  obtain ⟨item2', h2, h⟩ := bind_eq_ok h
  split at h
  · cases h
  rename_i hchk
  cases h
  -- the item after both assignments, over the entries `kvs` of the item
  have key : ∀ kvs : List (String × Json), Deep (MapOk IdP) (.obj kvs) →
      ∀ old : Json, (old = (Json.obj kvs).get k ∨ old = .null) →
      item2 = .obj (insertEntry k (.arr (reExpanded :: old.elems)) kvs) →
      Deep (MapOk IdP) item2 := by
    intro kvs hkD old hold e
    subst e
    cases hkD with
    | obj _ hP hent =>
      obtain ⟨p1, p2, p3⟩ := hP
      have holdD : ∀ x ∈ old.elems, Deep (MapOk IdP) x := by
        rcases hold with e | e
        · subst e
          simp only [Json.get]
          cases hl : lookupEntry k kvs with
          | none => intro x hx; simp [Json.elems] at hx
          | some w =>
            simp only [Option.getD_some]
            exact elems_deep_of_array (hent _ (lookupEntry_some_mem hl) hkv)
              (p3 _ (lookupEntry_some_mem hl) hk)
        · subst e
          intro x hx
          simp [Json.elems] at hx
      refine .obj _ ⟨?_, ?_, ?_⟩ ?_
      · intro w hw
        rw [lookupEntry_insertEntry_ne _ _ hkid] at hw
        exact p1 w hw
      · intro hval
        exfalso
        apply hchk
        have hkk : hasKey k (insertEntry k (Json.arr (reExpanded :: old.elems)) kvs) = true := by
          simp [hasKey, lookupEntry_insertEntry_self]
        have := length_ge_two_of_keys hkk hval hkv
        simp only [isValueObject, isObject, Json.is_object, Json.contains, hval, Bool.and_self,
          Json.size, Bool.true_and, decide_eq_true_eq]
        omega
      · intro kv hkv' hnk
        rcases mem_insertEntry hkv' with e | e
        · subst e
          rfl
        · exact p3 kv e hnk
      · intro kv hkv' hne
        rcases mem_insertEntry hkv' with e | e
        · subst e
          refine .arr _ ?_
          intro x hx
          simp only [List.mem_cons] at hx
          rcases hx with hx | hx
          · subst hx
            exact hEV
          · exact holdD x hx
        · exact hent kv e hne
  cases item with
  | null =>
    simp only [touchKey, Json.contains, Bool.false_eq_true, if_false, Json.set] at h1
    cases h1
    simp only [Json.set, Json.get, lookupEntry, if_true, Option.getD_some, Json.elems] at h2
    cases h2
    refine key [] Deep.emptyObj .null (Or.inr rfl) ?_
    simp [insertEntry, Json.elems]
  | obj kvs =>
    unfold touchKey at h1
    split at h1
    · cases h1
      simp only [Json.set] at h2
      cases h2
      exact key kvs hD _ (Or.inl rfl) rfl
    · rename_i hnc
      simp only [Json.set] at h1
      cases h1
      simp only [Json.set, Json.get, lookupEntry_insertEntry_self, Option.getD_some,
        insertEntry_insertEntry] at h2
      cases h2
      exact key kvs hD .null (Or.inr rfl) rfl
  | bool b => simp [touchKey, Json.contains, Json.set] at h1
  | num n => simp [touchKey, Json.contains, Json.set] at h1
  | str s => simp [touchKey, Json.contains, Json.set] at h1
  | arr xs => simp [touchKey, Json.contains, Json.set] at h1

end JsonLdApi

namespace JsonLdApi

open JsonLdUtils

variable {Q : List (String × Json) → Prop} {IdP : Json → Prop}

theorem Deep.wrapped {k : String} {v : Json} (hk : isKeyword k = true)
    (hkv : k ≠ JsonLdConsts.VALUE) (hkid : k ≠ JsonLdConsts.ID) (hv : Deep (MapOk IdP) v) :
    Deep (MapOk IdP) (.obj [(k, v)]) := by
  refine .obj _ ⟨?_, ?_, ?_⟩ ?_
  · intro w hw
    simp [lookupEntry, hkid] at hw
  · intro hw
    simp [hasKey, lookupEntry, hkv] at hw
  · intro kv hkv' hnk
    simp only [List.mem_singleton] at hkv'
    subst hkv'
    rw [hk] at hnk
    cases hnk
  · intro kv hkv' _
    simp only [List.mem_singleton] at hkv'
    subst hkv'
    exact hv

theorem indexMapItem_deep {ops : ContextOps}
    (hIri : ∀ c s, IdP (.str (ops.expandIri c s true false)))
    (hEV : ∀ c p v, Deep (MapOk IdP) (ops.expandValue c p v))
    {ctx : Context} {containerMapping : Json} {indexKey index expandedIndex : String}
    (hik : indexKey ≠ JsonLdConsts.INDEX →
      isKeyword (ops.expandIri ctx indexKey false true) = false)
    {item0 item' : Json} (hD : Deep (MapOk IdP) item0)
    (h : indexMapItem ops ctx containerMapping indexKey index expandedIndex item0 = .ok item') :
    Deep (MapOk IdP) item' := by
  unfold indexMapItem at h
  simp only at h
  have hitem : Deep (MapOk IdP)
      (if (arrayContains containerMapping JsonLdConsts.GRAPH && !isGraphObject item0) = true then
        Json.obj [(JsonLdConsts.GRAPH, .arr item0.asArray)] else item0) := by
    split
    · exact Deep.wrapped (by decide) (by decide) (by decide) (Deep.arr_asArray hD)
    · exact hD
  generalize (if (arrayContains containerMapping JsonLdConsts.GRAPH && !isGraphObject item0) = true
    then Json.obj [(JsonLdConsts.GRAPH, .arr item0.asArray)] else item0) = item at h hitem
  split at h
  · rename_i hc
    have hne : indexKey ≠ JsonLdConsts.INDEX := by
      intro e
      simp [e] at hc
    exact set_deep_property (hEV _ _ _) hitem (hik hne) h
  split at h
  · exact set_deep_keyword hitem (by decide) (by decide) (.str _) (fun e => absurd e (by decide)) h
  split at h
  · exact set_deep_keyword hitem (by decide) (by decide) (.str _) (fun _ => hIri _ _) h
  split at h
  · obtain ⟨item1, h1, h⟩ := bind_eq_ok h
    have h1D : Deep (MapOk IdP) item1 := by
      unfold touchKey at h1
      split at h1
      · cases h1
        exact hitem
      · exact set_deep_keyword hitem (by decide) (by decide) .null
          (fun e => absurd e (by decide)) h1
    refine set_deep_keyword h1D (by decide) (by decide) ?_ (fun e => absurd e (by decide)) h
    have htypes : Deep (MapOk IdP) (item1.get JsonLdConsts.TYPE) := by
      cases h1D with
      | obj kvs _ hent => exact Deep.get hent (by decide)
      | _ => exact .null
    refine .arr _ ?_
    intro x hx
    simp only [List.mem_cons] at hx
    rcases hx with hx | hx
    · subst hx
      exact .str _
    · split at hx
      · cases hx
      · exact htypes.of_asArray x hx
  · cases h
    exact hitem

theorem indexMapContext_valid {ops : ContextOps} {C : Context → Prop}
    (hC : ContextsValid ops C) {ctx mapContext : Context} (hctx : C ctx)
    {containerMapping : Json} {index : String}
    (h : indexMapContext ops ctx containerMapping index = .ok mapContext) : C mapContext := by
  unfold indexMapContext at h
  simp only at h
  have hmc : C (if (arrayContains containerMapping JsonLdConsts.TYPE ||
      arrayContains containerMapping JsonLdConsts.ID) = true then
        match ctx.getPreviousContext with
        | some previous => previous
        | none => ctx
      else ctx) := by
    split
    · split
      · rename_i p hp
        exact hC.previous _ _ hctx hp
      · exact hctx
    · exact hctx
  generalize (if (arrayContains containerMapping JsonLdConsts.TYPE ||
      arrayContains containerMapping JsonLdConsts.ID) = true then
        match ctx.getPreviousContext with
        | some previous => previous
        | none => ctx
      else ctx) = mc at h hmc
  split at h
  · split at h
    · obtain ⟨lc, _, h⟩ := bind_eq_ok h
      obtain ⟨b, _, h⟩ := bind_eq_ok h
      exact hC.parsed _ _ _ _ _ _ _ _ hmc h
    · cases h
      exact hmc
  · cases h
    exact hctx

theorem expandIndexMap_deep {ops : ContextOps}
    (hIri : ∀ c s, IdP (.str (ops.expandIri c s true false)))
    (hEV : ∀ c p v, Deep (MapOk IdP) (ops.expandValue c p v))
    {C : Context → Prop} (hC : ContextsValid ops C) {R : Expander} (hT : GoodTop Q R)
    (hR : GoodDeep IdP C R) {ctx : Context} (hctx : C ctx) {base : String} {ord : Bool}
    {key : String} {containerMapping ev out : Json}
    (h : expandIndexMap ops R ctx base false ord key (ctx.getTermDefinition key) containerMapping
      ev = .ok out) : Deep (MapOk IdP) out := by
  unfold expandIndexMap at h
  obtain ⟨indexKey, hik, h⟩ := bind_eq_ok h
  have hik' : indexKey ≠ JsonLdConsts.INDEX →
      isKeyword (ops.expandIri ctx indexKey false true) = false := by
    intro hne
    split at hik
    · obtain ⟨v, hv, hs⟩ := bind_eq_ok hik
      cases v <;> simp only [Json.getString] at hs <;> cases hs
      have hget : (ctx.getTermDefinition key).get JsonLdConsts.INDEX = .str indexKey := by
        cases htd : ctx.getTermDefinition key with
        | obj kvs =>
          rw [htd] at hv
          simp only [Json.atKey] at hv
          split at hv
          · rename_i w hw
            cases hv
            simp [Json.get, hw]
          · cases hv
        | _ => rw [htd] at hv; cases hv
      exact hC.indexMapping _ _ _ hctx hget hne
    · cases hik
      exact absurd rfl hne
  obtain ⟨ys, hys, e⟩ := map_eq_ok h
  subst e
  refine .arr _ ?_
  refine foldlM_ok_inv (fun acc : List Json => ∀ x ∈ acc, Deep (MapOk IdP) x) _ _ ?_ [] ys
    (fun _ hx => (by cases hx)) hys
  intro acc index acc' _ hacc hstep
  unfold expandIndexEntry at hstep
  obtain ⟨mapContext, hmc, hstep⟩ := bind_eq_ok hstep
  obtain ⟨indexValue, hiv, hstep⟩ := bind_eq_ok hstep
  have hmcC := indexMapContext_valid hC hctx hmc
  have hivD := hR _ _ _ _ _ _ _ hmcC hiv
  have hivA := (hT _ _ _ _ _ _ _ _ hiv).2.1 rfl
  refine foldlM_ok_inv (fun acc : List Json => ∀ x ∈ acc, Deep (MapOk IdP) x) _ _ ?_ acc acc'
    hacc hstep
  intro b item b' hitem hb hs
  obtain ⟨item1, hi1, e⟩ := map_eq_ok hs
  subst e
  intro x hx
  simp only [List.mem_append, List.mem_singleton] at hx
  rcases hx with hx | hx
  · exact hb x hx
  · subst hx
    exact indexMapItem_deep hIri hEV hik' (elems_deep_of_array hivD hivA item hitem) hi1

theorem languageMapValue_deep {ops : ContextOps} {ctx : Context} {direction : Json}
    {language : String} {item : Json} :
    Deep (MapOk IdP) (languageMapValue ops ctx direction language item) := by
  unfold languageMapValue
  simp only
  have hmem : ∀ kv ∈
      (if (!direction.is_null &&
          (direction.is_string && !(direction == Json.str "") && direction != Json.str "null")) = true
        then insertEntry JsonLdConsts.DIRECTION direction
          (if (language == JsonLdConsts.NONE ||
              ops.expandIri ctx language false true == JsonLdConsts.NONE) = true then
            eraseEntry JsonLdConsts.LANGUAGE
              (insertEntry JsonLdConsts.LANGUAGE (Json.str language)
                (insertEntry JsonLdConsts.VALUE item []))
          else insertEntry JsonLdConsts.LANGUAGE (Json.str language)
            (insertEntry JsonLdConsts.VALUE item []))
        else
          (if (language == JsonLdConsts.NONE ||
              ops.expandIri ctx language false true == JsonLdConsts.NONE) = true then
            eraseEntry JsonLdConsts.LANGUAGE
              (insertEntry JsonLdConsts.LANGUAGE (Json.str language)
                (insertEntry JsonLdConsts.VALUE item []))
          else insertEntry JsonLdConsts.LANGUAGE (Json.str language)
            (insertEntry JsonLdConsts.VALUE item []))),
      kv.1 = JsonLdConsts.VALUE ∨
      (kv.1 = JsonLdConsts.LANGUAGE ∧ kv.2 = .str language) ∨
      (kv.1 = JsonLdConsts.DIRECTION ∧ kv.2.is_string = true) := by
    have h0 : ∀ kv ∈ insertEntry JsonLdConsts.LANGUAGE (Json.str language)
        (insertEntry JsonLdConsts.VALUE item []),
        kv.1 = JsonLdConsts.VALUE ∨ (kv.1 = JsonLdConsts.LANGUAGE ∧ kv.2 = .str language) := by
      intro kv hkv
      rcases mem_insertEntry hkv with e | e
      · subst e
        exact Or.inr ⟨rfl, rfl⟩
      · rcases mem_insertEntry e with e | e
        · subst e
          exact Or.inl rfl
        · cases e
    have h1 : ∀ kv ∈ (if (language == JsonLdConsts.NONE ||
              ops.expandIri ctx language false true == JsonLdConsts.NONE) = true then
            eraseEntry JsonLdConsts.LANGUAGE
              (insertEntry JsonLdConsts.LANGUAGE (Json.str language)
                (insertEntry JsonLdConsts.VALUE item []))
          else insertEntry JsonLdConsts.LANGUAGE (Json.str language)
            (insertEntry JsonLdConsts.VALUE item [])),
        kv.1 = JsonLdConsts.VALUE ∨ (kv.1 = JsonLdConsts.LANGUAGE ∧ kv.2 = .str language) := by
      intro kv hkv
      split at hkv
      · exact h0 kv (mem_eraseEntry hkv)
      · exact h0 kv hkv
    intro kv hkv
    split at hkv
    · rename_i hd
      rcases mem_insertEntry hkv with e | e
      · subst e
        refine Or.inr (Or.inr ⟨rfl, ?_⟩)
        simp only [Bool.and_eq_true] at hd
        exact hd.2.1.1
      · rcases h1 kv e with h | h
        · exact Or.inl h
        · exact Or.inr (Or.inl h)
    · rcases h1 kv hkv with h | h
      · exact Or.inl h
      · exact Or.inr (Or.inl h)
  refine .obj _ ⟨?_, ?_, ?_⟩ ?_
  · intro w hw
    rcases hmem _ (lookupEntry_some_mem hw) with h | h | h
    · exact absurd (show JsonLdConsts.ID = JsonLdConsts.VALUE from h) (by decide)
    · exact absurd (show JsonLdConsts.ID = JsonLdConsts.LANGUAGE from h.1) (by decide)
    · exact absurd (show JsonLdConsts.ID = JsonLdConsts.DIRECTION from h.1) (by decide)
  · intro _ kv hkv
    rcases hmem kv hkv with h | h | h
    · rw [h]; decide
    · rw [h.1]; decide
    · rw [h.1]; decide
  · intro kv hkv hnk
    exfalso
    rcases hmem kv hkv with h | h | h
    · rw [h] at hnk; revert hnk; decide
    · rw [h.1] at hnk; revert hnk; decide
    · rw [h.1] at hnk; revert hnk; decide
  · intro kv hkv hne
    rcases hmem kv hkv with h | h | h
    · exact absurd h hne
    · rw [h.2]; exact .str _
    · have := h.2
      cases hk2 : kv.2 <;> rw [hk2] at this <;> simp [Json.is_string] at this
      exact .str _

theorem expandLanguageMap_deep {ops : ContextOps} {ctx : Context} {ord : Bool}
    {td ev out : Json} (h : expandLanguageMap ops ctx ord td ev = .ok out) :
    Deep (MapOk IdP) out := by
  unfold expandLanguageMap at h
  obtain ⟨ys, hys, e⟩ := map_eq_ok h
  subst e
  refine .arr _ ?_
  refine foldlM_ok_inv (fun acc : List Json => ∀ x ∈ acc, Deep (MapOk IdP) x) _ _ ?_ [] ys
    (fun _ hx => (by cases hx)) hys
  intro acc language acc' _ hacc hstep
  unfold languageMapItems at hstep
  refine foldlM_ok_inv (fun acc : List Json => ∀ x ∈ acc, Deep (MapOk IdP) x) _ _ ?_ acc acc'
    hacc hstep
  intro b item b' _ hb hs
  split at hs
  · cases hs
    exact hb
  · split at hs
    · cases hs
    · cases hs
      intro x hx
      simp only [List.mem_append, List.mem_singleton] at hx
      rcases hx with hx | hx
      · exact hb x hx
      · subst hx
        exact languageMapValue_deep

end JsonLdApi


namespace JsonLdApi

open JsonLdUtils

variable {Q : List (String × Json) → Prop} {IdP : Json → Prop}

theorem expandKeywordEntry_deep {ops : ContextOps} (hnull : IdP .null)
    (hIri : ∀ c s, IdP (.str (ops.expandIri c s true false)))
    {C : Context → Prop} {R : Expander} (hT : GoodTop Q R) (hR : GoodDeep IdP C R)
    {ctx tsc : Context} (hctx : C ctx) {ap : Option String} {base : String} {ord fm : Bool}
    {inputType key ep : String} {ev : Json} {st st' : Json × Json}
    (hkw : isKeyword ep = true) (hLT : LoopTop Q ap st.1) (hL : LoopDeep IdP st.1)
    (h : expandKeywordEntry ops R ctx tsc ap base false ord fm inputType key ep ev st = .ok st') :
    LoopDeep IdP st'.1 := by
  unfold expandKeywordEntry at h
  by_cases hap' : (ap == some JsonLdConsts.REVERSE) = true
  · rw [if_pos hap'] at h
    cases h
  rw [if_neg hap'] at h
  split at h
  · cases h
  rename_i hcoll
  have hc : ep = JsonLdConsts.REVERSE → st.1.contains JsonLdConsts.REVERSE = false := by
    intro e
    subst e
    cases hcr : st.1.contains JsonLdConsts.REVERSE with
    | false => rfl
    | true =>
      exfalso
      apply hcoll
      simp [hcr]
      right
      decide
  obtain ⟨flow, hflow, h⟩ := bind_eq_ok h
  have hF := keywordFlow_deep hnull hIri hT hR hctx hLT hL hc hflow
  cases flow with
  | next r =>
    cases h
    exact hF
  | value v =>
    simp only at h
    split at h
    · split at h
      · obtain ⟨n, _, e⟩ := map_eq_ok h
        subst e
        exact hL
      · cases h
        exact hL
    · simp only [Bool.false_and, Bool.false_eq_true, if_false] at h
      obtain ⟨v', hv', h⟩ := bind_eq_ok h
      cases hv'
      obtain ⟨r, hr, e⟩ := map_eq_ok h
      subst e
      exact storeKeyword_deep hnull hL hkw hF.1 hF.2 hr

theorem Deep.valueOnly {v : Json} : Deep (MapOk IdP) (.obj [(JsonLdConsts.VALUE, v)]) := by
  refine .obj _ ⟨?_, ?_, ?_⟩ ?_
  · intro w hw
    have : lookupEntry JsonLdConsts.ID [(JsonLdConsts.VALUE, v)] = none := by
      simp [lookupEntry]
      decide
    rw [this] at hw
    cases hw
  · intro _ kv hkv
    simp only [List.mem_singleton] at hkv
    subst hkv
    exact (show JsonLdConsts.VALUE ∈ valueMapKeys by decide)
  · intro kv hkv hnk
    simp only [List.mem_singleton] at hkv
    subst hkv
    exact absurd hnk (show ¬ (isKeyword JsonLdConsts.VALUE = false) by decide)
  · intro kv hkv hne
    simp only [List.mem_singleton] at hkv
    subst hkv
    exact absurd rfl hne

theorem expandPropertyValue_deep {ops : ContextOps}
    (hIri : ∀ c s, IdP (.str (ops.expandIri c s true false)))
    (hEV : ∀ c p v, Deep (MapOk IdP) (ops.expandValue c p v))
    {C : Context → Prop} (hC : ContextsValid ops C) {R : Expander} (hT : GoodTop Q R)
    (hR : GoodDeep IdP C R) {ctx : Context} (hctx : C ctx) {base : String} {ord : Bool}
    {key : String} {containerMapping ev out : Json}
    (h : expandPropertyValue ops R ctx base false ord key (ctx.getTermDefinition key)
      containerMapping ev = .ok out) : Deep (MapOk IdP) out := by
  unfold expandPropertyValue at h
  split at h
  · cases h
    exact Deep.insertKeyword (Deep.valueOnly (v := ev)) (by decide) (by decide) (.str _)
      (fun e => absurd e (by decide))
  split at h
  · exact expandLanguageMap_deep h
  split at h
  · exact expandIndexMap_deep hIri hEV hC hT hR hctx h
  · exact hR _ _ _ _ _ _ _ hctx h

theorem toListObject_deep {containerMapping ev : Json} (h : Deep (MapOk IdP) ev) :
    Deep (MapOk IdP) (toListObject containerMapping ev) := by
  unfold toListObject
  split
  · exact Deep.wrapped (by decide) (by decide) (by decide) (Deep.arr_asArray h)
  · exact h

theorem toGraphObjects_deep {containerMapping ev : Json} (h : Deep (MapOk IdP) ev) :
    Deep (MapOk IdP) (toGraphObjects containerMapping ev) := by
  unfold toGraphObjects
  split
  · refine .arr _ ?_
    intro x hx
    simp only [List.mem_map] at hx
    obtain ⟨y, hy, e⟩ := hx
    subst e
    exact Deep.wrapped (by decide) (by decide) (by decide)
      (Deep.arr_asArray (h.of_asArray y hy))
  · exact h

theorem ReverseMapDeep.ofDeep {rkvs : List (String × Json)}
    (hd : Deep (MapOk IdP) (.obj rkvs)) (hn : NonKeywordKeys rkvs) :
    ReverseMapDeep IdP (.obj rkvs) := by
  cases hd with
  | obj _ hP hent =>
    refine ⟨rkvs, rfl, hn, ?_⟩
    intro kv hkv
    refine ⟨hent kv hkv ?_, hP.2.2 kv hkv (hn kv hkv)⟩
    exact Ne.symm (ne_of_isKeyword (hn kv hkv) isKeyword_value)

theorem addReverseProperty_deep {ep : String} (hk : isKeyword ep = false) (items : List Json)
    (hd : ∀ x ∈ items, Deep (MapOk IdP) x) :
    ∀ (rm rm' : Json), ReverseMapDeep IdP rm →
      items.foldlM (addReverseProperty ep) rm = .ok rm' → ReverseMapDeep IdP rm' := by
  intro rm rm' h0 hf
  refine foldlM_ok_inv (fun r => ReverseMapDeep IdP r) _ items ?_ rm rm' h0 hf
  intro b a b' ha hb hstep
  obtain ⟨rkvs, e, _⟩ := id hb
  subst e
  unfold addReverseProperty at hstep
  split at hstep
  · cases hstep
  · obtain ⟨rm1, h1, hstep⟩ := bind_eq_ok hstep
    have h1' : ReverseMapDeep IdP rm1 := by
      split at h1
      · simp only [Json.set] at h1
        cases h1
        exact hb.insertEmpty hk
      · cases h1
        exact hb
    obtain ⟨rkvs1, e1, _⟩ := id h1'
    subst e1
    rw [addValue_obj] at hstep
    cases hstep
    exact h1'.addedItems hk (hd a ha).of_flatten

theorem storeProperty_deep {ctx : Context} {ap : Option String} {key ep : String}
    {ev result r : Json} (hLT : LoopTop Q ap result) (hL : LoopDeep IdP result)
    (hk : isKeyword ep = false) (hev : Deep (MapOk IdP) ev)
    (h : storeProperty ctx key ep ev result = .ok r) : LoopDeep IdP r := by
  unfold storeProperty at h
  obtain ⟨isRev, _, h⟩ := bind_eq_ok h
  obtain ⟨kvs, e⟩ := hL.isObjDeep
  subst e
  split at h
  · obtain ⟨result1, h1, h⟩ := bind_eq_ok h
    obtain ⟨reverseMap, h2, h⟩ := bind_eq_ok h
    have hL1 : LoopDeep IdP result1 ∧ ReverseMapDeep IdP (result1.get JsonLdConsts.REVERSE) := by
      split at h1
      · simp only [Json.set] at h1
        cases h1
        refine ⟨hL.insertDeep (fun _ => Deep.emptyObj) (fun e => absurd e (by decide))
          (fun e => absurd e (by decide)), ?_⟩
        simp only [Json.get, lookupEntry_insertEntry_self]
        exact ReverseMapDeep.emptyMap
      · rename_i hc
        cases h1
        refine ⟨hL, ?_⟩
        simp only [Bool.not_eq_true', Bool.not_eq_false, Json.contains, hasKey,
          Option.isSome_iff_exists] at hc
        obtain ⟨rv, hrv⟩ := hc
        obtain ⟨kvs', e', _, hre, _⟩ := hLT
        cases e'
        obtain ⟨rkvs, e2, hn⟩ := hre rv hrv
        subst e2
        have hD := hL.getDeep (k := JsonLdConsts.REVERSE) (by decide)
        simp only [Json.get, hrv] at hD ⊢
        exact ReverseMapDeep.ofDeep hD hn
    have hrm := addReverseProperty_deep hk _ hev.of_asArray _ _ hL1.2 h2
    obtain ⟨kvs1, e1⟩ := hL1.1.isObjDeep
    subst e1
    simp only [Json.set] at h
    cases h
    exact hL1.1.insertDeep (fun _ => hrm.mapDeep) (fun e => absurd e (by decide))
      (fun e => absurd e (by decide))
  · rw [addValue_obj] at h
    cases h
    exact hL.addedDeep hk hev.of_flatten

theorem expandEntry_deep {ops : ContextOps} (hnull : IdP .null)
    (hIri : ∀ c s, IdP (.str (ops.expandIri c s true false)))
    (hEV : ∀ c p v, Deep (MapOk IdP) (ops.expandValue c p v))
    {C : Context → Prop} (hC : ContextsValid ops C) {R : Expander} (hT : GoodTop Q R)
    (hR : GoodDeep IdP C R) {ctx tsc : Context} (hctx : C ctx) {ap : Option String}
    {element : Json} {base : String} {ord fm : Bool} {inputType key : String}
    {st st' : Json × Json} (hLT : LoopTop Q ap st.1) (hL : LoopDeep IdP st.1)
    (h : expandEntry ops R ctx tsc ap element base false ord fm inputType st key = .ok st') :
    LoopDeep IdP st'.1 := by
  unfold expandEntry at h
  split at h
  · cases h
    exact hL
  simp only at h
  split at h
  · cases h
    exact hL
  split at h
  · rename_i hkw
    exact expandKeywordEntry_deep hnull hIri hT hR hctx hkw hLT hL h
  · rename_i hkw
    obtain ⟨r, hr, e⟩ := map_eq_ok h
    subst e
    unfold expandPropertyEntry at hr
    obtain ⟨ev, hev, hr⟩ := bind_eq_ok hr
    have hD := expandPropertyValue_deep hIri hEV hC hT hR hctx hev
    split at hr
    · cases hr
      exact hL
    · exact storeProperty_deep hLT hL (by simpa using hkw)
        (toGraphObjects_deep (toListObject_deep hD)) hr

end JsonLdApi


namespace JsonLdApi

open JsonLdUtils

variable {Q : List (String × Json) → Prop} {IdP : Json → Prop}

theorem LoopDeep.toDeep {kvs : List (String × Json)} (h : LoopDeep IdP (.obj kvs))
    (hv : hasKey JsonLdConsts.VALUE kvs = true → ∀ kv ∈ kvs, kv.1 ∈ valueMapKeys) :
    Deep (MapOk IdP) (.obj kvs) := by
  obtain ⟨kvs', e, h1, h2, h3⟩ := h
  cases e
  exact .obj _ ⟨h2, hv, h3⟩ h1

theorem dropFreeFloating_deep {ap : Option String} {fe : Bool} {r : Json}
    (h : Deep (MapOk IdP) r) : Deep (MapOk IdP) (dropFreeFloating ap fe r) := by
  unfold dropFreeFloating
  split_ifs <;> first | exact .null | exact h

theorem finishResult_deep {ops : ContextOps} {ap : Option String} {fe : Bool}
    {result out : Json} (hL : LoopDeep IdP result)
    (h : finishResult ops ap fe result = .ok out) : Deep (MapOk IdP) out := by
  obtain ⟨kvs, e⟩ := hL.isObjDeep
  subst e
  unfold finishResult at h
  by_cases hv : hasKey JsonLdConsts.VALUE kvs = true
  · have hv' : (Json.obj kvs).contains JsonLdConsts.VALUE = true := hv
    rw [if_pos hv'] at h
    by_cases h1 : (!((Json.obj kvs).keys.all fun k => validKeywords.contains k)) = true
    · rw [if_pos h1] at h
      cases h
    rw [if_neg h1] at h
    have hkeys : ∀ kv ∈ kvs, kv.1 ∈ valueMapKeys := by
      intro kv hkv
      simp only [Json.keys, Bool.not_eq_true', Bool.not_eq_false, List.all_eq_true,
        List.mem_map, forall_exists_index, and_imp, forall_apply_eq_imp_iff₂] at h1
      have := h1 kv hkv
      exact List.mem_cons_of_mem _ (by simpa using this)
    have hres : Deep (MapOk IdP) (.obj kvs) := LoopDeep.toDeep hL (fun _ => hkeys)
    split_ifs at h <;>
      (cases h; first | exact .null | exact dropFreeFloating_deep hres)
  · have hv0 : hasKey JsonLdConsts.VALUE kvs = false := by simpa using hv
    have hv' : ¬ (Json.obj kvs).contains JsonLdConsts.VALUE = true := hv
    have hres : Deep (MapOk IdP) (.obj kvs) :=
      LoopDeep.toDeep hL (fun e => absurd e hv)
    rw [if_neg hv'] at h
    by_cases ht : (Json.obj kvs).contains JsonLdConsts.TYPE = true
    · rw [if_pos ht] at h
      obtain ⟨r, hr, e⟩ := map_eq_ok h
      subst e
      apply dropFreeFloating_deep
      split at hr
      · simp only [Json.set] at hr
        cases hr
        have hL' : LoopDeep IdP (.obj (insertEntry JsonLdConsts.TYPE
            (.arr [(Json.obj kvs).get JsonLdConsts.TYPE]) kvs)) := by
          refine hL.insertDeep (fun _ => .arr _ ?_) (fun e => absurd e (by decide))
            (fun e => absurd e (by decide))
          intro x hx
          simp only [List.mem_singleton] at hx
          subst hx
          exact hL.getDeep (by decide)
        refine LoopDeep.toDeep hL' ?_
        intro hc
        rw [hasKey_insertEntry, hv0] at hc
        exact absurd hc (show ¬ ((JsonLdConsts.VALUE == JsonLdConsts.TYPE || false) = true)
          by decide)
      · cases hr
        exact hres
    rw [if_neg ht] at h
    by_cases hs : ((Json.obj kvs).contains JsonLdConsts.SET ||
        (Json.obj kvs).contains JsonLdConsts.LIST) = true
    · rw [if_pos hs] at h
      by_cases hsz : (Json.obj kvs).size >
          (if (Json.obj kvs).contains JsonLdConsts.INDEX = true then 2 else 1)
      · rw [if_pos hsz] at h
        cases h
      · rw [if_neg hsz] at h
        cases h
        apply dropFreeFloating_deep
        split
        · exact hL.getDeep (by decide)
        · exact hres
    · rw [if_neg hs] at h
      cases h
      exact dropFreeFloating_deep hres

theorem restorePreviousContext_valid {ops : ContextOps} {C : Context → Prop}
    (hC : ContextsValid ops C) {ctx : Context} (hctx : C ctx) {el : Json} {fm : Bool} :
    C (restorePreviousContext ops ctx el fm) := by
  unfold restorePreviousContext
  split
  · exact hctx
  · rename_i p hp
    split_ifs
    · exact hctx
    · exact hC.previous _ _ hctx hp
    · exact hctx

theorem applyPropertyScopedContext_valid {ops : ContextOps} {C : Context → Prop}
    (hC : ContextsValid ops C) {ctx c : Context} (hctx : C ctx) {ap : Option String}
    {psc : Option Json} (h : applyPropertyScopedContext ops ctx ap psc = .ok c) : C c := by
  unfold applyPropertyScopedContext at h
  split at h
  · cases h
    exact hctx
  · split at h
    · cases h
    · obtain ⟨b, _, h⟩ := bind_eq_ok h
      exact hC.parsed _ _ _ _ _ _ _ _ hctx h

theorem applyTypeScopedContext_valid {ops : ContextOps} {C : Context → Prop}
    (hC : ContextsValid ops C) {tsc ctx c : Context} (hctx : C ctx) {term : String}
    (h : applyTypeScopedContext ops tsc ctx term = .ok c) : C c := by
  unfold applyTypeScopedContext at h
  split at h
  · simp only at h
    obtain ⟨lc, _, h⟩ := bind_eq_ok h
    split at h
    · obtain ⟨b, _, h⟩ := bind_eq_ok h
      exact hC.parsed _ _ _ _ _ _ _ _ hctx h
    · exact hC.parsed _ _ _ _ _ _ _ _ hctx h
  · cases h
    exact hctx

theorem findInputType_valid {ops : ContextOps} {C : Context → Prop}
    (hC : ContextsValid ops C) {ctx tsc : Context} (hctx : C ctx) {el : Json}
    {found : String × Context} (h : findInputType ops ctx tsc el = .ok found) : C found.2 := by
  unfold findInputType at h
  obtain ⟨st, hst, h⟩ := bind_eq_ok h
  have hst' : C st.1 := by
    refine foldlM_ok_inv (fun s : Context × String => C s.1) _ _ ?_ _ _ hctx hst
    intro b a b' _ hb hstep
    unfold findInputTypeKey at hstep
    split at hstep
    · cases hstep
      exact hb
    · simp only at hstep
      obtain ⟨c, hc, hstep⟩ := bind_eq_ok hstep
      cases hstep
      exact foldlM_ok_inv C _ _
        (fun b1 a1 b1' _ hb1 hs1 => applyTypeScopedContext_valid hC hb1 hs1) _ _ hb hc
  split at h
  · simp only at h
    split at h <;> (cases h; exact hst')
  · cases h
    exact hst'

theorem expandObjectElement_deep {ops : ContextOps} (hnull : IdP .null)
    (hIri : ∀ c s, IdP (.str (ops.expandIri c s true false)))
    (hEV : ∀ c p v, Deep (MapOk IdP) (ops.expandValue c p v))
    {C : Context → Prop} (hC : ContextsValid ops C) {R : Expander} (hT : GoodTop Q R)
    (hR : GoodDeep IdP C R) {ctx : Context} (hctx : C ctx)
    {ap : Option String} {el : Json} {base : String} {psc : Option Json} {ord fm : Bool}
    {out : Json}
    (h : expandObjectElement ops R ctx ap el base psc false ord fm = .ok out) :
    Deep (MapOk IdP) out := by
  unfold expandObjectElement at h
  obtain ⟨c8, hc8, h⟩ := bind_eq_ok h
  obtain ⟨tsc, htsc, h⟩ := bind_eq_ok h
  obtain ⟨found, hfound, h⟩ := bind_eq_ok h
  obtain ⟨st, hloop, h⟩ := bind_eq_ok h
  obtain ⟨_, _, h⟩ := bind_eq_ok h
  have h8 : C c8 := applyPropertyScopedContext_valid hC (restorePreviousContext_valid hC hctx) hc8
  have ht : C tsc := by
    split at htsc
    · exact hC.parsed _ _ _ _ _ _ _ _ h8 htsc
    · cases htsc
      exact h8
  have hf : C found.2 := findInputType_valid hC ht hfound
  have hL : LoopTop Q ap st.1 ∧ LoopDeep IdP st.1 :=
    foldlM_ok_inv (fun s : Json × Json => LoopTop Q ap s.1 ∧ LoopDeep IdP s.1) _ _
      (fun b a b' _ hb hstep => ⟨expandEntry_top hT hb.1 hstep,
        expandEntry_deep hnull hIri hEV hC hT hR hf hb.1 hb.2 hstep⟩) _ _
      ⟨LoopTop.emptyTop, LoopDeep.emptyDeep⟩ hloop
  exact finishResult_deep hL.2 h

theorem appendExpanded_deep {ctx : Context} {ap : Option String} {acc : List Json} {e : Json}
    (hacc : ∀ x ∈ acc, Deep (MapOk IdP) x) (he : Deep (MapOk IdP) e) :
    ∀ x ∈ appendExpanded acc (wrapListItem ctx ap e), Deep (MapOk IdP) x := by
  have hw : Deep (MapOk IdP) (wrapListItem ctx ap e) := by
    unfold wrapListItem
    cases ap with
    | none => exact he
    | some p =>
      simp only
      split
      · exact Deep.wrapped (by decide) (by decide) (by decide) he
      · exact he
  generalize wrapListItem ctx ap e = w at hw
  intro x hx
  cases hw with
  | null => exact hacc x hx
  | arr xs hxs =>
    simp only [appendExpanded, List.mem_append] at hx
    rcases hx with hx | hx
    · exact hacc x hx
    · exact hxs x hx
  | bool b =>
    simp only [appendExpanded, List.mem_append, List.mem_singleton] at hx
    rcases hx with hx | hx
    · exact hacc x hx
    · subst hx; exact .bool b
  | num n =>
    simp only [appendExpanded, List.mem_append, List.mem_singleton] at hx
    rcases hx with hx | hx
    · exact hacc x hx
    · subst hx; exact .num n
  | str s =>
    simp only [appendExpanded, List.mem_append, List.mem_singleton] at hx
    rcases hx with hx | hx
    · exact hacc x hx
    · subst hx; exact .str s
  | obj kvs hP hk =>
    simp only [appendExpanded, List.mem_append, List.mem_singleton] at hx
    rcases hx with hx | hx
    · exact hacc x hx
    · subst hx; exact .obj kvs hP hk

theorem expandArrayElement_deep {C : Context → Prop} {R : Expander} (hR : GoodDeep IdP C R)
    {ctx : Context} (hctx : C ctx) {ap : Option String} {items : List Json} {base : String}
    {ord fm : Bool} {out : Json}
    (h : expandArrayElement R ctx ap items base false ord fm = .ok out) :
    Deep (MapOk IdP) out := by
  unfold expandArrayElement at h
  obtain ⟨ys, hf, e⟩ := map_eq_ok h
  subst e
  refine .arr _ ?_
  exact foldlM_ok_inv (fun acc : List Json => ∀ x ∈ acc, Deep (MapOk IdP) x) _ items
    (fun b a b' _ hb hstep => by
      obtain ⟨e, he, hstep⟩ := bind_eq_ok hstep
      cases hstep
      exact appendExpanded_deep hb (hR _ _ _ _ _ _ _ hctx he)) [] ys
    (fun _ hx => by cases hx) hf

theorem expandScalar_deep {ops : ContextOps}
    (hEV : ∀ c p v, Deep (MapOk IdP) (ops.expandValue c p v)) {ctx : Context}
    {ap : Option String} {el : Json} {psc : Option Json} {out : Json}
    (h : expandScalar ops ctx ap el psc = .ok out) : Deep (MapOk IdP) out := by
  unfold expandScalar at h
  split at h
  · cases h; exact .null
  · split at h
    · cases h; exact .null
    · obtain ⟨c, _, h⟩ := bind_eq_ok h
      cases h
      exact hEV _ _ _

theorem expandBody_deep {ops : ContextOps} (hnull : IdP .null)
    (hIri : ∀ c s, IdP (.str (ops.expandIri c s true false)))
    (hEV : ∀ c p v, Deep (MapOk IdP) (ops.expandValue c p v))
    {C : Context → Prop} (hC : ContextsValid ops C) {R : Expander} (hT : GoodTop Q R)
    (hR : GoodDeep IdP C R) : GoodDeep IdP C (expandBody ops R) := by
  intro ctx ap el base ord fm out hctx h
  cases el with
  | null =>
    simp only [expandBody] at h
    cases h
    exact .null
  | arr items =>
    simp only [expandBody, ite_self] at h
    exact expandArrayElement_deep hR hctx h
  | obj kvs =>
    simp only [expandBody, ite_self] at h
    exact expandObjectElement_deep hnull hIri hEV hC hT hR hctx h
  | bool b =>
    simp only [expandBody] at h
    exact expandScalar_deep hEV h
  | num n =>
    simp only [expandBody] at h
    exact expandScalar_deep hEV h
  | str s =>
    simp only [expandBody] at h
    exact expandScalar_deep hEV h

theorem expand_deep {ops : ContextOps} (hnull : IdP .null)
    (hIri : ∀ c s, IdP (.str (ops.expandIri c s true false)))
    (hEV : ∀ c p v, Deep (MapOk IdP) (ops.expandValue c p v))
    (hEVmap : ∀ c p v, (ops.expandValue c p v).is_object = true)
    {C : Context → Prop} (hC : ContextsValid ops C) :
    ∀ fuel, GoodDeep IdP C (expand ops fuel)
  | 0 => fun _ _ _ _ _ _ _ _ h => by cases h
  | fuel + 1 =>
    expandBody_deep hnull hIri hEV hC
      (expand_top (Q := fun _ => True) (fun _ _ => trivial)
        (fun c p v => ⟨fun _ _ _ => trivial, fun xs e => by
          have := hEVmap c p v
          rw [e] at this
          cases this⟩) fuel)
      (expand_deep hnull hIri hEV hEVmap hC fuel)

end JsonLdApi


/-! ## Value expansion and contexts of the worked examples -/

theorem Deep.mono {P P' : List (String × Json) → Prop} (hPP : ∀ kvs, P kvs → P' kvs)
    {j : Json} (h : Deep P j) : Deep P' j := by
  induction h with
  | null => exact .null
  | bool b => exact .bool b
  | num n => exact .num n
  | str s => exact .str s
  | arr xs _ ih => exact .arr xs ih
  | obj kvs hP _ ih => exact .obj kvs (hPP kvs hP) ih

theorem ValueExpansionShape.isMap {ops : ContextOps} {IdP : Json → Prop}
    (h : ValueExpansionShape ops IdP) (c : Context) (p : String) (v : Json) :
    (ops.expandValue c p v).is_object = true := by
  obtain ⟨kvs, e, _⟩ := h c p v
  rw [e]
  rfl

theorem ValueExpansionShape.resultDeep {ops : ContextOps} {IdP : Json → Prop}
    (h : ValueExpansionShape ops IdP) (c : Context) (p : String) (v : Json) :
    Deep (MapOk IdP) (ops.expandValue c p v) := by
  obtain ⟨kvs, e, hk, hid⟩ := h c p v
  rw [e]
  refine .obj _ ⟨hid, fun _ kv hkv => (hk kv hkv).1, ?_⟩ ?_
  · intro kv hkv hnk
    rw [JsonLdUtils.isKeyword_of_mem_valueMapKeys (hk kv hkv).1] at hnk
    cases hnk
  · intro kv hkv hne
    have := (hk kv hkv).2 hne
    cases hk2 : kv.2 with
    | null => exact .null
    | bool b => exact .bool b
    | num n => exact .num n
    | str s => exact .str s
    | arr xs => rw [hk2] at this; exact absurd this.2 (by simp [Json.is_array])
    | obj o => rw [hk2] at this; exact absurd this.1 (by simp [Json.is_object])

theorem NoIndexMapping.valid : ContextsValid SpecModel.specOps NoIndexMapping := by
  refine ⟨?_, ?_, ?_⟩
  · intro c p hc hp
    cases hc with
    | mk terms prev dir pm base vocab lang hterms hprev => exact hprev p hp
  · intro c lc b rc o pr v c' hc hparse
    change SpecModel.parse c lc b rc o pr v = .ok c' at hparse
    unfold SpecModel.parse at hparse
    split at hparse
    · split at hparse
      · cases hparse
      · cases hparse
        refine .mk [] _ _ _ _ _ _ (fun _ h => (by cases h)) ?_
        intro p hp
        split at hp
        · cases hp
        · cases hp
          exact hc
    · cases hparse
  · intro c key s hc hget _
    exfalso
    cases hc with
    | mk terms prev dir pm base vocab lang hterms hprev =>
      have htd : (Context.getTermDefinition (.mk (.obj terms) prev dir pm base vocab lang)
          key).get JsonLdConsts.INDEX = .null := by
        simp only [Context.getTermDefinition, Context.termDefinitions, Json.contains]
        split
        · cases hl : lookupEntry key terms with
          | none => simp [Json.get, hl]
          | some td =>
            have := hterms (key, td) (lookupEntry_some_mem hl)
            simpa [Json.get, hl] using this
        · simp [Json.get, lookupEntry]
      rw [htd] at hget
      cases hget

namespace SpecModel

open JsonLdUtils

theorem shape_of_entries {IdP : Json → Prop} {kvs : List (String × Json)}
    (h : ∀ kv ∈ kvs, kv.1 = JsonLdConsts.VALUE ∨
      ((kv.1 = JsonLdConsts.TYPE ∨ kv.1 = JsonLdConsts.LANGUAGE ∨
        kv.1 = JsonLdConsts.DIRECTION) ∧ kv.2.is_string = true) ∨
      (kv.1 = JsonLdConsts.ID ∧ kv.2.is_string = true ∧ IdP kv.2)) :
    (∀ kv ∈ kvs, kv.1 ∈ valueMapKeys ∧
      (kv.1 ≠ JsonLdConsts.VALUE → kv.2.is_object = false ∧ kv.2.is_array = false)) ∧
    (∀ w, lookupEntry JsonLdConsts.ID kvs = some w → IdP w) := by
  have hstr : ∀ j : Json, j.is_string = true → j.is_object = false ∧ j.is_array = false := by
    intro j hj
    cases j <;> simp [Json.is_string] at hj
    exact ⟨rfl, rfl⟩
  constructor
  · intro kv hkv
    rcases h kv hkv with h1 | ⟨h1 | h1 | h1, h2⟩ | ⟨h1, h2, _⟩
    · exact ⟨h1 ▸ (show JsonLdConsts.VALUE ∈ valueMapKeys by decide), fun e => absurd h1 e⟩
    · exact ⟨h1 ▸ (show JsonLdConsts.TYPE ∈ valueMapKeys by decide), fun _ => hstr _ h2⟩
    · exact ⟨h1 ▸ (show JsonLdConsts.LANGUAGE ∈ valueMapKeys by decide), fun _ => hstr _ h2⟩
    · exact ⟨h1 ▸ (show JsonLdConsts.DIRECTION ∈ valueMapKeys by decide), fun _ => hstr _ h2⟩
    · exact ⟨h1 ▸ (show JsonLdConsts.ID ∈ valueMapKeys by decide), fun _ => hstr _ h2⟩
  · intro w hw
    rcases h _ (lookupEntry_some_mem hw) with h1 | ⟨h1 | h1 | h1, _⟩ | ⟨_, _, h3⟩
    · exact absurd (show JsonLdConsts.ID = JsonLdConsts.VALUE from h1) (by decide)
    · exact absurd (show JsonLdConsts.ID = JsonLdConsts.TYPE from h1) (by decide)
    · exact absurd (show JsonLdConsts.ID = JsonLdConsts.LANGUAGE from h1) (by decide)
    · exact absurd (show JsonLdConsts.ID = JsonLdConsts.DIRECTION from h1) (by decide)
    · exact h3

theorem languageTagged_entries {s : String} {language direction : Json} :
    ∀ kv ∈ (if direction.is_string = true then
        insertEntry JsonLdConsts.DIRECTION direction
          (if language.is_string = true then
            insertEntry JsonLdConsts.LANGUAGE language [(JsonLdConsts.VALUE, .str s)]
          else [(JsonLdConsts.VALUE, .str s)])
      else
        (if language.is_string = true then
          insertEntry JsonLdConsts.LANGUAGE language [(JsonLdConsts.VALUE, .str s)]
        else [(JsonLdConsts.VALUE, .str s)])),
      kv.1 = JsonLdConsts.VALUE ∨
      ((kv.1 = JsonLdConsts.LANGUAGE ∨ kv.1 = JsonLdConsts.DIRECTION) ∧
        kv.2.is_string = true) := by
  have h1 : ∀ kv ∈ (if language.is_string = true then
        insertEntry JsonLdConsts.LANGUAGE language [(JsonLdConsts.VALUE, Json.str s)]
      else [(JsonLdConsts.VALUE, .str s)]),
      kv.1 = JsonLdConsts.VALUE ∨
      ((kv.1 = JsonLdConsts.LANGUAGE ∨ kv.1 = JsonLdConsts.DIRECTION) ∧
        kv.2.is_string = true) := by
    intro kv hkv
    split at hkv
    · rename_i hl
      rcases mem_insertEntry hkv with e | e
      · subst e
        exact Or.inr ⟨Or.inl rfl, hl⟩
      · simp only [List.mem_singleton] at e
        subst e
        exact Or.inl rfl
    · simp only [List.mem_singleton] at hkv
      subst hkv
      exact Or.inl rfl
  intro kv hkv
  split at hkv
  · rename_i hd
    rcases mem_insertEntry hkv with e | e
    · subst e
      exact Or.inr ⟨Or.inr rfl, hd⟩
    · exact h1 kv e
  · exact h1 kv hkv

theorem expandValue_shape {IdP : Json → Prop}
    (hI : ∀ c s b, IdP (.str (expandIri c s true b))) : ValueExpansionShape specOps IdP := by
  intro c p v
  show ∃ kvs, expandValue c p v = .obj kvs ∧ _
  unfold expandValue
  simp only
  split
  · refine ⟨_, rfl, shape_of_entries ?_⟩
    intro kv hkv
    simp only [List.mem_singleton] at hkv
    subst hkv
    exact Or.inr (Or.inr ⟨rfl, rfl, hI _ _ _⟩)
  · refine ⟨_, rfl, shape_of_entries ?_⟩
    intro kv hkv
    simp only [List.mem_singleton] at hkv
    subst hkv
    exact Or.inr (Or.inr ⟨rfl, rfl, hI _ _ _⟩)
  · split
    · refine ⟨_, rfl, shape_of_entries ?_⟩
      intro kv hkv
      simp only [List.mem_singleton] at hkv
      subst hkv
      exact Or.inl rfl
    · refine ⟨_, rfl, shape_of_entries ?_⟩
      intro kv hkv
      simp only [List.mem_cons, List.mem_singleton, List.not_mem_nil, or_false] at hkv
      rcases hkv with e | e
      · subst e
        exact Or.inr (Or.inl ⟨Or.inl rfl, rfl⟩)
      · subst e
        exact Or.inl rfl
  · refine ⟨_, rfl, shape_of_entries ?_⟩
    intro kv hkv
    rcases languageTagged_entries kv hkv with h | ⟨h | h, h2⟩
    · exact Or.inl h
    · exact Or.inr (Or.inl ⟨Or.inr (Or.inl h), h2⟩)
    · exact Or.inr (Or.inl ⟨Or.inr (Or.inr h), h2⟩)
  · refine ⟨_, rfl, shape_of_entries ?_⟩
    intro kv hkv
    simp only [List.mem_singleton] at hkv
    subst hkv
    exact Or.inl rfl

theorem expandValue_strict (c : Context) (p : String) (v : Json) (kvs : List (String × Json))
    (h : specOps.expandValue c p v = .obj kvs) (_hv : hasKey JsonLdConsts.VALUE kvs = true) :
    StrictValueObject kvs := by
  change expandValue c p v = .obj kvs at h
  unfold expandValue at h
  simp only at h
  have hmem : ∀ k : String, hasKey k kvs = true → ∃ kv ∈ kvs, kv.1 = k :=
    fun k hk => hasKey_iff_mem.mp hk
  split at h
  · cases h
    obtain ⟨kv, hkv, e⟩ := hmem _ _hv
    simp only [List.mem_singleton] at hkv
    subst hkv
    exact absurd (show JsonLdConsts.ID = JsonLdConsts.VALUE from e) (by decide)
  · cases h
    obtain ⟨kv, hkv, e⟩ := hmem _ _hv
    simp only [List.mem_singleton] at hkv
    subst hkv
    exact absurd (show JsonLdConsts.ID = JsonLdConsts.VALUE from e) (by decide)
  · split at h
    · cases h
      refine ⟨?_, ?_⟩
      · intro kv hkv
        simp only [List.mem_singleton] at hkv
        subst hkv
        exact (show JsonLdConsts.VALUE ∈ JsonLdApi.validKeywords by decide)
      · rintro ⟨ht, _⟩
        obtain ⟨kv, hkv, e⟩ := hmem _ ht
        simp only [List.mem_singleton] at hkv
        subst hkv
        exact absurd (show JsonLdConsts.VALUE = JsonLdConsts.TYPE from e) (by decide)
    · cases h
      refine ⟨?_, ?_⟩
      · intro kv hkv
        simp only [List.mem_cons, List.mem_singleton, List.not_mem_nil, or_false] at hkv
        rcases hkv with e | e
        · subst e
          exact (show JsonLdConsts.TYPE ∈ JsonLdApi.validKeywords by decide)
        · subst e
          exact (show JsonLdConsts.VALUE ∈ JsonLdApi.validKeywords by decide)
      · rintro ⟨_, hl | hd⟩
        · obtain ⟨kv, hkv, e⟩ := hmem _ hl
          simp only [List.mem_cons, List.mem_singleton, List.not_mem_nil, or_false] at hkv
          rcases hkv with e' | e'
          · subst e'
            exact absurd (show JsonLdConsts.TYPE = JsonLdConsts.LANGUAGE from e) (by decide)
          · subst e'
            exact absurd (show JsonLdConsts.VALUE = JsonLdConsts.LANGUAGE from e) (by decide)
        · obtain ⟨kv, hkv, e⟩ := hmem _ hd
          simp only [List.mem_cons, List.mem_singleton, List.not_mem_nil, or_false] at hkv
          rcases hkv with e' | e'
          · subst e'
            exact absurd (show JsonLdConsts.TYPE = JsonLdConsts.DIRECTION from e) (by decide)
          · subst e'
            exact absurd (show JsonLdConsts.VALUE = JsonLdConsts.DIRECTION from e) (by decide)
  · cases h
    refine ⟨?_, ?_⟩
    · intro kv hkv
      rcases languageTagged_entries kv hkv with h | ⟨h | h, _⟩
      · exact h ▸ (show JsonLdConsts.VALUE ∈ JsonLdApi.validKeywords by decide)
      · exact h ▸ (show JsonLdConsts.LANGUAGE ∈ JsonLdApi.validKeywords by decide)
      · exact h ▸ (show JsonLdConsts.DIRECTION ∈ JsonLdApi.validKeywords by decide)
    · rintro ⟨ht, _⟩
      obtain ⟨kv, hkv, e⟩ := hmem _ ht
      rcases languageTagged_entries kv hkv with h | ⟨h | h, _⟩
      · exact absurd (h.symm.trans e) (by decide)
      · exact absurd (h.symm.trans e) (by decide)
      · exact absurd (h.symm.trans e) (by decide)
  · cases h
    refine ⟨?_, ?_⟩
    · intro kv hkv
      simp only [List.mem_singleton] at hkv
      subst hkv
      exact (show JsonLdConsts.VALUE ∈ JsonLdApi.validKeywords by decide)
    · rintro ⟨ht, _⟩
      obtain ⟨kv, hkv, e⟩ := hmem _ ht
      simp only [List.mem_singleton] at hkv
      subst hkv
      exact absurd (show JsonLdConsts.VALUE = JsonLdConsts.TYPE from e) (by decide)

end SpecModel


namespace JsonLdApi

open JsonLdUtils

/-- C1 (amended): provided value expansion returns a map of the keys `@value`,
`@type`, `@language`, `@direction`, `@index`, `@id` with scalar entries, which
satisfies step 15.1 when it has `@value`, and the index mapping of a term does
not expand to a keyword: without `frameExpansion`, every map with an `@value`
entry in the output of `expand`, outside the content of `@value` entries, has
only keys among `@value`, `@type`, `@language`, `@direction`, `@index` and
`@id`; and the map that `expand` returns, or each item of the array it returns,
when it has an `@value` entry, has only the first five of these keys and no
`@type` together with `@language` or `@direction`. -/
theorem C1_value_map_keys (ops : ContextOps) (C : Context → Prop)
    (hC : ContextsValid ops C) (hShape : ValueExpansionShape ops (fun _ => True))
    (hStrict : ∀ c p v kvs, ops.expandValue c p v = .obj kvs →
      hasKey JsonLdConsts.VALUE kvs = true → StrictValueObject kvs)
    (fuel : Nat) (ctx : Context) (hctx : C ctx) (ap : Option String) (el : Json)
    (base : String) (fe ord fm : Bool) (out : Json)
    (h : expand ops fuel ctx ap el base fe ord fm = .ok out) :
    (fe = false → Deep (fun kvs => hasKey JsonLdConsts.VALUE kvs = true →
        ∀ kv ∈ kvs, kv.1 ∈ valueMapKeys) out) ∧
    ValueMapIs StrictValueObject out ∧
    (∀ xs, out = .arr xs → ∀ x ∈ xs, ValueMapIs StrictValueObject x) := by
  have hEV' : ∀ c p v, TopOk StrictValueObject (ops.expandValue c p v) := by
    intro c p v
    refine ⟨fun kvs e hv => hStrict c p v kvs e hv, fun xs e => ?_⟩
    have := hShape.isMap c p v
    rw [e] at this
    cases this
  have hgood := expand_top (Q := StrictValueObject) (fun _ hk => hk) hEV' fuel _ _ _ _ _ _ _ _ h
  refine ⟨?_, hgood.1.1, fun xs e x hx => (hgood.1.2 xs e x hx).2.2⟩
  intro hfe
  subst hfe
  have hdeep := expand_deep (show (fun _ : Json => True) Json.null from trivial) (fun _ _ => trivial) hShape.resultDeep
    hShape.isMap hC fuel _ _ _ _ _ _ _ hctx h
  exact hdeep.mono (fun _ hk => hk.2.1)

/-- C1 (amended) at the id map of the term `p`: the item has the keys `@id`
and `@value`. -/
theorem C1_value_map_keys_witness :
    expand SpecModel.specOps 4 Examples.idMapContext none
      (.obj [("p", .obj [("http://ex/i", .str "v")])]) "" false false false =
      .ok (.obj [("http://ex/p",
        .arr [.obj [("@id", .str "http://ex/i"), ("@value", .str "v")]])]) ∧
    ((false = false → Deep (fun kvs => hasKey JsonLdConsts.VALUE kvs = true →
        ∀ kv ∈ kvs, kv.1 ∈ valueMapKeys)
      (.obj [("http://ex/p",
        .arr [.obj [("@id", .str "http://ex/i"), ("@value", .str "v")]])])) ∧
    ValueMapIs StrictValueObject (.obj [("http://ex/p",
        .arr [.obj [("@id", .str "http://ex/i"), ("@value", .str "v")]])]) ∧
    (∀ xs, Json.obj [("http://ex/p",
        .arr [.obj [("@id", .str "http://ex/i"), ("@value", .str "v")]])] = .arr xs →
      ∀ x ∈ xs, ValueMapIs StrictValueObject x)) := by
  have hev : expand SpecModel.specOps 4 Examples.idMapContext none
      (.obj [("p", .obj [("http://ex/i", .str "v")])]) "" false false false =
      .ok (.obj [("http://ex/p",
        .arr [.obj [("@id", .str "http://ex/i"), ("@value", .str "v")]])]) := by decide
  exact ⟨hev, C1_value_map_keys SpecModel.specOps NoIndexMapping NoIndexMapping.valid
    (SpecModel.expandValue_shape (fun _ _ _ => trivial)) SpecModel.expandValue_strict 4
    Examples.idMapContext
    (.mk _ none _ _ _ _ _ (by decide) (fun _ e => by cases e))
    none (.obj [("p", .obj [("http://ex/i", .str "v")])]) "" false false false _ hev⟩

/-- C1 as stated fails: value expansion returns `{"@value": "v"}`, and the
item that the id map of the term `p` produces has the key `@id` next to
`@value`. -/
theorem C1_counterexample :
    SpecModel.specOps.expandValue Examples.idMapContext "p" (.str "v") =
      .obj [("@value", .str "v")] ∧
    expand SpecModel.specOps 4 Examples.idMapContext none
      (.obj [("p", .obj [("http://ex/i", .str "v")])]) "" false false false =
      .ok (.obj [("http://ex/p",
        .arr [.obj [("@id", .str "http://ex/i"), ("@value", .str "v")]])]) ∧
    Json.allMaps valueMapStrict (.obj [("http://ex/p",
        .arr [.obj [("@id", .str "http://ex/i"), ("@value", .str "v")]])]) = false := by
  decide

/-- C2 (amended): provided value expansion returns a map of keywords with
scalar entries whose `@id`, if any, comes from IRI expansion, and the index
mapping of a term does not expand to a keyword: without `frameExpansion`, every
`@id` entry of a map in the output of `expand`, outside the content of `@value`
entries, is null or a string returned by `expandIri` with `documentRelative`
true. -/
theorem C2_id_entries_from_iri_expansion (ops : ContextOps) (C : Context → Prop)
    (hC : ContextsValid ops C) (hShape : ValueExpansionShape ops (IdFromExpandIri ops))
    (fuel : Nat) (ctx : Context) (hctx : C ctx) (ap : Option String) (el : Json)
    (base : String) (ord fm : Bool) (out : Json)
    (h : expand ops fuel ctx ap el base false ord fm = .ok out) :
    Deep (fun kvs => ∀ v, lookupEntry JsonLdConsts.ID kvs = some v → IdFromExpandIri ops v)
      out := by
  have hdeep := expand_deep (show IdFromExpandIri ops Json.null from Or.inl rfl)
    (fun c s => Or.inr ⟨c, s, false, rfl⟩) hShape.resultDeep hShape.isMap hC fuel _ _ _ _ _ _ _ hctx h
  exact hdeep.mono (fun _ hk => hk.1)

/-- C2 (amended) at a node with an absolute `@id` whose property holds a
string and a blank node. -/
theorem C2_id_entries_from_iri_expansion_witness :
    expand SpecModel.specOps 4 SpecModel.emptyContext none
      (.obj [("@id", .str "http://ex/a"),
        ("http://ex/p", .arr [.str "v", .obj [("@id", .str "_:b0")]])]) "" false false false =
      .ok (.obj [("@id", .str "http://ex/a"),
        ("http://ex/p", .arr [.obj [("@value", .str "v")], .obj [("@id", .str "_:b0")]])]) ∧
    Deep (fun kvs => ∀ v, lookupEntry JsonLdConsts.ID kvs = some v →
        IdFromExpandIri SpecModel.specOps v)
      (.obj [("@id", .str "http://ex/a"),
        ("http://ex/p", .arr [.obj [("@value", .str "v")], .obj [("@id", .str "_:b0")]])]) := by
  have hev : expand SpecModel.specOps 4 SpecModel.emptyContext none
      (.obj [("@id", .str "http://ex/a"),
        ("http://ex/p", .arr [.str "v", .obj [("@id", .str "_:b0")]])]) "" false false false =
      .ok (.obj [("@id", .str "http://ex/a"),
        ("http://ex/p", .arr [.obj [("@value", .str "v")], .obj [("@id", .str "_:b0")]])]) := by
    decide
  exact ⟨hev, C2_id_entries_from_iri_expansion SpecModel.specOps NoIndexMapping
    NoIndexMapping.valid
    (SpecModel.expandValue_shape (fun c s b => Or.inr ⟨c, s, b, rfl⟩)) 4 SpecModel.emptyContext
    (.mk _ none _ _ _ _ _ (fun _ hx => by cases hx) (fun _ e => by cases e))
    none _ "" false false _ hev⟩

/-- C2 as stated fails: IRI expansion returns a keyword as it is, so the
`@id` entry `@type` is stored, which is neither a blank-node identifier nor an
absolute IRI. -/
theorem C2_counterexample :
    expand SpecModel.specOps 4 SpecModel.emptyContext none
      (.obj [("http://ex/p", .obj [("@id", .str "@type")])]) "" false false false =
      .ok (.obj [("http://ex/p", .arr [.obj [("@id", .str "@type")]])]) ∧
    Json.allMaps (idEntryAbsolute SpecModel.specOps)
      (.obj [("http://ex/p", .arr [.obj [("@id", .str "@type")]])]) = false := by
  decide

end JsonLdApi


/-! ## Step 14: nesting keys -/

theorem mem_insertKey {x k : String} : ∀ {l : List String}, x ∈ insertKey k l ↔ x = k ∨ x ∈ l
  | [] => by simp [insertKey]
  | y :: ys => by
    unfold insertKey
    split
    · simp only [List.mem_cons, mem_insertKey (l := ys)]
      constructor
      · rintro (h | h | h)
        · exact Or.inr (Or.inl h)
        · exact Or.inl h
        · exact Or.inr (Or.inr h)
      · rintro (h | h | h)
        · exact Or.inr (Or.inl h)
        · exact Or.inl h
        · exact Or.inr (Or.inr h)
    · simp only [List.mem_cons]

theorem mem_sortKeys {x : String} : ∀ {l : List String}, x ∈ sortKeys l ↔ x ∈ l
  | [] => by simp [sortKeys]
  | y :: ys => by
    have ih := mem_sortKeys (x := x) (l := ys)
    unfold sortKeys at ih ⊢
    simp only [List.foldr_cons, mem_insertKey, List.mem_cons, ih]

theorem foldlM_ok_mem {ε α β : Type} (P : β → Prop) (f : β → α → Except ε β) (a0 : α)
    (hmono : ∀ b a b', f b a = .ok b' → P b → P b')
    (hat : ∀ b b', f b a0 = .ok b' → P b') :
    ∀ (l : List α) (b b' : β), a0 ∈ l → l.foldlM f b = .ok b' → P b' := by
  intro l
  induction l with
  | nil => intro b b' h; cases h
  | cons a l ih =>
    intro b b' hmem hf
    simp only [List.foldlM_cons] at hf
    obtain ⟨b1, h1, hrest⟩ := bind_eq_ok hf
    rcases List.mem_cons.mp hmem with e | e
    · rw [← e] at h1
      exact foldlM_ok_inv P f l (fun b2 a2 b2' _ hb hs => hmono b2 a2 b2' hs hb) b1 b'
        (hat b b1 h1) hrest
    · exact ih b1 b' e hrest

theorem takeWhile_split {key : String} : ∀ {l : List String}, key ∈ l →
    ∃ post, l = l.takeWhile (fun k => k != key) ++ key :: post
  | [], h => by cases h
  | x :: xs, h => by
    by_cases hx : x = key
    · subst hx
      exact ⟨xs, by simp [List.takeWhile]⟩
    · have hmem : key ∈ xs := by
        rcases List.mem_cons.mp h with e | e
        · exact absurd e.symm hx
        · exact e
      obtain ⟨post, hp⟩ := takeWhile_split hmem
      refine ⟨post, ?_⟩
      have hne : (x != key) = true := by simpa using hx
      simp only [List.takeWhile, hne, List.cons_append]
      exact congrArg _ hp

namespace JsonLdApi

open JsonLdUtils

theorem Json.contains_set {j n : Json} {k k' : String} {v : Json} (h : j.set k v = .ok n) :
    n.contains k = true ∧ (j.contains k' = true → n.contains k' = true) := by
  cases j with
  | null =>
    simp only [Json.set] at h
    cases h
    exact ⟨by simp [Json.contains, hasKey, lookupEntry], fun hc => by cases hc⟩
  | obj kvs =>
    simp only [Json.set] at h
    cases h
    simp only [Json.contains, hasKey_insertEntry]
    exact ⟨by simp, fun hc => by simp [hc]⟩
  | bool b => cases h
  | num x => cases h
  | str s => cases h
  | arr xs => cases h

theorem expandEntry_nests_mono {ops : ContextOps} {R : Expander} {ctx tsc : Context}
    {ap : Option String} {element : Json} {base : String} {fe ord fm : Bool}
    {inputType key : String} {st st' : Json × Json} (k0 : String)
    (h : expandEntry ops R ctx tsc ap element base fe ord fm inputType st key = .ok st')
    (hc : st.2.contains k0 = true) : st'.2.contains k0 = true := by
  unfold expandEntry at h
  split at h
  · cases h; exact hc
  simp only at h
  split at h
  · cases h; exact hc
  split at h
  · unfold expandKeywordEntry at h
    split at h
    · cases h
    split at h
    · cases h
    obtain ⟨flow, _, h⟩ := bind_eq_ok h
    cases flow with
    | next r => cases h; exact hc
    | value v =>
      simp only at h
      split at h
      · split at h
        · obtain ⟨n, hn, e⟩ := map_eq_ok h
          subst e
          exact (Json.contains_set hn).2 hc
        · cases h; exact hc
      · obtain ⟨v', _, h⟩ := bind_eq_ok h
        obtain ⟨r, _, e⟩ := map_eq_ok h
        subst e
        exact hc
  · obtain ⟨r, _, e⟩ := map_eq_ok h
    subst e
    exact hc

theorem expandEntry_nests_at {ops : ContextOps} {R : Expander} {ctx tsc : Context}
    {ap : Option String} {element : Json} {base : String} {fe ord fm : Bool}
    {inputType key : String} {st st' : Json × Json} (hkey : key ≠ JsonLdConsts.CONTEXT)
    (hnest : ops.expandIri ctx key false true = JsonLdConsts.NEST)
    (h : expandEntry ops R ctx tsc ap element base fe ord fm inputType st key = .ok st') :
    st'.2.contains key = true := by
  unfold expandEntry at h
  rw [if_neg (by simpa using hkey)] at h
  simp only [hnest] at h
  rw [if_neg (by decide), if_pos (by decide)] at h
  unfold expandKeywordEntry at h
  split at h
  · cases h
  split at h
  · cases h
  obtain ⟨flow, hflow, h⟩ := bind_eq_ok h
  have hf : flow = .value .null := by
    unfold keywordFlow at hflow
    simp only [show (JsonLdConsts.NEST == JsonLdConsts.ID) = false by decide,
      show (JsonLdConsts.NEST == JsonLdConsts.TYPE) = false by decide,
      show (JsonLdConsts.NEST == JsonLdConsts.GRAPH) = false by decide,
      show (JsonLdConsts.NEST == JsonLdConsts.INCLUDED) = false by decide,
      show (JsonLdConsts.NEST == JsonLdConsts.VALUE) = false by decide,
      show (JsonLdConsts.NEST == JsonLdConsts.LANGUAGE) = false by decide,
      show (JsonLdConsts.NEST == JsonLdConsts.DIRECTION) = false by decide,
      show (JsonLdConsts.NEST == JsonLdConsts.INDEX) = false by decide,
      show (JsonLdConsts.NEST == JsonLdConsts.LIST) = false by decide,
      show (JsonLdConsts.NEST == JsonLdConsts.SET) = false by decide,
      show (JsonLdConsts.NEST == JsonLdConsts.REVERSE) = false by decide,
      Bool.false_eq_true, if_false] at hflow
    cases hflow
    rfl
  subst hf
  simp only [beq_self_eq_true, if_true] at h
  split at h
  · obtain ⟨n, hn, e⟩ := map_eq_ok h
    subst e
    exact (@Json.contains_set _ _ _ key _ hn).1
  · rename_i hc
    cases h
    simpa using hc

theorem processNests_error (element : Json) (key : String) (v : Json) (rest : List Json)
    (hv : (element.get key).asArray = v :: rest) (post : List String) :
    ∀ (pre : List String), (∀ k ∈ pre, (element.get k).asArray = []) →
      (pre ++ key :: post).foldlM (fun (_ : Unit) nestingKey =>
        (element.get nestingKey).asArray.foldlM (fun (_ : Unit) nestedValue =>
          if !nestedValue.is_object then
            (Except.error JsonLdError.InvalidNestValue : Except JsonLdError Unit)
          else .error .NotImplemented) ()) () =
      .error (if v.is_object then .NotImplemented else .InvalidNestValue) := by
  intro pre
  induction pre with
  | nil =>
    intro _
    simp only [List.nil_append, List.foldlM_cons, hv]
    cases hobj : v.is_object <;> rfl
  | cons a pre ih =>
    intro hpre
    have ha := hpre a (List.mem_cons_self _ _)
    simp only [List.cons_append, List.foldlM_cons, ha, List.foldlM_nil]
    exact ih (fun k hk => hpre k (List.mem_cons_of_mem _ hk))

end JsonLdApi

namespace JsonLdApi

open JsonLdUtils

/-- C11 (amended): when steps 7 to 13 of expanding a map raise no error (so
the active property is not `@reverse`), a key of the map expands to `@nest`,
and the nesting keys that step 14 visits before it have empty arrays as
values, then expansion fails: with the 'not implemented' error when the first
nested value of the key (its value, or the first item of its array value) is a
map, and with 'invalid @nest value' when it is not a map. -/
theorem C11_nest_not_implemented (ops : ContextOps) (recur : Expander) (ctx : Context)
    (ap : Option String) (element : Json) (base : String) (psc : Option Json)
    (fe ord fm : Bool) (c8 tsc : Context) (found : String × Context) (st : Json × Json)
    (key : String) (v : Json) (rest : List Json)
    (h8 : applyPropertyScopedContext ops (restorePreviousContext ops ctx element fm) ap psc =
      .ok c8)
    (h9 : (if element.contains JsonLdConsts.CONTEXT then
        ops.parse c8 (element.get JsonLdConsts.CONTEXT) base [] false true true
      else .ok c8) = .ok tsc)
    (h11 : findInputType ops tsc tsc element = .ok found)
    (h13 : (if ord then sortKeys element.keys else element.keys).foldlM
      (expandEntry ops recur found.2 tsc ap element base fe ord fm found.1)
      (Json.obj [], Json.obj []) = .ok st)
    (hkey : key ∈ element.keys) (hctx : key ≠ JsonLdConsts.CONTEXT)
    (hnest : ops.expandIri found.2 key false true = JsonLdConsts.NEST)
    (hpre : ∀ k ∈ (if ord then sortKeys st.2.keys else st.2.keys).takeWhile
      (fun k => k != key), (element.get k).asArray = [])
    (hv : (element.get key).asArray = v :: rest) :
    expandObjectElement ops recur ctx ap element base psc fe ord fm =
      .error (if v.is_object then .NotImplemented else .InvalidNestValue) := by
  have hkey' : key ∈ (if ord then sortKeys element.keys else element.keys) := by
    split
    · exact mem_sortKeys.mpr hkey
    · exact hkey
  have hcont : st.2.contains key = true :=
    foldlM_ok_mem (fun s : Json × Json => s.2.contains key = true)
      (expandEntry ops recur found.2 tsc ap element base fe ord fm found.1) key
      (fun b a b' hs hb => expandEntry_nests_mono key hs hb)
      (fun b b' hs => expandEntry_nests_at hctx hnest hs) _ _ _ hkey' h13
  have hmem : key ∈ (if ord then sortKeys st.2.keys else st.2.keys) := by
    have hk : key ∈ st.2.keys := by
      cases hst : st.2 with
      | obj nkvs =>
        rw [hst] at hcont
        obtain ⟨kv, hkv, e⟩ := hasKey_iff_mem.mp hcont
        simp only [Json.keys, List.mem_map]
        exact ⟨kv, hkv, e⟩
      | _ => rw [hst] at hcont; cases hcont
    split
    · exact mem_sortKeys.mpr hk
    · exact hk
  obtain ⟨post, hsplit⟩ := takeWhile_split hmem
  have hnests : processNests element st.2 ord =
      .error (if v.is_object then .NotImplemented else .InvalidNestValue) := by
    unfold processNests
    rw [hsplit]
    exact processNests_error element key v rest hv post _ hpre
  unfold expandObjectElement
  rw [h8]
  simp only [Except.bind]
  rw [h9]
  simp only [h11, h13, hnests]

/-- C11 (amended) at the map `{"@nest": {"http://ex/p": "v"}}`. -/
theorem C11_nest_not_implemented_witness :
    expandObjectElement SpecModel.specOps (expand SpecModel.specOps 2) SpecModel.emptyContext
      none (.obj [("@nest", .obj [("http://ex/p", .str "v")])]) "" none false false false =
    .error .NotImplemented :=
  C11_nest_not_implemented SpecModel.specOps (expand SpecModel.specOps 2)
    SpecModel.emptyContext none (.obj [("@nest", .obj [("http://ex/p", .str "v")])]) "" none
    false false false SpecModel.emptyContext SpecModel.emptyContext ("", SpecModel.emptyContext)
    (.obj [], .obj [("@nest", .arr [])]) "@nest" (.obj [("http://ex/p", .str "v")]) []
    rfl rfl rfl rfl (by decide) (by decide) (by decide) (by decide) (by decide)

/-- C11 as stated fails: under the active property `@reverse` the key `@nest`
raises 'invalid reverse property map' in step 13.4.1; the map has no other
key. -/
theorem C11_counterexample :
    expand SpecModel.specOps 3 SpecModel.emptyContext (some "@reverse")
      (.obj [("@nest", .obj [])]) "" false false false = .error .InvalidReversePropertyMap ∧
    expand SpecModel.specOps 4 SpecModel.emptyContext none
      (.obj [("@reverse", .obj [("@nest", .obj [])])]) "" false false false =
      .error .InvalidReversePropertyMap ∧
    JsonLdError.InvalidReversePropertyMap ≠ JsonLdError.NotImplemented := by
  decide

end JsonLdApi


/-! ## Step 13.4: keyword entries -/

namespace JsonLdApi

open JsonLdUtils

theorem expandEntry_keyword (ops : ContextOps) (recur : Expander) (ctx tsc : Context)
    (ap : Option String) (element : Json) (base : String) (fe ord fm : Bool)
    (inputType key : String) (st : Json × Json) (hkey : key ≠ JsonLdConsts.CONTEXT)
    (hkw : isKeyword (ops.expandIri ctx key false true) = true) :
    expandEntry ops recur ctx tsc ap element base fe ord fm inputType st key =
      expandKeywordEntry ops recur ctx tsc ap base fe ord fm inputType key
        (ops.expandIri ctx key false true) (element.get key) st := by
  unfold expandEntry
  rw [if_neg (by simpa using hkey)]
  have hne : (ops.expandIri ctx key false true == "") = false := by
    cases he : (ops.expandIri ctx key false true == "") with
    | false => rfl
    | true =>
      simp only [beq_iff_eq] at he
      rw [he] at hkw
      exact absurd hkw (by decide)
  simp only [hne, hkw, Bool.or_true, Bool.not_true, Bool.or_false, Bool.false_eq_true, if_false,
    if_true]

theorem expandKeywordEntry_reverse (ops : ContextOps) (recur : Expander) (ctx tsc : Context)
    (base : String) (fe ord fm : Bool) (inputType key ep : String) (ev : Json)
    (st : Json × Json) :
    expandKeywordEntry ops recur ctx tsc (some JsonLdConsts.REVERSE) base fe ord fm inputType key
      ep ev st = .error .InvalidReversePropertyMap := by
  unfold expandKeywordEntry
  rw [if_pos (by simp)]

theorem expandKeywordEntry_flow (ops : ContextOps) (recur : Expander) (ctx tsc : Context)
    (ap : Option String) (base : String) (fe ord fm : Bool) (inputType key ep : String)
    (ev : Json) (st : Json × Json) (hap : ap ≠ some JsonLdConsts.REVERSE)
    (hnc : st.1.contains ep = false) :
    expandKeywordEntry ops recur ctx tsc ap base fe ord fm inputType key ep ev st =
      (keywordFlow ops recur ctx tsc ap base fe ord fm inputType ep ev st.1).bind (fun flow =>
        match flow with
        | .next result => .ok (result, st.2)
        | .value expandedValue =>
          if ep == JsonLdConsts.NEST then
            if !st.2.contains key then (st.2.set key (.arr [])).map (fun n => (st.1, n))
            else .ok st
          else
            (if fe && isFramingKeyword ep then recur ctx ap ev base fe ord false
              else .ok expandedValue).bind (fun expandedValue =>
            (storeKeyword inputType ep expandedValue st.1).map (fun r => (r, st.2)))) := by
  unfold expandKeywordEntry
  rw [if_neg (by simpa using hap), hnc]
  simp only [Bool.false_and, Bool.false_eq_true, if_false]

/-- C12 (amended): when the active property is not `@reverse`, a key that
expands to a keyword for which the result already has an entry fails with
'colliding keywords', unless the keyword is `@type` or `@included` and the
processing mode is not json-ld-1.0. -/
theorem C12_colliding_keywords (ops : ContextOps) (recur : Expander) (ctx tsc : Context)
    (ap : Option String) (element : Json) (base : String) (fe ord fm : Bool)
    (inputType key : String) (st : Json × Json) (hkey : key ≠ JsonLdConsts.CONTEXT)
    (hap : ap ≠ some JsonLdConsts.REVERSE)
    (hkw : isKeyword (ops.expandIri ctx key false true) = true)
    (hhas : st.1.contains (ops.expandIri ctx key false true) = true)
    (hmode : ctx.isProcessingMode JsonLdOptions.JSON_LD_1_0 = true ∨
      (ops.expandIri ctx key false true ≠ JsonLdConsts.INCLUDED ∧
        ops.expandIri ctx key false true ≠ JsonLdConsts.TYPE)) :
    expandEntry ops recur ctx tsc ap element base fe ord fm inputType st key =
      .error .CollidingKeywords := by
  rw [expandEntry_keyword ops recur ctx tsc ap element base fe ord fm inputType key st hkey hkw]
  unfold expandKeywordEntry
  rw [if_neg (by simpa using hap), if_pos]
  rw [hhas]
  rcases hmode with h | ⟨h1, h2⟩
  · simp [h]
  · simp [h1, h2]

/-- C12 (amended) at two aliases of `@id`: the second one collides. -/
theorem C12_colliding_keywords_witness :
    expandEntry SpecModel.specOps (expand SpecModel.specOps 3) Examples.idAliasContext
      Examples.idAliasContext none
      (.obj [("a", .str "http://ex/x"), ("b", .str "http://ex/y")]) "" false false false ""
      (.obj [("@id", .str "http://ex/x")], .obj []) "b" = .error .CollidingKeywords :=
  C12_colliding_keywords SpecModel.specOps (expand SpecModel.specOps 3)
    Examples.idAliasContext Examples.idAliasContext none
    (.obj [("a", .str "http://ex/x"), ("b", .str "http://ex/y")]) "" false false false "" "b"
    (.obj [("@id", .str "http://ex/x")], .obj []) (by decide) (by decide) (by decide)
    (by decide) (Or.inr (by decide))

/-- C12 as stated fails: under the active property `@reverse` the result has
an `@reverse` entry after the reverse term `a`, and the alias `z` of `@reverse`
then fails with 'invalid reverse property map' (step 13.4.1), not with
'colliding keywords'. -/
theorem C12_counterexample :
    expandEntry SpecModel.specOps (expand SpecModel.specOps 3) Examples.reverseContext
      Examples.reverseContext (some "@reverse")
      (.obj [("a", .obj [("@id", .str "http://ex/n")]), ("z", .obj [])]) "" false false false
      "" (.obj [], .obj []) "a" =
      .ok (.obj [("@reverse", .obj [("http://ex/r",
        .arr [.obj [("@id", .str "http://ex/n")]])])], .obj []) ∧
    expandEntry SpecModel.specOps (expand SpecModel.specOps 3) Examples.reverseContext
      Examples.reverseContext (some "@reverse")
      (.obj [("a", .obj [("@id", .str "http://ex/n")]), ("z", .obj [])]) "" false false false
      "" (.obj [("@reverse", .obj [("http://ex/r",
        .arr [.obj [("@id", .str "http://ex/n")]])])], .obj []) "z" =
      .error .InvalidReversePropertyMap ∧
    expand SpecModel.specOps 5 Examples.reverseContext none
      (.obj [("@reverse", .obj [("a", .obj [("@id", .str "http://ex/n")]), ("z", .obj [])])])
      "" false false false = .error .InvalidReversePropertyMap ∧
    JsonLdError.InvalidReversePropertyMap ≠ JsonLdError.CollidingKeywords := by
  decide

end JsonLdApi


namespace JsonLdApi

open JsonLdUtils

/-- C13 (amended): with `frameExpansion` false, an active property other than
`@reverse` and a result without `@id` entry, a key that expands to `@id` fails
with 'invalid @id value' when its value is not a string; for a string value
the `@id` entry of the result becomes `expandIri(value, true, false)`, or null
when that is the empty string. -/
theorem C13_id_entry (ops : ContextOps) (recur : Expander) (ctx tsc : Context)
    (ap : Option String) (element : Json) (base : String) (ord fm : Bool)
    (inputType key : String) (kvs : List (String × Json)) (nests : Json)
    (hkey : key ≠ JsonLdConsts.CONTEXT) (hap : ap ≠ some JsonLdConsts.REVERSE)
    (hid : ops.expandIri ctx key false true = JsonLdConsts.ID)
    (hnc : hasKey JsonLdConsts.ID kvs = false) :
    expandEntry ops recur ctx tsc ap element base false ord fm inputType (.obj kvs, nests) key =
      match element.get key with
      | .str s =>
        .ok (.obj (insertEntry JsonLdConsts.ID
          (if ops.expandIri ctx s true false = "" then .null
            else .str (ops.expandIri ctx s true false)) kvs), nests)
      | _ => .error .InvalidIdValue := by
  rw [expandEntry_keyword ops recur ctx tsc ap element base false ord fm inputType key _ hkey
    (by rw [hid]; decide)]
  rw [expandKeywordEntry_flow ops recur ctx tsc ap base false ord fm inputType key _ _ _ hap
    (by rw [hid]; exact hnc)]
  rw [hid]
  unfold keywordFlow
  rw [if_pos (by decide)]
  cases hv : element.get key with
  | str s =>
    simp only [expandIdEntry, Except.map, Except.bind]
    rw [if_neg (by decide)]
    simp only [Bool.false_and, Bool.false_eq_true, if_false, Except.bind, storeKeyword,
      Json.is_null, Bool.not_false, Bool.true_or, if_true]
    by_cases he : ops.expandIri ctx s true false = ""
    · simp [he, Json.set, Except.map]
    · have : (Json.str (ops.expandIri ctx s true false) == Json.str "") = false := by
        simpa using he
      simp [he, this, Json.set, Except.map]
  | null => simp [expandIdEntry, Except.map, Except.bind]
  | bool b => simp [expandIdEntry, Except.map, Except.bind]
  | num n => simp [expandIdEntry, Except.map, Except.bind]
  | arr xs => simp [expandIdEntry, Except.map, Except.bind]
  | obj o => simp [expandIdEntry, Except.map, Except.bind]

/-- C13 (amended) at the key `@id` with the value `http://ex/a`. -/
theorem C13_id_entry_witness :
    expandEntry SpecModel.specOps (expand SpecModel.specOps 2) SpecModel.emptyContext
      SpecModel.emptyContext none (.obj [("@id", .str "http://ex/a")]) "" false false false ""
      (.obj [], .obj []) "@id" =
    .ok (.obj [("@id", .str "http://ex/a")], .obj []) :=
  (C13_id_entry SpecModel.specOps (expand SpecModel.specOps 2) SpecModel.emptyContext
    SpecModel.emptyContext none (.obj [("@id", .str "http://ex/a")]) "" false false "" "@id"
    [] (.obj []) (by decide) (by decide) (by decide) (by decide)).trans (by decide)

/-- C13 as stated fails: the empty string that IRI expansion returns for
`{"@id": ""}` is stored as null (step 13.4.16); and when the result has an
`@id` entry already, a second key expanding to `@id` with a number as value
fails with 'colliding keywords' (step 13.4.2). -/
theorem C13_counterexample :
    SpecModel.specOps.expandIri SpecModel.emptyContext "" true false = "" ∧
    expand SpecModel.specOps 3 SpecModel.emptyContext (some "http://ex/p")
      (.obj [("@id", .str "")]) "" false false false = .ok (.obj [("@id", .null)]) ∧
    expand SpecModel.specOps 3 Examples.idAliasContext (some "http://ex/p")
      (.obj [("a", .str "http://ex/x"), ("b", .num 5)]) "" false false false =
      .error .CollidingKeywords ∧
    JsonLdError.CollidingKeywords ≠ JsonLdError.InvalidIdValue := by
  decide

theorem expandEntry_value_eq (ops : ContextOps) (recur : Expander) (ctx tsc : Context)
    (ap : Option String) (element : Json) (base : String) (ord fm : Bool)
    (inputType key : String) (kvs : List (String × Json)) (nests : Json)
    (hkey : key ≠ JsonLdConsts.CONTEXT) (hap : ap ≠ some JsonLdConsts.REVERSE)
    (hval : ops.expandIri ctx key false true = JsonLdConsts.VALUE)
    (hnc : hasKey JsonLdConsts.VALUE kvs = false) (hit : inputType ≠ JsonLdConsts.JSON)
    (hne : element.get key ≠ .str "") :
    expandEntry ops recur ctx tsc ap element base false ord fm inputType (.obj kvs, nests) key =
      if (element.get key).is_array || (element.get key).is_object then
        .error .InvalidValueObjectValue
      else .ok (.obj (insertEntry JsonLdConsts.VALUE (element.get key) kvs), nests) := by
  rw [expandEntry_keyword ops recur ctx tsc ap element base false ord fm inputType key _ hkey
    (by rw [hval]; decide)]
  rw [expandKeywordEntry_flow ops recur ctx tsc ap base false ord fm inputType key _ _ _ hap
    (by rw [hval]; exact hnc)]
  rw [hval]
  unfold keywordFlow
  rw [if_neg (by decide), if_neg (by decide), if_neg (by decide), if_neg (by decide),
    if_pos (by decide)]
  have hit' : (inputType == JsonLdConsts.JSON) = false := by simpa using hit
  have hit'' : (inputType != JsonLdConsts.JSON) = true := by simpa using hit
  unfold expandValueEntry
  simp only [hit', Bool.false_eq_true, if_false, Bool.false_and, Bool.or_false]
  cases hv : element.get key with
  | null =>
    simp [Json.is_null, isScalar, Json.is_array, Json.is_object, Json.set, Except.map,
      Except.bind]
  | bool b =>
    simp [Json.is_null, isScalar, Json.is_array, Json.is_object, Json.set, Except.map,
      Except.bind, storeKeyword]
    intro e
    exact absurd e (by decide)
  | num n =>
    simp [Json.is_null, isScalar, Json.is_array, Json.is_object, Json.set, Except.map,
      Except.bind, storeKeyword]
    intro e
    exact absurd e (by decide)
  | str s =>
    have hs : (Json.str s == Json.str "") = false := by
      rw [hv] at hne
      simpa using hne
    simp [Json.is_null, isScalar, Json.is_array, Json.is_object, Json.set, Except.map,
      Except.bind, storeKeyword, hs]
    intro e
    exact absurd e (by decide)
  | arr xs =>
    simp [Json.is_null, isScalar, Json.is_array, Json.is_object, Except.bind]
  | obj o =>
    simp [Json.is_null, isScalar, Json.is_array, Json.is_object, Except.bind]

end JsonLdApi

namespace JsonLdApi

open JsonLdUtils

/-- C14 (amended): with `frameExpansion` false, an input type other than
`@json`, an active property other than `@reverse` and a result without
`@value` entry, a key that expands to `@value` fails with 'invalid value
object value' when its value is an array or a map; a null value is stored as
an explicit null `@value` entry, and a scalar other than the empty string is
stored unchanged. -/
theorem C14_value_entry (ops : ContextOps) (recur : Expander) (ctx tsc : Context)
    (ap : Option String) (element : Json) (base : String) (ord fm : Bool)
    (inputType key : String) (kvs : List (String × Json)) (nests : Json)
    (hkey : key ≠ JsonLdConsts.CONTEXT) (hap : ap ≠ some JsonLdConsts.REVERSE)
    (hval : ops.expandIri ctx key false true = JsonLdConsts.VALUE)
    (hnc : hasKey JsonLdConsts.VALUE kvs = false) (hit : inputType ≠ JsonLdConsts.JSON)
    (hne : element.get key ≠ .str "") :
    expandEntry ops recur ctx tsc ap element base false ord fm inputType (.obj kvs, nests) key =
      if (element.get key).is_array || (element.get key).is_object then
        .error .InvalidValueObjectValue
      else .ok (.obj (insertEntry JsonLdConsts.VALUE (element.get key) kvs), nests) :=
  expandEntry_value_eq ops recur ctx tsc ap element base ord fm inputType key kvs nests hkey hap
    hval hnc hit hne

/-- C14 (amended) at the key `@value` with the number 5, and with an array. -/
theorem C14_value_entry_witness :
    expandEntry SpecModel.specOps (expand SpecModel.specOps 2) SpecModel.emptyContext
      SpecModel.emptyContext (some "http://ex/p") (.obj [("@value", .num 5)]) "" false false
      false "" (.obj [], .obj []) "@value" = .ok (.obj [("@value", .num 5)], .obj []) ∧
    expandEntry SpecModel.specOps (expand SpecModel.specOps 2) SpecModel.emptyContext
      SpecModel.emptyContext (some "http://ex/p") (.obj [("@value", .arr [])]) "" false false
      false "" (.obj [], .obj []) "@value" = .error .InvalidValueObjectValue :=
  ⟨(C14_value_entry SpecModel.specOps (expand SpecModel.specOps 2) SpecModel.emptyContext
      SpecModel.emptyContext (some "http://ex/p") (.obj [("@value", .num 5)]) "" false false
      "" "@value" [] (.obj []) (by decide) (by decide) (by decide) (by decide) (by decide)
      (by decide)).trans (by decide),
    (C14_value_entry SpecModel.specOps (expand SpecModel.specOps 2) SpecModel.emptyContext
      SpecModel.emptyContext (some "http://ex/p") (.obj [("@value", .arr [])]) "" false false
      "" "@value" [] (.obj []) (by decide) (by decide) (by decide) (by decide) (by decide)
      (by decide)).trans (by decide)⟩

/-- C14 as stated fails: under the active property `@reverse` the key fails
with 'invalid reverse property map' (step 13.4.1), and when the result has an
`@value` entry already, an alias of `@value` with an array as value fails with
'colliding keywords' (step 13.4.2). -/
theorem C14_counterexample :
    expand SpecModel.specOps 4 SpecModel.emptyContext none
      (.obj [("@reverse", .obj [("@value", .arr [])])]) "" false false false =
      .error .InvalidReversePropertyMap ∧
    expand SpecModel.specOps 3 Examples.valueAliasContext (some "http://ex/p")
      (.obj [("@value", .str "x"), ("v", .arr [])]) "" false false false =
      .error .CollidingKeywords ∧
    JsonLdError.InvalidReversePropertyMap ≠ JsonLdError.InvalidValueObjectValue ∧
    JsonLdError.CollidingKeywords ≠ JsonLdError.InvalidValueObjectValue := by
  decide

/-- C17 (amended): when the active property is `@reverse`, a key other than
`@context` that expands to a keyword fails with 'invalid reverse property
map'; when the active property is not `@reverse` and the result has no
`@reverse` entry, a key that expands to `@reverse` and whose value is not a
map fails with 'invalid @reverse value'. -/
theorem C17_reverse_property_map (ops : ContextOps) (recur : Expander) (ctx tsc : Context)
    (ap : Option String) (element : Json) (base : String) (fe ord fm : Bool)
    (inputType key : String) (st : Json × Json) (hkey : key ≠ JsonLdConsts.CONTEXT) :
    (ap = some JsonLdConsts.REVERSE → isKeyword (ops.expandIri ctx key false true) = true →
      expandEntry ops recur ctx tsc ap element base fe ord fm inputType st key =
        .error .InvalidReversePropertyMap) ∧
    (ap ≠ some JsonLdConsts.REVERSE →
      ops.expandIri ctx key false true = JsonLdConsts.REVERSE →
      st.1.contains JsonLdConsts.REVERSE = false → (element.get key).is_object = false →
      expandEntry ops recur ctx tsc ap element base fe ord fm inputType st key =
        .error .InvalidReverseValue) := by
  constructor
  · intro hap hkw
    subst hap
    rw [expandEntry_keyword ops recur ctx tsc _ element base fe ord fm inputType key st hkey hkw]
    exact expandKeywordEntry_reverse ops recur ctx tsc base fe ord fm inputType key _ _ st
  · intro hap hrev hnc hobj
    rw [expandEntry_keyword ops recur ctx tsc ap element base fe ord fm inputType key st hkey
      (by rw [hrev]; decide)]
    rw [expandKeywordEntry_flow ops recur ctx tsc ap base fe ord fm inputType key _ _ _ hap
      (by rw [hrev]; exact hnc)]
    rw [hrev]
    unfold keywordFlow
    rw [if_neg (by decide), if_neg (by decide), if_neg (by decide), if_neg (by decide),
      if_neg (by decide), if_neg (by decide), if_neg (by decide), if_neg (by decide),
      if_neg (by decide), if_neg (by decide), if_pos (by decide)]
    unfold expandReverseEntry
    simp [hobj, Except.map, Except.bind]

/-- C17 (amended) at the key `@id` under the active property `@reverse`, and
at the key `@reverse` with the value 5 under no active property. -/
theorem C17_reverse_property_map_witness :
    expandEntry SpecModel.specOps (expand SpecModel.specOps 2) SpecModel.emptyContext
      SpecModel.emptyContext (some "@reverse") (.obj [("@id", .str "http://ex/a")]) "" false
      false false "" (.obj [], .obj []) "@id" = .error .InvalidReversePropertyMap ∧
    expandEntry SpecModel.specOps (expand SpecModel.specOps 2) SpecModel.emptyContext
      SpecModel.emptyContext none (.obj [("@reverse", .num 5)]) "" false false false ""
      (.obj [], .obj []) "@reverse" = .error .InvalidReverseValue :=
  ⟨(C17_reverse_property_map SpecModel.specOps (expand SpecModel.specOps 2)
      SpecModel.emptyContext SpecModel.emptyContext (some "@reverse")
      (.obj [("@id", .str "http://ex/a")]) "" false false false "" "@id" (.obj [], .obj [])
      (by decide)).1 rfl (by decide),
    (C17_reverse_property_map SpecModel.specOps (expand SpecModel.specOps 2)
      SpecModel.emptyContext SpecModel.emptyContext none (.obj [("@reverse", .num 5)]) "" false
      false false "" "@reverse" (.obj [], .obj []) (by decide)).2 (by decide) (by decide)
      (by decide) (by decide)⟩

/-- C17 as stated fails: under the active property `@reverse`, a key that
expands to `@reverse` with the value 5 fails with 'invalid reverse property
map', not 'invalid @reverse value'; and under no active property, after the
reverse term `a` has left an `@reverse` entry in the result, it fails with
'colliding keywords'. -/
theorem C17_counterexample :
    expand SpecModel.specOps 5 Examples.reverseContext (some "@reverse")
      (.obj [("z", .num 5)]) "" false false false = .error .InvalidReversePropertyMap ∧
    expand SpecModel.specOps 5 Examples.reverseContext none
      (.obj [("a", .obj [("@id", .str "http://ex/n")]), ("z", .num 5)]) "" false false false =
      .error .CollidingKeywords ∧
    JsonLdError.InvalidReversePropertyMap ≠ JsonLdError.InvalidReverseValue ∧
    JsonLdError.CollidingKeywords ≠ JsonLdError.InvalidReverseValue := by
  decide

end JsonLdApi


namespace JsonLdApi

open JsonLdUtils

theorem toLower_eq_empty {s : String} (h : toLower s = "") : s = "" := by
  unfold toLower at h
  have hd : (s.data.map Char.toLower) = [] := congrArg String.data h
  have : s.data = [] := by
    cases hs : s.data with
    | nil => rfl
    | cons a l => rw [hs] at hd; cases hd
  cases s
  simp only at this
  subst this
  rfl

theorem expandEntry_language_eq (ops : ContextOps) (recur : Expander) (ctx tsc : Context)
    (ap : Option String) (element : Json) (base : String) (ord fm : Bool)
    (inputType key : String) (kvs : List (String × Json)) (nests : Json)
    (hkey : key ≠ JsonLdConsts.CONTEXT) (hap : ap ≠ some JsonLdConsts.REVERSE)
    (hlang : ops.expandIri ctx key false true = JsonLdConsts.LANGUAGE)
    (hnc : hasKey JsonLdConsts.LANGUAGE kvs = false) :
    expandEntry ops recur ctx tsc ap element base false ord fm inputType (.obj kvs, nests) key =
      match element.get key with
      | .str l =>
        .ok (.obj (insertEntry JsonLdConsts.LANGUAGE
          (if toLower l = "" then .null else .str (toLower l)) kvs), nests)
      | _ => .error .InvalidLanguageTaggedString := by
  rw [expandEntry_keyword ops recur ctx tsc ap element base false ord fm inputType key _ hkey
    (by rw [hlang]; decide)]
  rw [expandKeywordEntry_flow ops recur ctx tsc ap base false ord fm inputType key _ _ _ hap
    (by rw [hlang]; exact hnc)]
  rw [hlang]
  unfold keywordFlow
  rw [if_neg (by decide), if_neg (by decide), if_neg (by decide), if_neg (by decide),
    if_neg (by decide), if_pos (by decide)]
  unfold expandLanguageEntry
  cases hv : element.get key with
  | str l =>
    simp only [Json.is_string, Bool.true_or, if_true, Json.getString, Except.map, Except.bind]
    rw [if_neg (by decide)]
    simp only [Bool.false_and, Bool.false_eq_true, if_false, Except.bind, storeKeyword,
      Json.is_null, Bool.not_false, Bool.true_or, if_true]
    by_cases he : toLower l = ""
    · simp [he, Json.set, Except.map]
    · have : (Json.str (toLower l) == Json.str "") = false := by simpa using he
      simp [he, this, Json.set, Except.map]
  | null => simp [Json.is_string, Except.map, Except.bind]
  | bool b => simp [Json.is_string, Except.map, Except.bind]
  | num n => simp [Json.is_string, Except.map, Except.bind]
  | arr xs => simp [Json.is_string, Except.map, Except.bind]
  | obj o => simp [Json.is_string, Except.map, Except.bind]

theorem findInputType_none (ops : ContextOps) (c tsc : Context) (element : Json)
    (h : ∀ k ∈ element.keys, ∀ c', ops.expandIri c' k false true ≠ JsonLdConsts.TYPE) :
    findInputType ops c tsc element = .ok ("", c) := by
  unfold findInputType
  have hfold : ∀ (l : List String), (∀ k ∈ l, k ∈ element.keys) →
      l.foldlM (findInputTypeKey ops tsc element) (c, "") = .ok (c, "") := by
    intro l
    induction l with
    | nil => intro _; rfl
    | cons a l ih =>
      intro hl
      simp only [List.foldlM_cons]
      have ha : findInputTypeKey ops tsc element (c, "") a = .ok (c, "") := by
        unfold findInputTypeKey
        rw [if_pos]
        simpa using h a (hl a (List.mem_cons_self _ _)) c
      rw [ha]
      exact ih (fun k hk => hl k (List.mem_cons_of_mem _ hk))
  rw [hfold _ (fun k hk => mem_sortKeys.mp hk)]
  rfl

end JsonLdApi

namespace JsonLdApi

open JsonLdUtils

theorem expand_languageTagged_unroll (ops : ContextOps)
    (hV : ∀ c, ops.expandIri c JsonLdConsts.VALUE false true = JsonLdConsts.VALUE)
    (hL : ∀ c, ops.expandIri c JsonLdConsts.LANGUAGE false true = JsonLdConsts.LANGUAGE)
    (fuel : Nat) (ctx : Context) (ap : Option String) (base : String) (ord fm : Bool)
    (x y : Json) (hpsc : propertyScopedContextOf ops ctx ap = none) :
    expand ops (fuel + 1) ctx ap (.obj [(JsonLdConsts.LANGUAGE, x), (JsonLdConsts.VALUE, y)])
        base false ord fm =
      ([JsonLdConsts.LANGUAGE, JsonLdConsts.VALUE].foldlM
        (expandEntry ops (expand ops fuel)
          (restorePreviousContext ops ctx
            (.obj [(JsonLdConsts.LANGUAGE, x), (JsonLdConsts.VALUE, y)]) fm)
          (restorePreviousContext ops ctx
            (.obj [(JsonLdConsts.LANGUAGE, x), (JsonLdConsts.VALUE, y)]) fm)
          ap (.obj [(JsonLdConsts.LANGUAGE, x), (JsonLdConsts.VALUE, y)]) base false ord fm "")
        (Json.obj [], Json.obj [])).bind (fun st =>
        (processNests (.obj [(JsonLdConsts.LANGUAGE, x), (JsonLdConsts.VALUE, y)]) st.2
          ord).bind (fun _ => finishResult ops ap false st.1)) := by
  show expandBody ops (expand ops fuel) ctx ap _ base false ord fm = _
  simp only [expandBody, ite_self]
  unfold expandObjectElement
  rw [hpsc]
  simp only [applyPropertyScopedContext, Except.bind]
  have hc : (Json.obj [(JsonLdConsts.LANGUAGE, x), (JsonLdConsts.VALUE, y)]).contains
      JsonLdConsts.CONTEXT = false := rfl
  rw [hc]
  simp only [Bool.false_eq_true, if_false]
  have hkeys : (Json.obj [(JsonLdConsts.LANGUAGE, x), (JsonLdConsts.VALUE, y)]).keys =
      [JsonLdConsts.LANGUAGE, JsonLdConsts.VALUE] := rfl
  rw [findInputType_none ops _ _ _ (by
    intro k hk c'
    rw [hkeys] at hk
    simp only [List.mem_cons, List.mem_singleton, List.not_mem_nil, or_false] at hk
    rcases hk with e | e
    · subst e
      rw [hL]
      decide
    · subst e
      rw [hV]
      decide)]
  have hord : (if ord = true then
      sortKeys (Json.obj [(JsonLdConsts.LANGUAGE, x), (JsonLdConsts.VALUE, y)]).keys
      else (Json.obj [(JsonLdConsts.LANGUAGE, x), (JsonLdConsts.VALUE, y)]).keys) =
      [JsonLdConsts.LANGUAGE, JsonLdConsts.VALUE] := by
    rw [hkeys]
    cases ord
    · rfl
    · decide
  simp only [hord]

end JsonLdApi

namespace JsonLdApi

open JsonLdUtils

/-- C15 (amended): with `frameExpansion` false, an active property other than
`@reverse` without property-scoped context, and IRI expansion returning the
keywords `@value` and `@language` as they are: the value object
`{"@language": l, "@value": s}` with non-empty strings `l` and `s` expands,
when the active property is neither null nor `@graph`, to the map with the
entries `@language`, `l` in lower case, and `@value`, `s`; and with a value of
`@language` that is not a string expansion fails with 'invalid language-tagged
string'. -/
theorem C15_language_lowercase (ops : ContextOps)
    (hV : ∀ c, ops.expandIri c JsonLdConsts.VALUE false true = JsonLdConsts.VALUE)
    (hL : ∀ c, ops.expandIri c JsonLdConsts.LANGUAGE false true = JsonLdConsts.LANGUAGE)
    (fuel : Nat) (ctx : Context) (ap : Option String) (base : String) (ord fm : Bool)
    (s : String) (hpsc : propertyScopedContextOf ops ctx ap = none)
    (hrev : ap ≠ some JsonLdConsts.REVERSE) :
    (∀ l : String, isNullOrGraph ap = false → l ≠ "" → s ≠ "" →
      expand ops (fuel + 1) ctx ap
        (.obj [(JsonLdConsts.LANGUAGE, .str l), (JsonLdConsts.VALUE, .str s)]) base false ord
        fm =
      .ok (.obj [(JsonLdConsts.LANGUAGE, .str (toLower l)), (JsonLdConsts.VALUE, .str s)])) ∧
    (∀ x : Json, x.is_string = false →
      expand ops (fuel + 1) ctx ap
        (.obj [(JsonLdConsts.LANGUAGE, x), (JsonLdConsts.VALUE, .str s)]) base false ord fm =
      .error .InvalidLanguageTaggedString) := by
  constructor
  · intro l hap hl hs
    rw [expand_languageTagged_unroll ops hV hL fuel ctx ap base ord fm _ _ hpsc]
    simp only [List.foldlM_cons, List.foldlM_nil]
    rw [expandEntry_language_eq ops _ _ _ ap _ base ord fm "" JsonLdConsts.LANGUAGE [] _
      (by decide) hrev (hL _) rfl]
    have hget1 : (Json.obj [(JsonLdConsts.LANGUAGE, Json.str l),
        (JsonLdConsts.VALUE, Json.str s)]).get JsonLdConsts.LANGUAGE = .str l := rfl
    have hlow : toLower l ≠ "" := fun e => hl (toLower_eq_empty e)
    simp only [hget1, if_neg hlow, bind, Except.bind]
    rw [expandEntry_value_eq ops _ _ _ ap _ base ord fm "" JsonLdConsts.VALUE
      (insertEntry JsonLdConsts.LANGUAGE (.str (toLower l)) []) (.obj [])
      (by decide) hrev (hV _) rfl (by decide) (by
        intro e
        have e' : Json.str s = Json.str "" := e
        exact hs (by injection e'))]
    have hget2 : (Json.obj [(JsonLdConsts.LANGUAGE, Json.str l),
        (JsonLdConsts.VALUE, Json.str s)]).get JsonLdConsts.VALUE = .str s := rfl
    simp only [hget2, Json.is_array, Json.is_object, Bool.or_false, Bool.false_eq_true, if_false,
      pure, Except.pure]
    have hn : processNests (Json.obj [(JsonLdConsts.LANGUAGE, Json.str l),
        (JsonLdConsts.VALUE, Json.str s)]) (Json.obj []) ord = .ok () := by
      unfold processNests
      cases ord <;> rfl
    simp only [hn]
    have hins : insertEntry JsonLdConsts.VALUE (Json.str s)
        (insertEntry JsonLdConsts.LANGUAGE (Json.str (toLower l)) []) =
        [(JsonLdConsts.LANGUAGE, .str (toLower l)), (JsonLdConsts.VALUE, .str s)] := rfl
    rw [hins]
    unfold finishResult dropFreeFloating
    rw [hap]
    rfl
  · intro x hx
    rw [expand_languageTagged_unroll ops hV hL fuel ctx ap base ord fm _ _ hpsc]
    simp only [List.foldlM_cons, List.foldlM_nil]
    rw [expandEntry_language_eq ops _ _ _ ap _ base ord fm "" JsonLdConsts.LANGUAGE [] _
      (by decide) hrev (hL _) rfl]
    have hget1 : (Json.obj [(JsonLdConsts.LANGUAGE, x),
        (JsonLdConsts.VALUE, Json.str s)]).get JsonLdConsts.LANGUAGE = x := rfl
    rw [hget1]
    cases x <;> first | rfl | (simp [Json.is_string] at hx)

end JsonLdApi

namespace JsonLdApi

open JsonLdUtils

/-- C15 (amended) at the language tag `EN-us` under the property
`http://ex/p`, and at the number 5 as language. -/
theorem C15_language_lowercase_witness :
    expand SpecModel.specOps 3 SpecModel.emptyContext (some "http://ex/p")
      (.obj [("@language", .str "EN-us"), ("@value", .str "s")]) "" false false false =
      .ok (.obj [("@language", .str "en-us"), ("@value", .str "s")]) ∧
    expand SpecModel.specOps 3 SpecModel.emptyContext (some "http://ex/p")
      (.obj [("@language", .num 5), ("@value", .str "s")]) "" false false false =
      .error .InvalidLanguageTaggedString :=
  ⟨(C15_language_lowercase SpecModel.specOps (fun _ => rfl) (fun _ => rfl) 2
      SpecModel.emptyContext (some "http://ex/p") "" false false "s" (by decide)
      (by decide)).1 "EN-us" (by decide) (by decide) (by decide),
    (C15_language_lowercase SpecModel.specOps (fun _ => rfl) (fun _ => rfl) 2
      SpecModel.emptyContext (some "http://ex/p") "" false false "s" (by decide)
      (by decide)).2 (.num 5) rfl⟩

/-- C15 as stated fails: under a null active property the value object is a
free-floating value and expansion returns null, not a map; under the active
property `@reverse` expansion fails. -/
theorem C15_counterexample :
    expand SpecModel.specOps 3 SpecModel.emptyContext none
      (.obj [("@language", .str "EN-us"), ("@value", .str "s")]) "" false false false =
      .ok .null ∧
    Json.null.is_object = false ∧
    expand SpecModel.specOps 3 SpecModel.emptyContext (some "@reverse")
      (.obj [("@language", .str "EN-us"), ("@value", .str "s")]) "" false false false =
      .error .InvalidReversePropertyMap := by
  decide

end JsonLdApi


/-! ## Results are never strings -/

section

open JsonLdUtils

theorem SetEntryNotString.emptySet : SetEntryNotString (.obj []) :=
  ⟨[], rfl, fun _ h => by simp [lookupEntry] at h⟩

theorem SetEntryNotString.insertSet {kvs : List (String × Json)} {k : String} {v : Json}
    (h : SetEntryNotString (.obj kvs)) (hv : k = JsonLdConsts.SET → v.is_string = false) :
    SetEntryNotString (.obj (insertEntry k v kvs)) := by
  obtain ⟨kvs', e, h1⟩ := h
  cases e
  refine ⟨_, rfl, ?_⟩
  intro w hw
  by_cases hk : JsonLdConsts.SET = k
  · subst hk
    rw [lookupEntry_insertEntry_self] at hw
    cases hw
    exact hv rfl
  · rw [lookupEntry_insertEntry_ne _ _ hk] at hw
    exact h1 w hw

theorem SetEntryNotString.addedSet {kvs : List (String × Json)} {k : String}
    {items : List Json} (h : SetEntryNotString (.obj kvs)) :
    SetEntryNotString (.obj (JsonLdUtils.addedTo kvs k items)) := by
  obtain ⟨kvs', e, h1⟩ := id h
  cases e
  unfold JsonLdUtils.addedTo
  split
  · exact h
  · exact h.insertSet (fun _ => rfl)

theorem SetEntryNotString.ofSet {result r : Json} {k : String} {v : Json}
    (h : SetEntryNotString result) (hv : k = JsonLdConsts.SET → v.is_string = false)
    (hs : result.set k v = .ok r) : SetEntryNotString r := by
  obtain ⟨kvs, e, _⟩ := id h
  subst e
  simp only [Json.set] at hs
  cases hs
  exact h.insertSet hv

theorem SetEntryNotString.ofAddValue {result r : Json} {k : String} {v : Json}
    (h : SetEntryNotString result) (hs : addValue result k v true = .ok r) :
    SetEntryNotString r := by
  obtain ⟨kvs, e, _⟩ := id h
  subst e
  rw [addValue_obj] at hs
  cases hs
  exact h.addedSet

end

namespace JsonLdApi

open JsonLdUtils

theorem expandReverseEntry_set {R : Expander} {ctx : Context} {base : String} {fe ord : Bool}
    {ev result r : Json} (hL : SetEntryNotString result)
    (h : expandReverseEntry R ctx base fe ord ev result = .ok r) : SetEntryNotString r := by
  unfold expandReverseEntry at h
  split at h
  · cases h
  · obtain ⟨expanded, _, h⟩ := bind_eq_ok h
    obtain ⟨result1, hA, h⟩ := bind_eq_ok h
    have h1 : SetEntryNotString result1 := by
      split at hA
      · exact foldlM_ok_inv SetEntryNotString _ _
          (fun b a b' _ hb hs => hb.ofAddValue hs) _ _ hL hA
      · cases hA
        exact hL
    by_cases hsz : expanded.size >
        (if expanded.contains JsonLdConsts.REVERSE = true then 1 else 0)
    · rw [if_pos hsz] at h
      obtain ⟨result2, hB, h⟩ := bind_eq_ok h
      obtain ⟨rm, _, h⟩ := bind_eq_ok h
      have h2 : SetEntryNotString result2 := by
        split at hB
        · exact h1.ofSet (fun e => absurd e (by decide)) hB
        · cases hB
          exact h1
      exact h2.ofSet (fun e => absurd e (by decide)) h
    · rw [if_neg hsz] at h
      cases h
      exact h1

theorem keywordFlow_set {ops : ContextOps} {R : Expander} (hR : NeverString R)
    {ctx tsc : Context} {ap : Option String} {base : String} {fe ord fm : Bool}
    {inputType ep : String} {ev result : Json} {flow : Flow}
    (hL : SetEntryNotString result)
    (h : keywordFlow ops R ctx tsc ap base fe ord fm inputType ep ev result = .ok flow) :
    FlowSet ep flow := by
  unfold keywordFlow at h
  have hval : ∀ {k : String} {v : Json}, (ep == k) = true → k ≠ JsonLdConsts.SET →
      FlowSet ep (.value v) := by
    intro k v hk hks e
    simp only [beq_iff_eq] at hk
    exact absurd (hk ▸ e) hks
  by_cases hk : (ep == JsonLdConsts.ID) = true
  · rw [if_pos hk] at h
    obtain ⟨v, _, e⟩ := map_eq_ok h
    subst e
    exact hval hk (by decide)
  rw [if_neg hk] at h
  by_cases hk : (ep == JsonLdConsts.TYPE) = true
  · rw [if_pos hk] at h
    obtain ⟨v, _, e⟩ := map_eq_ok h
    subst e
    exact hval hk (by decide)
  rw [if_neg hk] at h
  by_cases hk : (ep == JsonLdConsts.GRAPH) = true
  · rw [if_pos hk] at h
    obtain ⟨v, _, e⟩ := map_eq_ok h
    subst e
    exact hval hk (by decide)
  rw [if_neg hk] at h
  by_cases hk : (ep == JsonLdConsts.INCLUDED) = true
  · rw [if_pos hk] at h
    split at h
    · cases h
      exact hL
    · obtain ⟨v, _, e⟩ := map_eq_ok h
      subst e
      exact hval hk (by decide)
  rw [if_neg hk] at h
  by_cases hk : (ep == JsonLdConsts.VALUE) = true
  · rw [if_pos hk] at h
    unfold expandValueEntry at h
    have hcont : ∀ (x : Json) (fl : Flow),
        (if x.is_null = true then (result.set JsonLdConsts.VALUE .null).map Flow.next
          else .ok (.value x)) = .ok fl → FlowSet ep fl := by
      intro x fl hx
      split at hx
      · obtain ⟨r, hr, e⟩ := map_eq_ok hx
        subst e
        exact hL.ofSet (fun e => absurd e (by decide)) hr
      · cases hx
        exact hval hk (by decide)
    simp only at h
    split at h
    · split at h
      · cases h
      · exact hcont _ _ h
    · split at h
      · exact hcont _ _ h
      · cases h
  rw [if_neg hk] at h
  by_cases hk : (ep == JsonLdConsts.LANGUAGE) = true
  · rw [if_pos hk] at h
    obtain ⟨v, _, e⟩ := map_eq_ok h
    subst e
    exact hval hk (by decide)
  rw [if_neg hk] at h
  by_cases hk : (ep == JsonLdConsts.DIRECTION) = true
  · rw [if_pos hk] at h
    split at h
    · cases h
      exact hL
    · obtain ⟨v, _, e⟩ := map_eq_ok h
      subst e
      exact hval hk (by decide)
  rw [if_neg hk] at h
  by_cases hk : (ep == JsonLdConsts.INDEX) = true
  · rw [if_pos hk] at h
    split at h
    · cases h
    · cases h
      exact hval hk (by decide)
  rw [if_neg hk] at h
  by_cases hk : (ep == JsonLdConsts.LIST) = true
  · rw [if_pos hk] at h
    split at h
    · cases h
      exact hL
    · obtain ⟨v, _, e⟩ := map_eq_ok h
      subst e
      exact hval hk (by decide)
  rw [if_neg hk] at h
  by_cases hk : (ep == JsonLdConsts.SET) = true
  · rw [if_pos hk] at h
    obtain ⟨v, hv, e⟩ := map_eq_ok h
    subst e
    exact fun _ => hR _ _ _ _ _ _ _ _ hv
  rw [if_neg hk] at h
  by_cases hk : (ep == JsonLdConsts.REVERSE) = true
  · rw [if_pos hk] at h
    obtain ⟨v, hv, e⟩ := map_eq_ok h
    subst e
    exact expandReverseEntry_set hL hv
  rw [if_neg hk] at h
  cases h
  exact fun _ => rfl

theorem expandEntry_set {ops : ContextOps} {R : Expander} (hR : NeverString R)
    {ctx tsc : Context} {ap : Option String} {element : Json} {base : String}
    {fe ord fm : Bool} {inputType key : String} {st st' : Json × Json}
    (hL : SetEntryNotString st.1)
    (h : expandEntry ops R ctx tsc ap element base fe ord fm inputType st key = .ok st') :
    SetEntryNotString st'.1 := by
  unfold expandEntry at h
  split at h
  · cases h; exact hL
  simp only at h
  split at h
  · cases h; exact hL
  split at h
  · unfold expandKeywordEntry at h
    split at h
    · cases h
    split at h
    · cases h
    obtain ⟨flow, hflow, h⟩ := bind_eq_ok h
    have hF := keywordFlow_set hR hL hflow
    cases flow with
    | next r =>
      cases h
      exact hF
    | value v =>
      simp only at h
      split at h
      · split at h
        · obtain ⟨n, _, e⟩ := map_eq_ok h
          subst e
          exact hL
        · cases h
          exact hL
      · obtain ⟨v', hv', h⟩ := bind_eq_ok h
        obtain ⟨r, hr, e⟩ := map_eq_ok h
        subst e
        have hv'' : ops.expandIri ctx key false true = JsonLdConsts.SET →
            v'.is_string = false := by
          intro e
          split at hv'
          · exact hR _ _ _ _ _ _ _ _ hv'
          · cases hv'
            exact hF e
        unfold storeKeyword at hr
        split at hr
        · split at hr
          · exact hL.ofSet (v := Json.null) (fun _ => rfl) hr
          · exact hL.ofSet hv'' hr
        · cases hr
          exact hL
  · obtain ⟨r, hr, e⟩ := map_eq_ok h
    subst e
    unfold expandPropertyEntry at hr
    obtain ⟨ev, _, hr⟩ := bind_eq_ok hr
    split at hr
    · cases hr
      exact hL
    · unfold storeProperty at hr
      obtain ⟨isRev, _, hr⟩ := bind_eq_ok hr
      split at hr
      · obtain ⟨result1, h1, hr⟩ := bind_eq_ok hr
        obtain ⟨rm, _, hr⟩ := bind_eq_ok hr
        have hL1 : SetEntryNotString result1 := by
          split at h1
          · exact hL.ofSet (fun e => absurd e (by decide)) h1
          · cases h1
            exact hL
        exact hL1.ofSet (fun e => absurd e (by decide)) hr
      · exact hL.ofAddValue hr

end JsonLdApi

namespace JsonLdApi

open JsonLdUtils

theorem dropFreeFloating_null (ap : Option String) (fe : Bool) :
    dropFreeFloating ap fe .null = .null := by
  unfold dropFreeFloating
  simp [Json.is_object, Json.is_null]

theorem dropFreeFloating_arr (ap : Option String) (fe : Bool) (xs : List Json) :
    dropFreeFloating ap fe (.arr xs) = .arr xs := by
  unfold dropFreeFloating
  simp [Json.is_object, Json.is_null, Json.contains]

theorem dropFreeFloating_eq (ap : Option String) (fe : Bool) (r : Json) :
    dropFreeFloating ap fe r = .null ∨ dropFreeFloating ap fe r = r := by
  unfold dropFreeFloating
  split_ifs <;> simp

theorem dropFreeFloating_idem (ap : Option String) (fe : Bool) (r : Json) :
    dropFreeFloating ap fe (dropFreeFloating ap fe r) = dropFreeFloating ap fe r := by
  rcases dropFreeFloating_eq ap fe r with h | h
  · rw [h]
    exact dropFreeFloating_null ap fe
  · rw [h, h]

theorem dropFreeFloating_notString {ap : Option String} {fe : Bool} {r : Json}
    (h : r.is_string = false) : (dropFreeFloating ap fe r).is_string = false := by
  rcases dropFreeFloating_eq ap fe r with e | e
  · rw [e]
    rfl
  · rw [e]
    exact h

theorem finishResult_notString {ops : ContextOps} {ap : Option String} {fe : Bool}
    {result out : Json} (hL : SetEntryNotString result)
    (h : finishResult ops ap fe result = .ok out) : out.is_string = false := by
  obtain ⟨kvs, e, hset⟩ := hL
  subst e
  unfold finishResult at h
  by_cases hv : (Json.obj kvs).contains JsonLdConsts.VALUE = true
  · rw [if_pos hv] at h
    split_ifs at h <;>
      (cases h; first | rfl | exact dropFreeFloating_notString rfl)
  rw [if_neg hv] at h
  by_cases ht : (Json.obj kvs).contains JsonLdConsts.TYPE = true
  · rw [if_pos ht] at h
    obtain ⟨r, hr, e⟩ := map_eq_ok h
    subst e
    apply dropFreeFloating_notString
    split at hr
    · simp only [Json.set] at hr
      cases hr
      rfl
    · cases hr
      rfl
  rw [if_neg ht] at h
  by_cases hs : ((Json.obj kvs).contains JsonLdConsts.SET ||
      (Json.obj kvs).contains JsonLdConsts.LIST) = true
  · rw [if_pos hs] at h
    by_cases hsz : (Json.obj kvs).size >
        (if (Json.obj kvs).contains JsonLdConsts.INDEX = true then 2 else 1)
    · rw [if_pos hsz] at h
      cases h
    · rw [if_neg hsz] at h
      cases h
      apply dropFreeFloating_notString
      split
      · rename_i hcs
        simp only [Json.contains, hasKey, Option.isSome_iff_exists] at hcs
        obtain ⟨v, hv1⟩ := hcs
        simp only [Json.get, hv1, Option.getD_some]
        exact hset v hv1
      · rfl
  · rw [if_neg hs] at h
    cases h
    exact dropFreeFloating_notString rfl

theorem expandBody_notString {ops : ContextOps}
    (hEV : ∀ c p v, (ops.expandValue c p v).is_object = true) {R : Expander}
    (hR : NeverString R) : NeverString (expandBody ops R) := by
  intro ctx ap el base fe ord fm out h
  have hscalar : ∀ x psc, expandScalar ops ctx ap x psc = .ok out → out.is_string = false := by
    intro x psc hx
    unfold expandScalar at hx
    split at hx
    · cases hx; rfl
    · rename_i p
      split at hx
      · cases hx; rfl
      · obtain ⟨c, _, hx⟩ := bind_eq_ok hx
        cases hx
        have := hEV c p x
        cases hm : ops.expandValue c p x <;> rw [hm] at this <;>
          first | rfl | (simp [Json.is_object] at this)
  cases el with
  | null =>
    simp only [expandBody] at h
    cases h
    rfl
  | arr items =>
    simp only [expandBody] at h
    unfold expandArrayElement at h
    obtain ⟨ys, _, e⟩ := map_eq_ok h
    subst e
    rfl
  | obj kvs =>
    simp only [expandBody] at h
    unfold expandObjectElement at h
    obtain ⟨_, _, h⟩ := bind_eq_ok h
    obtain ⟨_, _, h⟩ := bind_eq_ok h
    obtain ⟨_, _, h⟩ := bind_eq_ok h
    obtain ⟨st, hloop, h⟩ := bind_eq_ok h
    obtain ⟨_, _, h⟩ := bind_eq_ok h
    have hL : SetEntryNotString st.1 :=
      foldlM_ok_inv (fun s : Json × Json => SetEntryNotString s.1) _ _
        (fun b a b' _ hb hstep => expandEntry_set hR hb hstep) _ _
        SetEntryNotString.emptySet hloop
    exact finishResult_notString hL h
  | bool b => exact hscalar _ _ (by simpa only [expandBody] using h)
  | num n => exact hscalar _ _ (by simpa only [expandBody] using h)
  | str s => exact hscalar _ _ (by simpa only [expandBody] using h)

theorem expand_notString {ops : ContextOps}
    (hEV : ∀ c p v, (ops.expandValue c p v).is_object = true) :
    ∀ fuel, NeverString (expand ops fuel)
  | 0 => fun _ _ _ _ _ _ _ _ h => by cases h
  | fuel + 1 => expandBody_notString hEV (expand_notString hEV fuel)

theorem expand_settled {ops : ContextOps}
    (hEV : ∀ c p v, (ops.expandValue c p v).contains JsonLdConsts.VALUE = true ∨
      (ops.expandValue c p v).contains JsonLdConsts.ID = true)
    (fuel : Nat) (ctx : Context) (ap : Option String) (el : Json) (base : String)
    (fe ord fm : Bool) (out : Json)
    (h : expand ops fuel ctx ap el base fe ord fm = .ok out) :
    dropFreeFloating ap (if ap == some JsonLdConsts.DEFAULT then false else fe) out = out := by
  cases fuel with
  | zero => cases h
  | succ n =>
    have hscalar : ∀ x psc, expandScalar ops ctx ap x psc = .ok out →
        dropFreeFloating ap (if ap == some JsonLdConsts.DEFAULT then false else fe) out =
          out := by
      intro x psc hx
      unfold expandScalar at hx
      split at hx
      · cases hx
        exact dropFreeFloating_null _ _
      · rename_i p
        split at hx
        · cases hx
          exact dropFreeFloating_null _ _
        · rename_i hp
          obtain ⟨c, _, hx⟩ := bind_eq_ok hx
          cases hx
          have hv := hEV c p x
          unfold dropFreeFloating
          have hng : isNullOrGraph (some p) = false := by simpa [isNullOrGraph] using hp
          rw [hng]
          cases hm : ops.expandValue c p x with
          | obj kvs =>
            rw [hm] at hv
            simp only [Json.contains] at hv
            have hlang : ¬ (hasKey JsonLdConsts.LANGUAGE kvs = true ∧ kvs.length = 1) := by
              rintro ⟨hl, hlen⟩
              match kvs, hlen with
              | [(k, w)], _ =>
                have hk1 : k = JsonLdConsts.LANGUAGE := by
                  obtain ⟨kv, hkv, e⟩ := hasKey_iff_mem.mp hl
                  simp only [List.mem_singleton] at hkv
                  subst hkv
                  exact e
                rcases hv with hv | hv
                · obtain ⟨kv, hkv, e⟩ := hasKey_iff_mem.mp hv
                  simp only [List.mem_singleton] at hkv
                  subst hkv
                  exact absurd (hk1.symm.trans e) (by decide)
                · obtain ⟨kv, hkv, e⟩ := hasKey_iff_mem.mp hv
                  simp only [List.mem_singleton] at hkv
                  subst hkv
                  exact absurd (hk1.symm.trans e) (by decide)
            rw [if_neg]
            · simp
            · simp only [Json.is_object, Json.contains, Json.size, Bool.true_and,
                Bool.and_eq_true, beq_iff_eq]
              exact hlang
          | null => simp [Json.is_object]
          | bool b => simp [Json.is_object]
          | num k => simp [Json.is_object]
          | str s => simp [Json.is_object]
          | arr xs => simp [Json.is_object]
    cases el with
    | null =>
      simp only [expand, expandBody] at h
      cases h
      exact dropFreeFloating_null _ _
    | arr items =>
      simp only [expand, expandBody] at h
      unfold expandArrayElement at h
      obtain ⟨ys, _, e⟩ := map_eq_ok h
      subst e
      exact dropFreeFloating_arr _ _ _
    | obj kvs =>
      have h' : expandObjectElement ops (expand ops n) ctx ap (.obj kvs) base
          (propertyScopedContextOf ops ctx ap)
          (if ap == some JsonLdConsts.DEFAULT then false else fe) ord fm = .ok out := h
      obtain ⟨result, hfin⟩ := expandObjectElement_finish h'
      rcases finishResult_cases hfin with e | ⟨r, e⟩
      · rw [e]
        exact dropFreeFloating_null _ _
      · rw [e]
        exact dropFreeFloating_idem _ _ _
    | bool b => exact hscalar _ _ h
    | num k => exact hscalar _ _ h
    | str s => exact hscalar _ _ h

end JsonLdApi


namespace JsonLdApi

open JsonLdUtils

theorem findInputType_none_at (ops : ContextOps) (c tsc : Context) (element : Json)
    (h : ∀ k ∈ element.keys, ops.expandIri c k false true ≠ JsonLdConsts.TYPE) :
    findInputType ops c tsc element = .ok ("", c) := by
  unfold findInputType
  have hfold : ∀ (l : List String), (∀ k ∈ l, k ∈ element.keys) →
      l.foldlM (findInputTypeKey ops tsc element) (c, "") = .ok (c, "") := by
    intro l
    induction l with
    | nil => intro _; rfl
    | cons a l ih =>
      intro hl
      simp only [List.foldlM_cons]
      have ha : findInputTypeKey ops tsc element (c, "") a = .ok (c, "") := by
        unfold findInputTypeKey
        rw [if_pos]
        simpa using h a (hl a (List.mem_cons_self _ _))
      rw [ha]
      exact ih (fun k hk => hl k (List.mem_cons_of_mem _ hk))
  rw [hfold _ (fun k hk => mem_sortKeys.mp hk)]
  rfl

theorem expand_default_fe (ops : ContextOps) (fuel : Nat) (ctx : Context) (ap : Option String)
    (el : Json) (base : String) (fe ord fm : Bool) :
    expand ops fuel ctx ap el base (if ap == some JsonLdConsts.DEFAULT then false else fe) ord
      fm = expand ops fuel ctx ap el base fe ord fm := by
  by_cases hap : (ap == some JsonLdConsts.DEFAULT) = true
  · rw [if_pos hap]
    cases fuel with
    | zero => rfl
    | succ n =>
      cases el <;> simp only [expand, expandBody, hap, if_true]
  · rw [if_neg hap]

/-- C16 (amended): provided value expansion returns a map with an `@value`
or `@id` entry. For an active property other than `@reverse`, an active
context without previous context and without property-scoped context for the
active property, and a key that is not `@context` and expands to `@set`: when
the value `v` of the key expands (same active context, active property and
flags) to a result that is not null, the map with that single entry expands to
the same result; no `@set` wrapper and no enclosing map remains. -/
theorem C16_set_inlined (ops : ContextOps)
    (hEV : ∀ c p v, (ops.expandValue c p v).contains JsonLdConsts.VALUE = true ∨
      (ops.expandValue c p v).contains JsonLdConsts.ID = true)
    (fuel : Nat) (ctx : Context) (ap : Option String) (key : String) (v : Json)
    (base : String) (fe ord fm : Bool) (out : Json)
    (hkey : key ≠ JsonLdConsts.CONTEXT)
    (hset : ops.expandIri ctx key false true = JsonLdConsts.SET)
    (hprev : ctx.getPreviousContext = none)
    (hpsc : propertyScopedContextOf ops ctx ap = none)
    (hap : ap ≠ some JsonLdConsts.REVERSE)
    (h : expand ops fuel ctx ap v base fe ord false = .ok out) (hnn : out ≠ .null) :
    expand ops (fuel + 1) ctx ap (.obj [(key, v)]) base fe ord fm = .ok out := by
  have hEVo : ∀ c p x, (ops.expandValue c p x).is_object = true := by
    intro c p x
    rcases hEV c p x with hc | hc <;>
      (cases hm : ops.expandValue c p x <;> rw [hm] at hc <;>
        first | rfl | (simp [Json.contains] at hc))
  have h' : expand ops fuel ctx ap v base
      (if ap == some JsonLdConsts.DEFAULT then false else fe) ord false = .ok out := by
    rw [expand_default_fe]
    exact h
  have hstr : out.is_string = false := expand_notString hEVo fuel _ _ _ _ _ _ _ _ h
  have hstable := expand_settled hEV fuel ctx ap v base fe ord false out h
  have hnull : out.is_null = false := by
    cases out <;> first | rfl | exact absurd rfl hnn
  have hne : (out == Json.str "") = false := by
    cases out <;> first | rfl | (simp [Json.is_string] at hstr)
  show expandBody ops (expand ops fuel) ctx ap _ base fe ord fm = _
  simp only [expandBody]
  unfold expandObjectElement
  have hrestore : restorePreviousContext ops ctx (.obj [(key, v)]) fm = ctx := by
    unfold restorePreviousContext
    rw [hprev]
  rw [hrestore, hpsc]
  simp only [applyPropertyScopedContext, Except.bind]
  have hc : (Json.obj [(key, v)]).contains JsonLdConsts.CONTEXT = false := by
    simp [Json.contains, hasKey, lookupEntry, hkey]
  rw [hc]
  simp only [Bool.false_eq_true, if_false]
  have hkeys : (Json.obj [(key, v)]).keys = [key] := rfl
  rw [findInputType_none_at ops _ _ _ (by
    intro k hk
    rw [hkeys] at hk
    simp only [List.mem_singleton] at hk
    subst hk
    rw [hset]
    decide)]
  have hord : (if ord = true then sortKeys (Json.obj [(key, v)]).keys
      else (Json.obj [(key, v)]).keys) = [key] := by
    rw [hkeys]
    cases ord <;> rfl
  simp only [hord, List.foldlM_cons, List.foldlM_nil]
  rw [expandEntry_keyword ops _ ctx ctx ap _ base _ ord fm "" key _ hkey
    (by rw [hset]; decide)]
  rw [expandKeywordEntry_flow ops _ ctx ctx ap base _ ord fm "" key _ _ _ hap
    (by rw [hset]; rfl)]
  rw [hset]
  have hget : (Json.obj [(key, v)]).get key = v := by
    simp [Json.get, lookupEntry]
  rw [hget]
  unfold keywordFlow
  rw [if_neg (by decide), if_neg (by decide), if_neg (by decide), if_neg (by decide),
    if_neg (by decide), if_neg (by decide), if_neg (by decide), if_neg (by decide),
    if_neg (by decide), if_pos (by decide)]
  rw [h']
  simp only [Except.map, Except.bind, bind, pure, Except.pure]
  rw [if_neg (by decide)]
  have hfr : isFramingKeyword JsonLdConsts.SET = false := by decide
  simp only [hfr, Bool.and_false, Bool.false_eq_true, if_false, Except.bind, storeKeyword,
    hnull, Bool.not_false, Bool.true_or, if_true, hne, Json.set, Except.map]
  have hn : processNests (Json.obj [(key, v)]) (Json.obj []) ord = .ok () := by
    unfold processNests
    cases ord <;> rfl
  simp only [hn]
  have hins : insertEntry JsonLdConsts.SET out [] = [(JsonLdConsts.SET, out)] := rfl
  rw [hins]
  unfold finishResult
  have c1 : (Json.obj [(JsonLdConsts.SET, out)]).contains JsonLdConsts.VALUE = false := rfl
  have c2 : (Json.obj [(JsonLdConsts.SET, out)]).contains JsonLdConsts.TYPE = false := rfl
  have c3 : (Json.obj [(JsonLdConsts.SET, out)]).contains JsonLdConsts.SET = true := rfl
  have c4 : (Json.obj [(JsonLdConsts.SET, out)]).contains JsonLdConsts.INDEX = false := rfl
  have c5 : (Json.obj [(JsonLdConsts.SET, out)]).get JsonLdConsts.SET = out := rfl
  simp only [c1, c2, c3, c4, c5, Bool.false_eq_true, if_false, Bool.true_or, if_true, Json.size,
    List.length_singleton, gt_iff_lt, lt_self_iff_false]
  rw [hstable]

end JsonLdApi

namespace SpecModel

open JsonLdUtils

theorem expandValue_hasValueOrId (c : Context) (p : String) (v : Json) :
    (specOps.expandValue c p v).contains JsonLdConsts.VALUE = true ∨
    (specOps.expandValue c p v).contains JsonLdConsts.ID = true := by
  show (expandValue c p v).contains JsonLdConsts.VALUE = true ∨
    (expandValue c p v).contains JsonLdConsts.ID = true
  unfold expandValue
  simp only
  split
  · exact Or.inr rfl
  · exact Or.inr rfl
  · split
    · exact Or.inl rfl
    · exact Or.inl rfl
  · left
    have hgen : ∀ (b1 b2 : Prop) [Decidable b1] [Decidable b2] (l d : Json) (s : String),
        hasKey JsonLdConsts.VALUE
          (if b2 then insertEntry JsonLdConsts.DIRECTION d
              (if b1 then insertEntry JsonLdConsts.LANGUAGE l [(JsonLdConsts.VALUE, .str s)]
                else [(JsonLdConsts.VALUE, .str s)])
            else (if b1 then
                insertEntry JsonLdConsts.LANGUAGE l [(JsonLdConsts.VALUE, .str s)]
              else [(JsonLdConsts.VALUE, .str s)])) = true := by
      intro b1 b2 _ _ l d s
      have hbase : hasKey JsonLdConsts.VALUE [(JsonLdConsts.VALUE, Json.str s)] = true := rfl
      by_cases h1 : b1 <;> by_cases h2 : b2 <;>
        simp only [h1, h2, if_true, if_false, hasKey_insertEntry, hbase, Bool.or_true]
    exact hgen _ _ _ _ _
  · exact Or.inl rfl

end SpecModel

namespace JsonLdApi

open JsonLdUtils

/-- C16 (amended) at the map `{"@set": ["a", "b"]}` under the property
`http://ex/p`. -/
theorem C16_set_inlined_witness :
    expand SpecModel.specOps 3 SpecModel.emptyContext (some "http://ex/p")
      (.obj [("@set", .arr [.str "a", .str "b"])]) "" false false false =
    .ok (.arr [.obj [("@value", .str "a")], .obj [("@value", .str "b")]]) :=
  C16_set_inlined SpecModel.specOps SpecModel.expandValue_hasValueOrId 2
    SpecModel.emptyContext (some "http://ex/p") "@set" (.arr [.str "a", .str "b"]) "" false
    false false (.arr [.obj [("@value", .str "a")], .obj [("@value", .str "b")]])
    (by decide) (by decide) rfl (by decide) (by decide) (by decide) (by decide)

/-- C16 as stated fails: the value null expands to null, and the map
`{"@set": null}` under the property `http://ex/p` expands to the empty map. -/
theorem C16_counterexample :
    expand SpecModel.specOps 3 SpecModel.emptyContext (some "http://ex/p")
      (.obj [("@set", .null)]) "" false false false = .ok (.obj []) ∧
    expand SpecModel.specOps 3 SpecModel.emptyContext (some "http://ex/p") .null "" false
      false false = .ok .null ∧
    Json.obj [] ≠ Json.null := by
  decide

end JsonLdApi


/-! ## Step 13.13: reverse properties -/

namespace JsonLdApi

open JsonLdUtils

theorem hasKey_addedTo_self (kvs : List (String × Json)) (k : String) (items : List Json)
    (h : hasKey k kvs = true) : hasKey k (addedTo kvs k items) = true := by
  unfold addedTo
  split
  · exact h
  · unfold appended
    rw [hasKey_insertEntry]
    simp

theorem flattenList_of_not_array : ∀ (items : List Json),
    (∀ item ∈ items, item.is_array = false) → Json.flattenList items = items
  | [], _ => by simp [Json.flattenList]
  | x :: xs, h => by
    have hx := h x (List.mem_cons_self _ _)
    have ih := flattenList_of_not_array xs (fun i hi => h i (List.mem_cons_of_mem _ hi))
    cases x <;> simp [Json.is_array] at hx <;> simp [Json.flattenList, Json.flatten, ih]

theorem addReverseProperty_step (ep : String) (rkvs : List (String × Json)) (item : Json)
    (hok : (isValueObject item || isListObject item) = false) :
    addReverseProperty ep (.obj rkvs) item =
      .ok (.obj (addedTo (if hasKey ep rkvs then rkvs else insertEntry ep (.arr []) rkvs) ep
        item.flatten)) := by
  unfold addReverseProperty
  rw [hok]
  simp only [Bool.false_eq_true, if_false, Json.contains]
  by_cases hk : hasKey ep rkvs = true
  · simp only [hk, Bool.not_true, Bool.false_eq_true, if_false, Except.bind, if_true]
    exact addValue_obj ep item _
  · have hk' : hasKey ep rkvs = false := by simpa using hk
    simp only [hk', Bool.not_false, if_true, Json.set, Except.bind, Bool.false_eq_true, if_false]
    exact addValue_obj ep item _

theorem addReverseProperty_fold_ok (ep : String) : ∀ (items : List Json)
    (rkvs : List (String × Json)),
    (∀ item ∈ items, (isValueObject item || isListObject item) = false) →
    items.foldlM (addReverseProperty ep) (.obj rkvs) = .ok (.obj (reverseMapWith rkvs ep items))
  | [], rkvs, _ => rfl
  | x :: xs, rkvs, h => by
    simp only [List.foldlM_cons]
    rw [addReverseProperty_step ep rkvs x (h x (List.mem_cons_self _ _))]
    simp only [bind, Except.bind]
    rw [addReverseProperty_fold_ok ep xs _ (fun i hi => h i (List.mem_cons_of_mem _ hi))]
    congr 2
    cases xs with
    | nil => simp [reverseMapWith, Json.flattenList]
    | cons y ys =>
      have hhas : hasKey ep (addedTo (if hasKey ep rkvs = true then rkvs
          else insertEntry ep (.arr []) rkvs) ep x.flatten) = true := by
        apply hasKey_addedTo_self
        split
        · assumption
        · rw [hasKey_insertEntry]
          simp
      simp only [reverseMapWith, hhas, if_true, addedTo_addedTo, Json.flattenList]

theorem addReverseProperty_fold_error (ep : String) : ∀ (items : List Json)
    (rkvs : List (String × Json)),
    (∃ item ∈ items, (isValueObject item || isListObject item) = true) →
    items.foldlM (addReverseProperty ep) (.obj rkvs) = .error .InvalidReversePropertyValue
  | [], _, h => by
    obtain ⟨i, hi, _⟩ := h
    cases hi
  | x :: xs, rkvs, h => by
    simp only [List.foldlM_cons]
    cases hx : (isValueObject x || isListObject x)
    · rw [addReverseProperty_step ep rkvs x hx]
      simp only [bind, Except.bind]
      apply addReverseProperty_fold_error ep xs
      obtain ⟨i, hi, hb⟩ := h
      rcases List.mem_cons.mp hi with e | e
      · subst e
        rw [hx] at hb
        cases hb
      · exact ⟨i, e, hb⟩
    · unfold addReverseProperty
      rw [hx]
      rfl

theorem storeProperty_reverse (ctx : Context) (key ep : String) (stored : Json)
    (kvs : List (String × Json))
    (hrev : ctx.isReverseProperty key = .ok true)
    (hrm : ∀ rv, lookupEntry JsonLdConsts.REVERSE kvs = some rv → rv.is_object = true) :
    storeProperty ctx key ep stored (.obj kvs) =
      (stored.asArray.foldlM (addReverseProperty ep)
        (.obj ((Json.obj kvs).get JsonLdConsts.REVERSE).itemsOf)).bind (fun rm =>
          .ok (.obj (insertEntry JsonLdConsts.REVERSE rm kvs))) := by
  unfold storeProperty
  rw [hrev]
  simp only [Except.bind, if_true]
  cases hl : lookupEntry JsonLdConsts.REVERSE kvs with
  | none =>
    have hc : (Json.obj kvs).contains JsonLdConsts.REVERSE = false := by
      simp [Json.contains, hasKey, hl]
    simp only [hc, Bool.not_false, if_true, Json.set, Json.get, lookupEntry_insertEntry_self,
      Option.getD_some, hl, Option.getD_none, Json.itemsOf, insertEntry_insertEntry]
  | some rv =>
    have hc : (Json.obj kvs).contains JsonLdConsts.REVERSE = true := by
      simp [Json.contains, hasKey, hl]
    have hobj := hrm rv hl
    cases rv <;> simp [Json.is_object] at hobj
    simp only [hc, Bool.not_true, Bool.false_eq_true, if_false, Json.set, Json.get, hl,
      Option.getD_some, Json.itemsOf]

end JsonLdApi

namespace JsonLdApi

open JsonLdUtils

/-- C18: for a key whose term definition is marked reverse (its expanded
property not a keyword), at a result whose `@reverse` entry, if any, is a map:
a null expanded value leaves the result as it is; when an item of the expanded
value (after steps 13.11 and 13.12) is a value object or a list object,
expansion fails with 'invalid reverse property value'; otherwise the
`@reverse` entry of the result becomes the reverse map in which the items have
been appended to the entry of the expanded property (an array made of the
previous items followed by the items), and the entry of the expanded property
in the result itself is as before. -/
theorem C18_reverse_property (ops : ContextOps) (recur : Expander) (ctx tsc : Context)
    (ap : Option String) (element : Json) (base : String) (fe ord fm : Bool)
    (inputType key : String) (kvs : List (String × Json)) (nests ev : Json)
    (hkey : key ≠ JsonLdConsts.CONTEXT)
    (hne : ops.expandIri ctx key false true ≠ "")
    (hcolon : ':' ∈ (ops.expandIri ctx key false true).data)
    (hkw : isKeyword (ops.expandIri ctx key false true) = false)
    (hrev : ctx.isReverseProperty key = .ok true)
    (hev : expandPropertyValue ops recur ctx base fe ord key (ctx.getTermDefinition key)
      ((ctx.getTermDefinition key).get JsonLdConsts.CONTAINER) (element.get key) = .ok ev)
    (hrm : ∀ rv, lookupEntry JsonLdConsts.REVERSE kvs = some rv → rv.is_object = true) :
    (ev.is_null = true →
      expandEntry ops recur ctx tsc ap element base fe ord fm inputType (.obj kvs, nests) key =
        .ok (.obj kvs, nests)) ∧
    (ev.is_null = false →
      (∃ item ∈ (toGraphObjects ((ctx.getTermDefinition key).get JsonLdConsts.CONTAINER)
          (toListObject ((ctx.getTermDefinition key).get JsonLdConsts.CONTAINER) ev)).asArray,
        (isValueObject item || isListObject item) = true) →
      expandEntry ops recur ctx tsc ap element base fe ord fm inputType (.obj kvs, nests) key =
        .error .InvalidReversePropertyValue) ∧
    (ev.is_null = false →
      (∀ item ∈ (toGraphObjects ((ctx.getTermDefinition key).get JsonLdConsts.CONTAINER)
          (toListObject ((ctx.getTermDefinition key).get JsonLdConsts.CONTAINER) ev)).asArray,
        (isValueObject item || isListObject item) = false) →
      expandEntry ops recur ctx tsc ap element base fe ord fm inputType (.obj kvs, nests) key =
        .ok (.obj (insertEntry JsonLdConsts.REVERSE
          (.obj (reverseMapWith ((Json.obj kvs).get JsonLdConsts.REVERSE).itemsOf
            (ops.expandIri ctx key false true)
            (toGraphObjects ((ctx.getTermDefinition key).get JsonLdConsts.CONTAINER)
              (toListObject ((ctx.getTermDefinition key).get JsonLdConsts.CONTAINER)
                ev)).asArray)) kvs), nests) ∧
      lookupEntry (ops.expandIri ctx key false true)
        (insertEntry JsonLdConsts.REVERSE
          (.obj (reverseMapWith ((Json.obj kvs).get JsonLdConsts.REVERSE).itemsOf
            (ops.expandIri ctx key false true)
            (toGraphObjects ((ctx.getTermDefinition key).get JsonLdConsts.CONTAINER)
              (toListObject ((ctx.getTermDefinition key).get JsonLdConsts.CONTAINER)
                ev)).asArray)) kvs) =
        lookupEntry (ops.expandIri ctx key false true) kvs ∧
      ((toGraphObjects ((ctx.getTermDefinition key).get JsonLdConsts.CONTAINER)
          (toListObject ((ctx.getTermDefinition key).get JsonLdConsts.CONTAINER) ev)).asArray ≠
          [] →
        (∀ item ∈ (toGraphObjects ((ctx.getTermDefinition key).get JsonLdConsts.CONTAINER)
          (toListObject ((ctx.getTermDefinition key).get JsonLdConsts.CONTAINER) ev)).asArray,
          item.is_array = false) →
        lookupEntry (ops.expandIri ctx key false true)
          (reverseMapWith ((Json.obj kvs).get JsonLdConsts.REVERSE).itemsOf
            (ops.expandIri ctx key false true)
            (toGraphObjects ((ctx.getTermDefinition key).get JsonLdConsts.CONTAINER)
              (toListObject ((ctx.getTermDefinition key).get JsonLdConsts.CONTAINER)
                ev)).asArray) =
          some (.arr (entryAsArray (lookupEntry (ops.expandIri ctx key false true)
              ((Json.obj kvs).get JsonLdConsts.REVERSE).itemsOf) ++
            (toGraphObjects ((ctx.getTermDefinition key).get JsonLdConsts.CONTAINER)
              (toListObject ((ctx.getTermDefinition key).get JsonLdConsts.CONTAINER)
                ev)).asArray)))) := by
  generalize hst : toGraphObjects ((ctx.getTermDefinition key).get JsonLdConsts.CONTAINER)
    (toListObject ((ctx.getTermDefinition key).get JsonLdConsts.CONTAINER) ev) = stored
  generalize hrk : ((Json.obj kvs).get JsonLdConsts.REVERSE).itemsOf = rkvs
  have hprop := expandEntry_property ops recur ctx tsc ap element base fe ord fm inputType
    (.obj kvs, nests) key hkey hne hcolon hkw
  have hentry : ev.is_null = false →
      expandEntry ops recur ctx tsc ap element base fe ord fm inputType
      (.obj kvs, nests) key =
      ((stored.asArray.foldlM (addReverseProperty (ops.expandIri ctx key false true))
        (.obj rkvs)).bind (fun rm =>
          .ok (.obj (insertEntry JsonLdConsts.REVERSE rm kvs)))).map (fun r => (r, nests)) := by
    intro hnn
    rw [hprop]
    simp only [expandPropertyEntry, Json.ite_contains_get, hev, Except.bind, hnn,
      Bool.false_eq_true, if_false, hst]
    rw [storeProperty_reverse ctx key _ stored kvs hrev hrm, hrk]
    rfl
  refine ⟨fun hnull => ?_, fun hnn hbad => ?_, fun hnn hgood => ⟨?_, ?_, ?_⟩⟩
  · rw [hprop]
    simp only [expandPropertyEntry, Json.ite_contains_get, hev, Except.bind, hnull, if_true]
    rfl
  · rw [hentry hnn, addReverseProperty_fold_error _ _ _ hbad]
    rfl
  · rw [hentry hnn, addReverseProperty_fold_ok _ _ _ hgood]
    rfl
  · exact lookupEntry_insertEntry_ne _ _ (Ne.symm (ne_of_isKeyword hkw isKeyword_reverse))
  · intro hnonempty hflat
    cases hitems : stored.asArray with
    | nil => exact absurd hitems hnonempty
    | cons x xs =>
      rw [hitems] at hflat
      simp only [reverseMapWith, flattenList_of_not_array _ hflat, addedTo_cons, appended,
        lookupEntry_insertEntry_self]
      congr 3
      by_cases hk : hasKey (ops.expandIri ctx key false true) rkvs = true
      · simp only [hk, if_true]
      · have hk' : hasKey (ops.expandIri ctx key false true) rkvs = false := by simpa using hk
        have hnone : lookupEntry (ops.expandIri ctx key false true) rkvs = none := by
          simpa [hasKey] using hk'
        simp [hk', lookupEntry_insertEntry_self, hnone, entryAsArray, Json.asArray]

/-- C18 at the reverse term `children`: a node is put under
`@reverse`, a string is rejected. -/
theorem C18_reverse_property_witness :
    expandEntry SpecModel.specOps (expand SpecModel.specOps 3) Examples.childrenContext
      Examples.childrenContext none (.obj [("children", .obj [("@id", .str "http://ex/c")])])
      "" false false false "" (.obj [], .obj []) "children" =
      .ok (.obj [("@reverse", .obj [("http://ex/parent",
        .arr [.obj [("@id", .str "http://ex/c")]])])], .obj []) ∧
    expandEntry SpecModel.specOps (expand SpecModel.specOps 3) Examples.childrenContext
      Examples.childrenContext none (.obj [("children", .str "x")])
      "" false false false "" (.obj [], .obj []) "children" =
      .error .InvalidReversePropertyValue :=
  ⟨(((C18_reverse_property SpecModel.specOps (expand SpecModel.specOps 3)
      Examples.childrenContext Examples.childrenContext none
      (.obj [("children", .obj [("@id", .str "http://ex/c")])]) "" false false false ""
      "children" [] (.obj []) (.obj [("@id", .str "http://ex/c")]) (by decide) (by decide)
      (by decide) (by decide) (by decide) (by decide)
      (fun _ h => by cases h)).2.2 (by decide) (by decide)).1).trans (by decide),
    (C18_reverse_property SpecModel.specOps (expand SpecModel.specOps 3)
      Examples.childrenContext Examples.childrenContext none
      (.obj [("children", .str "x")]) "" false false false ""
      "children" [] (.obj []) (.obj [("@value", .str "x")]) (by decide) (by decide)
      (by decide) (by decide) (by decide) (by decide)
      (fun _ h => by cases h)).2.1 (by decide) (by decide)⟩

end JsonLdApi


/-! ## Step 13.7: language maps -/

namespace JsonLdApi

open JsonLdUtils

theorem all_map_pair (k : String) (p : Json → Bool) : ∀ l : List Json,
    (l.map (fun item => (k, item))).all (fun q => p q.2) = l.all p
  | [] => rfl
  | x :: xs => by
    simp only [List.map_cons, List.all_cons, all_map_pair k p xs]

theorem Json.str_beq (s t : String) : (Json.str s == Json.str t) = (s == t) := by
  by_cases h : s = t <;> simp [h]

theorem languageMapValue_eq (ops : ContextOps) (ctx : Context) (direction : Json)
    (language : String) (item : Json)
    (hagree : (toLower language == JsonLdConsts.NONE ||
        ops.expandIri ctx (toLower language) false true == JsonLdConsts.NONE) =
      (language == JsonLdConsts.NONE ||
        ops.expandIri ctx language false true == JsonLdConsts.NONE)) :
    languageMapValue ops ctx direction (toLower language) item =
      languageItemSpec ops ctx direction language item := by
  unfold languageMapValue languageItemSpec
  simp only [hagree]
  have hdir : (!direction.is_null &&
      (direction.is_string && !(direction == .str "") && direction != .str "null")) =
      directionAdded direction := by
    cases direction <;> simp [Json.is_null, Json.is_string, directionAdded, bne, Json.str_beq]
  rw [hdir]
  cases directionAdded direction <;>
    cases (language == JsonLdConsts.NONE ||
      ops.expandIri ctx language false true == JsonLdConsts.NONE) <;> rfl

theorem languageMapItems_eq (ops : ContextOps) (ctx : Context) (direction : Json)
    (language : String)
    (hagree : (toLower language == JsonLdConsts.NONE ||
        ops.expandIri ctx (toLower language) false true == JsonLdConsts.NONE) =
      (language == JsonLdConsts.NONE ||
        ops.expandIri ctx language false true == JsonLdConsts.NONE)) :
    ∀ (items : List Json) (acc : List Json),
      languageMapItems ops ctx direction language acc items =
        if (items.filter (fun item => !item.is_null)).all Json.is_string then
          .ok (acc ++ (items.filter (fun item => !item.is_null)).map
            (languageItemSpec ops ctx direction language))
        else .error .InvalidLanguageMapValue
  | [], acc => by simp [languageMapItems, pure, Except.pure]
  | x :: xs, acc => by
    have ih := languageMapItems_eq ops ctx direction language hagree xs
    unfold languageMapItems at ih ⊢
    simp only [List.foldlM_cons]
    by_cases hn : x.is_null = true
    · simp only [hn, if_true, bind, Except.bind, List.filter, Bool.not_true]
      exact ih acc
    · have hn' : x.is_null = false := by simpa using hn
      by_cases hs : x.is_string = true
      · simp only [hn', hs, Bool.false_eq_true, if_false, Bool.not_true, bind, Except.bind,
          List.filter, Bool.not_false, List.all_cons, Bool.true_and, List.map_cons]
        rw [ih, languageMapValue_eq ops ctx direction language x hagree]
        simp only [List.append_assoc, List.singleton_append]
      · have hs' : x.is_string = false := by simpa using hs
        simp only [hn', hs', Bool.false_eq_true, if_false, Bool.not_false, if_true, bind,
          Except.bind, List.filter, List.all_cons, Bool.false_and]

theorem languageMap_fold_eq (ops : ContextOps) (ctx : Context) (direction value : Json) :
    ∀ (keys : List String) (acc : List Json),
      (∀ language ∈ keys, (toLower language == JsonLdConsts.NONE ||
          ops.expandIri ctx (toLower language) false true == JsonLdConsts.NONE) =
        (language == JsonLdConsts.NONE ||
          ops.expandIri ctx language false true == JsonLdConsts.NONE)) →
      keys.foldlM (fun acc language =>
        languageMapItems ops ctx direction language acc (value.get language).asArray) acc =
        if (languageMapPairs keys value).all (fun p => p.2.is_string) then
          .ok (acc ++ (languageMapPairs keys value).map
            (fun p => languageItemSpec ops ctx direction p.1 p.2))
        else .error .InvalidLanguageMapValue
  | [], acc, _ => by simp [languageMapPairs, pure, Except.pure]
  | k :: ks, acc, hagree => by
    have ih := languageMap_fold_eq ops ctx direction value ks
    simp only [List.foldlM_cons]
    rw [languageMapItems_eq ops ctx direction k (hagree k (List.mem_cons_self _ _))]
    have hpairs : languageMapPairs (k :: ks) value =
        ((value.get k).asArray.filter (fun item => !item.is_null)).map (fun item => (k, item)) ++
          languageMapPairs ks value := by
      simp [languageMapPairs]
    rw [hpairs]
    by_cases hall : ((value.get k).asArray.filter (fun item => !item.is_null)).all
        Json.is_string = true
    · rw [if_pos hall]
      simp only [bind, Except.bind]
      rw [ih _ (fun l hl => hagree l (List.mem_cons_of_mem _ hl))]
      have hall' : (((value.get k).asArray.filter (fun item => !item.is_null)).map
          (fun item => (k, item))).all (fun p => p.2.is_string) = true := by
        rw [all_map_pair k Json.is_string]
        exact hall
      simp only [List.all_append, hall', Bool.true_and, List.map_append, List.map_map,
        List.append_assoc]
      rfl
    · rw [if_neg hall]
      have hall' : (((value.get k).asArray.filter (fun item => !item.is_null)).map
          (fun item => (k, item))).all (fun p => p.2.is_string) = false := by
        have : ((value.get k).asArray.filter (fun item => !item.is_null)).all
            Json.is_string = false := by
          cases hb : ((value.get k).asArray.filter (fun item => !item.is_null)).all
            Json.is_string
          · rfl
          · exact absurd hb hall
        rw [all_map_pair k Json.is_string]
        exact this
      simp only [List.all_append, hall', Bool.false_and, bind, Except.bind]
      rfl

end JsonLdApi

namespace JsonLdApi

open JsonLdUtils

/-- C19 (amended): for a key whose term definition has no type mapping
`@json`, whose container mapping includes `@language` and whose value is a
map, and for language keys that agree with their lower-case form on being or
expanding to `@none`: the expanded value is the array of one item
`{"@value": s, "@language": lowercase(L)}` for each string `s` under each
language key `L`, in the order of the language keys, null items skipped; an
item that is neither null nor a string fails with 'invalid language map
value'; `@language` is omitted when `L` is or expands to `@none`; `@direction`
is added exactly when the term's direction mapping, or else the default base
direction of the context, is a non-empty string other than "null". -/
theorem C19_language_map (ops : ContextOps) (recur : Expander) (ctx : Context)
    (base : String) (fe ord : Bool) (key : String) (td cm value : Json)
    (hnj : (td.contains JsonLdConsts.TYPE &&
      td.get JsonLdConsts.TYPE == .str JsonLdConsts.JSON) = false)
    (hlang : arrayContains cm JsonLdConsts.LANGUAGE = true) (hobj : value.is_object = true)
    (hagree : ∀ language ∈ (if ord then sortKeys value.keys else value.keys),
      (toLower language == JsonLdConsts.NONE ||
        ops.expandIri ctx (toLower language) false true == JsonLdConsts.NONE) =
      (language == JsonLdConsts.NONE ||
        ops.expandIri ctx language false true == JsonLdConsts.NONE)) :
    expandPropertyValue ops recur ctx base fe ord key td cm value =
      languageMapSpec ops ctx
        (if td.contains JsonLdConsts.DIRECTION then td.get JsonLdConsts.DIRECTION
          else .str ctx.getDefaultBaseDirection)
        (if ord then sortKeys value.keys else value.keys) value := by
  unfold expandPropertyValue
  rw [hnj, hlang, hobj]
  simp only [Bool.false_eq_true, if_false, Bool.and_self, if_true]
  unfold expandLanguageMap
  simp only
  rw [languageMap_fold_eq ops ctx _ value _ [] hagree]
  unfold languageMapSpec
  by_cases hall : ((languageMapPairs (if ord then sortKeys value.keys else value.keys)
      value).all fun p => p.2.is_string) = true
  · simp only [hall, if_true, Except.map, List.nil_append]
  · simp only [hall, if_false, Except.map, Bool.false_eq_true]

/-- C19 (amended) at the language map `{"EN": ["Hello", null], "de": "Hallo"}`
of the term `label`. -/
theorem C19_language_map_witness :
    expandPropertyValue SpecModel.specOps (expand SpecModel.specOps 2) Examples.languageContext
      "" false false "label" (Examples.languageContext.getTermDefinition "label")
      ((Examples.languageContext.getTermDefinition "label").get "@container")
      (.obj [("EN", .arr [.str "Hello", .null]), ("de", .str "Hallo")]) =
    .ok (.arr [.obj [("@language", .str "en"), ("@value", .str "Hello")],
      .obj [("@language", .str "de"), ("@value", .str "Hallo")]]) :=
  (C19_language_map SpecModel.specOps (expand SpecModel.specOps 2) Examples.languageContext
    "" false false "label" (Examples.languageContext.getTermDefinition "label")
    ((Examples.languageContext.getTermDefinition "label").get "@container")
    (.obj [("EN", .arr [.str "Hello", .null]), ("de", .str "Hallo")]) (by decide) (by decide)
    (by decide) (by decide)).trans (by decide)

/-- C19 as stated fails: with type mapping `@json` the language map is taken
as a JSON literal (step 13.6), and no item per language is made. -/
theorem C19_counterexample :
    expand SpecModel.specOps 3 Examples.jsonLanguageContext none
      (.obj [("label", .obj [("en", .str "Hello")])]) "" false false false =
      .ok (.obj [("http://ex/label",
        .arr [.obj [("@type", .str "@json"), ("@value", .obj [("en", .str "Hello")])]])]) ∧
    Json.arr [.obj [("@type", .str "@json"), ("@value", .obj [("en", .str "Hello")])]] ≠
      .arr [.obj [("@language", .str "en"), ("@value", .str "Hello")]] := by
  decide

end JsonLdApi


namespace JsonLdApi

open JsonLdUtils

/-- C20 (amended): for a container mapping that includes `@id` and not
`@type`, step 13.8.3.3 sets the map context to the active context, so the
recursive call of step 13.8.3.6 for an index receives the active context
itself, whether or not it has a previous context.  For a container mapping
that includes `@type`, an active context with a previous context, and an index
whose term definition in the previous context has no local context, the
recursive call receives the previous context. -/
theorem C20_id_map_context (ops : ContextOps) (recur : Expander) (activeContext : Context)
    (baseUrl : String) (frameExpansion ordered : Bool) (key : String) (element_value : Json)
    (indexKey : String) (expandedValue : List Json) (index : String) :
    (∀ containerMapping : Json,
      arrayContains containerMapping JsonLdConsts.ID = true →
      arrayContains containerMapping JsonLdConsts.TYPE = false →
      expandIndexEntry ops recur activeContext baseUrl frameExpansion ordered key
        containerMapping element_value indexKey expandedValue index =
      (recur activeContext (some key) (.arr (element_value.get index).asArray) baseUrl
        frameExpansion ordered true).bind (fun indexValue =>
          indexValue.elems.foldlM (fun acc item =>
            (indexMapItem ops activeContext containerMapping indexKey index
              (ops.expandIri activeContext index false true) item).map
              (fun item1 => acc ++ [item1])) expandedValue)) ∧
    (∀ (containerMapping : Json) (previous : Context),
      arrayContains containerMapping JsonLdConsts.TYPE = true →
      activeContext.getPreviousContext = some previous →
      (previous.getTermDefinition index).contains ops.LOCALCONTEXT = false →
      expandIndexEntry ops recur activeContext baseUrl frameExpansion ordered key
        containerMapping element_value indexKey expandedValue index =
      (recur previous (some key) (.arr (element_value.get index).asArray) baseUrl
        frameExpansion ordered true).bind (fun indexValue =>
          indexValue.elems.foldlM (fun acc item =>
            (indexMapItem ops activeContext containerMapping indexKey index
              (ops.expandIri activeContext index false true) item).map
              (fun item1 => acc ++ [item1])) expandedValue)) := by
  constructor
  · intro containerMapping _ ht
    have hctx : indexMapContext ops activeContext containerMapping index = .ok activeContext := by
      unfold indexMapContext
      simp only [ht, Bool.false_eq_true, if_false]
    unfold expandIndexEntry
    rw [hctx]
    rfl
  · intro containerMapping previous ht hp hl
    have hctx : indexMapContext ops activeContext containerMapping index = .ok previous := by
      unfold indexMapContext
      simp only [ht, hp, hl, Bool.true_or, if_true, Bool.false_eq_true, if_false]
    unfold expandIndexEntry
    rw [hctx]
    rfl

/-- C20 (amended) at the id map `{"http://ex/a": {"name": "N"}}` of the key `items` in
the context `idMapOverPreviousContext`, which has a previous context: with the
container mapping `["@id"]` the recursive call receives the active context,
with the container mapping `["@type"]` it receives the previous context. -/
theorem C20_id_map_context_witness :
    (arrayContains (.arr [.str "@id"]) JsonLdConsts.ID = true ∧
      arrayContains (.arr [.str "@id"]) JsonLdConsts.TYPE = false ∧
      expandIndexEntry SpecModel.specOps (expand SpecModel.specOps 4)
        Examples.idMapOverPreviousContext "" false false "items" (.arr [.str "@id"])
        (.obj [("http://ex/a", .obj [("name", .str "N")])]) "@index" [] "http://ex/a" =
      (expand SpecModel.specOps 4 Examples.idMapOverPreviousContext (some "items")
        (.arr (Json.get (.obj [("http://ex/a", .obj [("name", .str "N")])])
          "http://ex/a").asArray) "" false false true).bind (fun indexValue =>
          indexValue.elems.foldlM (fun acc item =>
            (indexMapItem SpecModel.specOps Examples.idMapOverPreviousContext
              (.arr [.str "@id"]) "@index" "http://ex/a"
              (SpecModel.specOps.expandIri Examples.idMapOverPreviousContext "http://ex/a"
                false true) item).map
              (fun item1 => acc ++ [item1])) [])) ∧
    (arrayContains (.arr [.str "@type"]) JsonLdConsts.TYPE = true ∧
      Examples.idMapOverPreviousContext.getPreviousContext =
        some Examples.previousNameContext ∧
      expandIndexEntry SpecModel.specOps (expand SpecModel.specOps 4)
        Examples.idMapOverPreviousContext "" false false "items" (.arr [.str "@type"])
        (.obj [("http://ex/a", .obj [("name", .str "N")])]) "@index" [] "http://ex/a" =
      (expand SpecModel.specOps 4 Examples.previousNameContext (some "items")
        (.arr (Json.get (.obj [("http://ex/a", .obj [("name", .str "N")])])
          "http://ex/a").asArray) "" false false true).bind (fun indexValue =>
          indexValue.elems.foldlM (fun acc item =>
            (indexMapItem SpecModel.specOps Examples.idMapOverPreviousContext
              (.arr [.str "@type"]) "@index" "http://ex/a"
              (SpecModel.specOps.expandIri Examples.idMapOverPreviousContext "http://ex/a"
                false true) item).map
              (fun item1 => acc ++ [item1])) [])) :=
  ⟨⟨by decide, by decide,
      (C20_id_map_context SpecModel.specOps (expand SpecModel.specOps 4)
        Examples.idMapOverPreviousContext "" false false "items"
        (.obj [("http://ex/a", .obj [("name", .str "N")])]) "@index" [] "http://ex/a").1
        (.arr [.str "@id"]) (by decide) (by decide)⟩,
    ⟨by decide, rfl,
      (C20_id_map_context SpecModel.specOps (expand SpecModel.specOps 4)
        Examples.idMapOverPreviousContext "" false false "items"
        (.obj [("http://ex/a", .obj [("name", .str "N")])]) "@index" [] "http://ex/a").2
        (.arr [.str "@type"]) Examples.previousNameContext (by decide) rfl (by decide)⟩⟩

/-- C20 as stated fails: the key `items` has the container mapping `["@id"]`
and the active context `idMapOverPreviousContext` has the previous context
`previousNameContext`, yet the entry value `{"name": "N"}` of the id map
`{"items": {"http://ex/a": {"name": "N"}}}` is expanded with the active
context and gets the property `http://ex/active-name`; expanded with the
previous context it would get `http://ex/previous-name`. -/
theorem C20_counterexample :
    Examples.idMapOverPreviousContext.getPreviousContext = some Examples.previousNameContext ∧
    (Examples.idMapOverPreviousContext.getTermDefinition "items").get "@container" =
      .arr [.str "@id"] ∧
    expandEntry SpecModel.specOps (expand SpecModel.specOps 4) Examples.idMapOverPreviousContext
      Examples.idMapOverPreviousContext none
      (.obj [("items", .obj [("http://ex/a", .obj [("name", .str "N")])])]) "" false false true ""
      (.obj [], .obj []) "items" =
      .ok (.obj [("http://ex/items", .arr [.obj [("@id", .str "http://ex/a"),
        ("http://ex/active-name", .arr [.obj [("@value", .str "N")]])]])], .obj []) ∧
    expand SpecModel.specOps 4 Examples.previousNameContext (some "items")
      (.arr [.obj [("name", .str "N")]]) "" false false true =
      .ok (.arr [.obj [("http://ex/previous-name", .arr [.obj [("@value", .str "N")]])]]) :=
  ⟨rfl, by decide, by decide, by decide⟩

end JsonLdApi


namespace JsonLdUtils

theorem isKeyword_iff_claimed (s : String) : isKeyword s = true ↔ s ∈ claimedKeywords := by
  constructor
  · intro h
    simp only [isKeyword, Bool.or_eq_true, beq_iff_eq] at h
    repeat' (refine Or.elim h (fun h => ?_) (fun h => ?_))
    all_goals (subst h; decide)
  · intro h
    simp only [claimedKeywords, List.mem_cons, List.mem_singleton, List.not_mem_nil,
      or_false] at h
    repeat' (refine Or.elim h (fun h => ?_) (fun h => ?_))
    all_goals (subst h; decide)

theorem isKeywordForm_of_claimed : ∀ s ∈ claimedKeywords, isKeywordForm s = true := by
  decide

/-- C30: `isKeyword` holds exactly for the 34 distinct strings of the fixed
keyword set, and each of them has keyword form: `@` followed by one or more
ASCII letters. -/
theorem C30_keyword_set (s : String) :
    (isKeyword s = true ↔ s ∈ claimedKeywords) ∧
    claimedKeywords.length = 34 ∧ claimedKeywords.Nodup ∧
    (isKeyword s = true → isKeywordForm s = true) :=
  ⟨isKeyword_iff_claimed s, by decide, by decide,
    fun h => isKeywordForm_of_claimed s ((isKeyword_iff_claimed s).1 h)⟩

/-- C30 at the keyword `@omitDefault` and at the string `@Base`, which is of
keyword form without being a keyword. -/
theorem C30_keyword_set_witness :
    isKeyword "@omitDefault" = true ∧ isKeywordForm "@omitDefault" = true ∧
    "@Base" ∉ claimedKeywords ∧ isKeyword "@Base" = false :=
  ⟨by decide, (C30_keyword_set "@omitDefault").2.2.2 (by decide), by decide, by decide⟩

end JsonLdUtils


namespace JsonLdUtils

theorem lookupEntry_addedTo_self (kvs : List (String × Json)) (k : String) (items : List Json) :
    lookupEntry k (addedTo kvs k items) =
      some (.arr (entryAsArray (lookupEntry k kvs) ++ items)) := by
  unfold addedTo
  split
  · rename_i xs h1
    rw [h1]
    simp [entryAsArray, Json.asArray]
  · unfold appended
    exact lookupEntry_insertEntry_self _ _ _

/-- C29: on a map, `addValue(object, key, value, asArray = true)` returns the
map in which the entry of `key` is the array of the previous entry taken as an
array (empty when absent, the single old value when it was not an array)
followed by the items of `value` flattened at every depth (the value itself
when it is not an array), every other entry being unchanged. -/
theorem C29_add_value_as_array (kvs : List (String × Json)) (key : String) (value : Json) :
    ∃ kvs', addValue (.obj kvs) key value true = .ok (.obj kvs') ∧
      lookupEntry key kvs' =
        some (.arr (entryAsArray (lookupEntry key kvs) ++ value.flatten)) ∧
      ∀ k, k ≠ key → lookupEntry k kvs' = lookupEntry k kvs :=
  ⟨addedTo kvs key value.flatten, addValue_obj key value kvs,
    lookupEntry_addedTo_self kvs key value.flatten,
    fun _ h => lookupEntry_addedTo_ne kvs value.flatten h⟩

/-- C29 at the map `{"a": 1, "p": "x"}`, the key `p` and the value
`["y", ["z", []], null]`. -/
theorem C29_add_value_as_array_witness :
    addValue (.obj [("a", .num 1), ("p", .str "x")]) "p"
      (.arr [.str "y", .arr [.str "z", .arr []], .null]) true =
      .ok (.obj [("a", .num 1), ("p", .arr [.str "x", .str "y", .str "z", .null])]) ∧
    ∃ kvs', addValue (.obj [("a", .num 1), ("p", .str "x")]) "p"
        (.arr [.str "y", .arr [.str "z", .arr []], .null]) true = .ok (.obj kvs') ∧
      lookupEntry "p" kvs' = some (.arr ([.str "x"] ++ [.str "y", .str "z", .null])) ∧
      ∀ k, k ≠ "p" → lookupEntry k kvs' = lookupEntry k [("a", .num 1), ("p", .str "x")] :=
  ⟨by decide, C29_add_value_as_array [("a", .num 1), ("p", .str "x")] "p"
    (.arr [.str "y", .arr [.str "z", .arr []], .null])⟩

end JsonLdUtils


namespace JsonLdApi

open JsonLdUtils

/-- C21 (amended): when the result map of step 13 has an `@value` entry that
is null or an empty array, no `@type` entry equal to or containing `@json`, no
key outside `@direction`, `@index`, `@language`, `@type`, `@value`, and not an
`@type` entry together with an `@language` or `@direction` entry, steps 15 to
20 return null, whatever the active property and the frame expansion flag
are. -/
theorem C21_null_value_dropped (ops : ContextOps) (activeProperty : Option String)
    (frameExpansion : Bool) (result : Json)
    (hvalue : result.contains JsonLdConsts.VALUE = true)
    (hempty : (result.get JsonLdConsts.VALUE).is_null = true ∨
      ((result.get JsonLdConsts.VALUE).is_array = true ∧
        (result.get JsonLdConsts.VALUE).empty = true))
    (hjson : result.contains JsonLdConsts.TYPE = true →
      containsOrEquals (result.get JsonLdConsts.TYPE) JsonLdConsts.JSON = false)
    (hkeys : ∀ k ∈ result.keys, k ∈ validKeywords)
    (hpair : result.contains JsonLdConsts.TYPE = true →
      result.contains JsonLdConsts.LANGUAGE = false ∧
        result.contains JsonLdConsts.DIRECTION = false) :
    finishResult ops activeProperty frameExpansion result = .ok .null := by
  have hall : result.keys.all (fun k => validKeywords.contains k) = true := by
    rw [List.all_eq_true]
    intro k hk
    simpa using hkeys k hk
  have hc : (result.contains JsonLdConsts.TYPE &&
      (result.contains JsonLdConsts.LANGUAGE || result.contains JsonLdConsts.DIRECTION)) =
      false := by
    cases ht : result.contains JsonLdConsts.TYPE
    · rfl
    · obtain ⟨h1, h2⟩ := hpair ht
      simp [h1, h2]
  have hj : (!result.contains JsonLdConsts.TYPE ||
      !containsOrEquals (result.get JsonLdConsts.TYPE) JsonLdConsts.JSON) = true := by
    cases ht : result.contains JsonLdConsts.TYPE
    · rfl
    · simp [hjson ht]
  have he : ((result.get JsonLdConsts.VALUE).is_null ||
      ((result.get JsonLdConsts.VALUE).is_array && (result.get JsonLdConsts.VALUE).empty)) =
      true := by
    rcases hempty with h | ⟨h1, h2⟩
    · simp [h]
    · simp [h1, h2]
  unfold finishResult
  rw [if_pos hvalue, hall, hc, if_pos hj, if_pos he]
  simp

/-- C21 (amended) at the result `{"@index": "i", "@type": "http://ex/t",
"@value": []}` under the active property `http://ex/p`, and the expansion of
`{"@index": "i", "@value": null}` under that property. -/
theorem C21_null_value_dropped_witness :
    finishResult SpecModel.specOps (some "http://ex/p") false
      (.obj [("@index", .str "i"), ("@type", .str "http://ex/t"), ("@value", .arr [])]) =
      .ok .null ∧
    expand SpecModel.specOps 3 SpecModel.emptyContext (some "http://ex/p")
      (.obj [("@index", .str "i"), ("@value", .null)]) "" false false false = .ok .null :=
  ⟨C21_null_value_dropped SpecModel.specOps (some "http://ex/p") false
    (.obj [("@index", .str "i"), ("@type", .str "http://ex/t"), ("@value", .arr [])])
    (by decide) (by decide) (by decide) (by decide) (by decide), by decide⟩

/-- C21 as stated fails: the map `{"@language": "en", "@type": "http://ex/t",
"@value": null}` has a null `@value`, a type other than `@json` and only
allowed keys; step 13 leaves it as the result, and step 15.1 raises 'invalid
value object' because `@type` stands next to `@language`. -/
theorem C21_counterexample :
    (["@language", "@type", "@value"].foldlM
      (expandEntry SpecModel.specOps (expand SpecModel.specOps 2) SpecModel.emptyContext
        SpecModel.emptyContext (some "http://ex/p")
        (.obj [("@language", .str "en"), ("@type", .str "http://ex/t"), ("@value", .null)]) ""
        false false false "") (Json.obj [], Json.obj []) =
      .ok (.obj [("@language", .str "en"), ("@type", .str "http://ex/t"), ("@value", .null)],
        .obj [])) ∧
    containsOrEquals (.str "http://ex/t") JsonLdConsts.JSON = false ∧
    (∀ k ∈ ["@language", "@type", "@value"], k ∈ validKeywords) ∧
    expand SpecModel.specOps 3 SpecModel.emptyContext (some "http://ex/p")
      (.obj [("@language", .str "en"), ("@type", .str "http://ex/t"), ("@value", .null)]) ""
      false false false = .error .InvalidValueObject := by
  decide

end JsonLdApi


/-! ## Searching in strings -/

namespace StdString

theorem matchesAt_bound {s pat : ByteString} {pos : Nat} (hm : 0 < pat.length)
    (h : matchesAt s pat pos = true) : pos + pat.length ≤ s.length := by
  unfold matchesAt at h
  have e : (s.drop pos).take pat.length = pat := by simpa using h
  have hl := congrArg List.length e
  simp only [List.length_take, List.length_drop] at hl
  omega

theorem matchesAt_iff_suffix {s pat : ByteString} (hle : pat.length ≤ s.length) :
    matchesAt s pat (s.length - pat.length) = true ↔ pat <:+ s := by
  unfold matchesAt
  rw [List.suffix_iff_eq_drop]
  have hl : (s.drop (s.length - pat.length)).length = pat.length := by
    simp only [List.length_drop]; omega
  have ht : (s.drop (s.length - pat.length)).take pat.length =
      s.drop (s.length - pat.length) := by
    exact List.take_of_length_le (Nat.le_of_eq hl)
  rw [ht]
  constructor
  · intro h
    have e : s.drop (s.length - pat.length) = pat := by simpa using h
    exact e.symm
  · intro h
    rw [← h]
    simp

theorem rfindFrom_none {s pat : ByteString} :
    ∀ pos, (∀ i, i ≤ pos → matchesAt s pat i = false) → rfindFrom s pat pos = npos
  | 0, h => by simp [rfindFrom, h 0 (Nat.le_refl 0)]
  | pos + 1, h => by
    simp only [rfindFrom, h (pos + 1) (Nat.le_refl _), Bool.false_eq_true, if_false]
    exact rfindFrom_none pos (fun i hi => h i (Nat.le_succ_of_le hi))

theorem rfindFrom_last {s pat : ByteString} {j : Nat} (hj : matchesAt s pat j = true) :
    ∀ pos, j ≤ pos → (∀ i, j < i → i ≤ pos → matchesAt s pat i = false) →
      rfindFrom s pat pos = j
  | 0, hle, _ => by
    have : j = 0 := Nat.le_zero.mp hle
    subst this
    simp [rfindFrom, hj]
  | pos + 1, hle, h => by
    by_cases e : j = pos + 1
    · subst e
      simp [rfindFrom, hj]
    · have hlt : j < pos + 1 := Nat.lt_of_le_of_ne hle e
      simp only [rfindFrom, h (pos + 1) hlt (Nat.le_refl _), Bool.false_eq_true, if_false]
      exact rfindFrom_last hj pos (Nat.lt_succ_iff.mp hlt)
        (fun i h1 h2 => h i h1 (Nat.le_succ_of_le h2))

theorem rfindFrom_cases (s pat : ByteString) :
    ∀ pos, rfindFrom s pat pos = npos ∨
      (rfindFrom s pat pos ≤ pos ∧ matchesAt s pat (rfindFrom s pat pos) = true)
  | 0 => by
    by_cases h : matchesAt s pat 0 = true
    · right; simp [rfindFrom, h]
    · left; simp [rfindFrom, h]
  | pos + 1 => by
    by_cases h : matchesAt s pat (pos + 1) = true
    · right; simp [rfindFrom, h]
    · simp only [rfindFrom, h, if_false]
      rcases rfindFrom_cases s pat pos with h1 | ⟨h1, h2⟩
      · exact Or.inl h1
      · exact Or.inr ⟨Nat.le_succ_of_le h1, h2⟩

/-- For a non-empty pattern that is not longer than the string, `rfind` gives
the position `length - pattern length` exactly when the string ends with the
pattern. -/
theorem rfind_eq_iff_suffix (s pat : ByteString) (hm : 0 < pat.length) (hn : s.length < 2 ^ 64)
    (hle : pat.length ≤ s.length) :
    rfind s pat = sizeSub s.length pat.length ↔ pat <:+ s := by
  have hsub : sizeSub s.length pat.length = s.length - pat.length := by
    unfold sizeSub
    have h1 : s.length + 2 ^ 64 - pat.length = 2 ^ 64 + (s.length - pat.length) := by omega
    rw [h1, Nat.add_mod_left]
    exact Nat.mod_eq_of_lt (by omega)
  rw [hsub, ← matchesAt_iff_suffix hle]
  unfold rfind
  constructor
  · intro h
    rcases rfindFrom_cases s pat s.length with h1 | ⟨_, h2⟩
    · rw [h1] at h
      unfold npos at h
      omega
    · rw [h] at h2
      exact h2
  · intro h
    exact rfindFrom_last h s.length (Nat.sub_le _ _) (fun i h1 _ => by
      cases hi : matchesAt s pat i
      · rfl
      · have := matchesAt_bound hm hi
        omega)

/-- A pattern longer than the string is not found. -/
theorem rfind_of_short (s pat : ByteString) (h : s.length < pat.length) : rfind s pat = npos := by
  unfold rfind
  refine rfindFrom_none s.length (fun i _ => ?_)
  cases hi : matchesAt s pat i
  · rfl
  · have hb := matchesAt_bound (show 0 < pat.length by omega) hi
    omega

theorem find_eq_zero_iff (s pat : ByteString) : find s pat = 0 ↔ pat <+: s := by
  have hm : matchesAt s pat 0 = true ↔ pat <+: s := by
    unfold matchesAt
    simp only [List.drop_zero, beq_iff_eq]
    rw [List.prefix_iff_eq_take]
    exact eq_comm
  rw [← hm]
  unfold find
  rw [List.range_succ_eq_map, List.find?_cons]
  cases h0 : matchesAt s pat 0
  · simp only [Bool.false_eq_true, iff_false]
    split
    · rename_i pos hf
      have hmem := List.mem_of_find?_eq_some hf
      simp only [List.mem_map] at hmem
      obtain ⟨a, _, ha⟩ := hmem
      omega
    · unfold npos
      omega
  · simp

end StdString

namespace FileLoader

open StdString

theorem sizeSub_of_le {a b : Nat} (ha : a < 2 ^ 64) (hb : b ≤ a) : sizeSub a b = a - b := by
  unfold sizeSub
  have h1 : a + 2 ^ 64 - b = 2 ^ 64 + (a - b) := by omega
  rw [h1, Nat.add_mod_left]
  exact Nat.mod_eq_of_lt (by omega)

theorem suffix_length_le {s pat : ByteString} (h : pat <:+ s) : pat.length ≤ s.length :=
  h.length_le

theorem ofText_json : ofText ".json" = [46, 106, 115, 111, 110] := by decide

theorem ofText_nq : ofText ".nq" = [46, 110, 113] := by decide

theorem ofText_scheme : ofText "file://" = [102, 105, 108, 101, 58, 47, 47] := by decide

/-- A name that ends with `.json` is taken as JSON. -/
theorem detectContentType_json (filename : ByteString) (hlen : filename.length < 2 ^ 64)
    (h : ofText ".json" <:+ filename) : detectContentType filename = .ok .json := by
  have h5 : (ofText ".json").length ≤ filename.length := suffix_length_le h
  have h5n : (ofText ".json").length = 5 := by decide
  have h3n : (ofText ".nq").length = 3 := by decide
  have hne : filename.isEmpty = false := by
    cases hd : filename with
    | nil =>
      rw [hd] at h5
      simp only [List.length_nil] at h5
      omega
    | cons c cs => rfl
  have hnq : ¬ rfind filename (ofText ".nq") = sizeSub filename.length (ofText ".nq").length := by
    rw [rfind_eq_iff_suffix filename (ofText ".nq") (by decide) hlen (by omega)]
    intro hs
    obtain ⟨a, ha⟩ := h
    obtain ⟨b, hb⟩ := hs
    have e : (a ++ ofText ".json").reverse = (b ++ ofText ".nq").reverse := by rw [ha, hb]
    simp only [List.reverse_append] at e
    have e1 := congrArg List.head? e
    rw [ofText_json, ofText_nq] at e1
    simp only [List.reverse_cons, List.reverse_nil, List.nil_append, List.cons_append,
      List.head?_cons, Option.some.injEq] at e1
    exact absurd e1 (by decide)
  have hj : rfind filename (ofText ".json") = sizeSub filename.length (ofText ".json").length :=
    (rfind_eq_iff_suffix filename (ofText ".json") (by decide) hlen h5).2 h
  unfold detectContentType
  rw [hne]
  simp only [Bool.false_eq_true, if_false, beq_iff_eq, if_neg hnq, if_pos hj]

theorem suffix_after_scheme (rest : ByteString)
    (h : ofText ".json" <:+ ofText "file://" ++ rest) : ofText ".json" <:+ rest := by
  rw [ofText_json, ofText_scheme] at h
  rw [ofText_json]
  rw [← List.reverse_prefix] at h ⊢
  have r1 : ([46, 106, 115, 111, 110] : ByteString).reverse = [110, 111, 115, 106, 46] := by
    decide
  have r2 : ([102, 105, 108, 101, 58, 47, 47] : ByteString).reverse =
      [47, 47, 58, 101, 108, 105, 102] := by decide
  rw [List.reverse_append, r1, r2] at h
  rw [r1]
  generalize rest.reverse = rr at h ⊢
  rcases rr with _ | ⟨a, _ | ⟨b, _ | ⟨c, _ | ⟨d, _ | ⟨e, rr⟩⟩⟩⟩⟩ <;>
    (simp [List.cons_prefix_cons] at h ⊢; try exact h)

theorem substr_suffix {url : ByteString} (hp : ofText "file://" <+: url)
    (hs : ofText ".json" <:+ url) : ofText ".json" <:+ substr url 7 := by
  obtain ⟨rest, hrest⟩ := hp
  have hd : substr url 7 = rest := by
    unfold substr
    rw [← hrest]
    exact List.drop_left' (by decide)
  rw [hd]
  rw [← hrest] at hs
  exact suffix_after_scheme rest hs

end FileLoader

namespace FileLoader

open StdString

theorem detectContentType_two (filename : ByteString) (h : filename.length = 2) :
    detectContentType filename = .ok .n_quads := by
  have hne : filename.isEmpty = false := by
    cases hd : filename with
    | nil =>
      rw [hd] at h
      cases h
    | cons c cs => rfl
  have hr : rfind filename (ofText ".nq") = npos :=
    rfind_of_short filename (ofText ".nq") (by
      have : (ofText ".nq").length = 3 := by decide
      omega)
  unfold detectContentType
  rw [hne, hr, h]
  rfl

/-- C27 fails on the code: the difference `filename.length() - extension
length` wraps around for a name one byte shorter than the extension and then
equals `npos`, the value `rfind` gives when the extension is not found.  Every
name of two bytes is taken as n-quads (`ab`, and `é`, whose UTF-8 encoding has
two bytes), the name `abcd` as JSON, and the name `x.html`, which ends with
`.html`, as JSON-LD because the test for `.jsonld` comes first.  Lengths are
those of `std::string`, in bytes: the name `éa` has three bytes and fails. -/
theorem C27_short_names_misdetected :
    (∀ filename : ByteString, filename.length = 2 →
      detectContentType filename = .ok .n_quads) ∧
    detectContentType (ofText "ab") = .ok .n_quads ∧ ¬ ofText ".nq" <:+ ofText "ab" ∧
    detectContentType (ofText "abcd") = .ok .json ∧ ¬ ofText ".json" <:+ ofText "abcd" ∧
    detectContentType (ofText "x.html") = .ok .json_ld ∧ ofText ".html" <:+ ofText "x.html" ∧
    ¬ ofText ".jsonld" <:+ ofText "x.html" ∧
    (ofText "é").length = 2 ∧ detectContentType (ofText "é") = .ok .n_quads ∧
    (ofText "éa").length = 3 ∧
    detectContentType (ofText "éa") = .error .LoadingDocumentFailed :=
  ⟨detectContentType_two, by decide, by decide, by decide, by decide, by decide, by decide,
    by decide, by decide, by decide, by decide, by decide⟩

theorem loadDocument_scheme {δ : Type} (ops : DocumentOps δ) (self : FileLoader)
    (url : ByteString) (h1 : ¬ ofText "/" <+: url) (h2 : ¬ ofText "file://" <+: url) :
    loadDocument ops self url = .error .LoadingDocumentFailed := by
  have f1 : ¬ find url (ofText "/") = 0 := fun h => h1 ((find_eq_zero_iff url _).1 h)
  have f2 : ¬ find url (ofText "file://") = 0 := fun h => h2 ((find_eq_zero_iff url _).1 h)
  unfold loadDocument
  simp [f1, f2]

/-- For a loader constructed from a stream that is good and not at its end,
and a URL shorter than `2 ^ 64` that begins with `/` or `file://` and ends with
`.json`, `loadDocument` returns what `JSONDocument::of` makes of the stream for
the media type JSON (accepted by `JSONDocument`) and the local path with
`file://` in front. -/
theorem loadDocument_json_stream {δ : Type} (ops : DocumentOps δ) (self : FileLoader)
    (url : ByteString) (stream : IStream) (hstream : self.istream_ptr_ = some stream)
    (hgood : stream.good = true) (heof : stream.eof = false) (hlen : url.length < 2 ^ 64)
    (hstart : ofText "/" <+: url ∨ ofText "file://" <+: url)
    (hsuffix : ofText ".json" <:+ url) (hacc : ops.jsonAccepts .json = true) :
    loadDocument ops self url =
      ops.jsonOf .json stream.content
        (if find (if find url (ofText "file://") == 0 then substr url 7 else url)
            (ofText "file://") == npos then
          ofText "file://" ++ (if find url (ofText "file://") == 0 then substr url 7 else url)
        else (if find url (ofText "file://") == 0 then substr url 7 else url)) := by
  have hscheme : (find url (ofText "file://") != 0 && find url (ofText "/") != 0) = false := by
    rcases hstart with h | h
    · have := (find_eq_zero_iff url (ofText "/")).2 h
      simp [this]
    · have := (find_eq_zero_iff url (ofText "file://")).2 h
      simp [this]
  have hdetect : detectContentType
      (if find url (ofText "file://") == 0 then substr url 7 else url) = .ok .json := by
    by_cases hf : find url (ofText "file://") = 0
    · have hp := (find_eq_zero_iff url (ofText "file://")).1 hf
      simp only [hf, beq_self_eq_true, if_true]
      refine detectContentType_json _ ?_ (substr_suffix hp hsuffix)
      have : (substr url 7).length ≤ url.length := by
        unfold substr
        simp
      omega
    · have hb : (find url (ofText "file://") == 0) = false := by simpa using hf
      simp only [hb, Bool.false_eq_true, if_false]
      exact detectContentType_json url hlen hsuffix
  unfold loadDocument
  rw [hscheme]
  simp only [Bool.false_eq_true, if_false]
  rw [hdetect]
  simp only [Except.bind, hstream, hgood, heof, Bool.not_false, Bool.and_self, if_true]
  unfold loadDocumentFrom
  rw [if_pos hacc]

/-- The parser `parseJson` on some texts: the JSON value null, the sample of
the test, a nested text with white space and a key written twice, and texts
that it does not read. -/
theorem parseJson_examples :
    SpecModel.parseJson (ofText "null") = some .null ∧
    SpecModel.parseJson (ofText "\x7b \"pi\": 4 \x7d") = some (.obj [("pi", .num 4)]) ∧
    SpecModel.parseJson
        (ofText " [1, -20, \"a b\", \x7b\"b\": true, \"a\": [], \"b\": false\x7d, \x7b\x7d ] ") =
      some (.arr [.num 1, .num (-20), .str "a b",
        .obj [("a", .arr []), ("b", .bool false)], .obj []]) ∧
    SpecModel.parseJson (ofText "") = none ∧
    SpecModel.parseJson (ofText "\x7b \"pi\": 4.5 \x7d") = none ∧
    SpecModel.parseJson (ofText "01") = none ∧
    SpecModel.parseJson (ofText "[1,]") = none ∧
    SpecModel.parseJson (ofText "null x") = none := by
  decide

/-- C28 (amended), with the JSON handler as the specification describes it.
For every parser of the JSON library: a loader constructed from a stream that
is good and not at its end, holding a text that the parser reads as `j`, and a
URL shorter than `2 ^ 64` bytes that begins with `/` or `file://` and ends with
`.json`, returns a document of media type JSON whose content is `j`, the parse
of the text, which is null exactly when the parse is the JSON value null, and
whose URL is the local path with `file://` in front.  With the parser
`parseJson`, for the text `{ "pi": 4 }` the content is not null and its entry
`pi` is 4.  For every document handler, a URL that begins with neither `/` nor
`file://` fails with 'loading document failed'. -/
theorem C28_load_from_stream (self : FileLoader) (url : ByteString) :
    (∀ (parse : ByteString → Option Json) (stream : IStream) (j : Json),
      self.istream_ptr_ = some stream → stream.good = true → stream.eof = false →
      url.length < 2 ^ 64 → (ofText "/" <+: url ∨ ofText "file://" <+: url) →
      ofText ".json" <:+ url → parse stream.content = some j →
      ∃ doc, loadDocument (SpecModel.documentOps parse) self url = .ok doc ∧
        doc.jsonContent = j ∧ (doc.jsonContent = .null ↔ j = .null) ∧
        doc.contentType = .json ∧
        doc.documentUrl =
          (if find (if find url (ofText "file://") == 0 then substr url 7 else url)
              (ofText "file://") == npos then
            ofText "file://" ++
              (if find url (ofText "file://") == 0 then substr url 7 else url)
          else (if find url (ofText "file://") == 0 then substr url 7 else url))) ∧
    (∀ stream : IStream,
      self.istream_ptr_ = some stream → stream.good = true → stream.eof = false →
      url.length < 2 ^ 64 → (ofText "/" <+: url ∨ ofText "file://" <+: url) →
      ofText ".json" <:+ url → stream.content = ofText "\x7b \"pi\": 4 \x7d" →
      ∃ doc, loadDocument (SpecModel.documentOps SpecModel.parseJson) self url = .ok doc ∧
        doc.jsonContent = .obj [("pi", .num 4)] ∧ doc.jsonContent ≠ .null ∧
        doc.jsonContent.get "pi" = .num 4) ∧
    (∀ (δ : Type) (ops : DocumentOps δ), ¬ ofText "/" <+: url → ¬ ofText "file://" <+: url →
      loadDocument ops self url = .error .LoadingDocumentFailed) := by
  refine ⟨?_, ?_, fun δ ops => loadDocument_scheme ops self url⟩
  · intro parse stream j hstream hgood heof hlen hstart hsuffix hparse
    have h := loadDocument_json_stream (SpecModel.documentOps parse) self url stream hstream
      hgood heof hlen hstart hsuffix rfl
    rw [h]
    simp only [SpecModel.documentOps, hparse]
    exact ⟨_, rfl, rfl, Iff.rfl, rfl, rfl⟩
  · intro stream hstream hgood heof hlen hstart hsuffix hcontent
    have h := loadDocument_json_stream (SpecModel.documentOps SpecModel.parseJson) self url
      stream hstream hgood heof hlen hstart hsuffix rfl
    have hparse : SpecModel.parseJson stream.content = some (.obj [("pi", .num 4)]) := by
      rw [hcontent]
      decide
    rw [h]
    simp only [SpecModel.documentOps, hparse]
    exact ⟨_, rfl, rfl, (by intro e; cases e), rfl⟩

/-- C28 (amended) at the sample of the test: a loader constructed from a stream that
holds the text `{ "pi": 4 }`, asked for the path `/test_data/pi-is-four.json`,
returns with the parser `parseJson` a document whose content is the map with
the entry `pi` equal to 4; the URL `http://ex/pi.json` fails. -/
theorem C28_load_from_stream_witness :
    (∃ doc, loadDocument (SpecModel.documentOps SpecModel.parseJson)
        ⟨some ⟨true, false, ofText "\x7b \"pi\": 4 \x7d"⟩, "", .json⟩
        (ofText "/test_data/pi-is-four.json") = .ok doc ∧
      doc.jsonContent = .obj [("pi", .num 4)] ∧ (doc.jsonContent = .null ↔
        Json.obj [("pi", .num 4)] = .null) ∧ doc.contentType = .json ∧
      doc.documentUrl = ofText "file:///test_data/pi-is-four.json") ∧
    (∃ doc, loadDocument (SpecModel.documentOps SpecModel.parseJson)
        ⟨some ⟨true, false, ofText "\x7b \"pi\": 4 \x7d"⟩, "", .json⟩
        (ofText "/test_data/pi-is-four.json") = .ok doc ∧
      doc.jsonContent = .obj [("pi", .num 4)] ∧ doc.jsonContent ≠ .null ∧
      doc.jsonContent.get "pi" = .num 4) ∧
    loadDocument (SpecModel.documentOps SpecModel.parseJson)
      ⟨some ⟨true, false, ofText "\x7b \"pi\": 4 \x7d"⟩, "", .json⟩
      (ofText "http://ex/pi.json") = .error .LoadingDocumentFailed := by
  have h := C28_load_from_stream
    ⟨some ⟨true, false, ofText "\x7b \"pi\": 4 \x7d"⟩, "", .json⟩
    (ofText "/test_data/pi-is-four.json")
  have h2 := C28_load_from_stream
    ⟨some ⟨true, false, ofText "\x7b \"pi\": 4 \x7d"⟩, "", .json⟩
    (ofText "http://ex/pi.json")
  refine ⟨?_, h.2.1 ⟨true, false, ofText "\x7b \"pi\": 4 \x7d"⟩ rfl rfl rfl (by decide)
    (Or.inl (by decide)) (by decide) rfl, h2.2.2 _ _ (by decide) (by decide)⟩
  obtain ⟨doc, hd, hc, hn, ht, hu⟩ := h.1 SpecModel.parseJson
    ⟨true, false, ofText "\x7b \"pi\": 4 \x7d"⟩ (.obj [("pi", .num 4)]) rfl rfl rfl (by decide)
    (Or.inl (by decide)) (by decide) (by decide)
  exact ⟨doc, hd, hc, hn, ht, hu.trans (by decide)⟩

/-- C28 as stated fails for the JSON text `null`: its parse is the JSON value
null, and the loader returns a document whose content is null. -/
theorem C28_counterexample :
    SpecModel.parseJson (ofText "null") = some .null ∧
    loadDocument (SpecModel.documentOps SpecModel.parseJson)
      ⟨some ⟨true, false, ofText "null"⟩, "", .json⟩ (ofText "/null.json") =
      .ok ⟨.json, ofText "file:///null.json", .null⟩ := by
  decide

end FileLoader


/-! ## `deepCompare` and `mergeValue` -/

namespace JsonLdUtils

theorem claimMatch_at (cmp : Json → Bool) (y : Json) (post : List Json) (fl : List Bool)
    (h : cmp y = true) : ∀ pre : List Json,
    claimMatch cmp (pre ++ y :: post) (pre.map (fun _ => true) ++ false :: fl) =
      some (pre.map (fun _ => true) ++ true :: fl)
  | [] => by simp [claimMatch, h]
  | p :: pre => by
    have ih := claimMatch_at cmp y post fl h pre
    simp only [List.cons_append, List.map_cons, claimMatch, Bool.not_true, Bool.false_and,
      Bool.false_eq_true, if_false]
    show Option.map (fun rest => true :: rest)
      (claimMatch cmp (pre ++ y :: post) (pre.map (fun _ => true) ++ false :: fl)) = _
    rw [ih]
    rfl

theorem lookupEntry_of_distinct : ∀ (all : List (String × Json)),
    Json.distinctKeys all = true → ∀ kv ∈ all, lookupEntry kv.1 all = some kv.2
  | [], _, kv, hkv => by cases hkv
  | (k, x) :: rest, hd, kv, hkv => by
    simp only [Json.distinctKeys, Bool.and_eq_true, Bool.not_eq_true'] at hd
    rcases List.mem_cons.1 hkv with e | hmem
    · subst e
      simp [lookupEntry]
    · have ih := lookupEntry_of_distinct rest hd.2 kv hmem
      have hne : k ≠ kv.1 := by
        intro e
        have hk : hasKey k rest = true := by
          unfold hasKey
          rw [e, ih]
          rfl
        rw [hk] at hd
        exact absurd hd.1 (by decide)
      simp [lookupEntry, hne, ih]

mutual
theorem deepCompare_refl : ∀ v : Json, Json.wellFormed v = true → deepCompare v v = true
  | .null, _ => by simp [deepCompare, Json.is_null]
  | .bool b, _ => by simp [deepCompare, Json.is_null]
  | .num n, _ => by simp [deepCompare, Json.is_null]
  | .str s, _ => by simp [deepCompare, Json.is_null]
  | .arr xs, h => by
    simp only [Json.wellFormed] at h
    have := deepCompareItems_refl xs [] h
    simpa [deepCompare] using this
  | .obj kvs, h => by
    simp only [Json.wellFormed, Bool.and_eq_true] at h
    have := deepCompareEntries_refl kvs kvs (fun kv hkv => lookupEntry_of_distinct kvs h.1 kv hkv)
      h.2
    simpa [deepCompare] using this
theorem deepCompareEntries_refl : ∀ (kvs all : List (String × Json)),
    (∀ kv ∈ kvs, lookupEntry kv.1 all = some kv.2) → Json.wellFormedEntries kvs = true →
    deepCompareEntries kvs (.obj all) = true
  | [], _, _, _ => by simp [deepCompareEntries]
  | (k, x) :: rest, all, hl, hw => by
    simp only [Json.wellFormedEntries, Bool.and_eq_true] at hw
    have h1 := hl (k, x) (List.mem_cons_self _ _)
    have hx := deepCompare_refl x hw.1
    have hrest := deepCompareEntries_refl rest all
      (fun kv hkv => hl kv (List.mem_cons_of_mem _ hkv)) hw.2
    simp only at h1
    simp [deepCompareEntries, Json.contains, Json.get, hasKey, h1, hx, hrest]
theorem deepCompareItems_refl : ∀ (xs pre : List Json), Json.wellFormedList xs = true →
    deepCompareItems xs (pre ++ xs)
      (pre.map (fun _ => true) ++ xs.map (fun _ => false)) = true
  | [], _, _ => by simp [deepCompareItems]
  | x :: xs, pre, hw => by
    simp only [Json.wellFormedList, Bool.and_eq_true] at hw
    have hx := deepCompare_refl x hw.1
    have ih := deepCompareItems_refl xs (pre ++ [x]) hw.2
    simp only [deepCompareItems, List.map_cons]
    rw [claimMatch_at (fun y => deepCompare x y) x xs (xs.map (fun _ => false)) hx pre]
    simpa using ih
end

end JsonLdUtils

namespace JsonLdUtils

theorem mergeValue_array {kvs : List (String × Json)} {key : String} {value : Json}
    {items : List Json} (hkey : key ≠ "@list") (hvalue : value.contains "@list" = false)
    (hentry : lookupEntry key kvs = some (.arr items)) :
    mergeValue (.obj kvs) key value =
      if deepContains (.arr items) value then .ok (.obj kvs)
      else .ok (.obj (insertEntry key (.arr (items ++ [value])) kvs)) := by
  have hk : (key == "@list") = false := by simpa using hkey
  unfold mergeValue
  simp only [hentry, Option.getD_some, Json.is_null, Bool.false_eq_true, if_false, hk, hvalue,
    Bool.false_or, Bool.not_eq_true']
  cases hc : deepContains (.arr items) value
  · simp [pushBack, Except.map]
  · simp

theorem mergeValue_absent {kvs : List (String × Json)} {key : String} {value : Json}
    (hentry : lookupEntry key kvs = none ∨ lookupEntry key kvs = some .null) :
    mergeValue (.obj kvs) key value = .ok (.obj (insertEntry key (.arr [value]) kvs)) := by
  have hn : ((lookupEntry key kvs).getD Json.null).is_null = true := by
    rcases hentry with h | h <;> simp [h, Json.is_null]
  unfold mergeValue
  simp only [hn, if_true]
  have hc : deepContains (.arr []) value = false := by simp [deepContains, Json.elems]
  simp [hc, pushBack, Except.map]

theorem deepContains_append_self (items : List Json) (value : Json)
    (hw : Json.wellFormed value = true) : deepContains (.arr (items ++ [value])) value = true := by
  unfold deepContains
  simp only [Json.elems, List.any_append, List.any_cons, List.any_nil, Bool.or_false,
    deepCompare_refl value hw, Bool.or_true]

/-- C23 (amended): for a map, a key other than `@list` and a value without an
`@list` entry.  When the entry of the key is an array, `mergeValue` leaves the
map unchanged if an item of the array compares equal to the value under
`deepCompare`, and otherwise appends the value as the last item; when the
entry is absent or null, it becomes the array of the value alone.  In these
cases a second `mergeValue` of a well-formed value changes nothing, so a
repeated element is stored once. -/
theorem C23_merge_value (kvs : List (String × Json)) (key : String) (value : Json)
    (hkey : key ≠ "@list") (hvalue : value.contains "@list" = false) :
    (∀ items, lookupEntry key kvs = some (.arr items) →
      (deepContains (.arr items) value = true → mergeValue (.obj kvs) key value = .ok (.obj kvs)) ∧
      (deepContains (.arr items) value = false →
        mergeValue (.obj kvs) key value =
          .ok (.obj (insertEntry key (.arr (items ++ [value])) kvs)))) ∧
    ((lookupEntry key kvs = none ∨ lookupEntry key kvs = some .null) →
      mergeValue (.obj kvs) key value = .ok (.obj (insertEntry key (.arr [value]) kvs))) ∧
    (Json.wellFormed value = true →
      (lookupEntry key kvs = none ∨ lookupEntry key kvs = some .null ∨
        ∃ items, lookupEntry key kvs = some (.arr items)) →
      ∃ merged, mergeValue (.obj kvs) key value = .ok merged ∧
        mergeValue merged key value = .ok merged) := by
  refine ⟨fun items hentry => ⟨fun hc => ?_, fun hc => ?_⟩, fun hentry => mergeValue_absent hentry,
    fun hw hentry => ?_⟩
  · rw [mergeValue_array hkey hvalue hentry, if_pos hc]
  · rw [mergeValue_array hkey hvalue hentry, hc]
    rfl
  · have hnew : ∀ items : List Json,
        mergeValue (.obj (insertEntry key (.arr (items ++ [value])) kvs)) key value =
          .ok (.obj (insertEntry key (.arr (items ++ [value])) kvs)) := by
      intro items
      rw [mergeValue_array hkey hvalue (lookupEntry_insertEntry_self _ _ _),
        if_pos (deepContains_append_self items value hw)]
    rcases hentry with h | h | ⟨items, h⟩
    · exact ⟨_, mergeValue_absent (Or.inl h), hnew []⟩
    · exact ⟨_, mergeValue_absent (Or.inr h), hnew []⟩
    · cases hc : deepContains (.arr items) value
      · refine ⟨_, ?_, hnew items⟩
        rw [mergeValue_array hkey hvalue h, hc]
        rfl
      · refine ⟨.obj kvs, ?_, ?_⟩ <;> rw [mergeValue_array hkey hvalue h, if_pos hc]

/-- C23 (amended) at the node `{"@id": "http://ex/a"}`, the property
`http://ex/p` and the value object `{"@value": "x"}`, merged twice. -/
theorem C23_merge_value_witness :
    mergeValue (.obj [("@id", .str "http://ex/a")]) "http://ex/p" (.obj [("@value", .str "x")]) =
      .ok (.obj [("@id", .str "http://ex/a"),
        ("http://ex/p", .arr [.obj [("@value", .str "x")]])]) ∧
    mergeValue (.obj [("@id", .str "http://ex/a"),
        ("http://ex/p", .arr [.obj [("@value", .str "x")]])]) "http://ex/p"
      (.obj [("@value", .str "x")]) =
      .ok (.obj [("@id", .str "http://ex/a"),
        ("http://ex/p", .arr [.obj [("@value", .str "x")]])]) :=
  ⟨(C23_merge_value [("@id", .str "http://ex/a")] "http://ex/p" (.obj [("@value", .str "x")])
      (by decide) (by decide)).2.1 (Or.inl (by decide)),
    ((C23_merge_value [("@id", .str "http://ex/a"),
        ("http://ex/p", .arr [.obj [("@value", .str "x")]])] "http://ex/p"
      (.obj [("@value", .str "x")]) (by decide) (by decide)).1
      [.obj [("@value", .str "x")]] (by decide)).1 (by decide)⟩

/-- C23 as stated fails: when the entry of the key is a string, no item
compares equal to the value, and `push_back` on a string raises the type error
of the JSON library; nothing is appended. -/
theorem C23_counterexample :
    deepContains (.str "s") (.obj [("@value", .str "x")]) = false ∧
    mergeValue (.obj [("http://ex/p", .str "s")]) "http://ex/p" (.obj [("@value", .str "x")]) =
      .error .TypeError := by
  decide

end JsonLdUtils


/-! ## The shape of the node map after `generateNodeMap` -/

theorem Json.set_entries {P : String × Json → Prop} {j j' : Json} {k : String} {v : Json}
    (hold : ∀ kvs, j = .obj kvs → ∀ kv ∈ kvs, P kv) (hnew : P (k, v))
    (h : j.set k v = .ok j') : ∀ kvs, j' = .obj kvs → ∀ kv ∈ kvs, P kv := by
  intro kvs' e kv hkv
  cases j with
  | null =>
    simp only [Json.set] at h
    cases h
    cases e
    rw [List.mem_singleton] at hkv
    rw [hkv]
    exact hnew
  | obj kvs =>
    simp only [Json.set] at h
    cases h
    cases e
    rcases mem_insertEntry hkv with h1 | h1
    · rw [h1]; exact hnew
    · exact hold kvs rfl kv h1
  | bool b => cases h
  | num n => cases h
  | str s => cases h
  | arr xs => cases h

theorem Json.get_entries {P : Json → Prop} {j : Json} (k : String) (hnull : P .null)
    (hold : ∀ kvs, j = .obj kvs → ∀ kv ∈ kvs, P kv.2) : P (j.get k) := by
  cases j with
  | obj kvs =>
    simp only [Json.get]
    cases hl : lookupEntry k kvs with
    | none => exact hnull
    | some v => exact hold kvs rfl (k, v) (lookupEntry_some_mem hl)
  | null => exact hnull
  | bool b => exact hnull
  | num n => exact hnull
  | str s => exact hnull
  | arr xs => exact hnull

theorem NodeOk.nullNode : NodeOk .null := fun _ e => by cases e

theorem GraphOk.nullGraph : GraphOk .null := fun _ e => by cases e

theorem GraphOk.emptyGraph : GraphOk (.obj []) := fun _ e _ hn => by cases e; cases hn

theorem NodeMapOk.graph {nodeMap : Json} (h : NodeMapOk nodeMap) (g : String) :
    GraphOk (nodeMap.get g) :=
  Json.get_entries g GraphOk.nullGraph h

theorem GraphOk.node {graph : Json} (h : GraphOk graph) (id : String) : NodeOk (graph.get id) :=
  Json.get_entries id NodeOk.nullNode h

namespace JsonLdApi

open JsonLdUtils

theorem getNode_ok {nodeMap : Json} (h : NodeMapOk nodeMap) (g id : String) :
    NodeOk (getNode nodeMap g id) :=
  (h.graph g).node id

theorem setNode_ok {nodeMap nodeMap1 node : Json} {g id : String} (h : NodeMapOk nodeMap)
    (hn : NodeOk node) (hs : setNode nodeMap g id node = .ok nodeMap1) : NodeMapOk nodeMap1 := by
  unfold setNode at hs
  obtain ⟨graph, h1, h2⟩ := bind_eq_ok hs
  have hg : GraphOk graph := Json.set_entries (h.graph g) hn h1
  exact Json.set_entries h hg h2

theorem nodeOk_insert {kvs : List (String × Json)} {key : String} {v : Json}
    (hn : NodeOk (.obj kvs)) (hnew : NodeEntryOk (key, v)) :
    NodeOk (.obj (insertEntry key v kvs)) := by
  intro kvs' e kv hkv
  cases e
  rcases mem_insertEntry hkv with h1 | h1
  · rw [h1]; exact hnew
  · exact hn kvs rfl kv h1

theorem mergeValue_fresh {kvs : List (String × Json)} {key : String} {value node1 : Json}
    (hn : NodeOk (.obj kvs)) (hv : isKeyword key = false → NodeMapItem value)
    (h : (if (key == "@list" || value.contains "@list" ||
          !deepContains (Json.arr []) value) = true then
        Except.map (fun values1 => Json.obj (insertEntry key values1 kvs))
          (pushBack (Json.arr []) value)
      else Except.ok (Json.obj (insertEntry key (Json.arr []) kvs))) = Except.ok node1) :
    NodeOk node1 := by
  split at h
  · simp only [pushBack, Except.map, List.nil_append] at h
    cases h
    exact nodeOk_insert hn (fun hk => ⟨_, rfl, fun item hi => by
      rw [List.mem_singleton] at hi
      rw [hi]; exact hv hk⟩)
  · cases h
    exact nodeOk_insert hn (fun _ => ⟨[], rfl, fun _ hi => by cases hi⟩)

theorem mergeValue_ok {node node1 value : Json} {key : String} (hn : NodeOk node)
    (hv : isKeyword key = false → NodeMapItem value)
    (h : mergeValue node key value = .ok node1) : NodeOk node1 := by
  cases node with
  | null =>
    simp only [mergeValue] at h
    cases h
    exact NodeOk.nullNode
  | obj kvs =>
    cases hl : lookupEntry key kvs with
    | none =>
      simp only [mergeValue, hl, Option.getD_none, Json.is_null, if_true] at h
      exact mergeValue_fresh hn hv h
    | some values0 =>
      cases values0 with
      | null =>
        simp only [mergeValue, hl, Option.getD_some, Json.is_null, if_true] at h
        exact mergeValue_fresh hn hv h
      | arr items =>
        simp only [mergeValue, hl, Option.getD_some, Json.is_null, Bool.false_eq_true,
          if_false] at h
        split at h
        · simp only [pushBack, Except.map] at h
          cases h
          refine nodeOk_insert hn (fun hk => ?_)
          obtain ⟨items', e1, hall⟩ := hn kvs rfl (key, .arr items) (lookupEntry_some_mem hl) hk
          cases e1
          exact ⟨_, rfl, fun item hi => by
            rcases List.mem_append.1 hi with h2 | h2
            · exact hall item h2
            · rw [List.mem_singleton] at h2
              rw [h2]; exact hv hk⟩
        · cases h
          exact hn
      | bool b =>
        simp only [mergeValue, hl, Option.getD_some, Json.is_null, Bool.false_eq_true,
          if_false] at h
        split at h
        · simp [pushBack, Except.map] at h
        · cases h; exact hn
      | num n =>
        simp only [mergeValue, hl, Option.getD_some, Json.is_null, Bool.false_eq_true,
          if_false] at h
        split at h
        · simp [pushBack, Except.map] at h
        · cases h; exact hn
      | str s =>
        simp only [mergeValue, hl, Option.getD_some, Json.is_null, Bool.false_eq_true,
          if_false] at h
        split at h
        · simp [pushBack, Except.map] at h
        · cases h; exact hn
      | obj o =>
        simp only [mergeValue, hl, Option.getD_some, Json.is_null, Bool.false_eq_true,
          if_false] at h
        split at h
        · simp [pushBack, Except.map] at h
        · cases h; exact hn
  | bool b => simp [mergeValue] at h
  | num n => simp [mergeValue] at h
  | str s => simp [mergeValue] at h
  | arr xs => simp [mergeValue] at h

theorem mergeAtNode_ok {nodeMap nodeMap1 value : Json} {g id key : String}
    (h : NodeMapOk nodeMap) (hv : isKeyword key = false → NodeMapItem value)
    (hm : mergeAtNode nodeMap g id key value = .ok nodeMap1) : NodeMapOk nodeMap1 := by
  unfold mergeAtNode at hm
  obtain ⟨node1, h1, h2⟩ := bind_eq_ok hm
  exact setNode_ok h (mergeValue_ok (getNode_ok h g id) hv h1) h2

theorem appendToList_ok {list value list1 : Json} (h : appendToList list value = .ok list1) :
    list1.contains JsonLdConsts.LIST = true := by
  unfold appendToList at h
  obtain ⟨items, _, h⟩ := bind_eq_ok h
  obtain ⟨items1, _, h⟩ := bind_eq_ok h
  exact (@Json.contains_set _ _ _ JsonLdConsts.LIST _ h).1

theorem attach_ok {nodeMap value : Json} {g : String} {subjectNode : Option String}
    {activeProperty : Option String} {list : Option Json} {out : Json × Option Json}
    (h : NodeMapOk nodeMap) (hv : NodeMapItem value)
    (ha : attach nodeMap g subjectNode activeProperty list value = .ok out) :
    NodeMapOk out.1 ∧ ListOk out.2 := by
  unfold attach at ha
  cases list with
  | none =>
    simp only at ha
    obtain ⟨nodeMap1, h1, e⟩ := map_eq_ok ha
    subst e
    refine ⟨?_, fun _ e => by cases e⟩
    unfold mergeAtSubject at h1
    split at h1
    · exact mergeAtNode_ok h (fun _ => hv) h1
    · cases h1
  | some l =>
    simp only at ha
    obtain ⟨l1, h1, e⟩ := map_eq_ok ha
    subst e
    refine ⟨h, fun l' e => ?_⟩
    cases e
    exact appendToList_ok h1

end JsonLdApi

namespace JsonLdApi

open JsonLdUtils

theorem ensureGraph_ok {nodeMap nodeMap1 : Json} {g : String} (h : NodeMapOk nodeMap)
    (he : ensureGraph nodeMap g = .ok nodeMap1) : NodeMapOk nodeMap1 := by
  unfold ensureGraph at he
  split at he
  · exact Json.set_entries h GraphOk.emptyGraph he
  · cases he; exact h

theorem referenceNode_ok (id : String) : NodeOk (.obj [(JsonLdConsts.ID, .str id)]) := by
  intro kvs e kv hkv hk
  cases e
  rw [List.mem_singleton] at hkv
  rw [hkv] at hk
  exact absurd (show isKeyword JsonLdConsts.ID = false from hk) (by decide)

theorem registerNode_ok {nodeMap nodeMap1 : Json} {g id : String} (h : NodeMapOk nodeMap)
    (hr : registerNode nodeMap g id = .ok nodeMap1) : NodeMapOk nodeMap1 := by
  unfold registerNode at hr
  split at hr
  · obtain ⟨graph1, h1, hr⟩ := bind_eq_ok hr
    obtain ⟨order, h2, hr⟩ := bind_eq_ok hr
    obtain ⟨graph2, h3, hr⟩ := bind_eq_ok hr
    have hg1 : GraphOk graph1 := Json.set_entries (h.graph g) (referenceNode_ok id) h1
    have ho : NodeOk order := by
      intro kvs e
      unfold pushBack at h2
      split at h2 <;> cases h2 <;> cases e
    have hg2 : GraphOk graph2 := Json.set_entries hg1 ho h3
    exact Json.set_entries h hg2 hr
  · cases hr; exact h

theorem linkNode_ok {nodeMap : Json} {g id : String} {subjectNode : Option String}
    {activeSubject : Option Json} {activeProperty : Option String} {list : Option Json}
    {out : Json × Option Json} (h : NodeMapOk nodeMap) (hs : SubjectOk activeSubject)
    (hl : linkNode nodeMap g id subjectNode activeSubject activeProperty list = .ok out) :
    NodeMapOk out.1 ∧ (ListOk list → ListOk out.2) := by
  have href : NodeMapItem (.obj [(JsonLdConsts.ID, .str id)]) := Or.inr (Or.inr ⟨id, rfl⟩)
  have hrest : ∀ o : Json × Option Json,
      (match activeProperty with
        | some _ => attach nodeMap g subjectNode activeProperty list
            (.obj [(JsonLdConsts.ID, .str id)])
        | none => .ok (nodeMap, list)) = .ok o → NodeMapOk o.1 ∧ (ListOk list → ListOk o.2) := by
    intro o ho
    cases activeProperty with
    | some p =>
      have := attach_ok h href ho
      exact ⟨this.1, fun _ => this.2⟩
    | none =>
      cases ho
      exact ⟨h, fun hl => hl⟩
  unfold linkNode at hl
  cases activeSubject with
  | none => exact hrest out hl
  | some subject =>
    cases subject with
    | obj kvs =>
      obtain ⟨sid, e⟩ := hs kvs rfl
      subst e
      cases activeProperty with
      | none => cases hl
      | some p =>
        simp only at hl
        obtain ⟨nodeMap1, h1, e⟩ := map_eq_ok hl
        subst e
        exact ⟨mergeAtNode_ok h (fun _ => Or.inr (Or.inr ⟨sid, rfl⟩)) h1, fun hl => hl⟩
    | null => exact hrest out hl
    | bool b => exact hrest out hl
    | num n => exact hrest out hl
    | str s => exact hrest out hl
    | arr xs => exact hrest out hl

theorem mergeTypes_ok {nodeMap element : Json} {g id : String} {out : Json × Json}
    (h : NodeMapOk nodeMap) (hm : mergeTypes nodeMap g id element = .ok out) :
    NodeMapOk out.1 := by
  unfold mergeTypes at hm
  split at hm
  · obtain ⟨nodeMap1, h1, e⟩ := map_eq_ok hm
    subst e
    exact foldlM_ok_inv NodeMapOk _ _
      (fun nm type nm' _ hnm hstep =>
        mergeAtNode_ok hnm
          (fun hk => absurd (show isKeyword JsonLdConsts.TYPE = false from hk) (by decide))
          hstep) _ _ h h1
  · cases hm; exact h

theorem setIndex_ok {node elemIndex node1 : Json} (hn : NodeOk node)
    (h : setIndex node elemIndex = .ok node1) : NodeOk node1 := by
  have hset : ∀ n1, node.set JsonLdConsts.INDEX elemIndex = .ok n1 → NodeOk n1 :=
    fun n1 h1 => Json.set_entries (P := NodeEntryOk) hn
      (fun hk => absurd (show isKeyword JsonLdConsts.INDEX = false from hk) (by decide)) h1
  unfold setIndex at h
  split at h
  · obtain ⟨nodeIndex, _, h⟩ := bind_eq_ok h
    split at h
    · cases h
    · exact hset _ h
  · exact hset _ h

theorem mergeIndex_ok {nodeMap element : Json} {g id : String} {out : Json × Json}
    (h : NodeMapOk nodeMap) (hm : mergeIndex nodeMap g id element = .ok out) :
    NodeMapOk out.1 := by
  unfold mergeIndex at hm
  split at hm
  · obtain ⟨nodeMap1, h1, e⟩ := map_eq_ok hm
    subst e
    obtain ⟨node1, h2, h3⟩ := bind_eq_ok h1
    exact setNode_ok h (setIndex_ok (getNode_ok h g id) h2) h3
  · cases hm; exact h

theorem processReverse_ok {σ : Type} {recur : NodeMapper σ} {nodeMap element : Json}
    {generator : σ} {g id : String} {out : Json × σ × Json} (hR : GoodMapper recur)
    (h : NodeMapOk nodeMap)
    (hp : processReverse recur nodeMap generator g id element = .ok out) : NodeMapOk out.1 := by
  unfold processReverse at hp
  split at hp
  · obtain ⟨keys, _, hp⟩ := bind_eq_ok hp
    obtain ⟨st, h1, e⟩ := map_eq_ok hp
    subst e
    refine foldlM_ok_inv (fun st : Json × σ => NodeMapOk st.1) _ _ ?_ _ _ h h1
    intro st0 property st1 _ h0 hstep
    refine foldlM_ok_inv (fun st : Json × σ => NodeMapOk st.1) _ _ ?_ _ _ h0 hstep
    intro s0 value s1 _ hs0 hs
    obtain ⟨r, hr, e⟩ := map_eq_ok hs
    subst e
    exact (hR _ _ _ _ _ _ _ _ hs0 (fun kvs e => by
      cases e
      exact ⟨id, rfl⟩) hr).1
  · cases hp; exact h

theorem processGraph_ok {σ : Type} {recur : NodeMapper σ} {nodeMap element : Json}
    {generator : σ} {id : String} {out : Json × σ × Json} (hR : GoodMapper recur)
    (h : NodeMapOk nodeMap)
    (hp : processGraph recur nodeMap generator id element = .ok out) : NodeMapOk out.1 := by
  unfold processGraph at hp
  split at hp
  · obtain ⟨r, hr, e⟩ := map_eq_ok hp
    subst e
    exact (hR _ _ _ _ _ _ _ _ h (fun kvs e => by cases e) hr).1
  · cases hp; exact h

theorem processIncluded_ok {σ : Type} {recur : NodeMapper σ} {nodeMap element : Json}
    {generator : σ} {g : String} {out : Json × σ × Json} (hR : GoodMapper recur)
    (h : NodeMapOk nodeMap)
    (hp : processIncluded recur nodeMap generator g element = .ok out) : NodeMapOk out.1 := by
  unfold processIncluded at hp
  split at hp
  · obtain ⟨r, hr, e⟩ := map_eq_ok hp
    subst e
    exact (hR _ _ _ _ _ _ _ _ h (fun kvs e => by cases e) hr).1
  · cases hp; exact h

theorem processProperty_ok {σ : Type} {names : NameOps σ} {recur : NodeMapper σ}
    {element : Json} {g id property : String} {st out : Json × σ} (hR : GoodMapper recur)
    (h : NodeMapOk st.1)
    (hp : processProperty names recur g id element st property = .ok out) :
    NodeMapOk out.1 := by
  unfold processProperty at hp
  simp only at hp
  generalize (if names.isBlankNodeName property = true then names.get st.2 (some property)
    else (property, st.2)) = renamed at hp
  obtain ⟨nodeMap1, h1, hp⟩ := bind_eq_ok hp
  obtain ⟨r, hr, e⟩ := map_eq_ok hp
  subst e
  have hnm1 : NodeMapOk nodeMap1 := by
    split at h1
    · obtain ⟨node1, h2, h3⟩ := bind_eq_ok h1
      exact setNode_ok h (Json.set_entries (P := NodeEntryOk) (getNode_ok h g id)
        (fun _ => ⟨[], rfl, fun _ hi => by cases hi⟩) h2) h3
    · cases h1; exact h
  exact (hR _ _ _ _ _ _ _ _ hnm1 (fun kvs e => by cases e) hr).1

theorem processProperties_ok {σ : Type} {names : NameOps σ} {recur : NodeMapper σ}
    {nodeMap element : Json} {generator : σ} {g id : String} {out : Json × σ}
    (hR : GoodMapper recur) (h : NodeMapOk nodeMap)
    (hp : processProperties names recur nodeMap generator g id element = .ok out) :
    NodeMapOk out.1 := by
  unfold processProperties at hp
  obtain ⟨keys, _, hp⟩ := bind_eq_ok hp
  exact foldlM_ok_inv (fun st : Json × σ => NodeMapOk st.1) _ _
    (fun st0 property st1 _ h0 hstep => processProperty_ok hR h0 hstep) _ _ h hp

theorem processNodeObject_ok {σ : Type} {names : NameOps σ} {recur : NodeMapper σ}
    {element nodeMap : Json} {generator : σ} {g : String} {subjectNode : Option String}
    {activeSubject : Option Json} {activeProperty : Option String} {list : Option Json}
    {out : Json × σ × Option Json} (hR : GoodMapper recur) (h : NodeMapOk nodeMap)
    (hs : SubjectOk activeSubject)
    (hp : processNodeObject names recur element nodeMap generator g subjectNode activeSubject
      activeProperty list = .ok out) :
    NodeMapOk out.1 ∧ (ListOk list → ListOk out.2.2) := by
  unfold processNodeObject at hp
  obtain ⟨found, _, hp⟩ := bind_eq_ok hp
  obtain ⟨nodeMap3, h3, hp⟩ := bind_eq_ok hp
  obtain ⟨linked, h4, hp⟩ := bind_eq_ok hp
  obtain ⟨typed, h5, hp⟩ := bind_eq_ok hp
  obtain ⟨indexed, h6, hp⟩ := bind_eq_ok hp
  obtain ⟨reversed, h7, hp⟩ := bind_eq_ok hp
  obtain ⟨graphed, h8, hp⟩ := bind_eq_ok hp
  obtain ⟨included, h9, hp⟩ := bind_eq_ok hp
  obtain ⟨done, h10, e⟩ := map_eq_ok hp
  subst e
  have k3 := registerNode_ok h h3
  have k4 := linkNode_ok k3 hs h4
  have k5 := mergeTypes_ok k4.1 h5
  have k6 := mergeIndex_ok k5 h6
  have k7 := processReverse_ok hR k6 h7
  have k8 := processGraph_ok hR k7 h8
  have k9 := processIncluded_ok hR k8 h9
  have k10 : NodeMapOk done.1 := processProperties_ok hR k9 h10
  exact ⟨k10, k4.2⟩

theorem processElement_ok {σ : Type} (names : NameOps σ) {recur : NodeMapper σ}
    (hR : GoodMapper recur) : GoodMapper (processElement names recur) := by
  intro el nm gen g subj prop l out hnm hs hp
  unfold processElement at hp
  obtain ⟨nodeMap1, h1, hp⟩ := bind_eq_ok hp
  obtain ⟨typed, h2, hp⟩ := bind_eq_ok hp
  have k1 := ensureGraph_ok hnm h1
  split at hp
  · rename_i hv
    obtain ⟨r, hr, e⟩ := map_eq_ok hp
    subst e
    have := attach_ok k1 (Or.inl hv) hr
    exact ⟨this.1, fun _ => this.2⟩
  · split at hp
    · obtain ⟨r, hr, hp⟩ := bind_eq_ok hp
      obtain ⟨a, ha, e⟩ := map_eq_ok hp
      subst e
      have kr := hR _ _ _ _ _ _ _ _ k1 hs hr
      have hitem : NodeMapItem (r.2.2.getD (.obj [(JsonLdConsts.LIST, .arr [])])) := by
        refine Or.inr (Or.inl ?_)
        cases hl : r.2.2 with
        | none => rfl
        | some l' =>
          exact kr.2 (fun l0 e => by cases e; rfl) l' hl
      have := attach_ok kr.1 hitem ha
      exact ⟨this.1, fun _ => this.2⟩
    · exact processNodeObject_ok hR k1 hs hp

theorem generateNodeMapBody_ok {σ : Type} (names : NameOps σ) {recur : NodeMapper σ}
    (hR : GoodMapper recur) : GoodMapper (generateNodeMapBody names recur) := by
  intro el nm gen g subj prop l out hnm hs hp
  unfold generateNodeMapBody at hp
  cases el with
  | arr items =>
    simp only at hp
    exact foldlM_ok_inv
      (fun st : Json × σ × Option Json => NodeMapOk st.1 ∧ (ListOk l → ListOk st.2.2)) _ _
      (fun st0 item st1 _ h0 hstep =>
        have := hR _ _ _ _ _ _ _ _ h0.1 hs hstep
        ⟨this.1, fun hl => this.2 (h0.2 hl)⟩) _ _ ⟨hnm, fun hl => hl⟩ hp
  | null => exact processElement_ok names hR _ _ _ _ _ _ _ _ hnm hs hp
  | bool b => exact processElement_ok names hR _ _ _ _ _ _ _ _ hnm hs hp
  | num n => exact processElement_ok names hR _ _ _ _ _ _ _ _ hnm hs hp
  | str s => exact processElement_ok names hR _ _ _ _ _ _ _ _ hnm hs hp
  | obj kvs => exact processElement_ok names hR _ _ _ _ _ _ _ _ hnm hs hp

theorem generateNodeMapFrom_ok {σ : Type} (names : NameOps σ) :
    ∀ fuel, GoodMapper (generateNodeMapFrom names fuel)
  | 0 => fun _ _ _ _ _ _ _ _ _ _ h => by cases h
  | fuel + 1 => generateNodeMapBody_ok names (generateNodeMapFrom_ok names fuel)

end JsonLdApi

namespace JsonLdApi

open JsonLdUtils

/-- C22: when `generateNodeMap` completes, starting from a node map that has
the shape stated here (an empty default graph, say), then in every graph of
the resulting node map every node's entry for a key that is not a keyword is
an array each of whose items is a value object (it has `@value`), a list
object (it has `@list`) or a node reference `{"@id": id}`.  This holds for
every element, expanded or not. -/
theorem C22_node_map_items {σ : Type} (names : NameOps σ) (fuel : Nat) (element nodeMap : Json)
    (generator : σ) (out : Json × σ) (hshape : NodeMapOk nodeMap)
    (h : generateNodeMap names fuel element nodeMap generator = .ok out) :
    NodeMapOk out.1 := by
  unfold generateNodeMap at h
  obtain ⟨r, hr, e⟩ := map_eq_ok h
  subst e
  exact (generateNodeMapFrom_ok names fuel _ _ _ _ _ _ _ _ hshape (fun _ e => by cases e) hr).1

/-- C22 at a node with a repeated value object, a node object and a list
object under one property. -/
theorem C22_node_map_items_witness :
    generateNodeMap SpecModel.nameOps 8
      (.arr [.obj [("@id", .str "http://ex/a"),
        ("http://ex/p", .arr [.obj [("@value", .str "v")], .obj [("@value", .str "v")],
          .obj [("@id", .str "_:n")],
          .obj [("@list", .arr [.obj [("@value", .num 1)],
            .obj [("@id", .str "http://ex/c")]])]])]])
      (.obj [("@default", .obj [])]) SpecModel.noNames =
      .ok (.obj [("@default", .obj [
        ("_:b0", .obj [("@id", .str "_:b0")]),
        ("http://ex/a", .obj [("@id", .str "http://ex/a"),
          ("http://ex/p", .arr [.obj [("@value", .str "v")], .obj [("@id", .str "_:b0")],
            .obj [("@list", .arr [.obj [("@value", .num 1)],
              .obj [("@id", .str "http://ex/c")]])]])]),
        ("http://ex/c", .obj [("@id", .str "http://ex/c")]),
        ("key_insertion_order",
          .arr [.str "http://ex/a", .str "_:b0", .str "http://ex/c"])])],
        ⟨1, [("_:n", "_:b0")]⟩) ∧
    NodeMapOk (.obj [("@default", .obj [
        ("_:b0", .obj [("@id", .str "_:b0")]),
        ("http://ex/a", .obj [("@id", .str "http://ex/a"),
          ("http://ex/p", .arr [.obj [("@value", .str "v")], .obj [("@id", .str "_:b0")],
            .obj [("@list", .arr [.obj [("@value", .num 1)],
              .obj [("@id", .str "http://ex/c")]])]])]),
        ("http://ex/c", .obj [("@id", .str "http://ex/c")]),
        ("key_insertion_order",
          .arr [.str "http://ex/a", .str "_:b0", .str "http://ex/c"])])]) :=
  ⟨by decide!,
    C22_node_map_items SpecModel.nameOps 8
      (.arr [.obj [("@id", .str "http://ex/a"),
        ("http://ex/p", .arr [.obj [("@value", .str "v")], .obj [("@value", .str "v")],
          .obj [("@id", .str "_:n")],
          .obj [("@list", .arr [.obj [("@value", .num 1)],
            .obj [("@id", .str "http://ex/c")]])]])]])
      (.obj [("@default", .obj [])]) SpecModel.noNames
      (_, ⟨1, [("_:n", "_:b0")]⟩)
      (fun graphs e g hg nodes e2 n hn => by
        cases e
        rw [List.mem_singleton] at hg
        subst hg
        cases e2
        cases hn)
      (by decide!)⟩

theorem lookupEntry_set_index (kvs : List (String × Json)) (x : Json) :
    ∃ kvs', (Json.obj kvs).set JsonLdConsts.INDEX x = .ok (.obj kvs') ∧
      lookupEntry JsonLdConsts.INDEX kvs' = some x ∧
      ∀ k, k ≠ JsonLdConsts.INDEX → lookupEntry k kvs' = lookupEntry k kvs :=
  ⟨insertEntry JsonLdConsts.INDEX x kvs, rfl, lookupEntry_insertEntry_self _ _ _,
    fun _ hk => lookupEntry_insertEntry_ne _ _ hk⟩

/-- C24: step 6.8 on a node that is a map, for the `@index` value `x` of the
element.  When the node has an `@index` entry `y` that does not compare equal
to `x` under `deepCompare`, the step fails with 'conflicting indexes', and so
does step 6.8 on the node map; when the node has no `@index` entry, or one
that compares equal, the `@index` entry of the node is `x` afterwards and its
other entries are unchanged.  On strings `deepCompare` is equality. -/
theorem C24_conflicting_indexes (kvs : List (String × Json)) (x : Json) :
    (∀ y, lookupEntry JsonLdConsts.INDEX kvs = some y → deepCompare y x = false →
      setIndex (.obj kvs) x = .error .ConflictingIndexes ∧
      ∀ nodeMap graphName id element, getNode nodeMap graphName id = .obj kvs →
        element.contains JsonLdConsts.INDEX = true → element.get JsonLdConsts.INDEX = x →
        mergeIndex nodeMap graphName id element = .error .ConflictingIndexes) ∧
    ((lookupEntry JsonLdConsts.INDEX kvs = none ∨
        ∃ y, lookupEntry JsonLdConsts.INDEX kvs = some y ∧ deepCompare y x = true) →
      ∃ kvs', setIndex (.obj kvs) x = .ok (.obj kvs') ∧
        lookupEntry JsonLdConsts.INDEX kvs' = some x ∧
        ∀ k, k ≠ JsonLdConsts.INDEX → lookupEntry k kvs' = lookupEntry k kvs) ∧
    (∀ a b : String, deepCompare (.str a) (.str b) = true ↔ a = b) := by
  refine ⟨fun y hy hc => ?_, fun hcase => ?_, fun a b => ?_⟩
  · have hs : setIndex (.obj kvs) x = .error .ConflictingIndexes := by
      unfold setIndex
      simp [Json.contains, hasKey, Json.atKey, hy, Except.bind, hc]
    refine ⟨hs, fun nodeMap graphName id element hnode hcont hget => ?_⟩
    unfold mergeIndex
    rw [if_pos hcont, hnode, hget, hs]
    rfl
  · rcases hcase with hnone | ⟨y, hy, hc⟩
    · have : setIndex (.obj kvs) x = (Json.obj kvs).set JsonLdConsts.INDEX x := by
        unfold setIndex
        simp [Json.contains, hasKey, hnone]
      rw [this]
      exact lookupEntry_set_index kvs x
    · have : setIndex (.obj kvs) x = (Json.obj kvs).set JsonLdConsts.INDEX x := by
        unfold setIndex
        simp [Json.contains, hasKey, Json.atKey, hy, Except.bind, hc]
      rw [this]
      exact lookupEntry_set_index kvs x
  · simp [deepCompare, Json.is_null]

/-- C24 at two node objects with the identifier `http://ex/a`: the indexes `i`
and `j` conflict, the index `i` given twice is kept. -/
theorem C24_conflicting_indexes_witness :
    setIndex (.obj [("@id", .str "http://ex/a"), ("@index", .str "i")]) (.str "j") =
      .error .ConflictingIndexes ∧
    generateNodeMap SpecModel.nameOps 4
      (.arr [.obj [("@id", .str "http://ex/a"), ("@index", .str "i")],
        .obj [("@id", .str "http://ex/a"), ("@index", .str "j")]])
      (.obj [("@default", .obj [])]) SpecModel.noNames = .error .ConflictingIndexes ∧
    generateNodeMap SpecModel.nameOps 4
      (.arr [.obj [("@id", .str "http://ex/a"), ("@index", .str "i")],
        .obj [("@id", .str "http://ex/a"), ("@index", .str "i")]])
      (.obj [("@default", .obj [])]) SpecModel.noNames =
      .ok (.obj [("@default", .obj [
        ("http://ex/a", .obj [("@id", .str "http://ex/a"), ("@index", .str "i")]),
        ("key_insertion_order", .arr [.str "http://ex/a"])])], SpecModel.noNames) :=
  ⟨((C24_conflicting_indexes [("@id", .str "http://ex/a"), ("@index", .str "i")] (.str "j")).1
      (.str "i") (by decide) (by decide)).1, by decide!, by decide!⟩

/-- C25 fails on the code: the test `s.find_first_of("_:") == 0` of step 3.1
holds for every string whose first character is `_` or `:`, so a type such as
`_x` or `:y`, which is no blank node identifier, is replaced by a generated
name as well. -/
theorem C25_type_replaced_on_first_character :
    (∀ (σ : Type) (names : NameOps σ) (generator : σ) (s : String),
      startsWithUnderscoreOrColon s = true →
      rewriteTypeItems names [.str s] generator =
        .ok ([.str (names.get generator (some s)).1], (names.get generator (some s)).2)) ∧
    startsWithUnderscoreOrColon "_x" = true ∧ SpecModel.isBlankNodeName "_x" = false ∧
    rewriteTypes SpecModel.nameOps
      (.obj [("@type", .arr [.str "_x", .str ":y", .str "http://ex/T"])]) SpecModel.noNames =
      .ok (.obj [("@type", .arr [.str "_:b0", .str "_:b1", .str "http://ex/T"])],
        ⟨2, [("_x", "_:b0"), (":y", "_:b1")]⟩) ∧
    generateNodeMap SpecModel.nameOps 4
      (.arr [.obj [("@id", .str "http://ex/a"), ("@type", .arr [.str "_x"])]])
      (.obj [("@default", .obj [])]) SpecModel.noNames =
      .ok (.obj [("@default", .obj [
        ("http://ex/a", .obj [("@id", .str "http://ex/a"), ("@type", .arr [.str "_:b0"])]),
        ("key_insertion_order", .arr [.str "http://ex/a"])])], ⟨1, [("_x", "_:b0")]⟩) := by
  refine ⟨fun σ names generator s hs => ?_, by decide, by decide, by decide!, by decide!⟩
  simp [rewriteTypeItems, Json.getString, Except.map, hs, List.foldlM, bind, Except.bind, pure,
    Except.pure]

end JsonLdApi


/-! ## The quads recorded for a blank node by `normalize` -/

namespace JsonLdApi

theorem lookupQuads_storeQuads_self (id : String) (qs : List RDF.Quad) :
    ∀ m : List (String × List RDF.Quad), lookupQuads id (storeQuads id qs m) = some qs
  | [] => by simp [storeQuads, lookupQuads]
  | (k, v) :: rest => by
    simp only [storeQuads]
    split
    · simp [lookupQuads]
    · split
      · simp [lookupQuads]
      · rename_i h _
        simp [lookupQuads, h, lookupQuads_storeQuads_self id qs rest]

theorem lookupQuads_storeQuads_ne {id id' : String} (qs : List RDF.Quad) (h : id' ≠ id) :
    ∀ m : List (String × List RDF.Quad),
      lookupQuads id' (storeQuads id qs m) = lookupQuads id' m
  | [] => by simp [storeQuads, lookupQuads, Ne.symm h]
  | (k, v) :: rest => by
    simp only [storeQuads]
    split
    · rename_i h1
      subst h1
      simp [lookupQuads, Ne.symm h]
    · split
      · simp [lookupQuads, Ne.symm h]
      · by_cases hk : k = id'
        · simp [lookupQuads, hk]
        · simp [lookupQuads, hk, lookupQuads_storeQuads_ne qs h rest]

theorem recordNode_quads (st : NormalizeState) (quad : RDF.Quad) (n : Option RDF.Node) :
    (recordNode st quad n).quads = st.quads := by
  unfold recordNode
  cases n with
  | none => rfl
  | some node =>
    simp only
    by_cases hb : node.isBlankNode = true
    · simp only [hb, if_true]
      cases hl : lookupQuads node.getValue st.bnodes <;> simp
    · simp [hb]

theorem recordNode_collected (label : String) (st : NormalizeState) (quad : RDF.Quad)
    (n : Option RDF.Node) :
    collected label (recordNode st quad n) =
      collected label st ++ (if isBlankNodeWith label n then [quad] else []) := by
  unfold recordNode
  cases n with
  | none => simp [isBlankNodeWith]
  | some node =>
    simp only [isBlankNodeWith]
    by_cases hb : node.isBlankNode = true
    · simp only [hb, if_true, Bool.true_and, beq_iff_eq]
      cases hl : lookupQuads node.getValue st.bnodes with
      | none =>
        simp only [Option.isNone_none, if_true, lookupQuads_storeQuads_self, Option.getD_some,
          List.nil_append]
        by_cases he : node.getValue = label
        · subst he
          simp [collected, lookupQuads_storeQuads_self, hl]
        · simp only [collected, if_neg he, List.append_nil]
          rw [lookupQuads_storeQuads_ne _ (Ne.symm he), lookupQuads_storeQuads_ne _ (Ne.symm he)]
      | some qs =>
        simp only [Option.isNone_some, Bool.false_eq_true, if_false, hl, Option.getD_some]
        by_cases he : node.getValue = label
        · subst he
          simp [collected, lookupQuads_storeQuads_self, hl]
        · simp only [collected, if_neg he, List.append_nil]
          rw [lookupQuads_storeQuads_ne _ (Ne.symm he)]
    · simp [hb]

/-- The invariant of the first pass: the quads recorded for a label are the
quads seen so far, each once for every position that holds the label. -/
theorem recordQuad_collected (label : String) (graphName : String) (st : NormalizeState)
    (quad0 : RDF.Quad)
    (h : collected label st = (st.quads.map (occurrences label)).flatten) :
    collected label (recordQuad graphName st quad0) =
      ((recordQuad graphName st quad0).quads.map (occurrences label)).flatten := by
  unfold recordQuad
  simp only [recordNode_collected, recordNode_quads, List.map_append, List.flatten_append,
    List.map_cons, List.map_nil, List.flatten_cons, List.flatten_nil, List.append_nil]
  have h0 : ∀ (qs : List RDF.Quad),
      collected label { st with quads := qs } = collected label st := fun _ => rfl
  rw [h0, h]
  simp only [occurrences, List.append_assoc]

theorem normalizePass_collected (label : String) (dataset : RDF.RDFDataset) :
    collected label (normalizePass dataset) =
      ((normalizePass dataset).quads.map (occurrences label)).flatten := by
  unfold normalizePass
  have hinner : ∀ (graphName : String) (quads : List RDF.Quad) (st : NormalizeState),
      collected label st = (st.quads.map (occurrences label)).flatten →
      collected label (quads.foldl (recordQuad graphName) st) =
        (((quads.foldl (recordQuad graphName) st).quads).map (occurrences label)).flatten := by
    intro graphName quads
    induction quads with
    | nil => intro st h; exact h
    | cons q qs ih =>
      intro st h
      exact ih _ (recordQuad_collected label graphName st q h)
  have houter : ∀ (graphs : RDF.RDFDataset) (st : NormalizeState),
      collected label st = (st.quads.map (occurrences label)).flatten →
      collected label
        (graphs.foldl (fun st graph => graph.2.foldl (recordQuad graph.1) st) st) =
        (((graphs.foldl (fun st graph => graph.2.foldl (recordQuad graph.1) st) st).quads).map
          (occurrences label)).flatten := by
    intro graphs
    induction graphs with
    | nil => intro st h; exact h
    | cons g gs ih =>
      intro st h
      exact ih _ (hinner g.1 g.2 st h)
  exact houter dataset _ rfl

/-- C26 fails on the code: the quad is appended to the quads of a label once
for each of the positions subject, object and graph that hold the label, so
the quad `_:x <http://ex/p> _:x` is recorded twice for `_:x`.  For every
dataset the quads recorded for a label are the quads of the pass, each once
per position holding the label; a quad that does not mention the label is not
recorded. -/
theorem C26_quad_recorded_per_position :
    (∀ (label : String) (dataset : RDF.RDFDataset),
      collected label (normalizePass dataset) =
        ((normalizePass dataset).quads.map (occurrences label)).flatten) ∧
    collected "_:x" (normalizePass [("@default",
        [⟨some (.blankNode "_:x"), some (.iri "http://ex/p"), some (.blankNode "_:x"), none⟩])]) =
      [⟨some (.blankNode "_:x"), some (.iri "http://ex/p"), some (.blankNode "_:x"), none⟩,
        ⟨some (.blankNode "_:x"), some (.iri "http://ex/p"), some (.blankNode "_:x"), none⟩] :=
  ⟨normalizePass_collected, by decide⟩

end JsonLdApi


namespace JsonLdApi

open JsonLdUtils

/-- C31: step 7.  The context used for the rest of the expansion of a map is
the previous context of the active context exactly when the active context has
a previous context, `fromMap` is false, no key of the element IRI-expands to
`@value`, and it is not so that the element has exactly one key and that key
IRI-expands to `@id`; otherwise the active context is kept.  For the empty map
the last two conditions hold, so the previous context is taken whenever there
is one and `fromMap` is false. -/
theorem C31_previous_context_restored (ops : ContextOps) (activeContext : Context)
    (element : Json) (fromMap : Bool) :
    (∀ previous, activeContext.getPreviousContext = some previous → fromMap = false →
      (∀ key ∈ element.keys, ops.expandIri activeContext key false true ≠ JsonLdConsts.VALUE) →
      ¬ (element.size = 1 ∧
        ∃ key ∈ element.keys, ops.expandIri activeContext key false true = JsonLdConsts.ID) →
      restorePreviousContext ops activeContext element fromMap = previous) ∧
    ((activeContext.getPreviousContext = none ∨ fromMap = true ∨
        (∃ key ∈ element.keys, ops.expandIri activeContext key false true = JsonLdConsts.VALUE) ∨
        (element.size = 1 ∧
          ∃ key ∈ element.keys, ops.expandIri activeContext key false true = JsonLdConsts.ID)) →
      restorePreviousContext ops activeContext element fromMap = activeContext) ∧
    (∀ previous, activeContext.getPreviousContext = some previous → fromMap = false →
      restorePreviousContext ops activeContext (.obj []) fromMap = previous) := by
  refine ⟨fun previous hp hf hv hid => ?_, fun h => ?_, fun previous hp hf => ?_⟩
  · unfold restorePreviousContext
    rw [hp, hf]
    simp only [Bool.not_false, if_true]
    rw [if_neg]
    intro hany
    rw [List.any_eq_true] at hany
    obtain ⟨key, hk, hc⟩ := hany
    simp only [Bool.or_eq_true, Bool.and_eq_true, beq_iff_eq] at hc
    rcases hc with hc | ⟨hs, hc⟩
    · exact hv key hk hc
    · exact hid ⟨hs, key, hk, hc⟩
  · unfold restorePreviousContext
    cases hp : activeContext.getPreviousContext with
    | none => rfl
    | some previous =>
      simp only
      cases fromMap with
      | true => rfl
      | false =>
        simp only [Bool.not_false, if_true]
        rw [if_pos]
        rw [List.any_eq_true]
        rcases h with h | h | ⟨key, hk, hc⟩ | ⟨hs, key, hk, hc⟩
        · rw [hp] at h; cases h
        · cases h
        · exact ⟨key, hk, by simp [hc]⟩
        · exact ⟨key, hk, by simp [hc, hs]⟩
  · unfold restorePreviousContext
    rw [hp, hf]
    rfl

/-- C31 at the context `idMapOverPreviousContext`: the map `{"name": "N"}` is
expanded with the previous context, the map `{"@id": "http://ex/a"}` with the
active context. -/
theorem C31_previous_context_restored_witness :
    restorePreviousContext SpecModel.specOps Examples.idMapOverPreviousContext
      (.obj [("name", .str "N")]) false = Examples.previousNameContext ∧
    restorePreviousContext SpecModel.specOps Examples.idMapOverPreviousContext
      (.obj [("@id", .str "http://ex/a")]) false = Examples.idMapOverPreviousContext :=
  ⟨(C31_previous_context_restored SpecModel.specOps Examples.idMapOverPreviousContext
      (.obj [("name", .str "N")]) false).1 Examples.previousNameContext rfl rfl (by decide)
      (by decide),
    (C31_previous_context_restored SpecModel.specOps Examples.idMapOverPreviousContext
      (.obj [("@id", .str "http://ex/a")]) false).2.1
      (Or.inr (Or.inr (Or.inr ⟨rfl, "@id", by decide, by decide⟩)))⟩

end JsonLdApi


/-! ## The order of keys -/

theorem charsLt_irrefl : ∀ a : List Char, charsLt a a = false
  | [] => rfl
  | c :: cs => by simp [charsLt, charsLt_irrefl cs]

theorem charsLt_asymm : ∀ a b : List Char, charsLt a b = true → charsLt b a = false
  | [], [], h => by simp [charsLt] at h
  | [], _ :: _, _ => rfl
  | _ :: _, [], h => by simp [charsLt] at h
  | a :: as, b :: bs, h => by
    simp only [charsLt] at h ⊢
    by_cases h1 : a.toNat < b.toNat
    · have : ¬ b.toNat < a.toNat := by omega
      simp [this, h1]
    · by_cases h2 : b.toNat < a.toNat
      · simp [h1, h2] at h
      · simp only [h1, h2, if_false] at h ⊢
        exact charsLt_asymm as bs h

theorem charsLt_trans : ∀ a b c : List Char, charsLt a b = true → charsLt b c = true →
    charsLt a c = true
  | [], [], _, h, _ => by simp [charsLt] at h
  | [], _ :: _, [], _, h => by simp [charsLt] at h
  | [], _ :: _, _ :: _, _, _ => rfl
  | _ :: _, [], _, h, _ => by simp [charsLt] at h
  | _ :: _, _ :: _, [], _, h => by simp [charsLt] at h
  | a :: as, b :: bs, c :: cs, h1, h2 => by
    simp only [charsLt] at h1 h2 ⊢
    by_cases hab : a.toNat < b.toNat
    · by_cases hbc : b.toNat < c.toNat
      · have : a.toNat < c.toNat := by omega
        simp [this]
      · by_cases hcb : c.toNat < b.toNat
        · simp [hbc, hcb] at h2
        · have : a.toNat < c.toNat := by omega
          simp [this]
    · by_cases hba : b.toNat < a.toNat
      · simp [hab, hba] at h1
      · simp only [hab, hba, if_false] at h1
        by_cases hbc : b.toNat < c.toNat
        · have : a.toNat < c.toNat := by omega
          simp [this]
        · by_cases hcb : c.toNat < b.toNat
          · simp [hbc, hcb] at h2
          · simp only [hbc, hcb, if_false] at h2
            have e1 : ¬ a.toNat < c.toNat := by omega
            have e2 : ¬ c.toNat < a.toNat := by omega
            simp only [e1, e2, if_false]
            exact charsLt_trans as bs cs h1 h2

theorem charsLt_total : ∀ a b : List Char, charsLt a b = false → charsLt b a = false → a = b
  | [], [], _, _ => rfl
  | [], _ :: _, h, _ => by simp [charsLt] at h
  | _ :: _, [], _, h => by simp [charsLt] at h
  | a :: as, b :: bs, h1, h2 => by
    simp only [charsLt] at h1 h2
    by_cases hab : a.toNat < b.toNat
    · simp [hab] at h1
    · by_cases hba : b.toNat < a.toNat
      · simp [hba] at h2
      · simp only [hab, hba, if_false] at h1 h2
        have e : a = b := by
          have hn : a.toNat = b.toNat := by omega
          have := congrArg Char.ofNat hn
          simpa using this
        rw [e, charsLt_total as bs h1 h2]

theorem keyLt_irrefl (a : String) : keyLt a a = false := charsLt_irrefl a.data

theorem keyLt_asymm {a b : String} (h : keyLt a b = true) : keyLt b a = false :=
  charsLt_asymm a.data b.data h

theorem keyLt_trans {a b c : String} (h1 : keyLt a b = true) (h2 : keyLt b c = true) :
    keyLt a c = true :=
  charsLt_trans a.data b.data c.data h1 h2

theorem keyLt_total {a b : String} (h1 : keyLt a b = false) (h2 : keyLt b a = false) : a = b :=
  String.ext (charsLt_total a.data b.data h1 h2)

theorem keyLt_ne {a b : String} (h : keyLt a b = true) : a ≠ b := by
  intro e
  rw [e, keyLt_irrefl] at h
  cases h

theorem keyLt_le_trans {a b c : String} (h1 : keyLt b a = false) (h2 : keyLt c b = false) :
    keyLt c a = false := by
  cases h : keyLt c a
  · rfl
  · cases hab : keyLt a b
    · have e := keyLt_total hab h1
      subst e
      rw [h] at h2
      cases h2
    · have := keyLt_trans h hab
      rw [this] at h2
      cases h2

theorem insertKey_sorted (k : String) : ∀ l : List String,
    l.Pairwise (fun a b => keyLt b a = false) →
    (insertKey k l).Pairwise (fun a b => keyLt b a = false)
  | [], _ => by simp [insertKey]
  | x :: xs, h => by
    rw [List.pairwise_cons] at h
    simp only [insertKey]
    split
    · rename_i hx
      rw [List.pairwise_cons]
      refine ⟨fun y hy => ?_, insertKey_sorted k xs h.2⟩
      rcases mem_insertKey.1 hy with e | hm
      · rw [e]; exact keyLt_asymm hx
      · exact h.1 y hm
    · rename_i hx
      have hx' : keyLt x k = false := by simpa using hx
      rw [List.pairwise_cons]
      refine ⟨fun y hy => ?_, List.pairwise_cons.2 h⟩
      rcases List.mem_cons.1 hy with e | hm
      · rw [e]; exact hx'
      · exact keyLt_le_trans hx' (h.1 y hm)

theorem sortKeys_sorted : ∀ l : List String,
    (sortKeys l).Pairwise (fun a b => keyLt b a = false)
  | [] => by simp [sortKeys]
  | x :: xs => by
    have := insertKey_sorted x (sortKeys xs) (sortKeys_sorted xs)
    simpa [sortKeys] using this

theorem getLast_greatest : ∀ (l : List String), l.Pairwise (fun a b => keyLt b a = false) →
    ∀ s ∈ l, keyLt (l.getLast?.getD "") s = false
  | [], _, s, hs => by cases hs
  | [x], _, s, hs => by
    rw [List.mem_singleton] at hs
    subst hs
    simp [keyLt_irrefl]
  | x :: y :: rest, h, s, hs => by
    rw [List.pairwise_cons] at h
    have ih := getLast_greatest (y :: rest) h.2
    have hl : (x :: y :: rest).getLast?.getD "" = (y :: rest).getLast?.getD "" := by
      simp [List.getLast?_cons_cons]
    rw [hl]
    rcases List.mem_cons.1 hs with e | hm
    · subst e
      have hmem : (y :: rest).getLast?.getD "" ∈ y :: rest := by
        cases hq : (y :: rest).getLast? with
        | none => simp at hq
        | some z => exact List.mem_of_getLast?_eq_some hq
      exact h.1 _ hmem
    · exact ih s hm

theorem getLast_mem_or_empty (l : List String) :
    l.getLast?.getD "" ∈ l ∨ (l = [] ∧ l.getLast?.getD "" = "") := by
  cases hq : l.getLast? with
  | none =>
    right
    exact ⟨List.getLast?_eq_none_iff.1 hq, rfl⟩
  | some z => exact Or.inl (List.mem_of_getLast?_eq_some hq)

namespace JsonLdApi

open JsonLdUtils

/-- The last type value of an array is one of its strings, none of which is
greater; it is the empty string when the array has no string. -/
theorem lastTypeValue_greatest (xs : List Json) :
    (lastTypeValue (.arr xs) ∈ stringsOf xs ∨
      (stringsOf xs = [] ∧ lastTypeValue (.arr xs) = "")) ∧
    ∀ s ∈ stringsOf xs, keyLt (lastTypeValue (.arr xs)) s = false := by
  simp only [lastTypeValue]
  constructor
  · rcases getLast_mem_or_empty (sortKeys (stringsOf xs)) with h | ⟨h1, h2⟩
    · exact Or.inl (mem_sortKeys.1 h)
    · right
      refine ⟨?_, h2⟩
      cases hs : stringsOf xs with
      | nil => rfl
      | cons a as =>
        have : a ∈ sortKeys (stringsOf xs) := mem_sortKeys.2 (by rw [hs]; exact List.mem_cons_self _ _)
        rw [h1] at this
        cases this
  · intro s hs
    exact getLast_greatest _ (sortKeys_sorted _) s (mem_sortKeys.2 hs)

theorem findInputTypeKey_typeKey {ops : ContextOps} {tsc : Context} {element : Json} :
    ∀ (keys : List String) (st st' : Context × String), st.2 ≠ "" →
      keys.foldlM (findInputTypeKey ops tsc element) st = .ok st' → st'.2 = st.2
  | [], st, st', _, h => by
    simp only [List.foldlM, pure, Except.pure] at h
    cases h
    rfl
  | key :: keys, st, st', hne, h => by
    simp only [List.foldlM_cons] at h
    obtain ⟨st1, h1, h2⟩ := bind_eq_ok h
    have e1 : st1.2 = st.2 := by
      unfold findInputTypeKey at h1
      split at h1
      · cases h1; rfl
      · obtain ⟨c, _, h1⟩ := bind_eq_ok h1
        cases h1
        have : (st.2 == "") = false := by simpa using hne
        simp [this]
    rw [← e1]
    exact findInputTypeKey_typeKey keys st1 st' (by rw [e1]; exact hne) h2

theorem findInputTypeKey_first {ops : ContextOps} {tsc ctx : Context} {element : Json}
    (hempty : ops.expandIri ctx "" false true ≠ JsonLdConsts.TYPE) :
    ∀ (keys : List String) (st' : Context × String),
      keys.foldlM (findInputTypeKey ops tsc element) (ctx, "") = .ok st' →
      st'.2 = (keys.find? (fun key => ops.expandIri ctx key false true == JsonLdConsts.TYPE)).getD ""
  | [], st', h => by
    simp only [List.foldlM, pure, Except.pure] at h
    cases h
    rfl
  | key :: keys, st', h => by
    simp only [List.foldlM_cons] at h
    obtain ⟨st1, h1, h2⟩ := bind_eq_ok h
    unfold findInputTypeKey at h1
    by_cases hk : ops.expandIri ctx key false true = JsonLdConsts.TYPE
    · have hne : key ≠ "" := by
        intro e
        rw [e] at hk
        exact hempty hk
      simp only [hk, bne_self_eq_false, Bool.false_eq_true, if_false, beq_self_eq_true,
        if_true] at h1
      obtain ⟨c, _, h1⟩ := bind_eq_ok h1
      cases h1
      have := findInputTypeKey_typeKey keys (c, key) st' hne h2
      rw [this]
      simp [List.find?_cons, hk]
    · have hb : (ops.expandIri ctx key false true != JsonLdConsts.TYPE) = true := by
        simpa using hk
      simp only [hb, if_true] at h1
      cases h1
      rw [findInputTypeKey_first hempty keys st' h2]
      have hb2 : (ops.expandIri ctx key false true == JsonLdConsts.TYPE) = false := by
        simpa using hk
      simp [List.find?_cons, hb2]

/-- C32: `findInputType`, for a context in which the empty key does not expand
to `@type`.  When the context processing of step 11 fails, so does the call.
Otherwise, with `typeKey` the first key in lexicographic order that
IRI-expands to `@type` in the active context, the call returns the IRI
expansion (relative to the vocabulary, in the active context as step 11 leaves
it) of the last type value of that key: the string itself, or the greatest
string of an array; it returns the empty string when there is no such key or
the last type value is empty. -/
theorem C32_input_type (ops : ContextOps) (activeContext typeScopedContext : Context)
    (element : Json)
    (hempty : ops.expandIri activeContext "" false true ≠ JsonLdConsts.TYPE) :
    (∀ e, (sortKeys element.keys).foldlM (findInputTypeKey ops typeScopedContext element)
        (activeContext, "") = .error e →
      findInputType ops activeContext typeScopedContext element = .error e) ∧
    (∀ st, (sortKeys element.keys).foldlM (findInputTypeKey ops typeScopedContext element)
        (activeContext, "") = .ok st →
      findInputType ops activeContext typeScopedContext element =
        .ok ((match (sortKeys element.keys).find?
                (fun key => ops.expandIri activeContext key false true == JsonLdConsts.TYPE) with
          | none => ""
          | some typeKey =>
            if lastTypeValue (element.get typeKey) = "" then ""
            else ops.expandIri st.1 (lastTypeValue (element.get typeKey)) false true), st.1)) ∧
    (∀ s : String, lastTypeValue (.str s) = s) ∧
    (∀ xs : List Json,
      (lastTypeValue (.arr xs) ∈ stringsOf xs ∨
        (stringsOf xs = [] ∧ lastTypeValue (.arr xs) = "")) ∧
      ∀ s ∈ stringsOf xs, keyLt (lastTypeValue (.arr xs)) s = false) := by
  refine ⟨fun e he => ?_, fun st hst => ?_, fun _ => rfl, lastTypeValue_greatest⟩
  · unfold findInputType
    rw [he]
    rfl
  · have hkey := findInputTypeKey_first hempty (sortKeys element.keys) st hst
    unfold findInputType
    rw [hst]
    simp only [Except.bind]
    cases hf : (sortKeys element.keys).find?
        (fun key => ops.expandIri activeContext key false true == JsonLdConsts.TYPE) with
    | none =>
      rw [hf] at hkey
      simp only [Option.getD_none] at hkey
      simp [hkey]
    | some typeKey =>
      rw [hf] at hkey
      simp only [Option.getD_some] at hkey
      have hk := List.find?_some hf
      have hne : typeKey ≠ "" := by
        intro e
        rw [e] at hk
        exact hempty (by simpa using hk)
      simp only [hkey, bne_iff_ne, ne_eq, hne, not_false_eq_true, if_true]
      by_cases hl : lastTypeValue (element.get typeKey) = ""
      · simp [hl]
      · simp [hl]

/-- C32 at the map `{"@type": ["http://ex/B", "http://ex/C", 1, "http://ex/A"]}`:
the input type is `http://ex/C`. -/
theorem C32_input_type_witness :
    findInputType SpecModel.specOps SpecModel.emptyContext SpecModel.emptyContext
      (.obj [("@type", .arr [.str "http://ex/B", .str "http://ex/C", .num 1,
        .str "http://ex/A"])]) = .ok ("http://ex/C", SpecModel.emptyContext) :=
  ((C32_input_type SpecModel.specOps SpecModel.emptyContext SpecModel.emptyContext
      (.obj [("@type", .arr [.str "http://ex/B", .str "http://ex/C", .num 1,
        .str "http://ex/A"])]) (by decide)).2.1 (SpecModel.emptyContext, "@type") rfl).trans
    rfl

end JsonLdApi

namespace JsonLdApi

open JsonLdUtils

/-- C34 fails on the code: step 13.4.4.2 tests `element_value.is_object()`,
which holds for every map and not only for the empty one, so a default object
is taken as it is and the branch of step 13.4.4.3 is never reached.  Under the
prefix `ex` the value `{"@default": "ex:T"}` of `@type` stays unexpanded,
where IRI expansion gives `http://example.org/T`. -/
theorem C34_default_object_not_expanded :
    (∀ (ops : ContextOps) (typeScopedContext : Context) (entries : List (String × Json)),
      expandTypeValue ops typeScopedContext (.obj entries) = .ok (.obj entries)) ∧
    invalidTypeValue SpecModel.specOps true (.obj [("@default", .str "ex:T")]) = false ∧
    SpecModel.specOps.expandIri Examples.prefixContext "ex:T" true true = "http://example.org/T" ∧
    expandTypeEntry SpecModel.specOps Examples.prefixContext true
      (.obj [("@default", .str "ex:T")]) (.obj []) = .ok (.obj [("@default", .str "ex:T")]) ∧
    expand SpecModel.specOps 3 Examples.prefixContext none
      (.obj [("@type", .obj [("@default", .str "ex:T")])]) "" true false false =
      .ok (.obj [("@type", .arr [.obj [("@default", .str "ex:T")]])]) :=
  ⟨fun _ _ _ => rfl, by decide, by decide, by decide, by decide⟩

end JsonLdApi

/-! ## `RDFDataset::addTripleToGraph` -/

namespace RDF

theorem lookupGraph_storeGraph_self {τ : Type} (g : String) (ts : List τ) :
    ∀ m : StoredGraphs τ, lookupGraph g (storeGraph g ts m) = some ts
  | [] => by simp [storeGraph, lookupGraph]
  | (k, v) :: rest => by
    simp only [storeGraph]
    split
    · simp [lookupGraph]
    · split
      · simp [lookupGraph]
      · rename_i h _
        simp [lookupGraph, h, lookupGraph_storeGraph_self g ts rest]

theorem lookupGraph_storeGraph_ne {τ : Type} {g g' : String} (ts : List τ) (h : g' ≠ g) :
    ∀ m : StoredGraphs τ, lookupGraph g' (storeGraph g ts m) = lookupGraph g' m
  | [] => by simp [storeGraph, lookupGraph, Ne.symm h]
  | (k, v) :: rest => by
    simp only [storeGraph]
    split
    · rename_i h1
      subst h1
      simp [lookupGraph, Ne.symm h]
    · split
      · simp [lookupGraph, Ne.symm h]
      · by_cases hk : k = g'
        · simp [lookupGraph, hk]
        · simp [lookupGraph, hk, lookupGraph_storeGraph_ne ts h rest]

theorem numTriples_cons {τ : Type} (e : String × List τ) (m : StoredGraphs τ) :
    numTriples (e :: m) = e.2.length + numTriples m := by
  unfold numTriples
  simp only [List.foldl_cons, Nat.zero_add]
  have : ∀ (l : StoredGraphs τ) (a : Nat),
      l.foldl (fun count g => count + g.2.length) a =
        a + l.foldl (fun count g => count + g.2.length) 0 := by
    intro l
    induction l with
    | nil => intro a; rfl
    | cons x xs ih =>
      intro a
      simp only [List.foldl_cons, Nat.zero_add]
      rw [ih (a + x.2.length), ih x.2.length]
      omega
  exact this m e.2.length

theorem lookupGraph_none_of_lt {τ : Type} {g : String} : ∀ (m : StoredGraphs τ),
    (∀ e ∈ m, keyLt g e.1 = true) → lookupGraph g m = none
  | [], _ => rfl
  | (k, v) :: rest, h => by
    have hk : k ≠ g := fun e => by
      have := h (k, v) (List.mem_cons_self _ _)
      rw [e] at this
      rw [keyLt_irrefl] at this
      cases this
    simp only [lookupGraph, hk, if_false]
    exact lookupGraph_none_of_lt rest (fun e he => h e (List.mem_cons_of_mem _ he))

/-- On a map with increasing keys, storing a graph changes the number of
triples by the difference of the lengths of the new and the old graph. -/
theorem numTriples_storeGraph {τ : Type} (g : String) (ts : List τ) :
    ∀ m : StoredGraphs τ, m.Pairwise (fun a b => keyLt a.1 b.1 = true) →
      numTriples (storeGraph g ts m) + ((lookupGraph g m).getD []).length =
        numTriples m + ts.length
  | [], _ => by simp [storeGraph, lookupGraph, numTriples]
  | (k, v) :: rest, h => by
    rw [List.pairwise_cons] at h
    simp only [storeGraph]
    split
    · rename_i hk
      subst hk
      simp only [lookupGraph, if_true, Option.getD_some, numTriples_cons]
      omega
    · rename_i hk
      split
      · rename_i hlt
        have hnone : lookupGraph g ((k, v) :: rest) = none :=
          lookupGraph_none_of_lt _ (fun e he => by
            rcases List.mem_cons.1 he with e1 | e1
            · rw [e1]; exact hlt
            · exact keyLt_trans hlt (h.1 e e1))
        rw [hnone]
        simp only [Option.getD_none, List.length_nil, numTriples_cons]
        omega
      · have ih := numTriples_storeGraph g ts rest h.2
        simp only [lookupGraph, hk, if_false, numTriples_cons]
        omega

theorem mem_storeGraph {τ : Type} {g : String} {ts : List τ} {e : String × List τ} :
    ∀ {m : StoredGraphs τ}, e ∈ storeGraph g ts m → e = (g, ts) ∨ e ∈ m
  | [], h => by
    simp only [storeGraph, List.mem_singleton] at h
    exact Or.inl h
  | (k, v) :: rest, h => by
    simp only [storeGraph] at h
    split at h
    · rcases List.mem_cons.1 h with h1 | h1
      · exact Or.inl h1
      · exact Or.inr (List.mem_cons_of_mem _ h1)
    · split at h
      · rcases List.mem_cons.1 h with h1 | h1
        · exact Or.inl h1
        · exact Or.inr h1
      · rcases List.mem_cons.1 h with h1 | h1
        · exact Or.inr (by rw [h1]; exact List.mem_cons_self _ _)
        · rcases mem_storeGraph h1 with h2 | h2
          · exact Or.inl h2
          · exact Or.inr (List.mem_cons_of_mem _ h2)

theorem storeGraph_sorted {τ : Type} (g : String) (ts : List τ) :
    ∀ m : StoredGraphs τ, m.Pairwise (fun a b => keyLt a.1 b.1 = true) →
      (storeGraph g ts m).Pairwise (fun a b => keyLt a.1 b.1 = true)
  | [], _ => by simp [storeGraph]
  | (k, v) :: rest, h => by
    have h' := List.pairwise_cons.1 h
    simp only [storeGraph]
    split
    · rename_i hk
      subst hk
      exact List.pairwise_cons.2 ⟨fun e he => h'.1 e he, h'.2⟩
    · rename_i hk
      split
      · rename_i hlt
        refine List.pairwise_cons.2 ⟨fun e he => ?_, h⟩
        rcases List.mem_cons.1 he with e1 | e1
        · rw [e1]; exact hlt
        · exact keyLt_trans hlt (h'.1 e e1)
      · rename_i hlt
        refine List.pairwise_cons.2 ⟨fun e he => ?_, storeGraph_sorted g ts rest h'.2⟩
        rcases mem_storeGraph he with e1 | e1
        · rw [e1]
          cases hkg : keyLt k g
          · exact absurd (keyLt_total hkg (by simpa using hlt)) hk
          · rfl
        · exact h'.1 e e1

theorem lookupGraph_some_mem {τ : Type} {g : String} {ts : List τ} :
    ∀ {m : StoredGraphs τ}, lookupGraph g m = some ts → (g, ts) ∈ m
  | [], h => by cases h
  | (k, v) :: rest, h => by
    simp only [lookupGraph] at h
    split at h
    · rename_i hk
      cases h
      rw [hk]
      exact List.mem_cons_self _ _
    · exact List.mem_cons_of_mem _ (lookupGraph_some_mem h)

/-- What a sequence of calls on the empty dataset keeps: increasing keys, no
graph with two equal triples, and at most one triple per call. -/
theorem addAll_invariant {τ : Type} [DecidableEq τ] (calls : List (String × τ)) :
    (addAll calls).Pairwise (fun a b => keyLt a.1 b.1 = true) ∧
    (∀ e ∈ addAll calls, e.2.Nodup) ∧ numTriples (addAll calls) ≤ calls.length := by
  unfold addAll
  have hgen : ∀ (cs : List (String × τ)) (m : StoredGraphs τ) (n : Nat),
      m.Pairwise (fun a b => keyLt a.1 b.1 = true) → (∀ e ∈ m, e.2.Nodup) → numTriples m ≤ n →
      (cs.foldl (fun s call => addTripleToGraph s call.1 call.2) m).Pairwise
        (fun a b => keyLt a.1 b.1 = true) ∧
      (∀ e ∈ cs.foldl (fun s call => addTripleToGraph s call.1 call.2) m, e.2.Nodup) ∧
      numTriples (cs.foldl (fun s call => addTripleToGraph s call.1 call.2) m) ≤
        n + cs.length := by
    intro cs
    induction cs with
    | nil => intro m n h1 h2 h3; exact ⟨h1, h2, h3⟩
    | cons c cs ih =>
      intro m n h1 h2 h3
      simp only [List.foldl_cons, List.length_cons]
      have hstep : (addTripleToGraph m c.1 c.2).Pairwise (fun a b => keyLt a.1 b.1 = true) ∧
          (∀ e ∈ addTripleToGraph m c.1 c.2, e.2.Nodup) ∧
          numTriples (addTripleToGraph m c.1 c.2) ≤ n + 1 := by
        unfold addTripleToGraph
        split
        · rename_i hnew
          refine ⟨storeGraph_sorted _ _ m h1, fun e he => ?_, ?_⟩
          · rcases mem_storeGraph he with e1 | e1
            · rw [e1]
              simp only
              cases hl : lookupGraph c.1 m with
              | none => simp
              | some old =>
                rw [hl] at hnew
                have hnotin : c.2 ∉ old := by simpa using hnew
                simp only [Option.getD_some]
                exact List.Nodup.append (h2 _ (lookupGraph_some_mem hl)) (List.nodup_singleton _)
                  (fun a ha ha' => by
                    rw [List.mem_singleton] at ha'
                    rw [ha'] at ha
                    exact hnotin ha)
            · exact h2 e e1
          · have := numTriples_storeGraph c.1 (((lookupGraph c.1 m).getD []) ++ [c.2]) m h1
            simp only [List.length_append, List.length_singleton] at this
            omega
        · exact ⟨h1, h2, by omega⟩
      have := ih (addTripleToGraph m c.1 c.2) (n + 1) hstep.1 hstep.2.1 hstep.2.2
      refine ⟨this.1, this.2.1, ?_⟩
      have h4 := this.2.2
      omega
  have := hgen calls [] 0 List.Pairwise.nil (fun e he => by cases he) (by simp [numTriples])
  simpa using this

/-- C40: a call of `addTripleToGraph` with a triple that the named graph holds
leaves the dataset unchanged; with a new triple it appends the triple at the
end of that graph and leaves every other graph unchanged.  In a dataset built
from the empty one by such calls no graph holds a triple twice, and the number
of triples is at most the number of calls; on a map with increasing keys one
call adds at most one triple. -/
theorem C40_no_duplicate_triples {τ : Type} [DecidableEq τ] (storedGraphs : StoredGraphs τ)
    (graphName : String) (triple : τ) :
    (triple ∈ getGraph storedGraphs graphName →
      addTripleToGraph storedGraphs graphName triple = storedGraphs) ∧
    (triple ∉ getGraph storedGraphs graphName →
      getGraph (addTripleToGraph storedGraphs graphName triple) graphName =
        getGraph storedGraphs graphName ++ [triple] ∧
      ∀ other, other ≠ graphName →
        lookupGraph other (addTripleToGraph storedGraphs graphName triple) =
          lookupGraph other storedGraphs) ∧
    (storedGraphs.Pairwise (fun a b => keyLt a.1 b.1 = true) →
      numTriples (addTripleToGraph storedGraphs graphName triple) ≤ numTriples storedGraphs + 1) ∧
    (∀ calls : List (String × τ),
      (∀ e ∈ addAll calls, e.2.Nodup) ∧ numTriples (addAll calls) ≤ calls.length) := by
  refine ⟨fun hmem => ?_, fun hnot => ?_, fun hsorted => ?_, fun calls =>
    ⟨(addAll_invariant calls).2.1, (addAll_invariant calls).2.2⟩⟩
  · unfold addTripleToGraph
    cases hl : lookupGraph graphName storedGraphs with
    | none =>
      simp only [getGraph, hl] at hmem
      cases hmem
    | some old =>
      have hc : old.contains triple = true := by
        simp only [getGraph, hl] at hmem
        simpa using hmem
      simp only [Option.isNone_some, Option.getD_some, hc, Bool.not_true, Bool.or_self,
        Bool.false_eq_true, if_false]
  · have hc : (((lookupGraph graphName storedGraphs).getD []).contains triple) = false := by
      cases hl : lookupGraph graphName storedGraphs with
      | none => simp
      | some old =>
        simp only [getGraph, hl] at hnot
        simpa using hnot
    have hadd : addTripleToGraph storedGraphs graphName triple =
        storeGraph graphName (((lookupGraph graphName storedGraphs).getD []) ++ [triple])
          storedGraphs := by
      unfold addTripleToGraph
      rw [hc]
      simp only [Bool.not_false, Bool.or_true, if_true]
    rw [hadd]
    refine ⟨?_, fun other ho => lookupGraph_storeGraph_ne _ ho _⟩
    simp only [getGraph, lookupGraph_storeGraph_self]
    cases hl : lookupGraph graphName storedGraphs <;> rfl
  · unfold addTripleToGraph
    split
    · have := numTriples_storeGraph graphName
        (((lookupGraph graphName storedGraphs).getD []) ++ [triple]) storedGraphs hsorted
      simp only [List.length_append, List.length_singleton] at this
      omega
    · omega

/-- C40 at triples given as numbers: the triple 1 added twice to `g` is stored
once. -/
theorem C40_no_duplicate_triples_witness :
    addTripleToGraph ([("g", [1, 2])] : StoredGraphs Nat) "g" 1 = [("g", [1, 2])] ∧
    getGraph (addTripleToGraph ([("g", [1, 2])] : StoredGraphs Nat) "g" 3) "g" = [1, 2] ++ [3] ∧
    addAll ([("g", 1), ("h", 1), ("g", 1), ("g", 2)] : List (String × Nat)) =
      [("g", [1, 2]), ("h", [1])] :=
  ⟨(C40_no_duplicate_triples ([("g", [1, 2])] : StoredGraphs Nat) "g" 1).1 (by decide),
    ((C40_no_duplicate_triples ([("g", [1, 2])] : StoredGraphs Nat) "g" 3).2.1 (by decide)).1,
    by decide⟩

end RDF


/-! ## `deepCompare` is an equivalence; arrays compare as multisets -/

namespace JsonLdUtils

theorem claimMatch_unmarked (cmp : Json → Bool) : ∀ (ys : List Json) (marks : List Bool),
    (claimMatch cmp ys marks).map (unmarked ys) = removeFirst cmp (unmarked ys marks)
  | [], _ => by simp [claimMatch, unmarked, removeFirst]
  | _ :: _, [] => by simp [claimMatch, unmarked, removeFirst]
  | y :: ys, m :: ms => by
    have ih := claimMatch_unmarked cmp ys ms
    cases m with
    | true =>
      simp only [claimMatch, Bool.not_true, Bool.false_and, Bool.false_eq_true, if_false,
        unmarked, if_true, Option.map_map]
      rw [← ih]
      congr 1
    | false =>
      cases hc : cmp y with
      | true => simp [claimMatch, unmarked, removeFirst, hc]
      | false =>
        simp only [claimMatch, Bool.not_false, Bool.true_and, hc, Bool.false_eq_true, if_false,
          unmarked, removeFirst, Option.map_map]
        rw [← ih, Option.map_map]
        congr 1

theorem deepCompareItems_matchAll : ∀ (xs ys : List Json) (marks : List Bool),
    deepCompareItems xs ys marks = matchAll deepCompare xs (unmarked ys marks)
  | [], _, _ => by simp [deepCompareItems, matchAll]
  | x :: xs, ys, marks => by
    have h := claimMatch_unmarked (fun y => deepCompare x y) ys marks
    simp only [deepCompareItems, matchAll]
    cases hc : claimMatch (fun y => deepCompare x y) ys marks with
    | none =>
      rw [hc] at h
      simp only [Option.map_none'] at h
      have h' : removeFirst (deepCompare x) (unmarked ys marks) = none := h.symm
      rw [h']
    | some marks1 =>
      rw [hc] at h
      simp only [Option.map_some'] at h
      have h' : removeFirst (deepCompare x) (unmarked ys marks) = some (unmarked ys marks1) :=
        h.symm
      rw [h']
      exact deepCompareItems_matchAll xs ys marks1

theorem unmarked_fresh : ∀ ys : List Json, unmarked ys (ys.map (fun _ => false)) = ys
  | [] => rfl
  | y :: ys => by
    have ih := unmarked_fresh ys
    simp only [List.map_cons, unmarked, Bool.false_eq_true, if_false, ih]

theorem deepCompare_arr (xs ys : List Json) :
    deepCompare (.arr xs) (.arr ys) = (xs.length == ys.length && matchAll deepCompare xs ys) := by
  rw [deepCompare]
  simp only [deepCompareItems_matchAll, unmarked_fresh]
  by_cases h : xs.length = ys.length
  · simp [h]
  · simp [h]

theorem removeFirst_some {p : Json → Bool} : ∀ {ys rest : List Json},
    removeFirst p ys = some rest → ∃ y, p y = true ∧ ys.Perm (y :: rest)
  | [], _, h => by cases h
  | y :: ys, rest, h => by
    simp only [removeFirst] at h
    split at h
    · rename_i hp
      cases h
      exact ⟨y, hp, List.Perm.refl _⟩
    · cases hr : removeFirst p ys with
      | none => rw [hr] at h; cases h
      | some r =>
        rw [hr] at h
        simp only [Option.map_some', Option.some.injEq] at h
        subst h
        obtain ⟨z, hz, hperm⟩ := removeFirst_some hr
        exact ⟨z, hz, (List.Perm.cons y hperm).trans (List.Perm.swap z y r)⟩

theorem removeFirst_none {p : Json → Bool} : ∀ {ys : List Json},
    removeFirst p ys = none → ∀ y ∈ ys, p y = false
  | [], _, y, hy => by cases hy
  | y :: ys, h, z, hz => by
    simp only [removeFirst] at h
    split at h
    · cases h
    · rename_i hp
      cases hr : removeFirst p ys with
      | some r => rw [hr] at h; cases h
      | none =>
        rcases List.mem_cons.1 hz with e | hm
        · rw [e]; simpa using hp
        · exact removeFirst_none hr z hm

theorem EquivOn.congr_right {S : Json → Prop} {R : Json → Json → Bool} (hE : EquivOn S R)
    {z x y : Json} (hz : S z) (hx : S x) (hy : S y) (hxy : R x y = true) : R z x = R z y := by
  cases h1 : R z x with
  | true => exact (hE.trans z x y hz hx hy h1 hxy).symm
  | false =>
    cases h2 : R z y with
    | false => rfl
    | true =>
      have := hE.trans z y x hz hy hx h2 (hE.symm x y hx hy hxy)
      rw [h1] at this
      cases this

theorem matchAll_counts {S : Json → Prop} {R : Json → Json → Bool} (hE : EquivOn S R) :
    ∀ (xs ys : List Json), (∀ x ∈ xs, S x) → (∀ y ∈ ys, S y) → xs.length = ys.length →
      matchAll R xs ys = true → ∀ z, S z → xs.countP (R z) = ys.countP (R z)
  | [], ys, _, _, hl, _, z, _ => by
    have : ys = [] := List.length_eq_zero.1 hl.symm
    rw [this]
  | x :: xs, ys, hx, hy, hl, h, z, hz => by
    simp only [matchAll] at h
    cases hr : removeFirst (R x) ys with
    | none => rw [hr] at h; cases h
    | some rest =>
      rw [hr] at h
      obtain ⟨y, hxy, hperm⟩ := removeFirst_some hr
      have hyS : S y := hy y (hperm.symm.subset (List.mem_cons_self _ _))
      have hrestS : ∀ w ∈ rest, S w := fun w hw =>
        hy w (hperm.symm.subset (List.mem_cons_of_mem _ hw))
      have hlen : xs.length = rest.length := by
        have := hperm.length_eq
        simp only [List.length_cons] at this hl
        omega
      have ih := matchAll_counts hE xs rest (fun w hw => hx w (List.mem_cons_of_mem _ hw))
        hrestS hlen h z hz
      have hc := hE.congr_right hz (hx x (List.mem_cons_self _ _)) hyS hxy
      rw [hperm.countP_eq, List.countP_cons, List.countP_cons, ih, hc]

theorem matchAll_of_counts {S : Json → Prop} {R : Json → Json → Bool} (hE : EquivOn S R) :
    ∀ (xs ys : List Json), (∀ x ∈ xs, S x) → (∀ y ∈ ys, S y) →
      (∀ z, S z → xs.countP (R z) ≤ ys.countP (R z)) → matchAll R xs ys = true
  | [], _, _, _, _ => rfl
  | x :: xs, ys, hx, hy, hc => by
    have hxS : S x := hx x (List.mem_cons_self _ _)
    simp only [matchAll]
    cases hr : removeFirst (R x) ys with
    | none =>
      have h0 : ys.countP (R x) = 0 := by
        rw [List.countP_eq_zero]
        intro y hy'
        simp [removeFirst_none hr y hy']
      have h1 := hc x hxS
      rw [List.countP_cons, hE.refl x hxS, h0] at h1
      simp at h1
    | some rest =>
      simp only
      obtain ⟨y, hxy, hperm⟩ := removeFirst_some hr
      have hyS : S y := hy y (hperm.symm.subset (List.mem_cons_self _ _))
      refine matchAll_of_counts hE xs rest (fun w hw => hx w (List.mem_cons_of_mem _ hw))
        (fun w hw => hy w (hperm.symm.subset (List.mem_cons_of_mem _ hw))) (fun z hz => ?_)
      have h1 := hc z hz
      have hcg := hE.congr_right hz hxS hyS hxy
      rw [hperm.countP_eq, List.countP_cons, List.countP_cons, hcg] at h1
      omega

end JsonLdUtils

namespace JsonLdUtils

theorem wellFormedList_mem : ∀ {xs : List Json}, Json.wellFormedList xs = true →
    ∀ x ∈ xs, Json.wellFormed x = true
  | [], _, x, hx => by cases hx
  | y :: ys, h, x, hx => by
    simp only [Json.wellFormedList, Bool.and_eq_true] at h
    rcases List.mem_cons.1 hx with e | hm
    · rw [e]; exact h.1
    · exact wellFormedList_mem h.2 x hm

theorem wellFormedList_of_mem : ∀ {xs : List Json}, (∀ x ∈ xs, Json.wellFormed x = true) →
    Json.wellFormedList xs = true
  | [], _ => rfl
  | y :: ys, h => by
    simp only [Json.wellFormedList, Bool.and_eq_true]
    exact ⟨h y (List.mem_cons_self _ _),
      wellFormedList_of_mem (fun x hx => h x (List.mem_cons_of_mem _ hx))⟩

theorem wellFormedEntries_mem : ∀ {kvs : List (String × Json)},
    Json.wellFormedEntries kvs = true → ∀ kv ∈ kvs, Json.wellFormed kv.2 = true
  | [], _, x, hx => by cases hx
  | (k, y) :: ys, h, x, hx => by
    simp only [Json.wellFormedEntries, Bool.and_eq_true] at h
    rcases List.mem_cons.1 hx with e | hm
    · rw [e]; exact h.1
    · exact wellFormedEntries_mem h.2 x hm

theorem depthList_mem : ∀ {xs : List Json}, ∀ x ∈ xs, x.depth ≤ Json.depthList xs
  | [], x, hx => by cases hx
  | y :: ys, x, hx => by
    simp only [Json.depthList]
    rcases List.mem_cons.1 hx with e | hm
    · rw [e]; exact le_max_left _ _
    · exact le_trans (depthList_mem x hm) (le_max_right _ _)

theorem depthEntries_mem : ∀ {kvs : List (String × Json)}, ∀ kv ∈ kvs,
    kv.2.depth ≤ Json.depthEntries kvs
  | [], x, hx => by cases hx
  | (k, y) :: ys, x, hx => by
    simp only [Json.depthEntries]
    rcases List.mem_cons.1 hx with e | hm
    · rw [e]; exact le_max_left _ _
    · exact le_trans (depthEntries_mem x hm) (le_max_right _ _)

theorem deepCompareEntries_iff : ∀ (kvs : List (String × Json)) (v2 : Json),
    deepCompareEntries kvs v2 = true ↔
      ∀ kv ∈ kvs, v2.contains kv.1 = true ∧ deepCompare kv.2 (v2.get kv.1) = true
  | [], _ => by simp [deepCompareEntries]
  | (k, x) :: rest, v2 => by
    have ih := deepCompareEntries_iff rest v2
    simp only [deepCompareEntries, List.mem_cons, forall_eq_or_imp]
    rw [← ih]
    cases h1 : v2.contains k <;> cases h2 : deepCompare x (v2.get k) <;> simp

theorem distinctKeys_nodup : ∀ {kvs : List (String × Json)}, Json.distinctKeys kvs = true →
    (kvs.map Prod.fst).Nodup
  | [], _ => List.nodup_nil
  | (k, x) :: rest, h => by
    simp only [Json.distinctKeys, Bool.and_eq_true, Bool.not_eq_true'] at h
    simp only [List.map_cons, List.nodup_cons]
    refine ⟨?_, distinctKeys_nodup h.2⟩
    intro hk
    obtain ⟨kv, hkv, e⟩ := List.mem_map.1 hk
    have : hasKey k rest = true := hasKey_iff_mem.2 ⟨kv, hkv, e⟩
    rw [this] at h
    exact absurd h.1 (by decide)

/-- Two objects with distinct keys and the same number of entries, every key
of the first present in the second, have the same keys. -/
theorem keys_back {kvs kvs2 : List (String × Json)} (hd : Json.distinctKeys kvs = true)
    (hd2 : Json.distinctKeys kvs2 = true) (hl : kvs.length = kvs2.length)
    (hsub : ∀ kv ∈ kvs, hasKey kv.1 kvs2 = true) : ∀ kv ∈ kvs2, hasKey kv.1 kvs = true := by
  have hn := distinctKeys_nodup hd
  have hn2 := distinctKeys_nodup hd2
  have hss : kvs.map Prod.fst ⊆ kvs2.map Prod.fst := by
    intro k hk
    obtain ⟨kv, hkv, e⟩ := List.mem_map.1 hk
    obtain ⟨kv2, hkv2, e2⟩ := hasKey_iff_mem.1 (hsub kv hkv)
    exact List.mem_map.2 ⟨kv2, hkv2, e2.trans e⟩
  have hsp : (kvs.map Prod.fst).Subperm (kvs2.map Prod.fst) := List.subperm_of_subset hn hss
  have hp : (kvs.map Prod.fst).Perm (kvs2.map Prod.fst) :=
    hsp.perm_of_length_le (by simp [hl])
  intro kv hkv
  have : kv.1 ∈ kvs.map Prod.fst := hp.symm.subset (List.mem_map.2 ⟨kv, hkv, rfl⟩)
  obtain ⟨kv1, hkv1, e1⟩ := List.mem_map.1 this
  exact hasKey_iff_mem.2 ⟨kv1, hkv1, e1⟩

theorem get_of_mem {kvs : List (String × Json)} (hd : Json.distinctKeys kvs = true)
    {kv : String × Json} (h : kv ∈ kvs) : (Json.obj kvs).get kv.1 = kv.2 := by
  simp [Json.get, lookupEntry_of_distinct kvs hd kv h]

theorem mem_of_hasKey {kvs : List (String × Json)} {k : String} (h : hasKey k kvs = true) :
    (k, (Json.obj kvs).get k) ∈ kvs := by
  unfold hasKey at h
  cases hl : lookupEntry k kvs with
  | none => rw [hl] at h; cases h
  | some v =>
    simp only [Json.get, hl, Option.getD_some]
    exact lookupEntry_some_mem hl

theorem Below.item {d : Nat} {xs : List Json} (h : Below (d + 1) (.arr xs)) :
    ∀ x ∈ xs, Below d x := by
  intro x hx
  obtain ⟨hw, hdp⟩ := h
  simp only [Json.wellFormed] at hw
  simp only [Json.depth] at hdp
  exact ⟨wellFormedList_mem hw x hx, by have := depthList_mem x hx; omega⟩

theorem Below.entry {d : Nat} {kvs : List (String × Json)} (h : Below (d + 1) (.obj kvs)) :
    Json.distinctKeys kvs = true ∧ ∀ kv ∈ kvs, Below d kv.2 := by
  obtain ⟨hw, hdp⟩ := h
  simp only [Json.wellFormed, Bool.and_eq_true] at hw
  simp only [Json.depth] at hdp
  exact ⟨hw.1, fun kv hkv =>
    ⟨wellFormedEntries_mem hw.2 kv hkv, by have := depthEntries_mem kv hkv; omega⟩⟩

theorem deepCompare_obj (kvs kvs2 : List (String × Json)) :
    deepCompare (.obj kvs) (.obj kvs2) = true ↔
      kvs.length = kvs2.length ∧
      ∀ kv ∈ kvs, hasKey kv.1 kvs2 = true ∧ deepCompare kv.2 ((Json.obj kvs2).get kv.1) = true := by
  rw [deepCompare]
  by_cases h : kvs.length = kvs2.length
  · simp only [h, bne_self_eq_false, Bool.false_eq_true, if_false, true_and]
    rw [deepCompareEntries_iff]
    simp only [Json.contains]
  · simp [h]

theorem deepCompare_scalar_left {a b : Json} (hab : deepCompare a b = true)
    (ha : a.is_array = false) (ho : a.is_object = false) : a = b := by
  revert hab
  cases a with
  | arr _ => simp [Json.is_array] at ha
  | obj _ => simp [Json.is_object] at ho
  | null => cases b <;> simp [deepCompare, Json.is_null]
  | bool x => cases b <;> simp [deepCompare, Json.is_null]
  | num x => cases b <;> simp [deepCompare, Json.is_null]
  | str x => cases b <;> simp [deepCompare, Json.is_null]

theorem deepCompare_kind {a b : Json} (h : deepCompare a b = true) :
    a.is_array = b.is_array ∧ a.is_object = b.is_object := by
  cases a <;> cases b <;> simp [deepCompare, Json.is_null, Json.is_array, Json.is_object] at h ⊢

theorem deepCompare_equivOn : ∀ d : Nat, EquivOn (Below d) deepCompare
  | 0 => ⟨fun a h => absurd h.2 (Nat.not_lt_zero _), fun a _ h => absurd h.2 (Nat.not_lt_zero _),
      fun a _ _ h => absurd h.2 (Nat.not_lt_zero _)⟩
  | d + 1 => by
    have ih := deepCompare_equivOn d
    refine ⟨fun a h => deepCompare_refl a h.1, ?_, ?_⟩
    · intro a b ha hb hab
      cases a with
      | arr xs =>
        cases b with
        | arr ys =>
          rw [deepCompare_arr] at hab ⊢
          simp only [Bool.and_eq_true, beq_iff_eq] at hab ⊢
          refine ⟨hab.1.symm, ?_⟩
          have hc := matchAll_counts ih xs ys ha.item hb.item hab.1 hab.2
          exact matchAll_of_counts ih ys xs hb.item ha.item (fun z hz => le_of_eq (hc z hz).symm)
        | _ => simp [deepCompare] at hab
      | obj kvs =>
        cases b with
        | obj kvs2 =>
          rw [deepCompare_obj] at hab ⊢
          obtain ⟨hd, hS⟩ := ha.entry
          obtain ⟨hd2, hS2⟩ := hb.entry
          refine ⟨hab.1.symm, fun kv hkv => ?_⟩
          have hk := keys_back hd hd2 hab.1 (fun kv hkv => (hab.2 kv hkv).1) kv hkv
          refine ⟨hk, ?_⟩
          have hm := mem_of_hasKey hk
          have h1 := (hab.2 _ hm).2
          have hg : (Json.obj kvs2).get kv.1 = kv.2 := get_of_mem hd2 hkv
          simp only at h1
          rw [hg] at h1
          exact ih.symm _ _ (hS _ hm) (hS2 _ hkv) h1
        | _ => simp [deepCompare] at hab
      | null =>
        have := deepCompare_scalar_left hab rfl rfl
        rw [← this]; rfl
      | bool x =>
        have := deepCompare_scalar_left hab rfl rfl
        rw [← this]; exact deepCompare_refl _ rfl
      | num x =>
        have := deepCompare_scalar_left hab rfl rfl
        rw [← this]; exact deepCompare_refl _ rfl
      | str x =>
        have := deepCompare_scalar_left hab rfl rfl
        rw [← this]; exact deepCompare_refl _ rfl
    · intro a b c ha hb hc hab hbc
      cases a with
      | arr xs =>
        cases b with
        | arr ys =>
          cases c with
          | arr zs =>
            rw [deepCompare_arr] at hab hbc ⊢
            simp only [Bool.and_eq_true, beq_iff_eq] at hab hbc ⊢
            refine ⟨hab.1.trans hbc.1, ?_⟩
            have h1 := matchAll_counts ih xs ys ha.item hb.item hab.1 hab.2
            have h2 := matchAll_counts ih ys zs hb.item hc.item hbc.1 hbc.2
            exact matchAll_of_counts ih xs zs ha.item hc.item
              (fun z hz => le_of_eq ((h1 z hz).trans (h2 z hz)))
          | _ => simp [deepCompare] at hbc
        | _ => simp [deepCompare] at hab
      | obj kvs =>
        cases b with
        | obj kvs2 =>
          cases c with
          | obj kvs3 =>
            rw [deepCompare_obj] at hab hbc ⊢
            obtain ⟨hd, hS⟩ := ha.entry
            obtain ⟨hd2, hS2⟩ := hb.entry
            obtain ⟨hd3, hS3⟩ := hc.entry
            refine ⟨hab.1.trans hbc.1, fun kv hkv => ?_⟩
            have h1 := hab.2 kv hkv
            have hm := mem_of_hasKey h1.1
            have h2 := hbc.2 _ hm
            simp only at h2
            have hm3 := mem_of_hasKey h2.1
            exact ⟨h2.1, ih.trans _ _ _ (hS kv hkv) (hS2 _ hm) (hS3 _ hm3) h1.2 h2.2⟩
          | _ => simp [deepCompare] at hbc
        | _ => simp [deepCompare] at hab
      | null =>
        have := deepCompare_scalar_left hab rfl rfl
        rw [this]; exact hbc
      | bool x =>
        have := deepCompare_scalar_left hab rfl rfl
        rw [this]; exact hbc
      | num x =>
        have := deepCompare_scalar_left hab rfl rfl
        rw [this]; exact hbc
      | str x =>
        have := deepCompare_scalar_left hab rfl rfl
        rw [this]; exact hbc

/-- On well-formed values `deepCompare` is an equivalence relation. -/
theorem deepCompare_equiv : EquivOn (fun a => Json.wellFormed a = true) deepCompare := by
  refine ⟨fun a h => deepCompare_refl a h, fun a b ha hb h => ?_, fun a b c ha hb hc h1 h2 => ?_⟩
  · exact (deepCompare_equivOn (max a.depth b.depth + 1)).symm a b
      ⟨ha, by have := le_max_left a.depth b.depth; omega⟩
      ⟨hb, by have := le_max_right a.depth b.depth; omega⟩ h
  · exact (deepCompare_equivOn (max a.depth (max b.depth c.depth) + 1)).trans a b c
      ⟨ha, by simp only [Nat.lt_succ_iff]; exact le_max_left _ _⟩
      ⟨hb, by simp only [Nat.lt_succ_iff]; exact le_trans (le_max_left _ _) (le_max_right _ _)⟩
      ⟨hc, by simp only [Nat.lt_succ_iff]; exact le_trans (le_max_right _ _) (le_max_right _ _)⟩
      h1 h2

theorem deepCompare_comm {a b : Json} (ha : Json.wellFormed a = true)
    (hb : Json.wellFormed b = true) : deepCompare a b = deepCompare b a := by
  cases h1 : deepCompare a b with
  | true => exact (deepCompare_equiv.symm a b ha hb h1).symm
  | false =>
    cases h2 : deepCompare b a with
    | false => rfl
    | true =>
      have := deepCompare_equiv.symm b a hb ha h2
      rw [h1] at this
      cases this

end JsonLdUtils

namespace JsonLdUtils

theorem countP_scalar {z : Json} (ha : z.is_array = false) (ho : z.is_object = false) :
    ∀ xs : List Json, xs.countP (deepCompare z) = xs.count z
  | [] => rfl
  | x :: xs => by
    have hz : Json.wellFormed z = true := by
      cases z <;> simp [Json.wellFormed, Json.is_array, Json.is_object] at ha ho ⊢
    have hb : deepCompare z x = (x == z) := by
      cases h : deepCompare z x with
      | true =>
        have := deepCompare_scalar_left h ha ho
        simp [this]
      | false =>
        have hne : ¬ x = z := by
          intro e
          rw [e, deepCompare_refl z hz] at h
          cases h
        simp [hne]
    rw [List.countP_cons, List.count_cons, countP_scalar ha ho xs, hb]

theorem forall2_counts {xs ys : List Json}
    (h : List.Forall₂ (fun a b => deepCompare a b = true) xs ys)
    (hx : ∀ x ∈ xs, Json.wellFormed x = true) (hy : ∀ y ∈ ys, Json.wellFormed y = true)
    (z : Json) (hz : Json.wellFormed z = true) :
    xs.countP (deepCompare z) = ys.countP (deepCompare z) := by
  induction h with
  | nil => rfl
  | @cons a b l1 l2 hab _ ih =>
    have hc := deepCompare_equiv.congr_right hz (hx a (List.mem_cons_self _ _))
      (hy b (List.mem_cons_self _ _)) hab
    rw [List.countP_cons, List.countP_cons, hc,
      ih (fun x hm => hx x (List.mem_cons_of_mem _ hm))
        (fun y hm => hy y (List.mem_cons_of_mem _ hm))]

/-- On arrays of well-formed items `deepCompare` holds exactly when the two
arrays have the same length and every value has, up to `deepCompare`, as many
occurrences in the one as in the other. -/
theorem deepCompare_arr_iff {xs ys : List Json} (hx : Json.wellFormedList xs = true)
    (hy : Json.wellFormedList ys = true) :
    deepCompare (.arr xs) (.arr ys) = true ↔
      xs.length = ys.length ∧
      ∀ z, Json.wellFormed z = true → xs.countP (deepCompare z) = ys.countP (deepCompare z) := by
  rw [deepCompare_arr]
  simp only [Bool.and_eq_true, beq_iff_eq]
  constructor
  · rintro ⟨hl, hm⟩
    exact ⟨hl, matchAll_counts deepCompare_equiv xs ys (wellFormedList_mem hx)
      (wellFormedList_mem hy) hl hm⟩
  · rintro ⟨hl, hc⟩
    exact ⟨hl, matchAll_of_counts deepCompare_equiv xs ys (wellFormedList_mem hx)
      (wellFormedList_mem hy) (fun z hz => le_of_eq (hc z hz))⟩

/-- C38: on JSON values (numbers are integers, the keys of every object are
distinct, as in every `nlohmann::json` value) `deepCompare` is reflexive and
symmetric: a value compares equal to itself, and `deepCompare(a, b)` and
`deepCompare(b, a)` give the same answer. -/
theorem C38_deep_compare_symmetric_reflexive (a b : Json) (ha : Json.wellFormed a = true)
    (hb : Json.wellFormed b = true) :
    deepCompare a a = true ∧ deepCompare a b = deepCompare b a :=
  ⟨deepCompare_refl a ha, deepCompare_comm ha hb⟩

/-- C38 at `[1, {"a": [2, 3], "b": null}]` and `[{"b": null, "a": [3, 2]}, 1]`,
which compare equal in both directions, and at `[1, [2]]` and `[[1], 2]`, which
compare different in both directions. -/
theorem C38_deep_compare_symmetric_reflexive_witness :
    (deepCompare (.arr [.num 1, .obj [("a", .arr [.num 2, .num 3]), ("b", .null)]])
        (.arr [.num 1, .obj [("a", .arr [.num 2, .num 3]), ("b", .null)]]) = true ∧
      deepCompare (.arr [.num 1, .obj [("a", .arr [.num 2, .num 3]), ("b", .null)]])
          (.arr [.obj [("b", .null), ("a", .arr [.num 3, .num 2])], .num 1]) =
        deepCompare (.arr [.obj [("b", .null), ("a", .arr [.num 3, .num 2])], .num 1])
          (.arr [.num 1, .obj [("a", .arr [.num 2, .num 3]), ("b", .null)]])) ∧
    deepCompare (.arr [.num 1, .obj [("a", .arr [.num 2, .num 3]), ("b", .null)]])
      (.arr [.obj [("b", .null), ("a", .arr [.num 3, .num 2])], .num 1]) = true ∧
    deepCompare (.arr [.num 1, .arr [.num 2]]) (.arr [.arr [.num 1], .num 2]) = false ∧
    deepCompare (.arr [.arr [.num 1], .num 2]) (.arr [.num 1, .arr [.num 2]]) = false :=
  ⟨C38_deep_compare_symmetric_reflexive
      (.arr [.num 1, .obj [("a", .arr [.num 2, .num 3]), ("b", .null)]])
      (.arr [.obj [("b", .null), ("a", .arr [.num 3, .num 2])], .num 1]) (by decide) (by decide),
    by decide, by decide, by decide⟩

/-- C39: `deepCompare` treats arrays as multisets at every depth. For arrays
`xs` and `ys` of JSON values: (1) when `ys` is a permutation of `xs` the arrays
compare true; (2) more generally, when `ys` is, item by item, equal up to
`deepCompare` to a permutation of `xs` (so that arrays nested in the items may
be permuted too) the arrays compare true; (3) when some value has, up to
`deepCompare`, a different number of occurrences in `xs` and in `ys`, the arrays
compare false, of equal length or not; (4) in particular when some value that
is neither an array nor an object occurs a different number of times in `xs`
and in `ys`; (5) `[1, 1, 2]` and `[1, 2, 2]` compare false; (6) the arrays
compare true exactly when they have the same length and every value has, up to
`deepCompare`, as many occurrences in the one as in the other. -/
theorem C39_arrays_as_multisets (xs ys : List Json) (hx : Json.wellFormedList xs = true)
    (hy : Json.wellFormedList ys = true) :
    (xs.Perm ys → deepCompare (.arr xs) (.arr ys) = true) ∧
    (∀ xs1, xs.Perm xs1 → List.Forall₂ (fun a b => deepCompare a b = true) xs1 ys →
      deepCompare (.arr xs) (.arr ys) = true) ∧
    (∀ z, Json.wellFormed z = true → xs.countP (deepCompare z) ≠ ys.countP (deepCompare z) →
      deepCompare (.arr xs) (.arr ys) = false) ∧
    (∀ z, z.is_array = false → z.is_object = false → xs.count z ≠ ys.count z →
      deepCompare (.arr xs) (.arr ys) = false) ∧
    deepCompare (.arr [.num 1, .num 1, .num 2]) (.arr [.num 1, .num 2, .num 2]) = false ∧
    (deepCompare (.arr xs) (.arr ys) = true ↔
      xs.length = ys.length ∧
      ∀ z, Json.wellFormed z = true →
        xs.countP (deepCompare z) = ys.countP (deepCompare z)) := by
  have hiff := deepCompare_arr_iff hx hy
  have hfalse : ∀ z, Json.wellFormed z = true →
      xs.countP (deepCompare z) ≠ ys.countP (deepCompare z) →
      deepCompare (.arr xs) (.arr ys) = false := by
    intro z hz hne
    cases h : deepCompare (.arr xs) (.arr ys) with
    | false => rfl
    | true => exact absurd ((hiff.1 h).2 z hz) hne
  refine ⟨fun hp => hiff.2 ⟨hp.length_eq, fun z _ => hp.countP_eq _⟩, ?_, hfalse, ?_, by decide,
    hiff⟩
  · intro xs1 hp hf
    have hx1 : ∀ x ∈ xs1, Json.wellFormed x = true := fun x hm =>
      wellFormedList_mem hx x (hp.symm.subset hm)
    exact hiff.2 ⟨hp.length_eq.trans hf.length_eq, fun z hz =>
      (hp.countP_eq _).trans (forall2_counts hf hx1 (wellFormedList_mem hy) z hz)⟩
  · intro z ha ho hne
    have hz : Json.wellFormed z = true := by
      cases z <;> simp [Json.wellFormed, Json.is_array, Json.is_object] at ha ho ⊢
    refine hfalse z hz ?_
    rw [countP_scalar ha ho, countP_scalar ha ho]
    exact hne

/-- C39 at `[[1, 2], {"a": [3, 4]}, 5]` and `[5, {"a": [4, 3]}, [2, 1]]`: the
second is, up to `deepCompare` of the items, the permutation
`[5, {"a": [3, 4]}, [1, 2]]` of the first, and the two compare true; the value
`[2, 1]` has one occurrence up to `deepCompare` in each. -/
theorem C39_arrays_as_multisets_witness :
    deepCompare
      (.arr [.arr [.num 1, .num 2], .obj [("a", .arr [.num 3, .num 4])], .num 5])
      (.arr [.num 5, .obj [("a", .arr [.num 4, .num 3])], .arr [.num 2, .num 1]]) = true ∧
    [Json.arr [.num 1, .num 2], .obj [("a", .arr [.num 3, .num 4])], .num 5].countP
        (deepCompare (.arr [.num 2, .num 1])) =
      [Json.num 5, .obj [("a", .arr [.num 4, .num 3])], .arr [.num 2, .num 1]].countP
        (deepCompare (.arr [.num 2, .num 1])) :=
  ⟨(C39_arrays_as_multisets
      [.arr [.num 1, .num 2], .obj [("a", .arr [.num 3, .num 4])], .num 5]
      [.num 5, .obj [("a", .arr [.num 4, .num 3])], .arr [.num 2, .num 1]]
      (by decide) (by decide)).2.1
      [.num 5, .obj [("a", .arr [.num 3, .num 4])], .arr [.num 1, .num 2]]
      (by decide) (by decide),
    by decide⟩

end JsonLdUtils


/-! ## Entry order of the input map, of language maps and of index maps -/

namespace JsonLdApi

open JsonLdUtils

theorem perm_insertKey (k : String) : ∀ l : List String, (insertKey k l).Perm (k :: l)
  | [] => List.Perm.refl _
  | x :: xs => by
    simp only [insertKey]
    split
    · exact ((perm_insertKey k xs).cons x).trans (List.Perm.swap k x xs)
    · exact List.Perm.refl _

theorem perm_sortKeys : ∀ l : List String, (sortKeys l).Perm l
  | [] => List.Perm.refl _
  | x :: xs => by
    have h1 := perm_insertKey x (sortKeys xs)
    have h2 := perm_sortKeys xs
    exact h1.trans (h2.cons x)

/-- Sorting forgets the order of the keys. -/
theorem sortKeys_perm {l1 l2 : List String} (h : l1.Perm l2) : sortKeys l1 = sortKeys l2 := by
  haveI : IsAntisymm String (fun a b => keyLt b a = false) :=
    ⟨fun _ _ h1 h2 => keyLt_total h2 h1⟩
  exact List.eq_of_perm_of_sorted (((perm_sortKeys l1).trans h).trans (perm_sortKeys l2).symm)
    (sortKeys_sorted l1) (sortKeys_sorted l2)

theorem distinctKeys_of_nodup : ∀ {kvs : List (String × Json)}, (kvs.map Prod.fst).Nodup →
    Json.distinctKeys kvs = true
  | [], _ => rfl
  | (k, x) :: rest, h => by
    simp only [List.map_cons, List.nodup_cons] at h
    simp only [Json.distinctKeys, Bool.and_eq_true, Bool.not_eq_true']
    refine ⟨?_, distinctKeys_of_nodup h.2⟩
    cases hk : hasKey k rest with
    | false => rfl
    | true =>
      obtain ⟨kv, hkv, e⟩ := hasKey_iff_mem.1 hk
      exact absurd (List.mem_map.2 ⟨kv, hkv, e⟩) h.1

theorem distinctKeys_perm {kvs kvs2 : List (String × Json)} (hd : Json.distinctKeys kvs = true)
    (hp : kvs.Perm kvs2) : Json.distinctKeys kvs2 = true :=
  distinctKeys_of_nodup ((hp.map Prod.fst).nodup_iff.1 (distinctKeys_nodup hd))

/-- Lookup by key does not depend on the order of the entries. -/
theorem lookupEntry_perm {kvs kvs2 : List (String × Json)} (hd : Json.distinctKeys kvs = true)
    (hp : kvs.Perm kvs2) (k : String) : lookupEntry k kvs = lookupEntry k kvs2 := by
  have hd2 := distinctKeys_perm hd hp
  cases h1 : lookupEntry k kvs with
  | some v =>
    have := lookupEntry_of_distinct kvs2 hd2 (k, v) (hp.subset (lookupEntry_some_mem h1))
    exact this.symm
  | none =>
    cases h2 : lookupEntry k kvs2 with
    | none => rfl
    | some v =>
      have := lookupEntry_of_distinct kvs hd (k, v) (hp.symm.subset (lookupEntry_some_mem h2))
      simp only at this
      rw [h1] at this
      cases this

theorem findInputTypeKey_perm (ops : ContextOps) (typeScopedContext : Context)
    {kvs kvs2 : List (String × Json)} (hd : Json.distinctKeys kvs = true) (hp : kvs.Perm kvs2) :
    findInputTypeKey ops typeScopedContext (.obj kvs) =
      findInputTypeKey ops typeScopedContext (.obj kvs2) := by
  funext st key
  simp only [findInputTypeKey, Json.get, lookupEntry_perm hd hp]

theorem findInputType_perm (ops : ContextOps) (activeContext typeScopedContext : Context)
    {kvs kvs2 : List (String × Json)} (hd : Json.distinctKeys kvs = true) (hp : kvs.Perm kvs2) :
    findInputType ops activeContext typeScopedContext (.obj kvs) =
      findInputType ops activeContext typeScopedContext (.obj kvs2) := by
  simp only [findInputType, findInputTypeKey_perm ops typeScopedContext hd hp, Json.keys,
    sortKeys_perm (hp.map Prod.fst), Json.get, lookupEntry_perm hd hp]

theorem restorePreviousContext_perm (ops : ContextOps) (activeContext : Context) (fromMap : Bool)
    {kvs kvs2 : List (String × Json)} (hp : kvs.Perm kvs2) :
    restorePreviousContext ops activeContext (.obj kvs) fromMap =
      restorePreviousContext ops activeContext (.obj kvs2) fromMap := by
  have hany : ∀ p : String → Bool, (kvs.map Prod.fst).any p = (kvs2.map Prod.fst).any p := by
    intro p
    rw [Bool.eq_iff_iff]
    simp only [List.any_eq_true]
    exact ⟨fun ⟨x, hx, h⟩ => ⟨x, (hp.map Prod.fst).subset hx, h⟩,
      fun ⟨x, hx, h⟩ => ⟨x, (hp.map Prod.fst).symm.subset hx, h⟩⟩
  simp only [restorePreviousContext, Json.keys, Json.size, hany, hp.length_eq]

theorem expandEntry_perm (ops : ContextOps) (recur : Expander)
    (activeContext typeScopedContext : Context) (activeProperty : Option String)
    {kvs kvs2 : List (String × Json)} (hd : Json.distinctKeys kvs = true) (hp : kvs.Perm kvs2) :
    expandEntry ops recur activeContext typeScopedContext activeProperty (.obj kvs) =
      expandEntry ops recur activeContext typeScopedContext activeProperty (.obj kvs2) := by
  funext baseUrl frameExpansion ordered fromMap inputType st key
  simp only [expandEntry, Json.get, lookupEntry_perm hd hp]

theorem processNests_perm {kvs kvs2 : List (String × Json)} (hd : Json.distinctKeys kvs = true)
    (hp : kvs.Perm kvs2) (nests : Json) (ordered : Bool) :
    processNests (.obj kvs) nests ordered = processNests (.obj kvs2) nests ordered := by
  simp only [processNests, Json.get, lookupEntry_perm hd hp]

theorem expandObjectElement_perm (ops : ContextOps) (recur : Expander) (activeContext : Context)
    (activeProperty : Option String) (baseUrl : String) (propertyScopedContext : Option Json)
    (frameExpansion fromMap : Bool)
    {kvs kvs2 : List (String × Json)} (hd : Json.distinctKeys kvs = true) (hp : kvs.Perm kvs2) :
    expandObjectElement ops recur activeContext activeProperty (.obj kvs) baseUrl
        propertyScopedContext frameExpansion true fromMap =
      expandObjectElement ops recur activeContext activeProperty (.obj kvs2) baseUrl
        propertyScopedContext frameExpansion true fromMap := by
  have hk : sortKeys (Json.obj kvs).keys = sortKeys (Json.obj kvs2).keys :=
    sortKeys_perm (hp.map Prod.fst)
  have hc : (Json.obj kvs).contains JsonLdConsts.CONTEXT =
      (Json.obj kvs2).contains JsonLdConsts.CONTEXT := by
    simp only [Json.contains, hasKey, lookupEntry_perm hd hp]
  have hg : (Json.obj kvs).get JsonLdConsts.CONTEXT = (Json.obj kvs2).get JsonLdConsts.CONTEXT := by
    simp only [Json.get, lookupEntry_perm hd hp]
  unfold expandObjectElement
  simp only [if_true, hk, hc, hg, restorePreviousContext_perm ops activeContext fromMap hp]
  congr 1
  funext context8
  congr 1
  funext typeScopedContext
  rw [findInputType_perm ops typeScopedContext typeScopedContext hd hp]
  congr 1
  funext found
  rw [expandEntry_perm ops recur found.2 typeScopedContext activeProperty hd hp]
  congr 1
  funext st
  rw [processNests_perm hd hp]

/-- C33: with `ordered = true` the outcome of expanding a map (the value
returned or the error raised) does not depend on the order in which entries
are listed. (1) Two input maps with the same entries listed in different
orders give, at every depth of recursion allowed, the same outcome of `expand`,
whatever the context operations, the active context, the active property and
the other flags are. (2) Two language maps with the same entries listed in
different orders give the same outcome of step 13.7. (3) Two index, type or id
maps with the same entries listed in different orders give the same outcome of
step 13.8, whatever the recursive calls return. (4) Hence the expanded value
of a property (steps 13.6 to 13.9) whose value is a language map or an index,
type or id map is the same for the two listings. -/
theorem C33_entry_order_irrelevant (ops : ContextOps) (kvs kvs2 : List (String × Json))
    (hd : Json.distinctKeys kvs = true) (hp : kvs.Perm kvs2) :
    (∀ (fuel : Nat) (activeContext : Context) (activeProperty : Option String)
        (baseUrl : String) (frameExpansion fromMap : Bool),
      expand ops fuel activeContext activeProperty (.obj kvs) baseUrl frameExpansion true
          fromMap =
        expand ops fuel activeContext activeProperty (.obj kvs2) baseUrl frameExpansion true
          fromMap) ∧
    (∀ (activeContext : Context) (keyTermDefinition : Json),
      expandLanguageMap ops activeContext true keyTermDefinition (.obj kvs) =
        expandLanguageMap ops activeContext true keyTermDefinition (.obj kvs2)) ∧
    (∀ (recur : Expander) (activeContext : Context) (baseUrl : String) (frameExpansion : Bool)
        (key : String) (keyTermDefinition containerMapping : Json),
      expandIndexMap ops recur activeContext baseUrl frameExpansion true key keyTermDefinition
          containerMapping (.obj kvs) =
        expandIndexMap ops recur activeContext baseUrl frameExpansion true key keyTermDefinition
          containerMapping (.obj kvs2)) ∧
    (∀ (recur : Expander) (activeContext : Context) (baseUrl : String) (frameExpansion : Bool)
        (key : String) (keyTermDefinition containerMapping : Json),
      (arrayContains containerMapping JsonLdConsts.LANGUAGE = true ∨
        arrayContains containerMapping JsonLdConsts.INDEX = true ∨
        arrayContains containerMapping JsonLdConsts.TYPE = true ∨
        arrayContains containerMapping JsonLdConsts.ID = true) →
      (keyTermDefinition.contains JsonLdConsts.TYPE &&
        keyTermDefinition.get JsonLdConsts.TYPE == .str JsonLdConsts.JSON) = false →
      expandPropertyValue ops recur activeContext baseUrl frameExpansion true key
          keyTermDefinition containerMapping (.obj kvs) =
        expandPropertyValue ops recur activeContext baseUrl frameExpansion true key
          keyTermDefinition containerMapping (.obj kvs2)) := by
  have hk : sortKeys (Json.obj kvs).keys = sortKeys (Json.obj kvs2).keys :=
    sortKeys_perm (hp.map Prod.fst)
  have hg : ∀ k, (Json.obj kvs).get k = (Json.obj kvs2).get k := by
    intro k
    simp only [Json.get, lookupEntry_perm hd hp]
  have hlang : ∀ (activeContext : Context) (keyTermDefinition : Json),
      expandLanguageMap ops activeContext true keyTermDefinition (.obj kvs) =
        expandLanguageMap ops activeContext true keyTermDefinition (.obj kvs2) := by
    intro activeContext keyTermDefinition
    simp only [expandLanguageMap, if_true, hk, hg]
  have hindex : ∀ (recur : Expander) (activeContext : Context) (baseUrl : String)
      (frameExpansion : Bool) (key : String) (keyTermDefinition containerMapping : Json),
      expandIndexMap ops recur activeContext baseUrl frameExpansion true key keyTermDefinition
          containerMapping (.obj kvs) =
        expandIndexMap ops recur activeContext baseUrl frameExpansion true key keyTermDefinition
          containerMapping (.obj kvs2) := by
    intro recur activeContext baseUrl frameExpansion key keyTermDefinition containerMapping
    have he : expandIndexEntry ops recur activeContext baseUrl frameExpansion true key
          containerMapping (.obj kvs) =
        expandIndexEntry ops recur activeContext baseUrl frameExpansion true key
          containerMapping (.obj kvs2) := by
      funext indexKey expandedValue index
      simp only [expandIndexEntry, hg]
    simp only [expandIndexMap, if_true, hk, he]
  refine ⟨?_, hlang, hindex, ?_⟩
  · intro fuel activeContext activeProperty baseUrl frameExpansion fromMap
    cases fuel with
    | zero => rfl
    | succ fuel =>
      show expandBody ops (expand ops fuel) _ _ _ _ _ _ _ = expandBody ops (expand ops fuel) _ _ _ _ _ _ _
      simp only [expandBody]
      exact expandObjectElement_perm ops _ _ _ _ _ _ _ hd hp
  · intro recur activeContext baseUrl frameExpansion key keyTermDefinition containerMapping hcm hj
    unfold expandPropertyValue
    simp only [hj, Bool.false_eq_true, if_false, Json.is_object, Bool.and_true, Bool.true_and,
      hlang, hindex]
    rcases hcm with h | h | h | h <;> simp [h]

end JsonLdApi

namespace JsonLdApi

open JsonLdUtils

/-- C33 at the map `{"label": {"en": "Hello", "de": "Hallo"}, "@id": "http://ex/a"}`
and the same entries listed with `@id` first, under a context in which `label`
is a language map, and at the language map `{"en": "Hello", "de": "Hallo"}` and
its listing with `de` first: the same outcomes, which list `de` before `en`. -/
theorem C33_entry_order_irrelevant_witness :
    expand SpecModel.specOps 4 Examples.languageContext none
        (.obj [("label", .obj [("en", .str "Hello"), ("de", .str "Hallo")]),
          ("@id", .str "http://ex/a")]) "" false true false =
      expand SpecModel.specOps 4 Examples.languageContext none
        (.obj [("@id", .str "http://ex/a"),
          ("label", .obj [("en", .str "Hello"), ("de", .str "Hallo")])]) "" false true false ∧
    expand SpecModel.specOps 4 Examples.languageContext none
        (.obj [("@id", .str "http://ex/a"),
          ("label", .obj [("en", .str "Hello"), ("de", .str "Hallo")])]) "" false true false =
      .ok (.obj [("@id", .str "http://ex/a"),
        ("http://ex/label", .arr [
          .obj [("@language", .str "de"), ("@value", .str "Hallo")],
          .obj [("@language", .str "en"), ("@value", .str "Hello")]])]) ∧
    expandLanguageMap SpecModel.specOps Examples.languageContext true (.obj [])
        (.obj [("en", .str "Hello"), ("de", .str "Hallo")]) =
      expandLanguageMap SpecModel.specOps Examples.languageContext true (.obj [])
        (.obj [("de", .str "Hallo"), ("en", .str "Hello")]) :=
  ⟨(C33_entry_order_irrelevant SpecModel.specOps
      [("label", .obj [("en", .str "Hello"), ("de", .str "Hallo")]), ("@id", .str "http://ex/a")]
      [("@id", .str "http://ex/a"), ("label", .obj [("en", .str "Hello"), ("de", .str "Hallo")])]
      (by decide) (List.Perm.swap _ _ _)).1 4 Examples.languageContext none "" false false,
    by decide,
    (C33_entry_order_irrelevant SpecModel.specOps
      [("en", .str "Hello"), ("de", .str "Hallo")] [("de", .str "Hallo"), ("en", .str "Hello")]
      (by decide) (List.Perm.swap _ _ _)).2.1 Examples.languageContext (.obj [])⟩

end JsonLdApi


/-! ## Termination of `expand` -/

section Termination

theorem completes_ok {α : Type} (x : α) : Completes (Except.ok x : Except JsonLdError α) := by
  intro h; cases h

theorem completes_error {α : Type} {e : JsonLdError} (h : e ≠ .OutOfFuel) :
    Completes (Except.error e : Except JsonLdError α) := by
  intro h1; cases h1; exact h rfl

@[simp] theorem completes_ok_iff {α : Type} (x : α) :
    Completes (Except.ok x : Except JsonLdError α) ↔ True :=
  iff_true_intro (completes_ok x)

@[simp] theorem completes_pure_iff {α : Type} (x : α) :
    Completes (pure x : Except JsonLdError α) ↔ True :=
  iff_true_intro (completes_ok x)

@[simp] theorem completes_error_iff {α : Type} (e : JsonLdError) :
    Completes (Except.error e : Except JsonLdError α) ↔ e ≠ .OutOfFuel :=
  ⟨fun h e1 => h (by rw [e1]), completes_error⟩

theorem completes_bind {α β : Type} {r : Except JsonLdError α} {f : α → Except JsonLdError β}
    (hr : Completes r) (hf : ∀ x, Completes (f x)) : Completes (r.bind f) := by
  cases r with
  | ok x => exact hf x
  | error e => exact completes_error ((completes_error_iff e).1 hr)

theorem completes_map {α β : Type} {r : Except JsonLdError α} (f : α → β)
    (hr : Completes r) : Completes (r.map f) := by
  cases r with
  | ok x => exact completes_ok _
  | error e => exact completes_error ((completes_error_iff e).1 hr)

theorem completes_foldlM {α β : Type} (f : β → α → Except JsonLdError β) :
    ∀ (l : List α) (init : β), (∀ acc, ∀ x ∈ l, Completes (f acc x)) →
      Completes (l.foldlM f init)
  | [], init, _ => completes_ok init
  | x :: xs, init, h => by
    rw [List.foldlM_cons]
    have hx := h init x (List.mem_cons_self _ _)
    cases hr : f init x with
    | error e =>
      rw [hr] at hx
      exact hx
    | ok b =>
      exact completes_foldlM f xs b (fun acc y hy => h acc y (List.mem_cons_of_mem _ hy))

theorem completes_mapM {α β : Type} (f : α → Except JsonLdError β) :
    ∀ (l : List α), (∀ x ∈ l, Completes (f x)) → Completes (l.mapM f)
  | [], _ => by rw [List.mapM_nil]; exact completes_ok _
  | x :: xs, h => by
    rw [List.mapM_cons]
    have hx := h x (List.mem_cons_self _ _)
    have ih := completes_mapM f xs (fun y hy => h y (List.mem_cons_of_mem _ hy))
    cases hr : f x with
    | error e =>
      rw [hr] at hx
      exact completes_error ((completes_error_iff e).1 hx)
    | ok b =>
      cases hs : List.mapM f xs with
      | error e =>
        rw [hs] at ih
        exact completes_error ((completes_error_iff e).1 ih)
      | ok bs => exact completes_ok _

theorem sameOutcome_same {α : Type} {r : Except JsonLdError α} (h : Completes r) :
    SameOutcome r r := ⟨rfl, h⟩

theorem sameOutcome_bind {α β : Type} {r1 r2 : Except JsonLdError α}
    {f1 f2 : α → Except JsonLdError β} (hr : SameOutcome r1 r2)
    (hf : ∀ x, SameOutcome (f1 x) (f2 x)) : SameOutcome (r1.bind f1) (r2.bind f2) := by
  obtain ⟨e, hc⟩ := hr
  subst e
  cases r1 with
  | ok x => exact hf x
  | error e => exact ⟨rfl, completes_error ((completes_error_iff e).1 hc)⟩

theorem sameOutcome_map {α β : Type} {r1 r2 : Except JsonLdError α} (f : α → β)
    (hr : SameOutcome r1 r2) : SameOutcome (r1.map f) (r2.map f) := by
  obtain ⟨e, hc⟩ := hr
  subst e
  exact ⟨rfl, completes_map f hc⟩

theorem sameOutcome_foldlM {α β : Type} (f1 f2 : β → α → Except JsonLdError β) :
    ∀ (l : List α) (init : β), (∀ acc, ∀ x ∈ l, SameOutcome (f1 acc x) (f2 acc x)) →
      SameOutcome (l.foldlM f1 init) (l.foldlM f2 init)
  | [], init, _ => ⟨rfl, completes_ok init⟩
  | x :: xs, init, h => by
    rw [List.foldlM_cons, List.foldlM_cons]
    obtain ⟨e, hc⟩ := h init x (List.mem_cons_self _ _)
    rw [← e]
    cases hr : f1 init x with
    | error e1 =>
      rw [hr] at hc
      exact ⟨rfl, hc⟩
    | ok b =>
      exact sameOutcome_foldlM f1 f2 xs b (fun acc y hy => h acc y (List.mem_cons_of_mem _ hy))

end Termination

section Termination

open JsonLdUtils JsonLdApi

theorem completes_bind_iff {α β : Type} {r : Except JsonLdError α}
    {f : α → Except JsonLdError β} :
    Completes (r.bind f) ↔ Completes r ∧ ∀ x, r = .ok x → Completes (f x) := by
  cases r with
  | ok x => simp [Except.bind]
  | error e => simp [Except.bind]

theorem completes_map_iff {α β : Type} {r : Except JsonLdError α} {f : α → β} :
    Completes (r.map f) ↔ Completes r := by
  cases r with
  | ok x => simp [Except.map]
  | error e => simp [Except.map]

theorem completes_ite_iff {α : Type} {c : Prop} [Decidable c] {a b : Except JsonLdError α} :
    Completes (if c then a else b) ↔ (c → Completes a) ∧ (¬ c → Completes b) := by
  by_cases h : c <;> simp [h]

@[simp] theorem completes_set (j : Json) (k : String) (v : Json) : Completes (j.set k v) := by
  cases j <;> simp [Json.set]

@[simp] theorem completes_atKey (j : Json) (k : String) : Completes (j.atKey k) := by
  cases j <;> simp [Json.atKey]
  split <;> simp

@[simp] theorem completes_getString (j : Json) : Completes j.getString := by
  cases j <;> simp [Json.getString]

@[simp] theorem completes_getBool (j : Json) : Completes j.getBool := by
  cases j <;> simp [Json.getBool]

@[simp] theorem completes_addValuePrep (o : Json) (k : String) (a : Bool) :
    Completes (addValuePrep o k a) := by
  unfold addValuePrep
  simp [completes_ite_iff]

@[simp] theorem completes_addValueOne (o : Json) (k : String) (v : Json) :
    Completes (addValueOne o k v) := by
  unfold addValueOne
  simp [completes_ite_iff]

end Termination

section Termination

open JsonLdUtils JsonLdApi

mutual
theorem completes_addValue (k : String) :
    ∀ (v : Json) (o : Json) (a : Bool), Completes (addValue o k v a)
  | .arr vs, o, a => by
    rw [addValue]
    cases h : addValuePrep o k a with
    | ok o1 => exact completes_addValueList k vs o1 a
    | error e =>
      have := completes_addValuePrep o k a
      rw [h] at this
      exact completes_error ((completes_error_iff e).1 this)
  | .null, o, a => by
    rw [addValue]; exact completes_bind (completes_addValuePrep _ _ _) (fun _ => completes_addValueOne _ _ _)
  | .bool _, o, a => by
    rw [addValue]; exact completes_bind (completes_addValuePrep _ _ _) (fun _ => completes_addValueOne _ _ _)
  | .num _, o, a => by
    rw [addValue]; exact completes_bind (completes_addValuePrep _ _ _) (fun _ => completes_addValueOne _ _ _)
  | .str _, o, a => by
    rw [addValue]; exact completes_bind (completes_addValuePrep _ _ _) (fun _ => completes_addValueOne _ _ _)
  | .obj _, o, a => by
    rw [addValue]; exact completes_bind (completes_addValuePrep _ _ _) (fun _ => completes_addValueOne _ _ _)
theorem completes_addValueList (k : String) :
    ∀ (vs : List Json) (o : Json) (a : Bool), Completes (addValueList o k vs a)
  | [], o, a => by rw [addValueList]; exact completes_ok _
  | v :: vs, o, a => by
    rw [addValueList]
    cases h : addValue o k v a with
    | ok o1 => exact completes_addValueList k vs o1 a
    | error e =>
      have := completes_addValue k v o a
      rw [h] at this
      exact completes_error ((completes_error_iff e).1 this)
end

theorem completes_termsBaseUrl (ops : ContextOps) (td : Json) :
    Completes (termsBaseUrl ops td) := by
  unfold termsBaseUrl
  simp [completes_ite_iff]

theorem completes_applyPropertyScopedContext {ops : ContextOps} (hp : ParseCompletes ops)
    (c : Context) (ap : Option String) (psc : Option Json) :
    Completes (applyPropertyScopedContext ops c ap psc) := by
  unfold applyPropertyScopedContext
  split
  · simp
  · split
    · simp
    · exact completes_bind (completes_termsBaseUrl _ _) (fun _ => hp _ _ _ _ _ _ _)

theorem completes_expandScalar {ops : ContextOps} (hp : ParseCompletes ops)
    (c : Context) (ap : Option String) (el : Json) (psc : Option Json) :
    Completes (expandScalar ops c ap el psc) := by
  unfold expandScalar
  split
  · simp
  · split
    · simp
    · exact completes_bind (completes_applyPropertyScopedContext hp _ _ _) (fun _ => completes_ok _)

theorem completes_applyTypeScopedContext {ops : ContextOps} (hp : ParseCompletes ops)
    (t c : Context) (term : String) : Completes (applyTypeScopedContext ops t c term) := by
  unfold applyTypeScopedContext
  split
  · refine completes_bind (completes_atKey _ _) (fun _ => ?_)
    split
    · exact completes_bind (completes_getString _) (fun _ => hp _ _ _ _ _ _ _)
    · exact hp _ _ _ _ _ _ _
  · simp

theorem completes_findInputTypeKey {ops : ContextOps} (hp : ParseCompletes ops)
    (t : Context) (el : Json) (st : Context × String) (key : String) :
    Completes (findInputTypeKey ops t el st key) := by
  unfold findInputTypeKey
  split
  · simp
  · exact completes_bind (completes_foldlM _ _ _
      (fun _ _ _ => completes_applyTypeScopedContext hp _ _ _)) (fun _ => completes_ok _)

theorem completes_findInputType {ops : ContextOps} (hp : ParseCompletes ops)
    (c t : Context) (el : Json) : Completes (findInputType ops c t el) := by
  unfold findInputType
  refine completes_bind (completes_foldlM _ _ _
    (fun _ _ _ => completes_findInputTypeKey hp _ _ _ _)) (fun _ => ?_)
  simp [completes_ite_iff]

theorem completes_expandIdEntry (ops : ContextOps) (c : Context) (fe : Bool) (ev : Json) :
    Completes (expandIdEntry ops c fe ev) := by
  unfold expandIdEntry
  split
  · simp
  · simp [completes_ite_iff]
  · split
    · refine completes_map _ (completes_mapM _ _ (fun x _ => ?_))
      unfold expandIdItem
      split <;> simp
    · simp
  · simp

theorem completes_expandTypeValue (ops : ContextOps) (t : Context) (ev : Json) :
    Completes (expandTypeValue ops t ev) := by
  unfold expandTypeValue
  split
  · simp
  · split
    · exact completes_bind (completes_bind (completes_atKey _ _) (fun _ => completes_getString _))
        (fun _ => completes_ok _)
    · split
      · simp
      · refine completes_map _ (completes_mapM _ _ (fun x _ => ?_))
        unfold expandTypeItem
        exact completes_bind (completes_getString _) (fun _ => completes_ok _)
      · simp

theorem completes_expandTypeEntry (ops : ContextOps) (t : Context) (fe : Bool)
    (ev result : Json) : Completes (expandTypeEntry ops t fe ev result) := by
  unfold expandTypeEntry
  split
  · simp
  · refine completes_bind (completes_expandTypeValue _ _ _) (fun _ => ?_)
    split <;> simp

theorem completes_expandValueEntry (c : Context) (fe : Bool) (inputType : String)
    (ev result : Json) : Completes (expandValueEntry c fe inputType ev result) := by
  unfold expandValueEntry
  simp only [completes_ite_iff, completes_map_iff, completes_set, completes_ok_iff, completes_error_iff]
  simp

theorem completes_expandLanguageEntry (fe : Bool) (ev : Json) :
    Completes (expandLanguageEntry fe ev) := by
  unfold expandLanguageEntry
  split
  · exact completes_map _ (completes_getString _)
  · simp

theorem completes_expandDirectionEntry (fe : Bool) (ev : Json) :
    Completes (expandDirectionEntry fe ev) := by
  unfold expandDirectionEntry
  split <;> simp

theorem completes_addReverseItems (rm : Json) (property : String) (items : List Json) :
    Completes (addReverseItems rm property items) := by
  unfold addReverseItems
  refine completes_foldlM _ _ _ (fun acc x _ => ?_)
  split
  · simp
  · exact completes_addValue _ _ _ _

theorem completes_storeKeyword (inputType expandedProperty : String) (ev result : Json) :
    Completes (storeKeyword inputType expandedProperty ev result) := by
  unfold storeKeyword
  split
  · split <;> simp
  · simp

theorem completes_languageMapItems (ops : ContextOps) (c : Context) (direction : Json)
    (language : String) (acc items : List Json) :
    Completes (languageMapItems ops c direction language acc items) := by
  unfold languageMapItems
  refine completes_foldlM _ _ _ (fun acc x _ => ?_)
  split
  · simp
  · split <;> simp

theorem completes_expandLanguageMap (ops : ContextOps) (c : Context) (ordered : Bool)
    (ktd ev : Json) : Completes (expandLanguageMap ops c ordered ktd ev) := by
  unfold expandLanguageMap
  exact completes_map _ (completes_foldlM _ _ _
    (fun _ _ _ => completes_languageMapItems _ _ _ _ _ _))

theorem completes_indexMapContext {ops : ContextOps} (hp : ParseCompletes ops)
    (c : Context) (cm : Json) (index : String) : Completes (indexMapContext ops c cm index) := by
  have hp1 := hp
  unfold ParseCompletes at hp1
  unfold indexMapContext
  simp [completes_ite_iff, completes_bind_iff, hp1]

theorem completes_touchKey (item : Json) (key : String) : Completes (touchKey item key) := by
  unfold touchKey
  split <;> simp

theorem completes_indexMapItem (ops : ContextOps) (c : Context) (cm : Json)
    (indexKey index expandedIndex : String) (item0 : Json) :
    Completes (indexMapItem ops c cm indexKey index expandedIndex item0) := by
  unfold indexMapItem
  simp [completes_ite_iff, completes_bind_iff, completes_touchKey]

theorem completes_addReverseProperty (expandedProperty : String) (rm item : Json) :
    Completes (addReverseProperty expandedProperty rm item) := by
  unfold addReverseProperty
  split
  · simp
  · refine completes_bind ?_ (fun _ => completes_addValue _ _ _ _)
    split <;> simp

theorem completes_isReverseProperty (c : Context) (property : String) :
    Completes (c.isReverseProperty property) := by
  unfold Context.isReverseProperty
  split
  · simp
  · simp only
    split
    · simp
    · split <;> simp

theorem completes_storeProperty (c : Context) (key expandedProperty : String)
    (ev result : Json) : Completes (storeProperty c key expandedProperty ev result) := by
  unfold storeProperty
  refine completes_bind (completes_isReverseProperty _ _) (fun _ => ?_)
  split
  · refine completes_bind ?_ (fun _ => ?_)
    · split <;> simp
    · exact completes_bind (completes_foldlM _ _ _
        (fun _ _ _ => completes_addReverseProperty _ _ _)) (fun _ => completes_set _ _ _)
  · exact completes_addValue _ _ _ _

theorem completes_processNests (element nests : Json) (ordered : Bool) :
    Completes (processNests element nests ordered) := by
  unfold processNests
  refine completes_foldlM _ _ _ (fun _ _ _ => completes_foldlM _ _ _ (fun _ _ _ => ?_))
  split <;> simp

theorem completes_finishResult (ops : ContextOps) (ap : Option String) (fe : Bool)
    (result : Json) : Completes (finishResult ops ap fe result) := by
  unfold finishResult
  simp only [completes_ite_iff, completes_map_iff, completes_set, completes_ok_iff, completes_error_iff]
  simp

end Termination

section Termination

open JsonLdUtils JsonLdApi

theorem depth_get_obj (kvs : List (String × Json)) (k : String) :
    ((Json.obj kvs).get k).depth < (Json.obj kvs).depth := by
  simp only [Json.get, Json.depth]
  cases h : lookupEntry k kvs with
  | none => simp [Json.depth]
  | some v =>
    have := depthEntries_mem (k, v) (lookupEntry_some_mem h)
    simp only [Option.getD_some] at this ⊢
    omega

theorem depth_get_of_object {j : Json} (h : j.is_object = true) (k : String) :
    (j.get k).depth < j.depth := by
  cases j with
  | obj kvs => exact depth_get_obj kvs k
  | _ => simp [Json.is_object] at h

theorem depth_item {xs : List Json} {x : Json} (h : x ∈ xs) : x.depth < (Json.arr xs).depth := by
  have := depthList_mem x h
  simp only [Json.depth]
  omega

theorem depth_asArray (v : Json) : (Json.arr v.asArray).depth ≤ v.depth + 1 := by
  cases v <;> simp [Json.asArray, Json.depth, Json.depthList]

theorem sameOutcome_ite {α : Type} {c : Prop} [Decidable c] {a1 a2 b1 b2 : Except JsonLdError α}
    (ha : c → SameOutcome a1 a2) (hb : ¬ c → SameOutcome b1 b2) :
    SameOutcome (if c then a1 else b1) (if c then a2 else b2) := by
  by_cases h : c
  · rw [if_pos h, if_pos h]; exact ha h
  · rw [if_neg h, if_neg h]; exact hb h

theorem completes_ite {α : Type} {c : Prop} [Decidable c] {a b : Except JsonLdError α}
    (ha : c → Completes a) (hb : ¬ c → Completes b) : Completes (if c then a else b) :=
  completes_ite_iff.2 ⟨ha, hb⟩

theorem expandArrayElement_agree {d : Nat} {r1 r2 : Expander} (h : AgreeBelow d r1 r2)
    (c : Context) (ap : Option String) (items : List Json) (b : String) (fe o fm : Bool)
    (hd : ∀ x ∈ items, x.depth < d) :
    SameOutcome (expandArrayElement r1 c ap items b fe o fm)
      (expandArrayElement r2 c ap items b fe o fm) := by
  unfold expandArrayElement
  refine sameOutcome_map _ (sameOutcome_foldlM _ _ _ _ (fun acc x hx => ?_))
  exact sameOutcome_bind (h _ _ _ _ _ _ _ (hd x hx)) (fun _ => sameOutcome_same (completes_ok _))

theorem expandIncludedEntry_agree {d : Nat} {r1 r2 : Expander} (h : AgreeBelow d r1 r2)
    (ops : ContextOps) (c : Context) (b : String) (fe o : Bool) (ev result : Json)
    (hd : ev.depth < d) :
    SameOutcome (expandIncludedEntry ops r1 c b fe o ev result)
      (expandIncludedEntry ops r2 c b fe o ev result) := by
  unfold expandIncludedEntry
  refine sameOutcome_bind (h _ _ _ _ _ _ _ hd) (fun _ => sameOutcome_same ?_)
  simp [completes_ite_iff]

theorem expandReverseEntry_agree {d : Nat} {r1 r2 : Expander} (h : AgreeBelow d r1 r2)
    (c : Context) (b : String) (fe o : Bool) (ev result : Json) (hd : ev.depth < d) :
    SameOutcome (expandReverseEntry r1 c b fe o ev result)
      (expandReverseEntry r2 c b fe o ev result) := by
  unfold expandReverseEntry
  refine sameOutcome_ite (fun _ => sameOutcome_same (by simp)) (fun _ => ?_)
  refine sameOutcome_bind (h _ _ _ _ _ _ _ hd) (fun expandedValue => sameOutcome_same ?_)
  refine completes_bind ?_ (fun result1 => ?_)
  · refine completes_ite (fun _ => ?_) (fun _ => completes_ok _)
    exact completes_foldlM _ _ _ (fun _ _ _ => completes_addValue _ _ _ _)
  · refine completes_ite (fun _ => ?_) (fun _ => completes_ok _)
    refine completes_bind ?_ (fun result2 => ?_)
    · exact completes_ite (fun _ => completes_set _ _ _) (fun _ => completes_ok _)
    · refine completes_bind (completes_foldlM _ _ _ (fun _ _ _ => ?_))
        (fun _ => completes_set _ _ _)
      exact completes_ite (fun _ => completes_ok _) (fun _ => completes_addReverseItems _ _ _)

theorem keywordFlow_agree {d : Nat} {r1 r2 : Expander} (h : AgreeBelow d r1 r2)
    (ops : ContextOps) (c t : Context) (ap : Option String) (b : String) (fe o fm : Bool)
    (inputType expandedProperty : String) (ev result : Json) (hd : ev.depth < d) :
    SameOutcome (keywordFlow ops r1 c t ap b fe o fm inputType expandedProperty ev result)
      (keywordFlow ops r2 c t ap b fe o fm inputType expandedProperty ev result) := by
  unfold keywordFlow
  refine sameOutcome_ite
    (fun _ => sameOutcome_same (completes_map _ (completes_expandIdEntry _ _ _ _))) (fun _ => ?_)
  refine sameOutcome_ite
    (fun _ => sameOutcome_same (completes_map _ (completes_expandTypeEntry _ _ _ _ _)))
    (fun _ => ?_)
  refine sameOutcome_ite (fun _ => sameOutcome_map _ (h _ _ _ _ _ _ _ hd)) (fun _ => ?_)
  refine sameOutcome_ite (fun _ => sameOutcome_ite (fun _ => sameOutcome_same (completes_ok _))
    (fun _ => sameOutcome_map _ (expandIncludedEntry_agree h _ _ _ _ _ _ _ hd))) (fun _ => ?_)
  refine sameOutcome_ite
    (fun _ => sameOutcome_same (completes_expandValueEntry _ _ _ _ _)) (fun _ => ?_)
  refine sameOutcome_ite
    (fun _ => sameOutcome_same (completes_map _ (completes_expandLanguageEntry _ _)))
    (fun _ => ?_)
  refine sameOutcome_ite (fun _ => sameOutcome_ite (fun _ => sameOutcome_same (completes_ok _))
    (fun _ => sameOutcome_same (completes_map _ (completes_expandDirectionEntry _ _))))
    (fun _ => ?_)
  refine sameOutcome_ite (fun _ => sameOutcome_ite (fun _ => sameOutcome_same (by simp))
    (fun _ => sameOutcome_same (completes_ok _))) (fun _ => ?_)
  refine sameOutcome_ite (fun _ => sameOutcome_ite (fun _ => sameOutcome_same (completes_ok _))
    (fun _ => sameOutcome_map _ (h _ _ _ _ _ _ _ hd))) (fun _ => ?_)
  refine sameOutcome_ite (fun _ => sameOutcome_map _ (h _ _ _ _ _ _ _ hd)) (fun _ => ?_)
  exact sameOutcome_ite (fun _ => sameOutcome_map _ (expandReverseEntry_agree h _ _ _ _ _ _ hd))
    (fun _ => sameOutcome_same (completes_ok _))

theorem expandKeywordEntry_agree {d : Nat} {r1 r2 : Expander} (h : AgreeBelow d r1 r2)
    (ops : ContextOps) (c t : Context) (ap : Option String) (b : String) (fe o fm : Bool)
    (inputType key expandedProperty : String) (ev : Json) (st : Json × Json)
    (hd : ev.depth < d) :
    SameOutcome
      (expandKeywordEntry ops r1 c t ap b fe o fm inputType key expandedProperty ev st)
      (expandKeywordEntry ops r2 c t ap b fe o fm inputType key expandedProperty ev st) := by
  unfold expandKeywordEntry
  refine sameOutcome_ite (fun _ => sameOutcome_same (by simp)) (fun _ => ?_)
  refine sameOutcome_ite (fun _ => sameOutcome_same (by simp)) (fun _ => ?_)
  refine sameOutcome_bind (keywordFlow_agree h _ _ _ _ _ _ _ _ _ _ _ _ hd) (fun flow => ?_)
  cases flow with
  | next result => exact sameOutcome_same (completes_ok _)
  | value expandedValue =>
    refine sameOutcome_ite (fun _ => sameOutcome_ite
      (fun _ => sameOutcome_same (completes_map _ (completes_set _ _ _)))
      (fun _ => sameOutcome_same (completes_ok _))) (fun _ => ?_)
    refine sameOutcome_bind ?_
      (fun _ => sameOutcome_same (completes_map _ (completes_storeKeyword _ _ _ _)))
    exact sameOutcome_ite (fun _ => h _ _ _ _ _ _ _ hd)
      (fun _ => sameOutcome_same (completes_ok _))

theorem expandIndexEntry_agree {d : Nat} {r1 r2 : Expander} (h : AgreeBelow d r1 r2)
    {ops : ContextOps} (hp : ParseCompletes ops) (c : Context) (b : String) (fe o : Bool)
    (key : String) (cm ev : Json) (indexKey : String) (acc : List Json) (index : String)
    (hobj : ev.is_object = true) (hd : ev.depth < d) :
    SameOutcome (expandIndexEntry ops r1 c b fe o key cm ev indexKey acc index)
      (expandIndexEntry ops r2 c b fe o key cm ev indexKey acc index) := by
  unfold expandIndexEntry
  refine sameOutcome_bind (sameOutcome_same (completes_indexMapContext hp _ _ _)) (fun _ => ?_)
  have hlt : (Json.arr (ev.get index).asArray).depth < d := by
    have h1 := depth_asArray (ev.get index)
    have h2 := depth_get_of_object hobj index
    omega
  refine sameOutcome_bind (h _ _ _ _ _ _ _ hlt) (fun _ => sameOutcome_same ?_)
  exact completes_foldlM _ _ _ (fun _ _ _ => completes_map _ (completes_indexMapItem _ _ _ _ _ _ _))

theorem expandIndexMap_agree {d : Nat} {r1 r2 : Expander} (h : AgreeBelow d r1 r2)
    {ops : ContextOps} (hp : ParseCompletes ops) (c : Context) (b : String) (fe o : Bool)
    (key : String) (ktd cm ev : Json) (hobj : ev.is_object = true) (hd : ev.depth < d) :
    SameOutcome (expandIndexMap ops r1 c b fe o key ktd cm ev)
      (expandIndexMap ops r2 c b fe o key ktd cm ev) := by
  unfold expandIndexMap
  refine sameOutcome_bind (sameOutcome_same ?_) (fun _ => ?_)
  · split
    · exact completes_bind (completes_atKey _ _) (fun _ => completes_getString _)
    · simp
  · exact sameOutcome_map _ (sameOutcome_foldlM _ _ _ _
      (fun _ _ _ => expandIndexEntry_agree h hp _ _ _ _ _ _ _ _ _ _ hobj hd))

theorem expandPropertyValue_agree {d : Nat} {r1 r2 : Expander} (h : AgreeBelow d r1 r2)
    {ops : ContextOps} (hp : ParseCompletes ops) (c : Context) (b : String) (fe o : Bool)
    (key : String) (ktd cm ev : Json) (hd : ev.depth < d) :
    SameOutcome (expandPropertyValue ops r1 c b fe o key ktd cm ev)
      (expandPropertyValue ops r2 c b fe o key ktd cm ev) := by
  unfold expandPropertyValue
  refine sameOutcome_ite (fun _ => sameOutcome_same (completes_ok _)) (fun _ => ?_)
  refine sameOutcome_ite (fun _ => sameOutcome_same (completes_expandLanguageMap _ _ _ _ _))
    (fun _ => ?_)
  refine sameOutcome_ite (fun h3 => ?_) (fun _ => h _ _ _ _ _ _ _ hd)
  have hobj : ev.is_object = true := by
    simp only [Bool.and_eq_true] at h3
    exact h3.1
  exact expandIndexMap_agree h hp _ _ _ _ _ _ _ _ hobj hd

theorem expandPropertyEntry_agree {d : Nat} {r1 r2 : Expander} (h : AgreeBelow d r1 r2)
    {ops : ContextOps} (hp : ParseCompletes ops) (c : Context) (b : String) (fe o : Bool)
    (key expandedProperty : String) (ev result : Json) (hd : ev.depth < d) :
    SameOutcome (expandPropertyEntry ops r1 c b fe o key expandedProperty ev result)
      (expandPropertyEntry ops r2 c b fe o key expandedProperty ev result) := by
  unfold expandPropertyEntry
  refine sameOutcome_bind (expandPropertyValue_agree h hp _ _ _ _ _ _ _ _ hd)
    (fun _ => sameOutcome_same ?_)
  exact completes_ite (fun _ => completes_ok _) (fun _ => completes_storeProperty _ _ _ _ _)

theorem expandEntry_agree {d : Nat} {r1 r2 : Expander} (h : AgreeBelow d r1 r2)
    {ops : ContextOps} (hp : ParseCompletes ops) (c t : Context) (ap : Option String)
    (kvs : List (String × Json)) (b : String) (fe o fm : Bool) (inputType : String)
    (st : Json × Json) (key : String) (hd : (Json.obj kvs).depth < d + 1) :
    SameOutcome (expandEntry ops r1 c t ap (.obj kvs) b fe o fm inputType st key)
      (expandEntry ops r2 c t ap (.obj kvs) b fe o fm inputType st key) := by
  have hlt : ((Json.obj kvs).get key).depth < d := by
    have := depth_get_obj kvs key
    omega
  unfold expandEntry
  refine sameOutcome_ite (fun _ => sameOutcome_same (completes_ok _)) (fun _ => ?_)
  refine sameOutcome_ite (fun _ => sameOutcome_same (completes_ok _)) (fun _ => ?_)
  exact sameOutcome_ite (fun _ => expandKeywordEntry_agree h _ _ _ _ _ _ _ _ _ _ _ _ _ hlt)
    (fun _ => sameOutcome_map _ (expandPropertyEntry_agree h hp _ _ _ _ _ _ _ _ hlt))

theorem expandObjectElement_agree {d : Nat} {r1 r2 : Expander} (h : AgreeBelow d r1 r2)
    {ops : ContextOps} (hp : ParseCompletes ops) (c : Context) (ap : Option String)
    (kvs : List (String × Json)) (b : String) (psc : Option Json) (fe o fm : Bool)
    (hd : (Json.obj kvs).depth < d + 1) :
    SameOutcome (expandObjectElement ops r1 c ap (.obj kvs) b psc fe o fm)
      (expandObjectElement ops r2 c ap (.obj kvs) b psc fe o fm) := by
  unfold expandObjectElement
  refine sameOutcome_bind (sameOutcome_same (completes_applyPropertyScopedContext hp _ _ _))
    (fun _ => ?_)
  refine sameOutcome_bind (sameOutcome_same ?_) (fun _ => ?_)
  · split
    · exact hp _ _ _ _ _ _ _
    · simp
  refine sameOutcome_bind (sameOutcome_same (completes_findInputType hp _ _ _)) (fun _ => ?_)
  refine sameOutcome_bind (sameOutcome_foldlM _ _ _ _
    (fun _ _ _ => expandEntry_agree h hp _ _ _ _ _ _ _ _ _ _ _ hd)) (fun _ => ?_)
  exact sameOutcome_same (completes_bind (completes_processNests _ _ _)
    (fun _ => completes_finishResult _ _ _ _))

theorem expandBody_agree {d : Nat} {r1 r2 : Expander} (h : AgreeBelow d r1 r2)
    {ops : ContextOps} (hp : ParseCompletes ops) :
    AgreeBelow (d + 1) (expandBody ops r1) (expandBody ops r2) := by
  intro c ap el b fe o fm hd
  unfold expandBody
  cases el with
  | null => exact sameOutcome_same (completes_ok _)
  | arr items =>
    exact expandArrayElement_agree h _ _ _ _ _ _ _
      (fun x hx => by have := depth_item hx; omega)
  | obj kvs => exact expandObjectElement_agree h hp _ _ _ _ _ _ _ _ hd
  | bool x => exact sameOutcome_same (completes_expandScalar hp _ _ _ _)
  | num x => exact sameOutcome_same (completes_expandScalar hp _ _ _ _)
  | str x => exact sameOutcome_same (completes_expandScalar hp _ _ _ _)

/-- With more fuel than the depth of the element, `expand` ends in an outcome
that no further fuel changes. -/
theorem expand_agree {ops : ContextOps} (hp : ParseCompletes ops) :
    ∀ (fuel extra : Nat), AgreeBelow fuel (expand ops fuel) (expand ops (fuel + extra))
  | 0, _ => fun _ _ _ _ _ _ _ hd => absurd hd (Nat.not_lt_zero _)
  | fuel + 1, extra => by
    have ih := expand_agree hp fuel extra
    have := expandBody_agree ih hp
    have e : fuel + 1 + extra = (fuel + extra) + 1 := by omega
    rw [e]
    exact this

end Termination

section Termination

open JsonLdUtils JsonLdApi

theorem specOps_parseCompletes : ParseCompletes SpecModel.specOps := by
  intro c localContext baseUrl remote p1 p2 p3
  show Completes (SpecModel.parse c localContext baseUrl remote p1 p2 p3)
  unfold SpecModel.parse
  split
  · exact completes_ite (fun _ => completes_error (by simp)) (fun _ => completes_ok _)
  · exact completes_error (by simp)

end Termination

namespace JsonLdApi

/-- C37: `expand` terminates on every JSON element, given that context
processing ends (IRI expansion and value expansion are total functions of the
embedding). The depth of recursion is bounded by the depth of the element:
(1) with a step counter above the depth of the element, `expand` ends in a
value or an error of the program, not in the exhaustion of the counter;
(2) any larger counter gives the same outcome; (3) the outcome of the body of
`expand` on the element depends on the recursive calls at elements of smaller
depth only (the strict sub-values, and the one-item arrays wrapping an entry
of an index map, which are not deeper than the map): two expanders that agree
below the depth of the element give the same outcome. -/
theorem C37_expand_terminates (ops : ContextOps) (hparse : ParseCompletes ops)
    (activeContext : Context) (activeProperty : Option String) (element : Json)
    (baseUrl : String) (frameExpansion ordered fromMap : Bool) (fuel : Nat)
    (hfuel : element.depth < fuel) :
    expand ops fuel activeContext activeProperty element baseUrl frameExpansion ordered
        fromMap ≠ .error .OutOfFuel ∧
    (∀ extra : Nat,
      expand ops (fuel + extra) activeContext activeProperty element baseUrl frameExpansion
          ordered fromMap =
        expand ops fuel activeContext activeProperty element baseUrl frameExpansion ordered
          fromMap) ∧
    (∀ r1 r2 : Expander, AgreeBelow element.depth r1 r2 →
      SameOutcome
        (expandBody ops r1 activeContext activeProperty element baseUrl frameExpansion
          ordered fromMap)
        (expandBody ops r2 activeContext activeProperty element baseUrl frameExpansion
          ordered fromMap)) :=
  ⟨(expand_agree hparse fuel 0 activeContext activeProperty element baseUrl frameExpansion
      ordered fromMap hfuel).2,
    fun extra => (expand_agree hparse fuel extra activeContext activeProperty element baseUrl
      frameExpansion ordered fromMap hfuel).1.symm,
    fun _ _ h => expandBody_agree h hparse activeContext activeProperty element baseUrl
      frameExpansion ordered fromMap (Nat.lt_succ_self _)⟩

/-- C37 at the element `{"@id": "http://ex/a", "http://ex/p": [{"@value": 1}]}`
of depth 3, under the context operations of the specification: four nested
calls end the expansion, in the value computed, and more fuel changes
nothing. -/
theorem C37_expand_terminates_witness :
    (Json.obj [("@id", .str "http://ex/a"),
      ("http://ex/p", .arr [.obj [("@value", .num 1)]])]).depth = 3 ∧
    expand SpecModel.specOps 4 SpecModel.emptyContext none
      (.obj [("@id", .str "http://ex/a"), ("http://ex/p", .arr [.obj [("@value", .num 1)]])])
      "" false false false =
      .ok (.obj [("@id", .str "http://ex/a"),
        ("http://ex/p", .arr [.obj [("@value", .num 1)]])]) ∧
    expand SpecModel.specOps 4 SpecModel.emptyContext none
      (.obj [("@id", .str "http://ex/a"), ("http://ex/p", .arr [.obj [("@value", .num 1)]])])
      "" false false false ≠ .error .OutOfFuel ∧
    ∀ extra : Nat,
      expand SpecModel.specOps (4 + extra) SpecModel.emptyContext none
        (.obj [("@id", .str "http://ex/a"), ("http://ex/p", .arr [.obj [("@value", .num 1)]])])
        "" false false false =
      expand SpecModel.specOps 4 SpecModel.emptyContext none
        (.obj [("@id", .str "http://ex/a"), ("http://ex/p", .arr [.obj [("@value", .num 1)]])])
        "" false false false :=
  ⟨by decide, by decide,
    (C37_expand_terminates SpecModel.specOps specOps_parseCompletes SpecModel.emptyContext none
      (.obj [("@id", .str "http://ex/a"), ("http://ex/p", .arr [.obj [("@value", .num 1)]])])
      "" false false false 4 (by decide)).1,
    (C37_expand_terminates SpecModel.specOps specOps_parseCompletes SpecModel.emptyContext none
      (.obj [("@id", .str "http://ex/a"), ("http://ex/p", .arr [.obj [("@value", .num 1)]])])
      "" false false false 4 (by decide)).2.1⟩

end JsonLdApi


/-! ## The keys of a result map -/

theorem keyOk_of_keyword {k : String} (h : JsonLdUtils.isKeyword k = true) : keyOk k = true := by
  simp [keyOk, h]

theorem OutKeys.nullKeys : OutKeys .null := fun _ e => by cases e

theorem OutKeys.arrKeys (xs : List Json) : OutKeys (.arr xs) := fun _ e => by cases e

theorem KeysOk.insertOk {kvs : List (String × Json)} {k : String} {v : Json}
    (h : KeysOk kvs) (hk : keyOk k = true) : KeysOk (insertEntry k v kvs) := by
  intro kv hkv
  rcases mem_insertEntry hkv with h1 | h1
  · rw [h1]; exact hk
  · exact h kv h1

theorem KeysOk.addedOk {kvs : List (String × Json)} {k : String} {items : List Json}
    (h : KeysOk kvs) (hk : keyOk k = true) : KeysOk (JsonLdUtils.addedTo kvs k items) := by
  intro kv hkv
  rcases JsonLdUtils.mem_addedTo hkv with h1 | h1
  · exact h kv h1
  · rw [h1]; exact hk

namespace LoopKeys

open JsonLdUtils

theorem emptyKeys : LoopKeys (.obj []) :=
  ⟨[], rfl, fun _ h => (by cases h), fun _ h => (by simp [lookupEntry] at h),
    fun _ h => (by simp [lookupEntry] at h)⟩

theorem insertKeys {kvs : List (String × Json)} {k : String} {v : Json}
    (h : LoopKeys (.obj kvs)) (hk : keyOk k = true) (hrev : k ≠ JsonLdConsts.REVERSE)
    (hset : k = JsonLdConsts.SET → OutKeys v) : LoopKeys (.obj (insertEntry k v kvs)) := by
  obtain ⟨kvs', e, h1, h2, h3⟩ := h
  cases e
  refine ⟨_, rfl, h1.insertOk hk, ?_, ?_⟩
  · intro rv hrv
    rw [lookupEntry_insertEntry_ne _ _ (Ne.symm hrev)] at hrv
    exact h2 rv hrv
  · intro w hw
    by_cases hks : JsonLdConsts.SET = k
    · subst hks
      rw [lookupEntry_insertEntry_self] at hw
      cases hw
      exact hset rfl
    · rw [lookupEntry_insertEntry_ne _ _ hks] at hw
      exact h3 w hw

theorem insertReverseKeys {kvs rkvs : List (String × Json)}
    (h : LoopKeys (.obj kvs)) (hr : KeysOk rkvs) :
    LoopKeys (.obj (insertEntry JsonLdConsts.REVERSE (.obj rkvs) kvs)) := by
  obtain ⟨kvs', e, h1, h2, h3⟩ := h
  cases e
  refine ⟨_, rfl, h1.insertOk (by decide), ?_, ?_⟩
  · intro rv hrv
    rw [lookupEntry_insertEntry_self] at hrv
    cases hrv
    exact ⟨rkvs, rfl, hr⟩
  · intro w hw
    rw [lookupEntry_insertEntry_ne _ _ (by decide)] at hw
    exact h3 w hw

theorem addedKeys {kvs : List (String × Json)} {k : String} {items : List Json}
    (h : LoopKeys (.obj kvs)) (hk : keyOk k = true) (hnk : isKeyword k = false) :
    LoopKeys (.obj (JsonLdUtils.addedTo kvs k items)) := by
  obtain ⟨kvs', e, h1, h2, h3⟩ := h
  cases e
  refine ⟨_, rfl, h1.addedOk hk, ?_, ?_⟩
  · intro rv hrv
    rw [lookupEntry_addedTo_ne _ _ (ne_of_isKeyword hnk isKeyword_reverse)] at hrv
    exact h2 rv hrv
  · intro w hw
    rw [lookupEntry_addedTo_ne _ _ (ne_of_isKeyword hnk isKeyword_set)] at hw
    exact h3 w hw

theorem isObjKeys {result : Json} (h : LoopKeys result) : ∃ kvs, result = .obj kvs :=
  h.elim fun kvs hk => ⟨kvs, hk.1⟩

end LoopKeys

namespace JsonLdApi

open JsonLdUtils

theorem storeKeyword_keys {inputType ep : String} {ev result r : Json}
    (hL : LoopKeys result) (hk : isKeyword ep = true)
    (hrev : ep ≠ JsonLdConsts.REVERSE) (hset : ep = JsonLdConsts.SET → OutKeys ev)
    (h : storeKeyword inputType ep ev result = .ok r) : LoopKeys r := by
  obtain ⟨kvs, e⟩ := hL.isObjKeys
  subst e
  unfold storeKeyword at h
  split at h
  · split at h
    · simp only [Json.set] at h
      cases h
      exact hL.insertKeys (keyOk_of_keyword hk) hrev (fun _ => OutKeys.nullKeys)
    · simp only [Json.set] at h
      cases h
      exact hL.insertKeys (keyOk_of_keyword hk) hrev hset
  · cases h
    exact hL

theorem addValue_entries_keys (entries : List (String × Json))
    (hnk : NonKeywordKeys entries) (hok : KeysOk entries) :
    ∀ (r0 r : Json), LoopKeys r0 →
      entries.foldlM (fun r entry => addValue r entry.1 entry.2 true) r0 = .ok r →
      LoopKeys r := by
  intro r0 r h0 hf
  refine foldlM_ok_inv (fun r => LoopKeys r) _ entries ?_ r0 r h0 hf
  intro b a b' ha hb hstep
  obtain ⟨kvs, e⟩ := hb.isObjKeys
  subst e
  rw [addValue_obj] at hstep
  cases hstep
  exact hb.addedKeys (hok a ha) (hnk a ha)

theorem addReverseItems_keysOk {k : String} (hk : keyOk k = true) (items : List Json) :
    ∀ (rm rm' : Json), (∃ rkvs, rm = .obj rkvs ∧ KeysOk rkvs) →
      addReverseItems rm k items = .ok rm' →
      ∃ rkvs, rm' = .obj rkvs ∧ KeysOk rkvs := by
  intro rm rm' h0 hf
  unfold addReverseItems at hf
  refine foldlM_ok_inv (fun r => ∃ rkvs, r = .obj rkvs ∧ KeysOk rkvs) _ items ?_ rm rm' h0 hf
  intro b a b' _ ⟨rkvs, e, hn⟩ hstep
  subst e
  split at hstep
  · cases hstep
  · rw [addValue_obj] at hstep
    cases hstep
    exact ⟨_, rfl, hn.addedOk hk⟩

theorem reverse_entries_keysOk (entries : List (String × Json)) (hkeys : KeysOk entries) :
    ∀ (rm rm' : Json), (∃ rkvs, rm = .obj rkvs ∧ KeysOk rkvs) →
      entries.foldlM (fun rm entry =>
        if entry.1 == JsonLdConsts.REVERSE then .ok rm
        else addReverseItems rm entry.1 entry.2.elems) rm = .ok rm' →
      ∃ rkvs, rm' = .obj rkvs ∧ KeysOk rkvs := by
  intro rm rm' h0 hf
  refine foldlM_ok_inv (fun r => ∃ rkvs, r = .obj rkvs ∧ KeysOk rkvs) _ entries ?_ rm rm' h0 hf
  intro b a b' ha hb hstep
  split at hstep
  · cases hstep
    exact hb
  · exact addReverseItems_keysOk (hkeys a ha) _ b b' hb hstep

theorem expandReverseEntry_keys {R : Expander} (hR : GoodTop (fun _ => True) R)
    (hK : GoodKeys R) {ctx : Context} {base : String} {fe ord : Bool} {ev result r : Json}
    (hL : LoopKeys result)
    (h : expandReverseEntry R ctx base fe ord ev result = .ok r) : LoopKeys r := by
  unfold expandReverseEntry at h
  split at h
  · cases h
  · rename_i hobj
    obtain ⟨expanded, hrec, h⟩ := bind_eq_ok h
    obtain ⟨result1, hA, h⟩ := bind_eq_ok h
    obtain ⟨ekvs, he, _, hre⟩ := (hR _ _ _ _ _ _ _ _ hrec).2.2 rfl (by simpa using hobj)
    subst he
    obtain ⟨hek, hrk⟩ := hK _ _ _ _ _ _ _ _ hrec ekvs rfl
    have h1 : LoopKeys result1 := by
      split at hA
      · rename_i hcr
        simp only [Json.contains, hasKey, Option.isSome_iff_exists] at hcr
        obtain ⟨rv, hrv⟩ := hcr
        obtain ⟨rkvs, hrkv, hnk⟩ := hre rv hrv
        subst hrkv
        obtain ⟨rkvs2, e2, hok⟩ := hrk _ hrv
        cases e2
        simp only [Json.get, hrv, Option.getD_some, Json.itemsOf] at hA
        exact addValue_entries_keys rkvs hnk hok _ _ hL hA
      · cases hA
        exact hL
    by_cases hsz : (Json.obj ekvs).size >
        (if (Json.obj ekvs).contains JsonLdConsts.REVERSE = true then 1 else 0)
    · rw [if_pos hsz] at h
      obtain ⟨result2, hB, h⟩ := bind_eq_ok h
      obtain ⟨reverseMap, hC, h⟩ := bind_eq_ok h
      obtain ⟨kvs1, e1⟩ := h1.isObjKeys
      subst e1
      have h2 : LoopKeys result2 ∧
          ∃ rkvs, result2.get JsonLdConsts.REVERSE = .obj rkvs ∧ KeysOk rkvs := by
        split at hB
        · simp only [Json.set] at hB
          cases hB
          exact ⟨h1.insertReverseKeys (fun _ hx => by cases hx),
            [], by simp [Json.get, lookupEntry_insertEntry_self], fun _ hx => by cases hx⟩
        · rename_i hc
          cases hB
          simp only [Bool.not_eq_true', Bool.not_eq_false, Json.contains, hasKey,
            Option.isSome_iff_exists] at hc
          obtain ⟨rv, hrv⟩ := hc
          obtain ⟨kvs', e', _, hre', _⟩ := h1
          cases e'
          obtain ⟨rkvs, e2, hn⟩ := hre' rv hrv
          exact ⟨⟨_, rfl, by assumption, hre', by assumption⟩, rkvs,
            by simp [Json.get, hrv, e2], hn⟩
      simp only [Json.itemsOf] at hC
      obtain ⟨rkvs', hrm, hnk'⟩ := reverse_entries_keysOk ekvs hek _ _ h2.2 hC
      subst hrm
      obtain ⟨kvs2, e2⟩ := h2.1.isObjKeys
      subst e2
      simp only [Json.set] at h
      cases h
      exact h2.1.insertReverseKeys hnk'
    · rw [if_neg hsz] at h
      cases h
      exact h1

end JsonLdApi

namespace JsonLdApi

open JsonLdUtils

theorem keywordFlow_keys {ops : ContextOps} {R : Expander} (hR : GoodTop (fun _ => True) R)
    (hK : GoodKeys R)
    {ctx tsc : Context} {ap : Option String} {base : String} {fe ord fm : Bool}
    {inputType ep : String} {ev result : Json} {flow : Flow}
    (hL : LoopKeys result)
    (h : keywordFlow ops R ctx tsc ap base fe ord fm inputType ep ev result = .ok flow) :
    FlowKeys ep flow := by
  unfold keywordFlow at h
  have hne : ∀ {k : String}, (ep == k) = true → k ≠ JsonLdConsts.REVERSE →
      ep ≠ JsonLdConsts.REVERSE := by
    intro k hk hkr e
    simp only [beq_iff_eq] at hk
    exact hkr (hk ▸ e)
  have hns : ∀ {k : String}, (ep == k) = true → k ≠ JsonLdConsts.SET →
      ep = JsonLdConsts.SET → False := by
    intro k hk hkr e
    simp only [beq_iff_eq] at hk
    exact hkr (hk ▸ e)
  have hval : ∀ {k : String} {x : Except JsonLdError Json} {fl : Flow},
      (ep == k) = true → k ≠ JsonLdConsts.REVERSE → k ≠ JsonLdConsts.SET →
      x.map Flow.value = .ok fl →
      FlowKeys ep fl := by
    intro k x fl hk h1 h2 hx
    obtain ⟨v, _, e⟩ := map_eq_ok hx
    subst e
    exact ⟨hne hk h1, fun e => (hns hk h2 e).elim⟩
  by_cases hk : (ep == JsonLdConsts.ID) = true
  · rw [if_pos hk] at h
    exact hval hk (by decide) (by decide) h
  rw [if_neg hk] at h
  by_cases hk : (ep == JsonLdConsts.TYPE) = true
  · rw [if_pos hk] at h
    exact hval hk (by decide) (by decide) h
  rw [if_neg hk] at h
  by_cases hk : (ep == JsonLdConsts.GRAPH) = true
  · rw [if_pos hk] at h
    obtain ⟨v, _, e⟩ := map_eq_ok h
    subst e
    exact ⟨hne hk (by decide), fun e => (hns hk (by decide) e).elim⟩
  rw [if_neg hk] at h
  by_cases hk : (ep == JsonLdConsts.INCLUDED) = true
  · rw [if_pos hk] at h
    split at h
    · cases h
      exact hL
    · exact hval hk (by decide) (by decide) h
  rw [if_neg hk] at h
  by_cases hk : (ep == JsonLdConsts.VALUE) = true
  · rw [if_pos hk] at h
    obtain ⟨kvs, e⟩ := hL.isObjKeys
    subst e
    unfold expandValueEntry at h
    have hcont : ∀ (x : Json) (fl : Flow),
        (if x.is_null = true then (Json.set (.obj kvs) JsonLdConsts.VALUE .null).map Flow.next
          else .ok (.value x)) = .ok fl →
        FlowKeys ep fl := by
      intro x fl hx
      split at hx
      · simp only [Json.set, Except.map] at hx
        cases hx
        exact hL.insertKeys (by decide) (by decide) (fun e => absurd e (by decide))
      · cases hx
        exact ⟨hne hk (by decide), fun e => (hns hk (by decide) e).elim⟩
    simp only at h
    split at h
    · split at h
      · cases h
      · exact hcont _ _ h
    · split at h
      · exact hcont _ _ h
      · cases h
  rw [if_neg hk] at h
  by_cases hk : (ep == JsonLdConsts.LANGUAGE) = true
  · rw [if_pos hk] at h
    exact hval hk (by decide) (by decide) h
  rw [if_neg hk] at h
  by_cases hk : (ep == JsonLdConsts.DIRECTION) = true
  · rw [if_pos hk] at h
    split at h
    · cases h
      exact hL
    · exact hval hk (by decide) (by decide) h
  rw [if_neg hk] at h
  by_cases hk : (ep == JsonLdConsts.INDEX) = true
  · rw [if_pos hk] at h
    split at h
    · cases h
    · cases h
      exact ⟨hne hk (by decide), fun e => (hns hk (by decide) e).elim⟩
  rw [if_neg hk] at h
  by_cases hk : (ep == JsonLdConsts.LIST) = true
  · rw [if_pos hk] at h
    split at h
    · cases h
      exact hL
    · obtain ⟨v, _, e⟩ := map_eq_ok h
      subst e
      exact ⟨hne hk (by decide), fun e => (hns hk (by decide) e).elim⟩
  rw [if_neg hk] at h
  by_cases hk : (ep == JsonLdConsts.SET) = true
  · rw [if_pos hk] at h
    obtain ⟨v, hv, e⟩ := map_eq_ok h
    subst e
    exact ⟨hne hk (by decide), fun _ => hK _ _ _ _ _ _ _ _ hv⟩
  rw [if_neg hk] at h
  by_cases hk : (ep == JsonLdConsts.REVERSE) = true
  · rw [if_pos hk] at h
    obtain ⟨v, hv, e⟩ := map_eq_ok h
    subst e
    exact expandReverseEntry_keys hR hK hL hv
  rw [if_neg hk] at h
  cases h
  exact ⟨by simpa using hk, fun _ => OutKeys.nullKeys⟩

theorem expandKeywordEntry_keys {ops : ContextOps} {R : Expander}
    (hR : GoodTop (fun _ => True) R) (hK : GoodKeys R)
    {ctx tsc : Context} {ap : Option String} {base : String} {fe ord fm : Bool}
    {inputType key ep : String} {ev : Json} {st st' : Json × Json}
    (hL : LoopKeys st.1) (hkw : isKeyword ep = true)
    (h : expandKeywordEntry ops R ctx tsc ap base fe ord fm inputType key ep ev st = .ok st') :
    LoopKeys st'.1 := by
  unfold expandKeywordEntry at h
  split at h
  · cases h
  split at h
  · cases h
  obtain ⟨flow, hflow, h⟩ := bind_eq_ok h
  have hF := keywordFlow_keys hR hK hL hflow
  cases flow with
  | next r =>
    cases h
    exact hF
  | value v =>
    simp only at h
    split at h
    · split at h
      · obtain ⟨n, _, e⟩ := map_eq_ok h
        subst e
        exact hL
      · cases h
        exact hL
    · obtain ⟨v', hv', h⟩ := bind_eq_ok h
      obtain ⟨r, hr, e⟩ := map_eq_ok h
      subst e
      refine storeKeyword_keys hL hkw hF.1 ?_ hr
      intro e
      split at hv'
      · rename_i hfr
        subst e
        simp [isFramingKeyword] at hfr
        exact absurd hfr.2 (by decide)
      · cases hv'
        exact hF.2 e

theorem addReverseProperty_keysOk {ep : String} (hk : keyOk ep = true) (items : List Json) :
    ∀ (rm rm' : Json), (∃ rkvs, rm = .obj rkvs ∧ KeysOk rkvs) →
      items.foldlM (addReverseProperty ep) rm = .ok rm' →
      ∃ rkvs, rm' = .obj rkvs ∧ KeysOk rkvs := by
  intro rm rm' h0 hf
  refine foldlM_ok_inv (fun r => ∃ rkvs, r = .obj rkvs ∧ KeysOk rkvs) _ items ?_ rm rm' h0 hf
  intro b a b' _ ⟨rkvs, e, hn⟩ hstep
  subst e
  unfold addReverseProperty at hstep
  split at hstep
  · cases hstep
  · obtain ⟨rm1, h1, hstep⟩ := bind_eq_ok hstep
    have h1' : ∃ rkvs1, rm1 = .obj rkvs1 ∧ KeysOk rkvs1 := by
      split at h1
      · simp only [Json.set] at h1
        cases h1
        exact ⟨_, rfl, hn.insertOk hk⟩
      · cases h1
        exact ⟨_, rfl, hn⟩
    obtain ⟨rkvs1, e1, hn1⟩ := h1'
    subst e1
    rw [addValue_obj] at hstep
    cases hstep
    exact ⟨_, rfl, hn1.addedOk hk⟩

theorem storeProperty_keys {ctx : Context} {key ep : String}
    {ev result r : Json} (hL : LoopKeys result) (hk : isKeyword ep = false)
    (hok : keyOk ep = true)
    (h : storeProperty ctx key ep ev result = .ok r) : LoopKeys r := by
  unfold storeProperty at h
  obtain ⟨isRev, _, h⟩ := bind_eq_ok h
  obtain ⟨kvs, e⟩ := hL.isObjKeys
  subst e
  split at h
  · obtain ⟨result1, h1, h⟩ := bind_eq_ok h
    obtain ⟨reverseMap, h2, h⟩ := bind_eq_ok h
    have hL1 : LoopKeys result1 ∧
        ∃ rkvs, result1.get JsonLdConsts.REVERSE = .obj rkvs ∧ KeysOk rkvs := by
      split at h1
      · simp only [Json.set] at h1
        cases h1
        exact ⟨hL.insertReverseKeys (fun _ hx => by cases hx),
          [], by simp [Json.get, lookupEntry_insertEntry_self], fun _ hx => by cases hx⟩
      · rename_i hc
        cases h1
        simp only [Bool.not_eq_true', Bool.not_eq_false, Json.contains, hasKey,
          Option.isSome_iff_exists] at hc
        obtain ⟨rv, hrv⟩ := hc
        obtain ⟨kvs', e', hk1, hre, hs1⟩ := hL
        cases e'
        obtain ⟨rkvs, e2, hn⟩ := hre rv hrv
        exact ⟨⟨_, rfl, hk1, hre, hs1⟩, rkvs, by simp [Json.get, hrv, e2], hn⟩
    obtain ⟨rkvs', e', hn'⟩ := addReverseProperty_keysOk hok _ _ _ hL1.2 h2
    subst e'
    obtain ⟨kvs1, e1⟩ := hL1.1.isObjKeys
    subst e1
    simp only [Json.set] at h
    cases h
    exact hL1.1.insertReverseKeys hn'
  · rw [addValue_obj] at h
    cases h
    exact hL.addedKeys hok hk

theorem expandEntry_keys {ops : ContextOps} {R : Expander} (hR : GoodTop (fun _ => True) R)
    (hK : GoodKeys R)
    {ctx tsc : Context} {ap : Option String} {element : Json} {base : String}
    {fe ord fm : Bool} {inputType key : String} {st st' : Json × Json}
    (hL : LoopKeys st.1)
    (h : expandEntry ops R ctx tsc ap element base fe ord fm inputType st key = .ok st') :
    LoopKeys st'.1 := by
  unfold expandEntry at h
  split at h
  · cases h
    exact hL
  simp only at h
  split at h
  · cases h
    exact hL
  rename_i hgood
  split at h
  · rename_i hkw
    exact expandKeywordEntry_keys hR hK hL hkw h
  · rename_i hkw
    obtain ⟨r, hr, e⟩ := map_eq_ok h
    subst e
    unfold expandPropertyEntry at hr
    obtain ⟨ev, _, hr⟩ := bind_eq_ok hr
    split at hr
    · cases hr
      exact hL
    · have hnk : isKeyword (ops.expandIri ctx key false true) = false := by simpa using hkw
      have hok : keyOk (ops.expandIri ctx key false true) = true := by
        simp only [Bool.or_eq_true, beq_iff_eq, Bool.not_eq_true', not_or,
          Bool.not_eq_false] at hgood
        have := hgood.2
        simp only [keyOk, Bool.or_eq_true]
        rcases this with h1 | h1
        · exact Or.inr h1
        · exact Or.inl h1
      exact storeProperty_keys hL hnk hok hr

theorem dropFreeFloating_keys {ap : Option String} {fe : Bool} {r : Json} (h : OutKeys r) :
    OutKeys (dropFreeFloating ap fe r) := by
  unfold dropFreeFloating
  split_ifs <;> first | exact OutKeys.nullKeys | exact h

theorem loopKeys_out {result : Json} (h : LoopKeys result) : OutKeys result := by
  obtain ⟨kvs, e, h1, h2, _⟩ := h
  subst e
  intro kvs' e'
  cases e'
  exact ⟨h1, h2⟩

theorem finishResult_keys {ops : ContextOps} {ap : Option String} {fe : Bool}
    {result out : Json} (hL : LoopKeys result)
    (h : finishResult ops ap fe result = .ok out) : OutKeys out := by
  have hout := loopKeys_out hL
  obtain ⟨kvs, e, hk, hre, hset⟩ := hL
  subst e
  unfold finishResult at h
  by_cases hv : (Json.obj kvs).contains JsonLdConsts.VALUE = true
  · rw [if_pos hv] at h
    split_ifs at h <;>
      (cases h; first | exact OutKeys.nullKeys | exact dropFreeFloating_keys hout)
  rw [if_neg hv] at h
  by_cases ht : (Json.obj kvs).contains JsonLdConsts.TYPE = true
  · rw [if_pos ht] at h
    obtain ⟨r, hr, e⟩ := map_eq_ok h
    subst e
    apply dropFreeFloating_keys
    split at hr
    · simp only [Json.set] at hr
      cases hr
      have : LoopKeys (.obj (insertEntry JsonLdConsts.TYPE
          (.arr [(Json.obj kvs).get JsonLdConsts.TYPE]) kvs)) :=
        LoopKeys.insertKeys ⟨kvs, rfl, hk, hre, hset⟩ (by decide) (by decide)
          (fun e => absurd e (by decide))
      exact loopKeys_out this
    · cases hr
      exact hout
  rw [if_neg ht] at h
  by_cases hs : ((Json.obj kvs).contains JsonLdConsts.SET ||
      (Json.obj kvs).contains JsonLdConsts.LIST) = true
  · rw [if_pos hs] at h
    by_cases hsz : (Json.obj kvs).size >
        (if (Json.obj kvs).contains JsonLdConsts.INDEX = true then 2 else 1)
    · rw [if_pos hsz] at h
      cases h
    · rw [if_neg hsz] at h
      cases h
      apply dropFreeFloating_keys
      split
      · rename_i hcs
        simp only [Json.contains, hasKey, Option.isSome_iff_exists] at hcs
        obtain ⟨v, hv1⟩ := hcs
        simp only [Json.get, hv1, Option.getD_some]
        exact hset v hv1
      · exact hout
  · rw [if_neg hs] at h
    cases h
    exact dropFreeFloating_keys hout

theorem expandObjectElement_keys {ops : ContextOps} {R : Expander}
    (hR : GoodTop (fun _ => True) R) (hK : GoodKeys R) {ctx : Context}
    {ap : Option String} {el : Json} {base : String} {psc : Option Json} {fe ord fm : Bool}
    {out : Json}
    (h : expandObjectElement ops R ctx ap el base psc fe ord fm = .ok out) : OutKeys out := by
  unfold expandObjectElement at h
  obtain ⟨_, _, h⟩ := bind_eq_ok h
  obtain ⟨tsc, _, h⟩ := bind_eq_ok h
  obtain ⟨found, _, h⟩ := bind_eq_ok h
  obtain ⟨st, hloop, h⟩ := bind_eq_ok h
  obtain ⟨_, _, h⟩ := bind_eq_ok h
  have hL : LoopKeys st.1 :=
    foldlM_ok_inv (fun s : Json × Json => LoopKeys s.1) _ _
      (fun b a b' _ hb hstep => expandEntry_keys hR hK hb hstep) _ _ LoopKeys.emptyKeys hloop
  exact finishResult_keys hL h

theorem valueExpansionKeys_out {ops : ContextOps} (h : ValueExpansionKeys ops)
    (c : Context) (p : String) (v : Json) : OutKeys (ops.expandValue c p v) := by
  obtain ⟨kvs, e, hk⟩ := h c p v
  rw [e]
  intro kvs' e'
  cases e'
  constructor
  · intro kv hkv
    have := hk kv hkv
    simp only [valueMapKeys, validKeywords, List.mem_cons, List.mem_singleton,
      List.not_mem_nil, or_false] at this
    rcases this with h1 | h1 | h1 | h1 | h1 | h1 <;> (rw [h1]; decide)
  · intro rv hrv
    have := hk _ (lookupEntry_some_mem hrv)
    simp only [valueMapKeys, validKeywords, List.mem_cons, List.mem_singleton,
      List.not_mem_nil, or_false] at this
    rcases this with h1 | h1 | h1 | h1 | h1 | h1 <;> exact absurd h1 (by decide)

theorem valueExpansionKeys_top {ops : ContextOps} (h : ValueExpansionKeys ops)
    (c : Context) (p : String) (v : Json) : TopOk (fun _ => True) (ops.expandValue c p v) := by
  obtain ⟨kvs, e, _⟩ := h c p v
  rw [e]
  exact ⟨fun _ _ _ => trivial, fun _ e' => by cases e'⟩

theorem expandBody_keys {ops : ContextOps} (hEV : ValueExpansionKeys ops) {R : Expander}
    (hR : GoodTop (fun _ => True) R) (hK : GoodKeys R) : GoodKeys (expandBody ops R) := by
  intro ctx ap el base fe ord fm out h
  cases el with
  | null =>
    simp only [expandBody] at h
    cases h
    exact OutKeys.nullKeys
  | arr items =>
    simp only [expandBody, expandArrayElement] at h
    obtain ⟨ys, _, e⟩ := map_eq_ok h
    subst e
    exact OutKeys.arrKeys _
  | obj kvs =>
    simp only [expandBody] at h
    exact expandObjectElement_keys hR hK h
  | bool b =>
    simp only [expandBody, expandScalar] at h
    split at h
    · cases h; exact OutKeys.nullKeys
    · split at h
      · cases h; exact OutKeys.nullKeys
      · obtain ⟨c, _, h⟩ := bind_eq_ok h
        cases h
        exact valueExpansionKeys_out hEV _ _ _
  | num n =>
    simp only [expandBody, expandScalar] at h
    split at h
    · cases h; exact OutKeys.nullKeys
    · split at h
      · cases h; exact OutKeys.nullKeys
      · obtain ⟨c, _, h⟩ := bind_eq_ok h
        cases h
        exact valueExpansionKeys_out hEV _ _ _
  | str s =>
    simp only [expandBody, expandScalar] at h
    split at h
    · cases h; exact OutKeys.nullKeys
    · split at h
      · cases h; exact OutKeys.nullKeys
      · obtain ⟨c, _, h⟩ := bind_eq_ok h
        cases h
        exact valueExpansionKeys_out hEV _ _ _

theorem expand_keys {ops : ContextOps} (hEV : ValueExpansionKeys ops) :
    ∀ fuel, GoodKeys (expand ops fuel)
  | 0 => fun _ _ _ _ _ _ _ _ h => by cases h
  | fuel + 1 =>
    expandBody_keys hEV (expand_top (fun _ _ => trivial) (valueExpansionKeys_top hEV) fuel) (expand_keys hEV fuel)

end JsonLdApi

namespace SpecModel

theorem specOps_valueExpansionKeys : ValueExpansionKeys specOps := by
  intro c p v
  have hshape : ValueExpansionShape specOps (fun _ => True) :=
    expandValue_shape (fun _ _ _ => trivial)
  obtain ⟨kvs, e, hk, _⟩ := hshape c p v
  exact ⟨kvs, e, fun kv hkv => (hk kv hkv).1⟩

end SpecModel

namespace JsonLdApi

open JsonLdUtils

/-- C36: provided value expansion returns a map with keys among `@id`,
`@direction`, `@index`, `@language`, `@type` and `@value`, every key of a map
returned by `expandObjectElement` is a keyword or contains a colon, and so is
every key of the map under its `@reverse` entry, whose entries a map above
merges into its own result (step 13.4.13.3); a key whose IRI expansion is
empty, or is neither a keyword nor contains a colon, leaves the result map and
the nests as they are (step 13.3). -/
theorem C36_result_keys (ops : ContextOps) (hvalue : ValueExpansionKeys ops) (fuel : Nat)
    (activeContext : Context) (activeProperty : Option String) (element : Json)
    (baseUrl : String) (propertyScopedContext : Option Json)
    (frameExpansion ordered fromMap : Bool) (entries : List (String × Json))
    (h : expandObjectElement ops (expand ops fuel) activeContext activeProperty element baseUrl
      propertyScopedContext frameExpansion ordered fromMap = .ok (.obj entries)) :
    (∀ kv ∈ entries, isKeyword kv.1 = true ∨ ':' ∈ kv.1.data) ∧
    (∀ rv, lookupEntry JsonLdConsts.REVERSE entries = some rv →
      ∃ rkvs, rv = .obj rkvs ∧ ∀ kv ∈ rkvs, isKeyword kv.1 = true ∨ ':' ∈ kv.1.data) ∧
    (∀ (recur : Expander) (c typeScopedContext : Context) (inputType : String)
        (st : Json × Json) (key : String),
      (ops.expandIri c key false true = "" ∨
        (isKeyword (ops.expandIri c key false true) = false ∧
          ':' ∉ (ops.expandIri c key false true).data)) →
      expandEntry ops recur c typeScopedContext activeProperty element baseUrl frameExpansion
        ordered fromMap inputType st key = .ok st) := by
  have hkeys := expandObjectElement_keys
    (expand_top (fun _ _ => trivial) (valueExpansionKeys_top hvalue) fuel)
    (expand_keys hvalue fuel) h entries rfl
  have hconv : ∀ k : String, keyOk k = true → isKeyword k = true ∨ ':' ∈ k.data := by
    intro k hk
    simp only [keyOk, Bool.or_eq_true, List.contains_iff_exists_mem_beq, beq_iff_eq] at hk
    rcases hk with h1 | ⟨x, hx, e⟩
    · exact Or.inl h1
    · exact Or.inr (e ▸ hx)
  refine ⟨fun kv hkv => hconv _ (hkeys.1 kv hkv), ?_, ?_⟩
  · intro rv hrv
    obtain ⟨rkvs, e, hok⟩ := hkeys.2 rv hrv
    exact ⟨rkvs, e, fun kv hkv => hconv _ (hok kv hkv)⟩
  · intro recur c typeScopedContext inputType st key hskip
    unfold expandEntry
    split
    · rfl
    · simp only
      have hc : (ops.expandIri c key false true == "" ||
          !((ops.expandIri c key false true).data.contains ':' ||
            isKeyword (ops.expandIri c key false true))) = true := by
        rcases hskip with h1 | ⟨h1, h2⟩
        · simp [h1]
        · have h3 : (ops.expandIri c key false true).data.contains ':' = false := by
            cases hh : (ops.expandIri c key false true).data.contains ':' with
            | false => rfl
            | true =>
              exfalso
              apply h2
              simp only [List.contains_iff_exists_mem_beq, beq_iff_eq] at hh
              obtain ⟨x, hx, e⟩ := hh
              exact e ▸ hx
          rw [h1, h3]
          simp
      rw [if_pos hc]

/-- C36 at the map
`{"@id": "http://ex/a", "name": "dropped", "@reverse": {"parent": {"@id": "http://ex/b"}}}`
under the reverse term `parent` for `http://ex/child`: the key `name` expands
to itself and is dropped, the reverse map of the nested result is merged
back, and the two keys of the result are a keyword and a string with a
colon. -/
theorem C36_result_keys_witness :
    expandObjectElement SpecModel.specOps (expand SpecModel.specOps 4)
      Examples.reverseTermContext none
      (.obj [("@id", .str "http://ex/a"), ("name", .str "dropped"),
        ("@reverse", .obj [("parent", .obj [("@id", .str "http://ex/b")])])])
      "" none false true false =
      .ok (.obj [("@id", .str "http://ex/a"),
        ("http://ex/child", .arr [.obj [("@id", .str "http://ex/b")]])]) ∧
    SpecModel.specOps.expandIri Examples.reverseTermContext "name" false true = "name" ∧
    ∀ kv ∈ [("@id", Json.str "http://ex/a"),
        ("http://ex/child", Json.arr [.obj [("@id", .str "http://ex/b")]])],
      isKeyword kv.1 = true ∨ ':' ∈ kv.1.data :=
  ⟨by decide, by decide,
    (C36_result_keys SpecModel.specOps SpecModel.specOps_valueExpansionKeys 4
      Examples.reverseTermContext none
      (.obj [("@id", .str "http://ex/a"), ("name", .str "dropped"),
        ("@reverse", .obj [("parent", .obj [("@id", .str "http://ex/b")])])])
      "" none false true false
      [("@id", .str "http://ex/a"),
        ("http://ex/child", .arr [.obj [("@id", .str "http://ex/b")]])]
      (by decide)).1⟩

end JsonLdApi


/-! ## The order of insertion kept in a graph of the node map -/

theorem GraphGrows.sameGraph (graph : Json) : GraphGrows graph graph :=
  ⟨fun _ h => h, List.prefix_refl _⟩

theorem GraphGrows.stepGraph {a b c : Json} (h1 : GraphGrows a b) (h2 : GraphGrows b c) :
    GraphGrows a c :=
  ⟨fun k h => h2.1 k (h1.1 k h), h1.2.trans h2.2⟩

theorem NodeMapGrows.sameMap (nodeMap : Json) : NodeMapGrows nodeMap nodeMap :=
  ⟨fun _ h => h, fun _ => GraphGrows.sameGraph _⟩

theorem NodeMapGrows.stepMap {a b c : Json} (h1 : NodeMapGrows a b) (h2 : NodeMapGrows b c) :
    NodeMapGrows a c :=
  ⟨fun g h => h2.1 g (h1.1 g h), fun g => (h1.2 g).stepGraph (h2.2 g)⟩

theorem GraphOrdered.emptyOrdered : GraphOrdered (.obj []) [] :=
  ⟨[], rfl, Or.inl ⟨rfl, rfl⟩, List.nodup_nil, fun h => (by cases h),
    fun _ _ => (by simp [hasKey, lookupEntry]), fun _ h => (by cases h)⟩

theorem NodeMapOrdered.graphAt {nodeMap : Json} (h : NodeMapOrdered nodeMap) {g : String}
    (hc : nodeMap.contains g = true) : ∃ ids, GraphOrdered (nodeMap.get g) ids := by
  obtain ⟨graphs, e, hall⟩ := h
  subst e
  simp only [Json.contains, hasKey, Option.isSome_iff_exists] at hc
  obtain ⟨graph, hg⟩ := hc
  simp only [Json.get, hg, Option.getD_some]
  exact hall g graph hg

theorem Json.get_null (k : String) : (Json.null).get k = .null := rfl

/-- Storing a graph that is ordered, and grown from the graph of that name,
keeps the node map ordered and lets it grow. -/
theorem NodeMapOrdered.setGraph {nodeMap nodeMap1 graph1 : Json} {g : String}
    {ids : List String} (h : NodeMapOrdered nodeMap) (hg : GraphOrdered graph1 ids)
    (hgr : GraphGrows (nodeMap.get g) graph1) (hs : nodeMap.set g graph1 = .ok nodeMap1) :
    NodeMapOrdered nodeMap1 ∧ NodeMapGrows nodeMap nodeMap1 ∧ nodeMap1.get g = graph1 ∧
      nodeMap1.contains g = true := by
  obtain ⟨graphs, e, hall⟩ := h
  subst e
  simp only [Json.set] at hs
  cases hs
  refine ⟨⟨_, rfl, ?_⟩, ⟨?_, ?_⟩, ?_, ?_⟩
  · intro g' graph' hl
    by_cases hgg : g' = g
    · subst hgg
      rw [lookupEntry_insertEntry_self] at hl
      cases hl
      exact ⟨ids, hg⟩
    · rw [lookupEntry_insertEntry_ne _ _ hgg] at hl
      exact hall g' graph' hl
  · intro g' hc
    simp only [Json.contains] at hc ⊢
    rw [hasKey_insertEntry, hc]
    simp
  · intro g'
    by_cases hgg : g' = g
    · subst hgg
      simp only [Json.get, lookupEntry_insertEntry_self, Option.getD_some]
      exact hgr
    · simp only [Json.get, lookupEntry_insertEntry_ne _ _ hgg]
      exact GraphGrows.sameGraph _
  · simp only [Json.get, lookupEntry_insertEntry_self, Option.getD_some]
  · simp only [Json.contains]
    rw [hasKey_insertEntry]
    simp

/-- A key of an ordered graph is `key_insertion_order`, holding an array, or
an identifier, holding a map with that `@id`. -/
theorem GraphOrdered.nodeCases {graph : Json} {ids : List String} (h : GraphOrdered graph ids)
    {id : String} (hc : graph.contains id = true) :
    (id = JsonLdApi.KEY_INSERTION_ORDER ∧ ∃ xs, graph.get id = .arr xs) ∨
    (id ≠ JsonLdApi.KEY_INSERTION_ORDER ∧ id ∈ ids ∧ ∃ nkvs, graph.get id = .obj nkvs ∧
      lookupEntry JsonLdConsts.ID nkvs = some (.str id)) := by
  obtain ⟨nodes, e, hord, _, _, hkeys, hnodes⟩ := h
  subst e
  simp only [Json.contains] at hc
  by_cases hk : id = JsonLdApi.KEY_INSERTION_ORDER
  · left
    refine ⟨hk, ?_⟩
    subst hk
    rcases hord with ⟨hn, _⟩ | hs
    · simp [hasKey, hn] at hc
    · exact ⟨ids.map Json.str, by simp [Json.get, hs]⟩
  · right
    have hin := (hkeys id hk).1 hc
    obtain ⟨nkvs, hl, hid⟩ := hnodes id hin
    exact ⟨hk, hin, nkvs, by simp [Json.get, hl], hid⟩

/-- Replacing a node of an ordered graph by a map with the same `@id` keeps
the graph ordered, with the same identifiers. -/
theorem GraphOrdered.setNodeAt {graph graph1 node1 : Json} {ids : List String} {id : String}
    (h : GraphOrdered graph ids) (hin : id ∈ ids)
    (hn : ∃ nkvs, node1 = .obj nkvs ∧ lookupEntry JsonLdConsts.ID nkvs = some (.str id))
    (hs : graph.set id node1 = .ok graph1) :
    GraphOrdered graph1 ids ∧ GraphGrows graph graph1 := by
  obtain ⟨nodes, e, hord, hnd, hk, hkeys, hnodes⟩ := h
  subst e
  simp only [Json.set] at hs
  cases hs
  have hne : id ≠ JsonLdApi.KEY_INSERTION_ORDER := fun e => hk (e ▸ hin)
  have hl : lookupEntry JsonLdApi.KEY_INSERTION_ORDER (insertEntry id node1 nodes) =
      lookupEntry JsonLdApi.KEY_INSERTION_ORDER nodes :=
    lookupEntry_insertEntry_ne _ _ (Ne.symm hne)
  refine ⟨⟨_, rfl, ?_, hnd, hk, ?_, ?_⟩, ?_, ?_⟩
  · rw [hl]; exact hord
  · intro k hkk
    rw [hasKey_insertEntry]
    constructor
    · intro h1
      simp only [Bool.or_eq_true, beq_iff_eq] at h1
      rcases h1 with h1 | h1
      · rw [h1]; exact hin
      · exact (hkeys k hkk).1 h1
    · intro h1
      simp [(hkeys k hkk).2 h1]
  · intro id' hid'
    by_cases hii : id' = id
    · subst hii
      obtain ⟨nkvs, e1, e2⟩ := hn
      exact ⟨nkvs, by rw [lookupEntry_insertEntry_self, e1], e2⟩
    · rw [lookupEntry_insertEntry_ne _ _ hii]
      exact hnodes id' hid'
  · intro k hc
    simp only [Json.contains] at hc ⊢
    rw [hasKey_insertEntry, hc]
    simp
  · simp only [insertionOrder, Json.get, hl]
    exact List.prefix_refl _

namespace JsonLdApi

open JsonLdUtils

theorem contains_of_get_contains {nodeMap : Json} {g k : String}
    (h : (nodeMap.get g).contains k = true) : nodeMap.contains g = true := by
  cases nodeMap with
  | obj graphs =>
    simp only [Json.contains, hasKey]
    cases hl : lookupEntry g graphs with
    | none => simp [Json.get, hl, Json.contains] at h
    | some graph => rfl
  | _ => simp [Json.get, Json.contains] at h

/-- An update of the node `nodeMap[g][id]` that fails on an array and keeps the
`@id` entry of a map keeps the node map ordered. -/
theorem updateNode_ordered {nodeMap nodeMap1 : Json} {g id : String}
    (op : Json → Except JsonLdError Json)
    (harr : ∀ xs n, op (.arr xs) ≠ .ok n)
    (hobj : ∀ nkvs n, getNode nodeMap g id = .obj nkvs →
      lookupEntry JsonLdConsts.ID nkvs = some (.str id) → op (.obj nkvs) = .ok n →
      ∃ nkvs1, n = .obj nkvs1 ∧ lookupEntry JsonLdConsts.ID nkvs1 = some (.str id))
    (h : NodeMapOrdered nodeMap) (hc : (nodeMap.get g).contains id = true)
    (hr : (op (getNode nodeMap g id)).bind (setNode nodeMap g id) = .ok nodeMap1) :
    NodeMapOrdered nodeMap1 ∧ NodeMapGrows nodeMap nodeMap1 := by
  obtain ⟨ids, hg⟩ := h.graphAt (contains_of_get_contains hc)
  obtain ⟨n, hn, hset⟩ := bind_eq_ok hr
  rcases hg.nodeCases hc with ⟨_, xs, hx⟩ | ⟨_, hin, nkvs, hx, hid⟩
  · have : getNode nodeMap g id = .arr xs := hx
    rw [this] at hn
    exact absurd hn (harr xs n)
  · have hgn : getNode nodeMap g id = .obj nkvs := hx
    rw [hgn] at hn
    have hn1 := hobj nkvs n hgn hid hn
    unfold setNode at hset
    obtain ⟨graph1, hs1, hs2⟩ := bind_eq_ok hset
    obtain ⟨hg1, hgr⟩ := hg.setNodeAt hin hn1 hs1
    have := h.setGraph hg1 hgr hs2
    exact ⟨this.1, this.2.1⟩

theorem mergeValue_keeps_id {kvs : List (String × Json)} {key id : String} {value n : Json}
    (hid : lookupEntry JsonLdConsts.ID kvs = some (.str id))
    (h : mergeValue (.obj kvs) key value = .ok n) :
    ∃ nkvs1, n = .obj nkvs1 ∧ lookupEntry JsonLdConsts.ID nkvs1 = some (.str id) := by
  unfold mergeValue at h
  simp only at h
  by_cases hk : key = JsonLdConsts.ID
  · subst hk
    simp only [hid, Option.getD_some, Json.is_null, Bool.false_eq_true, if_false] at h
    split at h
    · simp [pushBack, Except.map] at h
    · cases h
      exact ⟨kvs, rfl, hid⟩
  · have hne : JsonLdConsts.ID ≠ key := fun e => hk e.symm
    have hins : ∀ v, lookupEntry JsonLdConsts.ID (insertEntry key v kvs) = some (.str id) := by
      intro v
      rw [lookupEntry_insertEntry_ne _ _ hne]
      exact hid
    split_ifs at h <;>
      first
      | (cases h; exact ⟨kvs, rfl, hid⟩)
      | (cases h; exact ⟨_, rfl, hins _⟩)
      | (obtain ⟨values1, _, e⟩ := map_eq_ok h; subst e; exact ⟨_, rfl, hins _⟩)

theorem mergeAtNode_ordered {nodeMap nodeMap1 value : Json} {g id key : String}
    (h : NodeMapOrdered nodeMap) (hc : (nodeMap.get g).contains id = true)
    (hr : mergeAtNode nodeMap g id key value = .ok nodeMap1) :
    NodeMapOrdered nodeMap1 ∧ NodeMapGrows nodeMap nodeMap1 := by
  unfold mergeAtNode at hr
  refine updateNode_ordered (fun n => mergeValue n key value) ?_ ?_ h hc hr
  · intro xs n hn
    simp [mergeValue] at hn
  · intro nkvs n _ hid hn
    exact mergeValue_keeps_id hid hn

theorem attach_ordered {nodeMap value : Json} {g : String} {subjectNode : Option String}
    {activeProperty : Option String} {list : Option Json} {out : Json × Option Json}
    (h : NodeMapOrdered nodeMap)
    (hs : ∀ s, subjectNode = some s → (nodeMap.get g).contains s = true)
    (hr : attach nodeMap g subjectNode activeProperty list value = .ok out) :
    NodeMapOrdered out.1 ∧ NodeMapGrows nodeMap out.1 := by
  unfold attach at hr
  cases list with
  | none =>
    simp only at hr
    obtain ⟨nodeMap1, h1, e⟩ := map_eq_ok hr
    subst e
    unfold mergeAtSubject at h1
    cases subjectNode with
    | none => cases h1
    | some s =>
      cases activeProperty with
      | none => cases h1
      | some p => exact mergeAtNode_ordered h (hs s rfl) h1
  | some l =>
    simp only at hr
    obtain ⟨l1, _, e⟩ := map_eq_ok hr
    subst e
    exact ⟨h, NodeMapGrows.sameMap _⟩

theorem ensureGraph_ordered {nodeMap nodeMap1 : Json} {g : String} (h : NodeMapOrdered nodeMap)
    (hr : ensureGraph nodeMap g = .ok nodeMap1) :
    NodeMapOrdered nodeMap1 ∧ NodeMapGrows nodeMap nodeMap1 ∧ nodeMap1.contains g = true := by
  unfold ensureGraph at hr
  split at hr
  · rename_i hc
    have hnull : nodeMap.get g = .null := by
      obtain ⟨graphs, e, _⟩ := h
      subst e
      simp only [Json.contains, hasKey, Bool.not_eq_true'] at hc
      cases hl : lookupEntry g graphs with
      | none => simp [Json.get, hl]
      | some x => simp [hl] at hc
    have hgr : GraphGrows (nodeMap.get g) (.obj []) := by
      rw [hnull]
      exact ⟨fun k hk => by simp [Json.contains] at hk, by simp [insertionOrder, Json.get, Json.elems]⟩
    have := h.setGraph GraphOrdered.emptyOrdered hgr hr
    exact ⟨this.1, this.2.1, this.2.2.2⟩
  · rename_i hc
    cases hr
    exact ⟨h, NodeMapGrows.sameMap _, by simpa using hc⟩

/-- Step 6.3 on an ordered node map: an identifier that the graph has leaves
the node map as it is; a new identifier is added to the graph and appended to
its order of insertion. -/
theorem registerNode_ordered {nodeMap nodeMap1 : Json} {g id : String}
    (h : NodeMapOrdered nodeMap) (hg : nodeMap.contains g = true)
    (hr : registerNode nodeMap g id = .ok nodeMap1) :
    NodeMapOrdered nodeMap1 ∧ NodeMapGrows nodeMap nodeMap1 ∧
      (nodeMap1.get g).contains id = true ∧
      ((nodeMap.get g).contains id = true → nodeMap1 = nodeMap) ∧
      ((nodeMap.get g).contains id = false →
        insertionOrder (nodeMap1.get g) = insertionOrder (nodeMap.get g) ++ [.str id]) := by
  unfold registerNode at hr
  by_cases hc : (nodeMap.get g).contains id = true
  · simp only [hc, Bool.not_true, Bool.false_eq_true, if_false] at hr
    cases hr
    exact ⟨h, NodeMapGrows.sameMap _, hc, fun _ => rfl, fun h' => by rw [hc] at h'; cases h'⟩
  · have hc' : (nodeMap.get g).contains id = false := by simpa using hc
    simp only [hc', Bool.not_false, if_true] at hr
    obtain ⟨graph1, h1, hr⟩ := bind_eq_ok hr
    obtain ⟨order, h2, hr⟩ := bind_eq_ok hr
    obtain ⟨graph2, h3, hr⟩ := bind_eq_ok hr
    obtain ⟨ids, nodes, e, hord, hnd, hk, hkeys, hnodes⟩ := h.graphAt hg
    rw [e] at h1 hc'
    simp only [Json.set] at h1
    cases h1
    simp only [Json.contains] at hc'
    have hne : id ≠ KEY_INSERTION_ORDER := by
      intro e1
      subst e1
      simp [Json.get, lookupEntry_insertEntry_self, pushBack] at h2
    have hnin : id ∉ ids := by
      intro hin
      rw [(hkeys id hne).2 hin] at hc'
      cases hc'
    have hl : lookupEntry KEY_INSERTION_ORDER
        (insertEntry id (.obj [(JsonLdConsts.ID, .str id)]) nodes) =
        lookupEntry KEY_INSERTION_ORDER nodes :=
      lookupEntry_insertEntry_ne _ _ (Ne.symm hne)
    have horder : order = .arr ((ids ++ [id]).map Json.str) := by
      simp only [Json.get, hl] at h2
      rcases hord with ⟨hn, hi⟩ | hs
      · subst hi
        simp only [hn, Option.getD_none, pushBack] at h2
        cases h2
        rfl
      · simp only [hs, Option.getD_some, pushBack] at h2
        cases h2
        simp
    subst horder
    simp only [Json.set] at h3
    cases h3
    have hg2 : GraphOrdered
        (.obj (insertEntry KEY_INSERTION_ORDER (.arr ((ids ++ [id]).map Json.str))
          (insertEntry id (.obj [(JsonLdConsts.ID, .str id)]) nodes))) (ids ++ [id]) := by
      refine ⟨_, rfl, Or.inr (lookupEntry_insertEntry_self _ _ _), ?_, ?_, ?_, ?_⟩
      · exact List.Nodup.append hnd (List.nodup_singleton id)
          (fun a ha hb => hnin ((List.mem_singleton.1 hb) ▸ ha))
      · simp only [List.mem_append, List.mem_singleton, not_or]
        exact ⟨hk, fun e1 => hne e1.symm⟩
      · intro k hkk
        rw [hasKey_insertEntry, hasKey_insertEntry]
        simp only [Bool.or_eq_true, beq_iff_eq, List.mem_append, List.mem_singleton]
        constructor
        · rintro (h1 | h1 | h1)
          · exact absurd h1 hkk
          · exact Or.inr h1
          · exact Or.inl ((hkeys k hkk).1 h1)
        · rintro (h1 | h1)
          · exact Or.inr (Or.inr ((hkeys k hkk).2 h1))
          · exact Or.inr (Or.inl h1)
      · intro id' hid'
        have hne' : id' ≠ KEY_INSERTION_ORDER := by
          intro e1
          simp only [List.mem_append, List.mem_singleton] at hid'
          rcases hid' with h1 | h1
          · exact hk (e1 ▸ h1)
          · exact hne (h1 ▸ e1)
        rw [lookupEntry_insertEntry_ne _ _ hne']
        by_cases hii : id' = id
        · subst hii
          exact ⟨_, lookupEntry_insertEntry_self _ _ _, by simp [lookupEntry]⟩
        · rw [lookupEntry_insertEntry_ne _ _ hii]
          simp only [List.mem_append, List.mem_singleton] at hid'
          rcases hid' with h1 | h1
          · exact hnodes id' h1
          · exact absurd h1 hii
    have hgr : GraphGrows (nodeMap.get g)
        (.obj (insertEntry KEY_INSERTION_ORDER (.arr ((ids ++ [id]).map Json.str))
          (insertEntry id (.obj [(JsonLdConsts.ID, .str id)]) nodes))) := by
      rw [e]
      refine ⟨?_, ?_⟩
      · intro k hkc
        simp only [Json.contains] at hkc ⊢
        rw [hasKey_insertEntry, hasKey_insertEntry, hkc]
        simp
      · simp only [insertionOrder, Json.get, lookupEntry_insertEntry_self, Option.getD_some,
          Json.elems]
        rcases hord with ⟨hn, hi⟩ | hs
        · simp [hn, Json.elems]
        · simp [hs, Json.elems]
    have hfin := h.setGraph hg2 hgr hr
    refine ⟨hfin.1, hfin.2.1, ?_, ?_, ?_⟩
    · rw [hfin.2.2.1]
      simp only [Json.contains]
      rw [hasKey_insertEntry, hasKey_insertEntry]
      simp
    · intro h'
      exact absurd h' hc
    · intro _
      rw [hfin.2.2.1, e]
      simp only [insertionOrder, Json.get, lookupEntry_insertEntry_self, Option.getD_some,
        Json.elems]
      rcases hord with ⟨hn, hi⟩ | hs
      · simp [hn, hi, Json.elems]
      · simp [hs, Json.elems]

end JsonLdApi

namespace JsonLdApi

open JsonLdUtils

theorem linkNode_ordered {nodeMap : Json} {g id : String} {subjectNode : Option String}
    {activeSubject : Option Json} {activeProperty : Option String} {list : Option Json}
    {out : Json × Option Json} (h : NodeMapOrdered nodeMap)
    (hid : (nodeMap.get g).contains id = true)
    (hs : ∀ s, subjectNode = some s → (nodeMap.get g).contains s = true)
    (hl : linkNode nodeMap g id subjectNode activeSubject activeProperty list = .ok out) :
    NodeMapOrdered out.1 ∧ NodeMapGrows nodeMap out.1 := by
  have hrest : ∀ o : Json × Option Json,
      (match activeProperty with
        | some _ => attach nodeMap g subjectNode activeProperty list
            (.obj [(JsonLdConsts.ID, .str id)])
        | none => .ok (nodeMap, list)) = .ok o →
      NodeMapOrdered o.1 ∧ NodeMapGrows nodeMap o.1 := by
    intro o ho
    cases activeProperty with
    | some p => exact attach_ordered h hs ho
    | none =>
      cases ho
      exact ⟨h, NodeMapGrows.sameMap _⟩
  unfold linkNode at hl
  cases activeSubject with
  | none => exact hrest out hl
  | some subject =>
    cases subject with
    | obj kvs =>
      cases activeProperty with
      | none => cases hl
      | some p =>
        simp only at hl
        obtain ⟨nodeMap1, h1, e⟩ := map_eq_ok hl
        subst e
        exact mergeAtNode_ordered h hid h1
    | null => exact hrest out hl
    | bool b => exact hrest out hl
    | num n => exact hrest out hl
    | str s => exact hrest out hl
    | arr xs => exact hrest out hl

theorem mergeTypes_ordered {nodeMap element : Json} {g id : String} {out : Json × Json}
    (h : NodeMapOrdered nodeMap) (hid : (nodeMap.get g).contains id = true)
    (hm : mergeTypes nodeMap g id element = .ok out) :
    NodeMapOrdered out.1 ∧ NodeMapGrows nodeMap out.1 := by
  unfold mergeTypes at hm
  split at hm
  · obtain ⟨nodeMap1, h1, e⟩ := map_eq_ok hm
    subst e
    exact foldlM_ok_inv (fun nm => NodeMapOrdered nm ∧ NodeMapGrows nodeMap nm) _ _
      (fun nm type nm' _ hnm hstep =>
        have := mergeAtNode_ordered hnm.1 ((hnm.2.2 g).1 id hid) hstep
        ⟨this.1, hnm.2.stepMap this.2⟩) _ _ ⟨h, NodeMapGrows.sameMap _⟩ h1
  · cases hm
    exact ⟨h, NodeMapGrows.sameMap _⟩

theorem mergeIndex_ordered {nodeMap element : Json} {g id : String} {out : Json × Json}
    (h : NodeMapOrdered nodeMap) (hid : (nodeMap.get g).contains id = true)
    (hm : mergeIndex nodeMap g id element = .ok out) :
    NodeMapOrdered out.1 ∧ NodeMapGrows nodeMap out.1 := by
  unfold mergeIndex at hm
  split at hm
  · obtain ⟨nodeMap1, h1, e⟩ := map_eq_ok hm
    subst e
    refine updateNode_ordered (fun n => setIndex n (element.get JsonLdConsts.INDEX)) ?_ ?_ h hid h1
    · intro xs n hn
      simp [setIndex, Json.contains, Json.set] at hn
    · intro nkvs n _ hi hn
      have hset : ∀ n1, (Json.obj nkvs).set JsonLdConsts.INDEX (element.get JsonLdConsts.INDEX) =
          .ok n1 → ∃ nkvs1, n1 = .obj nkvs1 ∧
            lookupEntry JsonLdConsts.ID nkvs1 = some (.str id) := by
        intro n1 h1
        simp only [Json.set] at h1
        cases h1
        exact ⟨_, rfl, by rw [lookupEntry_insertEntry_ne _ _ (by decide)]; exact hi⟩
      simp only [setIndex] at hn
      split at hn
      · obtain ⟨nodeIndex, _, hn⟩ := bind_eq_ok hn
        split at hn
        · cases hn
        · exact hset _ hn
      · exact hset _ hn
  · cases hm
    exact ⟨h, NodeMapGrows.sameMap _⟩

theorem processReverse_ordered {σ : Type} {recur : NodeMapper σ} {nodeMap element : Json}
    {generator : σ} {g id : String} {out : Json × σ × Json} (hR : OrderedMapper recur)
    (h : NodeMapOrdered nodeMap)
    (hp : processReverse recur nodeMap generator g id element = .ok out) :
    NodeMapOrdered out.1 ∧ NodeMapGrows nodeMap out.1 := by
  unfold processReverse at hp
  split at hp
  · obtain ⟨keys, _, hp⟩ := bind_eq_ok hp
    obtain ⟨st, h1, e⟩ := map_eq_ok hp
    subst e
    refine foldlM_ok_inv (fun st : Json × σ => NodeMapOrdered st.1 ∧ NodeMapGrows nodeMap st.1)
      _ _ ?_ _ _ ⟨h, NodeMapGrows.sameMap _⟩ h1
    intro st0 property st1 _ h0 hstep
    refine foldlM_ok_inv
      (fun st : Json × σ => NodeMapOrdered st.1 ∧ NodeMapGrows nodeMap st.1) _ _ ?_ _ _ h0 hstep
    intro s0 value s1 _ hs0 hs
    obtain ⟨r, hr, e⟩ := map_eq_ok hs
    subst e
    have := hR _ _ _ _ _ _ _ _ hs0.1 hr
    exact ⟨this.1, hs0.2.stepMap this.2⟩
  · cases hp
    exact ⟨h, NodeMapGrows.sameMap _⟩

theorem processGraph_ordered {σ : Type} {recur : NodeMapper σ} {nodeMap element : Json}
    {generator : σ} {id : String} {out : Json × σ × Json} (hR : OrderedMapper recur)
    (h : NodeMapOrdered nodeMap)
    (hp : processGraph recur nodeMap generator id element = .ok out) :
    NodeMapOrdered out.1 ∧ NodeMapGrows nodeMap out.1 := by
  unfold processGraph at hp
  split at hp
  · obtain ⟨r, hr, e⟩ := map_eq_ok hp
    subst e
    exact hR _ _ _ _ _ _ _ _ h hr
  · cases hp
    exact ⟨h, NodeMapGrows.sameMap _⟩

theorem processIncluded_ordered {σ : Type} {recur : NodeMapper σ} {nodeMap element : Json}
    {generator : σ} {g : String} {out : Json × σ × Json} (hR : OrderedMapper recur)
    (h : NodeMapOrdered nodeMap)
    (hp : processIncluded recur nodeMap generator g element = .ok out) :
    NodeMapOrdered out.1 ∧ NodeMapGrows nodeMap out.1 := by
  unfold processIncluded at hp
  split at hp
  · obtain ⟨r, hr, e⟩ := map_eq_ok hp
    subst e
    exact hR _ _ _ _ _ _ _ _ h hr
  · cases hp
    exact ⟨h, NodeMapGrows.sameMap _⟩

theorem processProperty_ordered {σ : Type} {names : NameOps σ} {recur : NodeMapper σ}
    {element : Json} {g id property : String} {st out : Json × σ} (hR : OrderedMapper recur)
    (h : NodeMapOrdered st.1) (hid : (st.1.get g).contains id = true)
    (hp : processProperty names recur g id element st property = .ok out) :
    NodeMapOrdered out.1 ∧ NodeMapGrows st.1 out.1 := by
  unfold processProperty at hp
  simp only at hp
  generalize (if names.isBlankNodeName property = true then names.get st.2 (some property)
    else (property, st.2)) = renamed at hp
  obtain ⟨nodeMap1, h1, hp⟩ := bind_eq_ok hp
  obtain ⟨r, hr, e⟩ := map_eq_ok hp
  subst e
  have hnm1 : NodeMapOrdered nodeMap1 ∧ NodeMapGrows st.1 nodeMap1 := by
    split at h1
    · rename_i hcond
      refine updateNode_ordered (fun n => n.set renamed.1 (.arr [])) ?_ ?_ h hid h1
      · intro xs n hn
        simp [Json.set] at hn
      · intro nkvs n hgn hi hn
        simp only [Json.set] at hn
        cases hn
        have hne : JsonLdConsts.ID ≠ renamed.1 := by
          intro e
          rw [hgn] at hcond
          simp only [Json.contains, hasKey, ← e, hi, Option.isSome_some, Bool.not_true,
            Bool.false_eq_true] at hcond
        exact ⟨_, rfl, by rw [lookupEntry_insertEntry_ne _ _ hne]; exact hi⟩
    · cases h1
      exact ⟨h, NodeMapGrows.sameMap _⟩
  have := hR _ _ _ _ _ _ _ _ hnm1.1 hr
  exact ⟨this.1, hnm1.2.stepMap this.2⟩

theorem processProperties_ordered {σ : Type} {names : NameOps σ} {recur : NodeMapper σ}
    {nodeMap element : Json} {generator : σ} {g id : String} {out : Json × σ}
    (hR : OrderedMapper recur) (h : NodeMapOrdered nodeMap)
    (hid : (nodeMap.get g).contains id = true)
    (hp : processProperties names recur nodeMap generator g id element = .ok out) :
    NodeMapOrdered out.1 ∧ NodeMapGrows nodeMap out.1 := by
  unfold processProperties at hp
  obtain ⟨keys, _, hp⟩ := bind_eq_ok hp
  exact foldlM_ok_inv (fun st : Json × σ => NodeMapOrdered st.1 ∧ NodeMapGrows nodeMap st.1) _ _
    (fun st0 property st1 _ h0 hstep =>
      have := processProperty_ordered hR h0.1 ((h0.2.2 g).1 id hid) hstep
      ⟨this.1, h0.2.stepMap this.2⟩) _ _ ⟨h, NodeMapGrows.sameMap _⟩ hp

theorem processNodeObject_ordered {σ : Type} {names : NameOps σ} {recur : NodeMapper σ}
    {element nodeMap : Json} {generator : σ} {g : String} {subjectNode : Option String}
    {activeSubject : Option Json} {activeProperty : Option String} {list : Option Json}
    {out : Json × σ × Option Json} (hR : OrderedMapper recur) (h : NodeMapOrdered nodeMap)
    (hg : nodeMap.contains g = true)
    (hs : ∀ s, subjectNode = some s → (nodeMap.get g).contains s = true)
    (hp : processNodeObject names recur element nodeMap generator g subjectNode activeSubject
      activeProperty list = .ok out) :
    NodeMapOrdered out.1 ∧ NodeMapGrows nodeMap out.1 := by
  unfold processNodeObject at hp
  obtain ⟨found, _, hp⟩ := bind_eq_ok hp
  obtain ⟨nodeMap3, h3, hp⟩ := bind_eq_ok hp
  obtain ⟨linked, h4, hp⟩ := bind_eq_ok hp
  obtain ⟨typed, h5, hp⟩ := bind_eq_ok hp
  obtain ⟨indexed, h6, hp⟩ := bind_eq_ok hp
  obtain ⟨reversed, h7, hp⟩ := bind_eq_ok hp
  obtain ⟨graphed, h8, hp⟩ := bind_eq_ok hp
  obtain ⟨included, h9, hp⟩ := bind_eq_ok hp
  obtain ⟨done, h10, e⟩ := map_eq_ok hp
  subst e
  have k3 := registerNode_ordered h hg h3
  have c3 := k3.2.2.1
  have k4 := linkNode_ordered k3.1 c3 (fun s e => (k3.2.1.2 g).1 s (hs s e)) h4
  have c4 := (k4.2.2 g).1 _ c3
  have k5 := mergeTypes_ordered k4.1 c4 h5
  have c5 := (k5.2.2 g).1 _ c4
  have k6 := mergeIndex_ordered k5.1 c5 h6
  have c6 := (k6.2.2 g).1 _ c5
  have k7 := processReverse_ordered hR k6.1 h7
  have c7 := (k7.2.2 g).1 _ c6
  have k8 := processGraph_ordered hR k7.1 h8
  have c8 := (k8.2.2 g).1 _ c7
  have k9 := processIncluded_ordered hR k8.1 h9
  have c9 := (k9.2.2 g).1 _ c8
  have k10 := processProperties_ordered hR k9.1 c9 h10
  have e10 : NodeMapOrdered done.1 := k10.1
  exact ⟨e10, ((((((k3.2.1.stepMap k4.2).stepMap k5.2).stepMap k6.2).stepMap k7.2).stepMap k8.2).stepMap
    k9.2).stepMap k10.2⟩

theorem subjectNodeOf_contains {nodeMap : Json} {g : String} {activeSubject : Option Json}
    {s : String} (h : subjectNodeOf nodeMap g activeSubject = some s) :
    (nodeMap.get g).contains s = true := by
  unfold subjectNodeOf at h
  split at h
  · split at h
    · rename_i hc
      cases h
      exact hc
    · cases h
  · cases h

theorem processElement_ordered {σ : Type} (names : NameOps σ) {recur : NodeMapper σ}
    (hR : OrderedMapper recur) : OrderedMapper (processElement names recur) := by
  intro el nm gen g subj prop l out hnm hp
  unfold processElement at hp
  obtain ⟨nodeMap1, h1, hp⟩ := bind_eq_ok hp
  obtain ⟨typed, h2, hp⟩ := bind_eq_ok hp
  have k1 := ensureGraph_ordered hnm h1
  split at hp
  · obtain ⟨r, hr, e⟩ := map_eq_ok hp
    subst e
    have := attach_ordered k1.1 (fun s e => subjectNodeOf_contains e) hr
    exact ⟨this.1, k1.2.1.stepMap this.2⟩
  · split at hp
    · obtain ⟨r, hr, hp⟩ := bind_eq_ok hp
      obtain ⟨a, ha, e⟩ := map_eq_ok hp
      subst e
      have kr := hR _ _ _ _ _ _ _ _ k1.1 hr
      have := attach_ordered kr.1
        (fun s e => (kr.2.2 g).1 s (subjectNodeOf_contains e)) ha
      exact ⟨this.1, (k1.2.1.stepMap kr.2).stepMap this.2⟩
    · have := processNodeObject_ordered hR k1.1 k1.2.2
        (fun s e => subjectNodeOf_contains e) hp
      exact ⟨this.1, k1.2.1.stepMap this.2⟩

theorem generateNodeMapBody_ordered {σ : Type} (names : NameOps σ) {recur : NodeMapper σ}
    (hR : OrderedMapper recur) : OrderedMapper (generateNodeMapBody names recur) := by
  intro el nm gen g subj prop l out hnm hp
  unfold generateNodeMapBody at hp
  cases el with
  | arr items =>
    simp only at hp
    exact foldlM_ok_inv
      (fun st : Json × σ × Option Json => NodeMapOrdered st.1 ∧ NodeMapGrows nm st.1) _ _
      (fun st0 item st1 _ h0 hstep =>
        have := hR _ _ _ _ _ _ _ _ h0.1 hstep
        ⟨this.1, h0.2.stepMap this.2⟩) _ _ ⟨hnm, NodeMapGrows.sameMap _⟩ hp
  | null => exact processElement_ordered names hR _ _ _ _ _ _ _ _ hnm hp
  | bool b => exact processElement_ordered names hR _ _ _ _ _ _ _ _ hnm hp
  | num n => exact processElement_ordered names hR _ _ _ _ _ _ _ _ hnm hp
  | str s => exact processElement_ordered names hR _ _ _ _ _ _ _ _ hnm hp
  | obj kvs => exact processElement_ordered names hR _ _ _ _ _ _ _ _ hnm hp

theorem generateNodeMapFrom_ordered {σ : Type} (names : NameOps σ) :
    ∀ fuel, OrderedMapper (generateNodeMapFrom names fuel)
  | 0 => fun _ _ _ _ _ _ _ _ _ h => by cases h
  | fuel + 1 => generateNodeMapBody_ordered names (generateNodeMapFrom_ordered names fuel)

end JsonLdApi

namespace JsonLdApi

open JsonLdUtils

/-- The node map `toRDF` starts from, with its empty default graph, is
ordered. -/
theorem nodeMapOrdered_initial : NodeMapOrdered (.obj [(JsonLdConsts.DEFAULT, .obj [])]) := by
  refine ⟨_, rfl, fun g graph hl => ?_⟩
  simp only [lookupEntry] at hl
  split at hl
  · cases hl
    exact ⟨[], GraphOrdered.emptyOrdered⟩
  · cases hl

/-- C35: when `generateNodeMap` completes, starting from a node map whose
graphs are as stated here (the empty default graph, say), then in every graph
of the resulting node map that has a `key_insertion_order` entry, that entry
is the array of a list of identifiers without repetition, the other keys of
the graph are exactly the members of that list, and each of them holds a map
whose `@id` entry is the key. The list is in the order of first registration:
the order of a graph before the call is the beginning of its order after the
call, and step 6.3 leaves the node map as it is for an identifier the graph
has, and appends a new identifier at the end of the order. -/
theorem C35_insertion_order {σ : Type} (names : NameOps σ) (fuel : Nat)
    (element nodeMap : Json) (generator : σ) (out : Json × σ)
    (hshape : NodeMapOrdered nodeMap)
    (h : generateNodeMap names fuel element nodeMap generator = .ok out) :
    (∃ graphs, out.1 = .obj graphs ∧
      ∀ g graph, lookupEntry g graphs = some graph →
        graph.contains KEY_INSERTION_ORDER = true →
        ∃ (nodes : List (String × Json)) (ids : List String), graph = .obj nodes ∧
          lookupEntry KEY_INSERTION_ORDER nodes = some (.arr (ids.map Json.str)) ∧
          ids.Nodup ∧
          (∀ k, k ≠ KEY_INSERTION_ORDER → (hasKey k nodes = true ↔ k ∈ ids)) ∧
          (∀ id ∈ ids, ∃ nkvs, lookupEntry id nodes = some (.obj nkvs) ∧
            lookupEntry JsonLdConsts.ID nkvs = some (.str id))) ∧
    (∀ g, insertionOrder (nodeMap.get g) <+: insertionOrder (out.1.get g)) ∧
    (∀ (nm nm1 : Json) (g id : String), NodeMapOrdered nm → nm.contains g = true →
      registerNode nm g id = .ok nm1 →
      ((nm.get g).contains id = true → nm1 = nm) ∧
      ((nm.get g).contains id = false →
        insertionOrder (nm1.get g) = insertionOrder (nm.get g) ++ [.str id])) := by
  unfold generateNodeMap at h
  obtain ⟨r, hr, e⟩ := map_eq_ok h
  subst e
  obtain ⟨⟨graphs, e, hall⟩, hgrows⟩ :=
    generateNodeMapFrom_ordered names fuel _ _ _ _ _ _ _ _ hshape hr
  refine ⟨⟨graphs, e, ?_⟩, fun g => (hgrows.2 g).2, ?_⟩
  · intro g graph hl hc
    obtain ⟨ids, nodes, e1, hord, hnd, _, hkeys, hnodes⟩ := hall g graph hl
    subst e1
    refine ⟨nodes, ids, rfl, ?_, hnd, hkeys, hnodes⟩
    rcases hord with ⟨hn, _⟩ | hs
    · simp [Json.contains, hasKey, hn] at hc
    · exact hs
  · intro nm nm1 g id hnm hg hreg
    have := registerNode_ordered hnm hg hreg
    exact this.2.2.2

/-- C35 at a node with a blank node and a node inside a list among its
values: the default graph lists `http://ex/a`, `_:b0` and `http://ex/c` in
the order of their registration, and these are its other keys. -/
theorem C35_insertion_order_witness :
    generateNodeMap SpecModel.nameOps 8
      (.arr [.obj [("@id", .str "http://ex/a"),
        ("http://ex/p", .arr [.obj [("@value", .str "v")], .obj [("@id", .str "_:n")],
          .obj [("@id", .str "http://ex/c")], .obj [("@id", .str "_:n")]])]])
      (.obj [("@default", .obj [])]) SpecModel.noNames =
      .ok (.obj [("@default", .obj [
        ("_:b0", .obj [("@id", .str "_:b0")]),
        ("http://ex/a", .obj [("@id", .str "http://ex/a"),
          ("http://ex/p", .arr [.obj [("@value", .str "v")], .obj [("@id", .str "_:b0")],
            .obj [("@id", .str "http://ex/c")]])]),
        ("http://ex/c", .obj [("@id", .str "http://ex/c")]),
        ("key_insertion_order",
          .arr [.str "http://ex/a", .str "_:b0", .str "http://ex/c"])])],
        ⟨1, [("_:n", "_:b0")]⟩) ∧
    ∀ g, insertionOrder ((Json.obj [("@default", .obj [])]).get g) <+:
      insertionOrder ((Json.obj [("@default", .obj [
        ("_:b0", .obj [("@id", .str "_:b0")]),
        ("http://ex/a", .obj [("@id", .str "http://ex/a"),
          ("http://ex/p", .arr [.obj [("@value", .str "v")], .obj [("@id", .str "_:b0")],
            .obj [("@id", .str "http://ex/c")]])]),
        ("http://ex/c", .obj [("@id", .str "http://ex/c")]),
        ("key_insertion_order",
          .arr [.str "http://ex/a", .str "_:b0", .str "http://ex/c"])])]).get g) :=
  ⟨by decide!,
    (C35_insertion_order SpecModel.nameOps 8
      (.arr [.obj [("@id", .str "http://ex/a"),
        ("http://ex/p", .arr [.obj [("@value", .str "v")], .obj [("@id", .str "_:n")],
          .obj [("@id", .str "http://ex/c")], .obj [("@id", .str "_:n")]])]])
      (.obj [("@default", .obj [])]) SpecModel.noNames
      (_, ⟨1, [("_:n", "_:b0")]⟩) nodeMapOrdered_initial (by decide!)).2.1⟩

end JsonLdApi

end JsonLd
